import Mathlib

/-!
Pacmann: the single-partition PIR of package `pianopir` (src/pianopir/pir.go, util.go), the
batch PIR built on it (src/pianopir/batch-pir.go), the packing of the graph into database
entries (src/private-search.go), and the graph builder and the search frontend of package
`graphann` (src/graphann/build_graph.go, search.go).

Conventions of the embedding.

* `uint64` values are natural numbers.  Wrap-around is written out where the source relies on
  it or where it can happen on inputs the program accepts: the PRF input `(tag<<35)+x`, the mask
  `ChunkSize-1`, the conversions to `uint32`, and the sum `DBSize + PartitionNum - 1` and the
  difference `end - start` of the batch constructor.  Index arithmetic (`i*ChunkSize+offset`,
  `idx*DBEntrySize`) is bounded by the number of words of the padded database and is written
  without reduction.
* A `[]uint64` that is only read and may be as large as the database (`rawDB`, the chunk handed
  to `UpdatePreprocessing`) is a `Slice`: its length and its words.  The tables owned by the
  client are lists.
* In-place updates through a sub-slice `t[a:b]` are written as functions returning the new
  table.
* `log.Fatalf` ends the process: a function that can reach it returns `Option`, and `none` is
  the aborted run.  `Initialization` writes into tables whose length depends on `DBEntrySize`,
  and an index outside them is an aborted run.  In the queries and in `UpdatePreprocessing` of
  the single-partition PIR indexing is total (`getD`), and the theorems carry the shape
  hypotheses under which every index of the source is in range; in the batch PIR, the packing,
  the graph builder and the search, an index outside a slice is an aborted run as well.
* Randomness and the clock are inputs: the key drawn by `Initialization`, the replacement
  draws of `UpdatePreprocessing`, the draws of a dummy query, the generators of the graph
  builder.
* `aes128MMO`, `xorSlices` and `L2DistanceSIMD` are assembly routines declared without body.
* Values computed in `float64` (`math.Sqrt`, `math.Log`, `math.Ceil` of a quotient) are inputs:
  the constructors take them as numbers or as a record of functions (`FloatValues`), and a
  theorem that needs their meaning states it as a hypothesis.  The `float32` distances of
  package `graphann` are elements of a type `F` with a record of operations (`Float32Ops`,
  and `RecallOps` for the arithmetic of `ComputeRecall`).
* Library calls whose result is not determined by their contract (`sort.Slice`, `sort.Sort`,
  `heap.Pop`, the order of iteration of a map) are inputs, and a theorem states what it
  assumes of them.
-/

namespace pianopir

/-! ## Data model -/

/-- The constant `DefaultProgramPoint` of pir.go. -/
def DefaultProgramPoint : Nat := 0x7fffffff

/-- The struct `PianoPIRConfig`. -/
structure PianoPIRConfig where
  DBEntryByteNum : Nat
  DBEntrySize : Nat
  DBSize : Nat
  ChunkSize : Nat
  SetSize : Nat
  ThreadNum : Nat
  FailureProbLog2 : Nat

/-- A read-only `[]uint64`: `len` words, word `i` is `get i`. -/
structure Slice where
  len : Nat
  get : Nat → Nat

/-- The slice holding the words of a list. -/
def Slice.ofList (l : List Nat) : Slice := ⟨l.length, fun i => l.getD i 0⟩

/-- The words of `s[a:b]`. -/
def Slice.sub (s : Slice) (a b : Nat) : List Nat :=
  (List.range (b - a)).map fun k => s.get (a + k)

/-- The errors built with `fmt.Errorf` in `PianoPIRClient.Query`. -/
inductive QueryError where
  | outOfRange (idx : Nat)
  | exceedMaxQueries
  | tooManyQueriesInChunk (chunkId : Nat)
  | noHitHint
  deriving DecidableEq, Repr

/-- The operand `ChunkSize - 1` of the masks, a `uint64` subtraction. -/
def chunkMask (config : PianoPIRConfig) : Nat := (config.ChunkSize + 2 ^ 64 - 1) % 2 ^ 64

/-- The conversion `uint32(x)`. -/
def toUint32 (x : Nat) : Nat := x % 2 ^ 32

/-! ## Primitives -/

/-- Modelled from the spec: `xorSlices` (util.go declares it without body; section 4.B gives
`dst[i] ^= src[i]` for `i` in `[0, n)` and asks for `n` a multiple of 4; the same word-wise
meaning is given here to every `n`).  The result is the new content of `dst`. -/
def xorSlices : List Nat → List Nat → Nat → List Nat
  | d :: ds, s :: ss, n + 1 => (d ^^^ s) :: xorSlices ds ss n
  | ds, _, _ => ds

/-- The function `EntryXor(a, b, entrySize)`; the result is the new content of `a`. -/
def EntryXor (a b : List Nat) (entrySize : Nat) : List Nat := xorSlices a b entrySize

/-- The built-in `copy(dst, src)`; the result is the new content of `dst`. -/
def copySlice : List Nat → List Nat → List Nat
  | _ :: ds, s :: ss => s :: copySlice ds ss
  | ds, _ => ds

/-- The sub-slice `t[a:b]` of a table. -/
def slice (t : List Nat) (a b : Nat) : List Nat := (t.drop a).take (b - a)

/-- The table `t` after `EntryXor(t[a:b], src, n)`. -/
def EntryXorAt (t : List Nat) (a b : Nat) (src : List Nat) (n : Nat) : List Nat :=
  t.take a ++ EntryXor (slice t a b) src n ++ t.drop b

/-- The table `t` after `copy(t[a:b], src)`. -/
def copyAt (t : List Nat) (a b : Nat) (src : List Nat) : List Nat :=
  t.take a ++ copySlice (slice t a b) src ++ t.drop b

/-- The function `PRFEvalWithLongKeyAndTag(longKey, tag, x)`.  The parameter `aes` stands for
`aes128MMO` (no body in util.go): `aes longKey m` is the low 8 bytes of the output block for the
key schedule `longKey` and the block whose low 8 bytes are `m` and whose high 8 bytes are 0. -/
def PRFEvalWithLongKeyAndTag (aes : Nat → Nat → Nat) (longKey : Nat) (tag x : Nat) : Nat :=
  aes longKey ((tag * 2 ^ 35 % 2 ^ 64 + x) % 2 ^ 64)

/-! ## Server -/

/-- The struct `PianoPIRServer`. -/
structure PianoPIRServer where
  config : PianoPIRConfig
  rawDB : Slice

/-- The function `NewPianoPIRServer`. -/
def NewPianoPIRServer (config : PianoPIRConfig) (rawDB : Slice) : PianoPIRServer :=
  { config := config, rawDB := rawDB }

/-- The method `PianoPIRServer.PrivateQuery`: the XOR of the entries selected by the offsets,
one per chunk, and the (always nil) error. -/
def PianoPIRServer.PrivateQuery (s : PianoPIRServer) (offsets : List Nat) :
    List Nat × Option QueryError :=
  let ret := List.replicate s.config.DBEntrySize 0
  ((List.range s.config.SetSize).foldl (fun ret i =>
      let idx := offsets.getD i 0 + i * s.config.ChunkSize
      if idx ≥ s.config.DBSize then ret
      else EntryXor ret
        (s.rawDB.sub (idx * s.config.DBEntrySize) ((idx + 1) * s.config.DBEntrySize))
        s.config.DBEntrySize) ret, none)

/-! ## Client -/

/-- The struct `PianoPIRClient`.  `longKey` stands for the key schedule handed to the PRF: a key
is represented by the master key it was expanded from.  `localCache` is the Go map, kept as an
association list without repeated keys. -/
structure PianoPIRClient where
  config : PianoPIRConfig
  skipPrep : Bool
  masterKey : Nat
  longKey : Nat
  MaxQueryNum : Nat
  FinishedQueryNum : Nat
  maxQueryPerChunk : Nat
  QueryHistogram : List Nat
  primaryHintNum : Nat
  primaryShortTag : List Nat
  primaryParity : List Nat
  primaryProgramPoint : List Nat
  replacementIdx : List (List Nat)
  replacementVal : List (List Nat)
  backupShortTag : List (List Nat)
  backupParity : List (List Nat)
  localCache : List (Nat × List Nat)

/-- The map read `v, ok := m[k]`. -/
def cacheLookup (m : List (Nat × List Nat)) (k : Nat) : Option (List Nat) := m.lookup k

/-- The map write `m[k] = v`. -/
def cacheInsert (m : List (Nat × List Nat)) (k : Nat) (v : List Nat) : List (Nat × List Nat) :=
  (k, v) :: m.filter fun p => p.1 != k

/-- The function `NewPianoPIRClient`.  Two of its values are computed in `float64` and are
inputs here: `maxQueryNum` is `uint64(math.Sqrt(float64(DBSize)) * math.Log(float64(DBSize)))`
and `k` is `uint64(math.Ceil(math.Log(2) * float64(FailureProbLog2+1)))` of `primaryNumParam`.
The quotient `uint64(float64(maxQueryNum)/float64(SetSize))` is written as the integer
quotient, which it is while `maxQueryNum + SetSize < 2^53`.  `key` is the master key drawn first,
whose schedule becomes `longKey`, and `key2` the master key drawn second. -/
def NewPianoPIRClient (config : PianoPIRConfig) (maxQueryNum k key key2 : Nat) :
    PianoPIRClient :=
  let primaryHintNum := k * config.ChunkSize
  let primaryHintNum := (primaryHintNum + config.ThreadNum - 1) / config.ThreadNum * config.ThreadNum
  let maxQueryPerChunk := 3 * (maxQueryNum / config.SetSize)
  let maxQueryPerChunk :=
    (maxQueryPerChunk + config.ThreadNum - 1) / config.ThreadNum * config.ThreadNum
  { config := config
    skipPrep := false
    masterKey := key2
    longKey := key
    MaxQueryNum := maxQueryNum
    FinishedQueryNum := 0
    QueryHistogram := List.replicate config.SetSize 0
    primaryHintNum := primaryHintNum
    primaryShortTag := List.replicate primaryHintNum 0
    primaryParity := List.replicate (primaryHintNum * config.DBEntrySize) 0
    primaryProgramPoint := List.replicate primaryHintNum 0
    maxQueryPerChunk := maxQueryPerChunk
    replacementIdx := List.replicate config.SetSize []
    replacementVal := List.replicate config.SetSize []
    backupShortTag := List.replicate config.SetSize []
    backupParity := List.replicate config.SetSize []
    localCache := [] }

/-- The assignments of `PianoPIRClient.Initialization`: the client that its loops leave when
every index they use is in range; `key` is the master key it draws.  The counter
`shortTagCount` gives tag `i` to primary hint `i` and tag
`primaryHintNum + i*maxQueryPerChunk + j` to backup slot `(i, j)`. -/
def PianoPIRClient.initTables (c : PianoPIRClient) (key : Nat) : PianoPIRClient :=
  { c with
    FinishedQueryNum := 0
    masterKey := key
    longKey := key
    QueryHistogram := List.replicate c.config.SetSize 0
    primaryShortTag := List.range c.primaryHintNum
    primaryParity := List.replicate (c.primaryHintNum * c.config.DBEntrySize) 0
    primaryProgramPoint := List.replicate c.primaryHintNum DefaultProgramPoint
    replacementIdx :=
      List.replicate c.config.SetSize (List.replicate c.maxQueryPerChunk DefaultProgramPoint)
    replacementVal :=
      List.replicate c.config.SetSize (List.replicate (c.maxQueryPerChunk * c.config.DBEntrySize) 0)
    backupShortTag := (List.range c.config.SetSize).map fun i =>
      (List.range c.maxQueryPerChunk).map fun j => c.primaryHintNum + i * c.maxQueryPerChunk + j
    backupParity :=
      List.replicate c.config.SetSize (List.replicate (c.maxQueryPerChunk * c.config.DBEntrySize) 0)
    localCache := [] }

/-- The method `PianoPIRClient.Initialization`; `key` is the master key it draws.  `none` is
the aborted run.  The first loop writes `c.primaryParity[i] = 0` for every `i` below
`primaryHintNum` into a slice of `primaryHintNum*DBEntrySize` words, and the second loop, for
every chunk, writes `c.replacementVal[i][j] = 0` and `c.backupParity[i][j] = 0` for every `j`
below `maxQueryPerChunk` into slices of `maxQueryPerChunk*DBEntrySize` words: an index is out
of range, and the run panics, when a slice is shorter than the number of rounds of its loop,
which is so when `DBEntrySize = 0` and the loop is entered. -/
def PianoPIRClient.Initialization (c : PianoPIRClient) (key : Nat) : Option PianoPIRClient :=
  if c.primaryHintNum * c.config.DBEntrySize < c.primaryHintNum then none
  else if 0 < c.config.SetSize ∧
      c.maxQueryPerChunk * c.config.DBEntrySize < c.maxQueryPerChunk then none
  else some (c.initTables key)

/-- The offset `PRFEvalWithLongKeyAndTag(c.longKey, tag, chunkId) & (ChunkSize - 1)` of the set
with tag `tag` in chunk `chunkId`. -/
def PianoPIRClient.hintOffset (aes : Nat → Nat → Nat) (c : PianoPIRClient) (tag chunkId : Nat) :
    Nat :=
  PRFEvalWithLongKeyAndTag aes c.longKey tag chunkId &&& chunkMask c.config

/-- First loop of `UpdatePreprocessing`: the chunk's entry of every primary hint is folded into
its parity. -/
def PianoPIRClient.updatePrimaryParity (aes : Nat → Nat → Nat) (c : PianoPIRClient)
    (chunkId : Nat) (chunk : Slice) : List Nat :=
  (List.range c.primaryHintNum).foldl (fun parity i =>
    let offset := c.hintOffset aes (c.primaryShortTag.getD i 0) chunkId
    EntryXorAt parity (i * c.config.DBEntrySize) ((i + 1) * c.config.DBEntrySize)
      (chunk.sub (offset * c.config.DBEntrySize) ((offset + 1) * c.config.DBEntrySize))
      c.config.DBEntrySize) c.primaryParity

/-- Inner loop of the second loop of `UpdatePreprocessing`, on the backup group `i`. -/
def PianoPIRClient.updateBackupRow (aes : Nat → Nat → Nat) (c : PianoPIRClient)
    (chunkId : Nat) (chunk : Slice) (i : Nat) (row : List Nat) : List Nat :=
  (List.range c.maxQueryPerChunk).foldl (fun row j =>
    let offset := c.hintOffset aes ((c.backupShortTag.getD i []).getD j 0) chunkId
    EntryXorAt row (j * c.config.DBEntrySize) ((j + 1) * c.config.DBEntrySize)
      (chunk.sub (offset * c.config.DBEntrySize) ((offset + 1) * c.config.DBEntrySize))
      c.config.DBEntrySize) row

/-- Second loop of `UpdatePreprocessing`: every backup group but `chunkId` folds the chunk in. -/
def PianoPIRClient.updateBackupParity (aes : Nat → Nat → Nat) (c : PianoPIRClient)
    (chunkId : Nat) (chunk : Slice) : List (List Nat) :=
  (List.range c.config.SetSize).foldl (fun backup i =>
    if i = chunkId then backup
    else backup.set i (c.updateBackupRow aes chunkId chunk i (backup.getD i []))) c.backupParity

/-- Third loop of `UpdatePreprocessing`, the replacement indices of group `chunkId`;
`rng j` is the draw `rng.Uint64()` of round `j`. -/
def PianoPIRClient.updateReplacementIdx (rng : Nat → Nat) (c : PianoPIRClient) (chunkId : Nat) :
    List (List Nat) :=
  c.replacementIdx.set chunkId
    ((List.range c.maxQueryPerChunk).foldl (fun row j =>
      let offset := rng j &&& chunkMask c.config
      row.set j (offset + chunkId * c.config.ChunkSize)) (c.replacementIdx.getD chunkId []))

/-- Third loop of `UpdatePreprocessing`, the replacement values of group `chunkId`. -/
def PianoPIRClient.updateReplacementVal (rng : Nat → Nat) (c : PianoPIRClient) (chunkId : Nat)
    (chunk : Slice) : List (List Nat) :=
  c.replacementVal.set chunkId
    ((List.range c.maxQueryPerChunk).foldl (fun row j =>
      let offset := rng j &&& chunkMask c.config
      copyAt row (j * c.config.DBEntrySize) ((j + 1) * c.config.DBEntrySize)
        (chunk.sub (offset * c.config.DBEntrySize) ((offset + 1) * c.config.DBEntrySize)))
      (c.replacementVal.getD chunkId []))

/-- The method `PianoPIRClient.UpdatePreprocessing`; `none` is the `log.Fatalf` of the first
loop, reached at the first hint whose parity would not fit in `primaryParity` (whose length
the loop does not change). -/
def PianoPIRClient.UpdatePreprocessing (aes : Nat → Nat → Nat) (rng : Nat → Nat)
    (c : PianoPIRClient) (chunkId : Nat) (chunk : Slice) : Option PianoPIRClient :=
  if (List.range c.primaryHintNum).any
      (fun i => decide ((i + 1) * c.config.DBEntrySize > c.primaryParity.length)) then none
  else some { c with
    primaryParity := c.updatePrimaryParity aes chunkId chunk
    backupParity := c.updateBackupParity aes chunkId chunk
    replacementIdx := c.updateReplacementIdx rng chunkId
    replacementVal := c.updateReplacementVal rng chunkId chunk }

/-- The chunk `i` that `Preprocessing` hands to `UpdatePreprocessing`: `tmpChunk`, filled with
zeros past the end of `rawDB`, when the chunk is not wholly inside `rawDB`, and the sub-slice
`rawDB[start*DBEntrySize : end*DBEntrySize]` otherwise. -/
def preprocessingChunk (config : PianoPIRConfig) (rawDB : Slice) (i : Nat) : Slice :=
  let start := i * config.ChunkSize
  let stop := (i + 1) * config.ChunkSize
  if stop * config.DBEntrySize > rawDB.len then
    { len := config.ChunkSize * config.DBEntrySize
      get := fun k =>
        if start * config.DBEntrySize + k ≥ rawDB.len then 0
        else rawDB.get (start * config.DBEntrySize + k) }
  else
    { len := stop * config.DBEntrySize - start * config.DBEntrySize
      get := fun k => rawDB.get (start * config.DBEntrySize + k) }

/-- The method `PianoPIRClient.Preprocessing`; `key` is the key drawn by `Initialization` and
`rng i` the generator of the call of `UpdatePreprocessing` for chunk `i`.  `none` is the
aborted run of `Initialization` or of a call of `UpdatePreprocessing`. -/
def PianoPIRClient.Preprocessing (aes : Nat → Nat → Nat) (key : Nat) (rng : Nat → Nat → Nat)
    (c : PianoPIRClient) (rawDB : Slice) : Option PianoPIRClient :=
  (c.Initialization key).bind fun c =>
    if c.skipPrep then some c
    else (List.range c.config.SetSize).foldlM (fun c i =>
      c.UpdatePreprocessing aes (rng i) i (preprocessingChunk c.config rawDB i)) c

/-- What a call of `PianoPIRClient.Query` leaves: the client afterwards, the two results, and
the offset vectors handed to `server.PrivateQuery` during the call. -/
structure QueryResult where
  client : PianoPIRClient
  ret : List Nat
  err : Option QueryError
  sent : List (List Nat)

/-- The test of the scan for the hit hint in `Query`: the set of hint `i` holds `offset` in chunk
`chunkId`, and the hint is not programmed or is programmed in another chunk. -/
def PianoPIRClient.isHit (aes : Nat → Nat → Nat) (c : PianoPIRClient) (chunkId offset i : Nat) :
    Bool :=
  decide (c.hintOffset aes (c.primaryShortTag.getD i 0) chunkId = offset) &&
    (decide (c.primaryProgramPoint.getD i 0 = DefaultProgramPoint) ||
      decide (c.primaryProgramPoint.getD i 0 / c.config.ChunkSize ≠ chunkId))

/-- The scan for the hit hint in `Query`: the first hint that passes the test, and
`DefaultProgramPoint` when there is none. -/
def PianoPIRClient.findHit (aes : Nat → Nat → Nat) (c : PianoPIRClient) (chunkId offset : Nat) :
    Nat :=
  ((List.range c.primaryHintNum).find? (c.isHit aes chunkId offset)).getD DefaultProgramPoint

/-- The set `querySet` that `Query` expands from hint `hitId` for a query in chunk `chunkId`:
the PRF element of every chunk, the program point enforced, the replacement index put at
`chunkId`. -/
def PianoPIRClient.querySet (aes : Nat → Nat → Nat) (c : PianoPIRClient) (hitId chunkId : Nat) :
    List Nat :=
  let querySet := (List.range c.config.SetSize).map fun i =>
    i * c.config.ChunkSize + c.hintOffset aes (c.primaryShortTag.getD hitId 0) i
  let querySet :=
    if c.primaryProgramPoint.getD hitId 0 ≠ DefaultProgramPoint then
      querySet.set (c.primaryProgramPoint.getD hitId 0 / c.config.ChunkSize)
        (c.primaryProgramPoint.getD hitId 0)
    else querySet
  let inGroupIdx := c.QueryHistogram.getD chunkId 0
  querySet.set chunkId ((c.replacementIdx.getD chunkId []).getD inGroupIdx 0)

/-- The offsets `querySetOffset` that `Query` hands to the server: the elements of `querySet`
reduced to their chunk and converted to `uint32`. -/
def PianoPIRClient.querySetOffset (aes : Nat → Nat → Nat) (c : PianoPIRClient)
    (hitId chunkId : Nat) : List Nat :=
  (c.querySet aes hitId chunkId).map fun q => toUint32 (q &&& chunkMask c.config)

/-- The value `response` of `Query` after the two calls of `EntryXor`: the reply of the server,
XOR the replacement value of the slot in use, XOR the parity of the hit hint. -/
def PianoPIRClient.response (aes : Nat → Nat → Nat) (c : PianoPIRClient)
    (server : PianoPIRServer) (hitId chunkId : Nat) : List Nat :=
  let E := c.config.DBEntrySize
  let inGroupIdx := c.QueryHistogram.getD chunkId 0
  let replVal := slice (c.replacementVal.getD chunkId []) (inGroupIdx * E) ((inGroupIdx + 1) * E)
  let response := (server.PrivateQuery (c.querySetOffset aes hitId chunkId)).1
  let response := EntryXor response replVal E
  EntryXor response (slice c.primaryParity (hitId * E) ((hitId + 1) * E)) E

/-- The end of `Query`: the hit hint takes the tag and the parity of the backup slot in use,
XOR the response, and the index as program point; the counters and the cache are updated. -/
def PianoPIRClient.refresh (c : PianoPIRClient) (hitId chunkId idx : Nat)
    (response : List Nat) : PianoPIRClient :=
  let E := c.config.DBEntrySize
  let inGroupIdx := c.QueryHistogram.getD chunkId 0
  { c with
    primaryShortTag :=
      c.primaryShortTag.set hitId ((c.backupShortTag.getD chunkId []).getD inGroupIdx 0)
    primaryParity :=
      EntryXorAt
        (copyAt c.primaryParity (hitId * E) ((hitId + 1) * E)
          (slice (c.backupParity.getD chunkId []) (inGroupIdx * E) ((inGroupIdx + 1) * E)))
        (hitId * E) ((hitId + 1) * E) response E
    primaryProgramPoint := c.primaryProgramPoint.set hitId idx
    FinishedQueryNum := c.FinishedQueryNum + 1
    QueryHistogram := c.QueryHistogram.set chunkId (c.QueryHistogram.getD chunkId 0 + 1)
    localCache := cacheInsert c.localCache idx response }

/-- The method `PianoPIRClient.Query`; `rand i` is the draw `rand.Uint64()` of round `i` of a
dummy query.  `none` is the `log.Fatalf` on an index out of range. -/
def PianoPIRClient.Query (aes : Nat → Nat → Nat) (c : PianoPIRClient) (idx : Nat)
    (server : PianoPIRServer) (realQuery : Bool) (rand : Nat → Nat) : Option QueryResult :=
  let ret := List.replicate c.config.DBEntrySize 0
  if !realQuery then
    let offsets := (List.range c.config.SetSize).map fun i =>
      toUint32 (rand i &&& chunkMask c.config)
    some { client := c, ret := ret, err := (server.PrivateQuery offsets).2, sent := [offsets] }
  else if idx ≥ c.config.DBSize then none
  else
    match cacheLookup c.localCache idx with
    | some v => some { client := c, ret := v, err := none, sent := [] }
    | none =>
      if c.FinishedQueryNum ≥ c.MaxQueryNum then
        some { client := c, ret := ret, err := some QueryError.exceedMaxQueries, sent := [] }
      else
        let chunkId := idx / c.config.ChunkSize
        let offset := idx % c.config.ChunkSize
        if c.QueryHistogram.getD chunkId 0 ≥ c.maxQueryPerChunk then
          some { client := c, ret := ret,
                 err := some (QueryError.tooManyQueriesInChunk chunkId), sent := [] }
        else
          let hitId := c.findHit aes chunkId offset
          if hitId = DefaultProgramPoint then
            some { client := c, ret := ret, err := some QueryError.noHitHint, sent := [] }
          else
            let response := c.response aes server hitId chunkId
            some { client := c.refresh hitId chunkId idx response
                   ret := response
                   err := (server.PrivateQuery (c.querySetOffset aes hitId chunkId)).2
                   sent := [c.querySetOffset aes hitId chunkId] }

/-! ## The PIR instance -/

/-- The struct `PianoPIR`. -/
structure PianoPIR where
  config : PianoPIRConfig
  client : PianoPIRClient
  server : PianoPIRServer

/-- The method `PianoPIR.Preprocessing`. -/
def PianoPIR.Preprocessing (aes : Nat → Nat → Nat) (key : Nat) (rng : Nat → Nat → Nat)
    (p : PianoPIR) : Option PianoPIR :=
  (p.client.Preprocessing aes key rng p.server.rawDB).map fun c => { p with client := c }

/-- What a call of `PianoPIR.Query` leaves: the instance afterwards and the results. -/
structure PIRQueryResult where
  pir : PianoPIR
  ret : List Nat
  err : Option QueryError
  sent : List (List Nat)

/-- The method `PianoPIR.Query`; `key` and `rng` are consumed when the call re-preprocesses,
`rand` by a dummy query. -/
def PianoPIR.Query (aes : Nat → Nat → Nat) (p : PianoPIR) (idx : Nat) (realQuery : Bool)
    (key : Nat) (rng : Nat → Nat → Nat) (rand : Nat → Nat) : Option PIRQueryResult :=
  let client :=
    if p.client.FinishedQueryNum = p.client.MaxQueryNum then
      p.client.Preprocessing aes key rng p.server.rawDB
    else some p.client
  match client with
  | none => none
  | some c =>
    match c.Query aes idx p.server realQuery rand with
    | none => none
    | some r => some { pir := { p with client := r.client }, ret := r.ret, err := r.err,
                       sent := r.sent }

/-! ## Specification-side notions -/

/-- The all-zero entry of `E` words. -/
def zeroEntry (E : Nat) : List Nat := List.replicate E 0

/-- The entry `rawDB[idx*E .. (idx+1)*E]`. -/
def dbEntry (rawDB : Slice) (E idx : Nat) : List Nat := rawDB.sub (idx * E) ((idx + 1) * E)

/-- The entry at `idx` of the database padded with zero entries from `DBSize` on. -/
def paddedEntry (rawDB : Slice) (E DBSize idx : Nat) : List Nat :=
  if idx < DBSize then dbEntry rawDB E idx else zeroEntry E

/-- Word-wise XOR of the entries `f i`, `i` in the list `l`, each of `E` words: word `k` of the
result is the XOR of the words `k`. -/
def xorOver (E : Nat) (l : List Nat) (f : Nat → List Nat) : List Nat :=
  (List.range E).map fun k => (l.map fun i => (f i).getD k 0).foldr (· ^^^ ·) 0

/-! ## Invariants and reachability -/

/-- The entry of the zero-padded database that the set with tag `tag` holds in chunk `ch`,
for the key and configuration of client `c`. -/
def PianoPIRClient.setEntry (aes : Nat → Nat → Nat) (c : PianoPIRClient) (rawDB : Slice)
    (tag ch : Nat) : List Nat :=
  paddedEntry rawDB c.config.DBEntrySize c.config.DBSize
    (ch * c.config.ChunkSize + c.hintOffset aes tag ch)

/-- The tables of the client after `Preprocessing` has folded the chunks `0..n-1` of `rawDB`
into the freshly initialised client `c1`. -/
structure PrepInv (aes : Nat → Nat → Nat) (rng : Nat → Nat → Nat) (c1 : PianoPIRClient)
    (rawDB : Slice) (n : Nat) (c : PianoPIRClient) : Prop where
  frame : { c with primaryParity := [], backupParity := [], replacementIdx := [],
                   replacementVal := [] } =
          { c1 with primaryParity := [], backupParity := [], replacementIdx := [],
                    replacementVal := [] }
  parLen : c.primaryParity.length = c.primaryHintNum * c.config.DBEntrySize
  par : ∀ i, i < c.primaryHintNum →
    slice c.primaryParity (i * c.config.DBEntrySize) ((i + 1) * c.config.DBEntrySize) =
      xorOver c.config.DBEntrySize (List.range n)
        (fun ch => c.setEntry aes rawDB (c.primaryShortTag.getD i 0) ch)
  bLen : c.backupParity.length = c.config.SetSize
  bRow : ∀ i, i < c.config.SetSize →
    (c.backupParity.getD i []).length = c.maxQueryPerChunk * c.config.DBEntrySize
  bpar : ∀ i, i < c.config.SetSize → ∀ j, j < c.maxQueryPerChunk →
    slice (c.backupParity.getD i []) (j * c.config.DBEntrySize)
        ((j + 1) * c.config.DBEntrySize) =
      xorOver c.config.DBEntrySize ((List.range n).filter fun ch => ch ≠ i)
        (fun ch => c.setEntry aes rawDB ((c.backupShortTag.getD i []).getD j 0) ch)
  riLen : c.replacementIdx.length = c.config.SetSize
  riRow : ∀ i, i < c.config.SetSize → (c.replacementIdx.getD i []).length = c.maxQueryPerChunk
  ri : ∀ i, i < c.config.SetSize → ∀ j, j < c.maxQueryPerChunk →
    (c.replacementIdx.getD i []).getD j 0 =
      if i < n then (rng i j &&& chunkMask c.config) + i * c.config.ChunkSize
      else DefaultProgramPoint
  rvLen : c.replacementVal.length = c.config.SetSize
  rvRow : ∀ i, i < c.config.SetSize →
    (c.replacementVal.getD i []).length = c.maxQueryPerChunk * c.config.DBEntrySize
  rv : ∀ i, i < c.config.SetSize → ∀ j, j < c.maxQueryPerChunk →
    slice (c.replacementVal.getD i []) (j * c.config.DBEntrySize)
        ((j + 1) * c.config.DBEntrySize) =
      if i < n then
        paddedEntry rawDB c.config.DBEntrySize c.config.DBSize
          (i * c.config.ChunkSize + (rng i j &&& chunkMask c.config))
      else zeroEntry c.config.DBEntrySize

/-- One call of the client's `Query`, with any arguments, that returns. -/
inductive QueryStep (aes : Nat → Nat → Nat) (server : PianoPIRServer) :
    PianoPIRClient → PianoPIRClient → Prop where
  | call (c : PianoPIRClient) (idx : Nat) (realQuery : Bool) (rand : Nat → Nat) (r : QueryResult) :
      c.Query aes idx server realQuery rand = some r → QueryStep aes server c r.client

/-- The client states reached by a sequence of calls of `Query` (no `Initialization` in
between: one epoch). -/
inductive QueryReach (aes : Nat → Nat → Nat) (server : PianoPIRServer) :
    PianoPIRClient → PianoPIRClient → Prop where
  | refl (c : PianoPIRClient) : QueryReach aes server c c
  | step (c c' c'' : PianoPIRClient) :
      QueryReach aes server c c' → QueryStep aes server c' c'' → QueryReach aes server c c''

/-- The instances reached by a sequence of calls of `PianoPIR.Query` that return. -/
inductive PIRReach (aes : Nat → Nat → Nat) : PianoPIR → PianoPIR → Prop where
  | refl (p : PianoPIR) : PIRReach aes p p
  | step (p p' : PianoPIR) (idx : Nat) (realQuery : Bool) (key : Nat) (rng : Nat → Nat → Nat)
      (rand : Nat → Nat) (r : PIRQueryResult) :
      PIRReach aes p p' → p'.Query aes idx realQuery key rng rand = some r →
      PIRReach aes p r.pir

/-! ## Specification-side notions for the hint invariant -/

/-- The element of the set of primary hint `h` in chunk `ch` as the specification defines it:
the program point when it is set and lies in chunk `ch`, and otherwise the PRF element
`ch*ChunkSize + (PRF(longKey, shortTag_h, ch) mod ChunkSize)`. -/
def PianoPIRClient.hintElement (aes : Nat → Nat → Nat) (c : PianoPIRClient) (h ch : Nat) : Nat :=
  if c.primaryProgramPoint.getD h 0 ≠ DefaultProgramPoint ∧
      c.primaryProgramPoint.getD h 0 / c.config.ChunkSize = ch then
    c.primaryProgramPoint.getD h 0
  else
    ch * c.config.ChunkSize +
      PRFEvalWithLongKeyAndTag aes c.longKey (c.primaryShortTag.getD h 0) ch % c.config.ChunkSize

/-- The parity of primary hint `h` is the XOR, over all chunks, of the entries of the zero-padded
database at the elements of its set. -/
def PianoPIRClient.parityConsistent (aes : Nat → Nat → Nat) (c : PianoPIRClient) (rawDB : Slice)
    (h : Nat) : Prop :=
  slice c.primaryParity (h * c.config.DBEntrySize) ((h + 1) * c.config.DBEntrySize) =
    xorOver c.config.DBEntrySize (List.range c.config.SetSize) (fun ch =>
      paddedEntry rawDB c.config.DBEntrySize c.config.DBSize (c.hintElement aes h ch))

/-- The configurations on which the single-partition PIR is exact: the chunk size is a power of
two that fits the 32-bit offsets of the wire format, the chunks cover the database, `rawDB` holds
`DBSize` entries, and no index of the database equals the value `DefaultProgramPoint` that the
client keeps for "not programmed". -/
structure ConfigOK (config : PianoPIRConfig) (rawDB : Slice) : Prop where
  pow : ∃ k, k ≤ 32 ∧ config.ChunkSize = 2 ^ k
  cover : config.DBSize ≤ config.ChunkSize * config.SetSize
  len : rawDB.len = config.DBSize * config.DBEntrySize
  small : config.DBSize ≤ DefaultProgramPoint

/-- The invariant of the client between two queries of an epoch: the shape of the tables, the
parity of every primary hint, the parity of every backup slot, the replacement table and the
cache, all with respect to the database `rawDB`. -/
structure Ready (aes : Nat → Nat → Nat) (rawDB : Slice) (c : PianoPIRClient) : Prop where
  tagLen : c.primaryShortTag.length = c.primaryHintNum
  parLen : c.primaryParity.length = c.primaryHintNum * c.config.DBEntrySize
  ppLen : c.primaryProgramPoint.length = c.primaryHintNum
  histLen : c.QueryHistogram.length = c.config.SetSize
  bRow : ∀ i, i < c.config.SetSize →
    (c.backupParity.getD i []).length = c.maxQueryPerChunk * c.config.DBEntrySize
  rvRow : ∀ i, i < c.config.SetSize →
    (c.replacementVal.getD i []).length = c.maxQueryPerChunk * c.config.DBEntrySize
  pp : ∀ h, h < c.primaryHintNum →
    c.primaryProgramPoint.getD h 0 = DefaultProgramPoint ∨
      c.primaryProgramPoint.getD h 0 < c.config.DBSize
  par : ∀ h, h < c.primaryHintNum → c.parityConsistent aes rawDB h
  bpar : ∀ i, i < c.config.SetSize → ∀ j, j < c.maxQueryPerChunk →
    slice (c.backupParity.getD i []) (j * c.config.DBEntrySize)
        ((j + 1) * c.config.DBEntrySize) =
      xorOver c.config.DBEntrySize ((List.range c.config.SetSize).filter fun ch => ch ≠ i)
        (fun ch => c.setEntry aes rawDB ((c.backupShortTag.getD i []).getD j 0) ch)
  ri : ∀ i, i < c.config.SetSize → ∀ j, j < c.maxQueryPerChunk →
    (c.replacementIdx.getD i []).getD j 0 / c.config.ChunkSize = i
  rv : ∀ i, i < c.config.SetSize → ∀ j, j < c.maxQueryPerChunk →
    slice (c.replacementVal.getD i []) (j * c.config.DBEntrySize)
        ((j + 1) * c.config.DBEntrySize) =
      paddedEntry rawDB c.config.DBEntrySize c.config.DBSize
        ((c.replacementIdx.getD i []).getD j 0)
  cache : ∀ k v, cacheLookup c.localCache k = some v → v = dbEntry rawDB c.config.DBEntrySize k

/-! ## Concrete instances -/

/-- A database of 7 one-word entries in 4 chunks of 2. -/
def demoConfig : PianoPIRConfig :=
  { DBEntryByteNum := 8, DBEntrySize := 1, DBSize := 7, ChunkSize := 2, SetSize := 4,
    ThreadNum := 1, FailureProbLog2 := 0 }

/-- The words of the database of `demoConfig`. -/
def demoDB : Slice := Slice.ofList [11, 22, 33, 44, 55, 66, 77]

/-- A function standing for the block cipher. -/
def demoAes : Nat → Nat → Nat := fun k m => m / 2 ^ 35 * 7 + m % 2 ^ 35 * 3 + k

/-- Replacement draws. -/
def demoRng : Nat → Nat → Nat := fun i j => i + j

/-- Draws of a dummy query. -/
def demoRand : Nat → Nat := fun i => 5 * i + 3

/-- A client for `demoConfig`: budget 5, 2 primary hints, 3 slots per chunk. -/
def demoClient : PianoPIRClient := NewPianoPIRClient demoConfig 5 1 0 0

/-- The server of `demoDB`. -/
def demoServer : PianoPIRServer := NewPianoPIRServer demoConfig demoDB

/-- The client `demoClient` after `Preprocessing`. -/
def demoReady : PianoPIRClient :=
  (demoClient.Preprocessing demoAes 1 demoRng demoDB).getD demoClient

/-- The result of the real query for index 3 on `demoReady`. -/
def demoFirst : QueryResult :=
  (demoReady.Query demoAes 3 demoServer true demoRand).getD ⟨demoReady, [], none, []⟩

/-- The client `demoReady` with its whole budget of 5 queries used. -/
def demoSpent : PianoPIRClient := { demoReady with FinishedQueryNum := 5 }

/-- The instance made of `demoClient` and `demoServer`. -/
def demoPIR : PianoPIR := { config := demoConfig, client := demoClient, server := demoServer }

/-- The instance `demoPIR` after `Preprocessing`. -/
def demoPIRReady : PianoPIR := { config := demoConfig, client := demoReady, server := demoServer }

/-- The result of `PianoPIR.Query` for index 3 on `demoPIRReady`. -/
def demoPIRFirst : PIRQueryResult :=
  { pir := { demoPIRReady with client := demoFirst.client }, ret := demoFirst.ret,
    err := demoFirst.err, sent := demoFirst.sent }

/-- The configuration that `NewPianoPIR` computes for `DBSize = 1` and 8-byte entries:
`targetChunkSize = uint64(2*sqrt(1)) = 2`, so `ChunkSize = 2`, and `SetSize` is
`ceil(1/2) = 1` rounded up to 4. -/
def tinyConfig : PianoPIRConfig :=
  { DBEntryByteNum := 8, DBEntrySize := 1, DBSize := 1, ChunkSize := 2, SetSize := 4,
    ThreadNum := 8, FailureProbLog2 := 0 }

/-- The instance that `NewPianoPIR` builds for the one-entry database `[7]`: the budget is
`uint64(math.Sqrt(1) * math.Log(1)) = 0` and `k = uint64(math.Ceil(math.Log(2) * 1)) = 1`. -/
def tinyPIR : PianoPIR :=
  { config := tinyConfig
    client := NewPianoPIRClient tinyConfig 0 1 0 0
    server := NewPianoPIRServer tinyConfig (Slice.ofList [7]) }

/-- A database of `2^33` one-word entries in 4 chunks of `2^31`, so that the index
`0x7fffffff = DefaultProgramPoint` is in range. -/
def sentinelConfig : PianoPIRConfig :=
  { DBEntryByteNum := 8, DBEntrySize := 1, DBSize := 2 ^ 33, ChunkSize := 2 ^ 31, SetSize := 4,
    ThreadNum := 1, FailureProbLog2 := 0 }

/-- The words of the database of `sentinelConfig`: word `0x7fffffff` is 1, the others are 0. -/
def sentinelDB : Slice := { len := 2 ^ 33, get := fun i => if i = 2 ^ 31 - 1 then 1 else 0 }

/-- A function standing for the block cipher: the set with tag 0 holds offset `2^31 - 1` in
every chunk, every other set holds offset 5. -/
def sentinelAes : Nat → Nat → Nat := fun _ m => if m < 2 ^ 35 then 2 ^ 31 - 1 else 5

/-- A client for `sentinelConfig` with one primary hint and one slot per chunk. -/
def sentinelClient : PianoPIRClient :=
  { NewPianoPIRClient sentinelConfig 10 0 0 0 with primaryHintNum := 1, maxQueryPerChunk := 1 }

/-- The server of `sentinelDB`. -/
def sentinelServer : PianoPIRServer := NewPianoPIRServer sentinelConfig sentinelDB

/-- The client `sentinelClient` after `Preprocessing`. -/
def sentinelReady : PianoPIRClient :=
  (sentinelClient.Preprocessing sentinelAes 0 (fun _ _ => 0) sentinelDB).getD sentinelClient

/-- The result of the real query for index `0x7fffffff` on `sentinelReady`. -/
def sentinelFirst : QueryResult :=
  (sentinelReady.Query sentinelAes 0x7fffffff sentinelServer true (fun _ => 0)).getD
    ⟨sentinelReady, [], none, []⟩

/-- The result of the real query for index `2^31 + 5` that follows. -/
def sentinelSecond : QueryResult :=
  (sentinelFirst.client.Query sentinelAes (2 ^ 31 + 5) sentinelServer true (fun _ => 0)).getD
    ⟨sentinelFirst.client, [], none, []⟩

/-! ## Construction of an instance -/

/-- The values that `NewPianoPIR` and `NewPianoPIRClient` compute in `float64`, as functions of
the integers they are computed from: `twoSqrt n` is `uint64(2 * math.Sqrt(float64(n)))`,
`ceilDiv a b` is `uint64(math.Ceil(float64(a) / float64(b)))`, `sqrtLog n` is
`uint64(math.Sqrt(float64(n)) * math.Log(float64(n)))` and `ceilLog2 t` is
`uint64(math.Ceil(math.Log(2) * float64(t)))`. -/
structure FloatValues where
  twoSqrt : Nat → Nat
  ceilDiv : Nat → Nat → Nat
  sqrtLog : Nat → Nat
  ceilLog2 : Nat → Nat

/-- The loop `for ChunkSize < targetChunkSize { ChunkSize *= 2 }` of `NewPianoPIR`, in `uint64`;
`none` when the loop has not ended after `fuel` doublings.  After 64 doublings of 1 the value
is 0 and stays 0, so with `fuel = 64` the result `none` is the loop that never ends. -/
def chunkSizeLoop : Nat → Nat → Nat → Option Nat
  | 0, ChunkSize, targetChunkSize => if ChunkSize < targetChunkSize then none else some ChunkSize
  | fuel + 1, ChunkSize, targetChunkSize =>
    if ChunkSize < targetChunkSize then chunkSizeLoop fuel (ChunkSize * 2 % 2 ^ 64) targetChunkSize
    else some ChunkSize

/-- The function `NewPianoPIR`; `fl` gives its `float64` values, `key` and `key2` are the keys
drawn by `NewPianoPIRClient`.  `none` is the `log.Fatalf` on the length of `rawDB`, or the
chunk-size loop that never ends. -/
def NewPianoPIR (fl : FloatValues) (DBSize DBEntryByteNum : Nat) (rawDB : Slice)
    (FailureProbLog2 key key2 : Nat) : Option PianoPIR :=
  let DBEntrySize := DBEntryByteNum / 8
  if rawDB.len ≠ DBSize * DBEntrySize % 2 ^ 64 then none
  else
    match chunkSizeLoop 64 1 (fl.twoSqrt DBSize) with
    | none => none
    | some ChunkSize =>
      let SetSize := fl.ceilDiv DBSize ChunkSize
      let SetSize := (SetSize + 3) / 4 * 4
      let config : PianoPIRConfig :=
        { DBEntryByteNum := DBEntryByteNum, DBEntrySize := DBEntrySize, DBSize := DBSize,
          ChunkSize := ChunkSize, SetSize := SetSize, ThreadNum := 8,
          FailureProbLog2 := FailureProbLog2 }
      some { config := config
             client := NewPianoPIRClient config (fl.sqrtLog DBSize)
               (fl.ceilLog2 ((FailureProbLog2 + 1) % 2 ^ 64)) key key2
             server := NewPianoPIRServer config rawDB }

/-- The method `PianoPIR.DummyPreprocessing`; `key` is the key drawn by `Initialization`.
`none` is the aborted run of `Initialization`. -/
def PianoPIR.DummyPreprocessing (p : PianoPIR) (key : Nat) : Option PianoPIR :=
  (p.client.Initialization key).map fun c => { p with client := { c with skipPrep := true } }

/-- The value that the specification gives for `maxQueryPerChunk`: the ceiling of
`3 * MaxQueryNum / SetSize`, rounded up to the next multiple of `ThreadNum`. -/
def specMaxQueryPerChunk (MaxQueryNum SetSize ThreadNum : Nat) : Nat :=
  ((3 * MaxQueryNum + SetSize - 1) / SetSize + ThreadNum - 1) / ThreadNum * ThreadNum

/-! ## Invariants of the tags and of the dummy preprocessing -/

/-- The short tags between two queries of an epoch: backup slot `(ch, j)` keeps the tag
`primaryHintNum + ch*maxQueryPerChunk + j` given by `Initialization`; primary hint `i` holds its
first tag `i` or the tag of a consumed backup slot; the primary tags are pairwise distinct. -/
structure TagInv (c : PianoPIRClient) : Prop where
  tagLen : c.primaryShortTag.length = c.primaryHintNum
  histLen : c.QueryHistogram.length = c.config.SetSize
  btag : ∀ ch, ch < c.config.SetSize → ∀ j, j < c.maxQueryPerChunk →
    (c.backupShortTag.getD ch []).getD j 0 = c.primaryHintNum + ch * c.maxQueryPerChunk + j
  ptag : ∀ i, i < c.primaryHintNum →
    c.primaryShortTag.getD i 0 = i ∨
      ∃ ch j, ch < c.config.SetSize ∧ j < c.QueryHistogram.getD ch 0 ∧ j < c.maxQueryPerChunk ∧
        c.primaryShortTag.getD i 0 = c.primaryHintNum + ch * c.maxQueryPerChunk + j
  distinct : ∀ i i', i < c.primaryHintNum → i' < c.primaryHintNum → i ≠ i' →
    c.primaryShortTag.getD i 0 ≠ c.primaryShortTag.getD i' 0

/-- The client between two queries after `DummyPreprocessing`, when the database is all-zero:
`skipPrep` is set and every parity, every replacement value and every cached entry is zero. -/
structure ZeroInv (c : PianoPIRClient) : Prop where
  skip : c.skipPrep = true
  par : ∀ x, x ∈ c.primaryParity → x = 0
  bpar : ∀ row, row ∈ c.backupParity → ∀ x, x ∈ row → x = 0
  rv : ∀ row, row ∈ c.replacementVal → ∀ x, x ∈ row → x = 0
  cache : ∀ k v, cacheLookup c.localCache k = some v → v = zeroEntry c.config.DBEntrySize

/-- The lengths that `Initialization` gives to the tables of the client and that
`UpdatePreprocessing` and `Query` keep, with program points that are unset or indices of the
database: on such a client, with chunks that cover the database, every index expression of
`Query` is in range. -/
structure TableOK (c : PianoPIRClient) : Prop where
  tagLen : c.primaryShortTag.length = c.primaryHintNum
  parLen : c.primaryParity.length = c.primaryHintNum * c.config.DBEntrySize
  ppLen : c.primaryProgramPoint.length = c.primaryHintNum
  histLen : c.QueryHistogram.length = c.config.SetSize
  riRow : ∀ i, i < c.config.SetSize → (c.replacementIdx.getD i []).length = c.maxQueryPerChunk
  rvRow : ∀ i, i < c.config.SetSize →
    (c.replacementVal.getD i []).length = c.maxQueryPerChunk * c.config.DBEntrySize
  btRow : ∀ i, i < c.config.SetSize → (c.backupShortTag.getD i []).length = c.maxQueryPerChunk
  bRow : ∀ i, i < c.config.SetSize →
    (c.backupParity.getD i []).length = c.maxQueryPerChunk * c.config.DBEntrySize
  pp : ∀ h, h < c.primaryHintNum →
    c.primaryProgramPoint.getD h 0 = DefaultProgramPoint ∨
      c.primaryProgramPoint.getD h 0 < c.config.DBSize

/-- What `NewPianoPIR` sets up in an instance and nothing changes afterwards: one
configuration on both sides, a chunk size that is a non-zero `uint64`, chunks that cover the
database, and a `rawDB` of `DBSize` entries. -/
structure InstanceOK (p : PianoPIR) : Prop where
  server : p.server.config = p.client.config
  chunk : 0 < p.client.config.ChunkSize ∧ p.client.config.ChunkSize ≤ 2 ^ 64
  cover : p.client.config.DBSize ≤ p.client.config.ChunkSize * p.client.config.SetSize
  len : p.server.rawDB.len = p.client.config.DBSize * p.client.config.DBEntrySize

/-! ## Concrete instances of the construction -/

/-- The `float64` values of `NewPianoPIR` and `NewPianoPIRClient` for `DBSize` from 1 to 8 and
`FailureProbLog2 = 0`: for instance `2 * sqrt 2 = 2.83` gives 2, `2 * sqrt 5 = 4.47` gives 4,
`sqrt 2 * ln 2 = 0.98` gives 0, `sqrt 7 * ln 7 = 5.15` gives 5, and the quotients of such small
integers are exact.  For `DBSize = 0` the target `2 * sqrt 0` and the quotient `0 / 1` are 0;
the budget is the conversion of `sqrt 0 * ln 0`, which is not a number, and the value of that
conversion depends on the platform: it is 0 here. -/
def smallFloat : FloatValues :=
  { twoSqrt := fun n => [0, 2, 2, 3, 4, 4, 4, 5, 5].getD n 0
    ceilDiv := fun a b => (a + b - 1) / b
    sqrtLog := fun n => [0, 0, 0, 1, 2, 3, 4, 5, 5].getD n 0
    ceilLog2 := fun t => t }

/-- The `float64` values of `NewPianoPIR` and `NewPianoPIRClient` for `DBSize = 2^53 + 1` and
`FailureProbLog2 = 0`.  A `float64` has 53 bits, so the conversion `float64(2^53 + 1)` rounds,
to the even neighbour `2^53`.  Then `2 * sqrt(2^53) = 189812531.24…` gives 189812531; the
quotient of `2^53` by the chunk size `2^28` is `2^25` exactly, which is its own ceiling;
`sqrt(2^53) * ln(2^53) = 3486552553.05…` gives 3486552553; and `ln 2 * 1 = 0.69…` has the
ceiling 1. -/
def wideFloat : FloatValues :=
  { twoSqrt := fun n => if n = 2 ^ 53 + 1 then 189812531 else 0
    ceilDiv := fun a b => if a = 2 ^ 53 + 1 ∧ b = 2 ^ 28 then 2 ^ 25 else 0
    sqrtLog := fun n => if n = 2 ^ 53 + 1 then 3486552553 else 0
    ceilLog2 := fun t => if t = 1 then 1 else 0 }

/-- The instance that `NewPianoPIR` builds for the two-entry database `[5, 6]`. -/
def twoPIR : Option PianoPIR := NewPianoPIR smallFloat 2 8 (Slice.ofList [5, 6]) 0 0 0

/-- The instance that `NewPianoPIR` builds for the database `[11, 22, 33, 44, 55, 66, 77]`. -/
def sevenPIR : Option PianoPIR := NewPianoPIR smallFloat 7 8 demoDB 0 0 0

/-- The instance that `NewPianoPIR` builds for a database of eight one-word entries: one chunk
of 8 holds them all, `SetSize = 4`, budget 5, 8 primary hints, 8 slots per chunk. -/
def eightPIR : Option PianoPIR :=
  NewPianoPIR smallFloat 8 8 (Slice.ofList [11, 22, 33, 44, 55, 66, 77, 88]) 0 0 0

/-- The instance `eightPIR` after `DummyPreprocessing`. -/
def eightDummy : PianoPIR := ((eightPIR.getD demoPIR).DummyPreprocessing 1).getD demoPIR

/-- A configuration with 4 chunks and 8 threads. -/
def roundingConfig : PianoPIRConfig :=
  { DBEntryByteNum := 8, DBEntrySize := 1, DBSize := 16, ChunkSize := 8, SetSize := 4,
    ThreadNum := 8, FailureProbLog2 := 0 }

/-! ## The batch PIR (src/pianopir/batch-pir.go) -/

/-- The constant `RealQueryPerPartition` of batch-pir.go. -/
def RealQueryPerPartition : Nat := 2

/-- The constant `QueryPerPartition` of batch-pir.go. -/
def QueryPerPartition : Nat := 2

/-- The constant `DefaultValue` of batch-pir.go, the index that pads a bucket. -/
def DefaultValue : Nat := 0xdeadbeef

/-- The constant `ThreadNum` of batch-pir.go. -/
def ThreadNum : Nat := 1

/-- The struct `SimpleBatchPianoPIRConfig`. -/
structure SimpleBatchPianoPIRConfig where
  DBEntryByteNum : Nat
  DBEntrySize : Nat
  DBSize : Nat
  BatchSize : Nat
  PartitionNum : Nat
  PartitionSize : Nat
  ThreadNum : Nat
  FailureProbLog2 : Nat

/-- The struct `SimpleBatchPianoPIR`, without the statistics that are kept in `float64` or
measured with the clock (`localStorage`, `preprocessingTime`, the communication costs). -/
structure SimpleBatchPianoPIR where
  config : SimpleBatchPianoPIRConfig
  subPIR : List PianoPIR
  FinishedBatchNum : Nat
  QueriesMadeInPartition : Nat
  SupportBatchNum : Nat

/-- The slice expression `s[a:b]` on a read-only slice. -/
def Slice.subslice (s : Slice) (a b : Nat) : Slice := ⟨b - a, fun k => s.get (a + k)⟩

/-- The function `NewSimpleBatchPianoPIR`; `key i` and `key2 i` are the keys drawn by
`NewPianoPIRClient` for partition `i`.  `none` is the aborted run: the `log.Fatalf` on the
length of `rawDB`, the division by `PartitionNum = 0`, a slice expression
`rawDB[start*DBEntrySize:end*DBEntrySize]` whose bounds are out of order or beyond `rawDB`
(a slice without spare capacity), or a call of `NewPianoPIR` that does not return.  The sum
`DBSize + PartitionNum - 1` and the argument `end-start` are computed in `uint64`: the sum
wraps around when `DBSize` is within `PartitionNum` of `2^64`, and `PartitionSize` is then 0;
otherwise `PartitionNum * PartitionSize` is below `2^64` and the products `i*PartitionSize`
do not wrap around. -/
def NewSimpleBatchPianoPIR (fl : FloatValues) (DBSize DBEntryByteNum BatchSize : Nat)
    (rawDB : Slice) (FailureProbLog2 : Nat) (key key2 : Nat → Nat) :
    Option SimpleBatchPianoPIR :=
  let DBEntrySize := DBEntryByteNum / 8
  if rawDB.len ≠ DBSize * DBEntrySize % 2 ^ 64 then none
  else
    let PartitionNum := BatchSize / RealQueryPerPartition
    if PartitionNum = 0 then none
    else
      let PartitionSize := (DBSize + PartitionNum - 1) % 2 ^ 64 / PartitionNum
      let config : SimpleBatchPianoPIRConfig :=
        { DBEntryByteNum := DBEntryByteNum, DBEntrySize := DBEntrySize, DBSize := DBSize,
          BatchSize := BatchSize, PartitionNum := PartitionNum, PartitionSize := PartitionSize,
          ThreadNum := ThreadNum, FailureProbLog2 := FailureProbLog2 }
      let subPIR := (List.range PartitionNum).mapM fun i =>
        let start := i * PartitionSize
        let stop := min ((i + 1) * PartitionSize) DBSize
        if start * DBEntrySize > stop * DBEntrySize ∨ rawDB.len < stop * DBEntrySize then none
        else NewPianoPIR fl ((stop + 2 ^ 64 - start) % 2 ^ 64) DBEntryByteNum
          (rawDB.subslice (start * DBEntrySize) (stop * DBEntrySize)) FailureProbLog2
          (key i) (key2 i)
      subPIR.map fun subPIR =>
        { config := config, subPIR := subPIR, FinishedBatchNum := 0,
          QueriesMadeInPartition := 0, SupportBatchNum := 0 }

/-- The call `p.subPIR[i].Preprocessing()`; `none` is the aborted run (`log.Fatalf` in the
sub-PIR, an index outside `subPIR`). -/
def preprocessPartition (aes : Nat → Nat → Nat) (key : Nat → Nat)
    (rng : Nat → Nat → Nat → Nat) (subPIR : List PianoPIR) (i : Nat) :
    Option (List PianoPIR) :=
  match subPIR[i]? with
  | none => none
  | some sub => (sub.Preprocessing aes (key i) (rng i)).map fun sub => subPIR.set i sub

/-- The partitions `[start, end)` that one goroutine of `SimpleBatchPianoPIR.Preprocessing`
preprocesses, one after the other. -/
def preprocessPartitions (aes : Nat → Nat → Nat) (key : Nat → Nat)
    (rng : Nat → Nat → Nat → Nat) (start stop : Nat) (subPIR : List PianoPIR) :
    Option (List PianoPIR) :=
  (List.range (stop - start)).foldlM (fun subPIR k =>
    preprocessPartition aes key rng subPIR (start + k)) subPIR

/-- The method `SimpleBatchPianoPIR.Preprocessing`; `key i` and `rng i` are the draws of the
preprocessing of partition `i`.  The goroutines work on disjoint ranges of partitions and are
awaited, so they are run one after the other; `RecordStats` leaves
`SupportBatchNum = subPIR[0].client.MaxQueryNum / QueryPerPartition`.  `none` is the aborted
run, which includes the division by `ThreadNum = 0`. -/
def SimpleBatchPianoPIR.Preprocessing (aes : Nat → Nat → Nat) (key : Nat → Nat)
    (rng : Nat → Nat → Nat → Nat) (p : SimpleBatchPianoPIR) : Option SimpleBatchPianoPIR :=
  if p.config.ThreadNum = 0 then none
  else
    let perThreadPartitionNum :=
      (p.config.PartitionNum + p.config.ThreadNum - 1) / p.config.ThreadNum
    match (List.range p.config.ThreadNum).foldlM (fun subPIR tid =>
        preprocessPartitions aes key rng (tid * perThreadPartitionNum)
          (min ((tid + 1) * perThreadPartitionNum) p.config.PartitionNum) subPIR) p.subPIR with
    | none => none
    | some subPIR =>
      match subPIR[0]? with
      | none => none
      | some sub0 =>
        some { p with
          subPIR := subPIR
          FinishedBatchNum := 0
          QueriesMadeInPartition := 0
          SupportBatchNum := sub0.client.MaxQueryNum / QueryPerPartition }

/-- The method `SimpleBatchPianoPIR.DummyPreprocessing`; `key i` is the key drawn by the
`Initialization` of partition `i`.  `none` is the aborted run: an `Initialization` that
panics, or an index outside `subPIR`. -/
def SimpleBatchPianoPIR.DummyPreprocessing (key : Nat → Nat) (p : SimpleBatchPianoPIR) :
    Option SimpleBatchPianoPIR :=
  match (List.range p.config.PartitionNum).foldlM (fun subPIR i =>
      match subPIR[i]? with
      | none => none
      | some sub => (sub.DummyPreprocessing (key i)).map fun sub => subPIR.set i sub)
      p.subPIR with
  | none => none
  | some subPIR =>
    match subPIR[0]? with
    | none => none
    | some sub0 =>
      some { p with subPIR := subPIR
                    SupportBatchNum := sub0.client.MaxQueryNum / QueryPerPartition }

/-- The draws consumed by one call of `SimpleBatchPianoPIR.Query`: `key i j`, `rng i j` and
`rand i j` are those of the sub-query of round `j` in partition `i`, `prepKey` and `prepRng`
those of the preprocessing that ends the call when the budget is used up. -/
structure BatchDraws where
  key : Nat → Nat → Nat
  rng : Nat → Nat → Nat → Nat → Nat
  rand : Nat → Nat → Nat → Nat
  prepKey : Nat → Nat
  prepRng : Nat → Nat → Nat → Nat

/-- A call `p.subPIR[partition].Query(idx, realQuery)` made by `SimpleBatchPianoPIR.Query`, with
its two results. -/
structure SubCall where
  partition : Nat
  idx : Nat
  realQuery : Bool
  ret : List Nat
  err : Option QueryError

/-- What a call of `SimpleBatchPianoPIR.Query` leaves: the instance afterwards, the two
results, and the sub-queries issued during the call, in order. -/
structure BatchQueryResult where
  pir : SimpleBatchPianoPIR
  ret : List (List Nat)
  err : Option QueryError
  calls : List SubCall

/-- The first loop of `SimpleBatchPianoPIR.Query` when it runs to its end: every index is
appended to the bucket of its partition. -/
def bucketQueries (config : SimpleBatchPianoPIRConfig) (idx : List Nat) : List (List Nat) :=
  idx.foldl (fun partitionQueries x =>
    let partitionIdx := x / config.PartitionSize
    partitionQueries.set partitionIdx (partitionQueries.getD partitionIdx [] ++ [x]))
    (List.replicate config.PartitionNum [])

/-- The padding of a bucket with `DefaultValue` up to `queryNumToMake` indices. -/
def padQueries (bucket : List Nat) (queryNumToMake : Nat) : List Nat :=
  if bucket.length < queryNumToMake then
    bucket ++ List.replicate (queryNumToMake - bucket.length) DefaultValue
  else bucket

/-- The state of the loops of `SimpleBatchPianoPIR.Query`: the sub-PIRs, the map `responses`
and the sub-queries issued so far. -/
structure BatchLoopState where
  subPIR : List PianoPIR
  responses : List (Nat × List Nat)
  calls : List SubCall

/-- Round `j` of the loop of `SimpleBatchPianoPIR.Query` over the padded bucket `bucket` of
partition `i`: a dummy query for the index `DefaultValue`, and otherwise a real query whose
result is recorded in `responses`.  An index of the bucket is not below `i * PartitionSize`,
so the difference handed to the sub-PIR is written without reduction. -/
def subQuery (aes : Nat → Nat → Nat) (config : SimpleBatchPianoPIRConfig) (rnd : BatchDraws)
    (bucket : List Nat) (i : Nat) (st : BatchLoopState) (j : Nat) : Option BatchLoopState :=
  match st.subPIR[i]? with
  | none => none
  | some sub =>
    if bucket.getD j 0 = DefaultValue then
      match sub.Query aes 0 false (rnd.key i j) (rnd.rng i j) (rnd.rand i j) with
      | none => none
      | some r => some { st with subPIR := st.subPIR.set i r.pir
                                 calls := st.calls ++ [⟨i, 0, false, r.ret, r.err⟩] }
    else
      match sub.Query aes (bucket.getD j 0 - i * config.PartitionSize) true (rnd.key i j)
          (rnd.rng i j) (rnd.rand i j) with
      | none => none
      | some r =>
        some { subPIR := st.subPIR.set i r.pir
               responses := cacheInsert st.responses (bucket.getD j 0) r.ret
               calls := st.calls ++
                 [⟨i, bucket.getD j 0 - i * config.PartitionSize, true, r.ret, r.err⟩] }

/-- The `queryNumToMake` sub-queries that `SimpleBatchPianoPIR.Query` makes to partition `i`
for the padded bucket `bucket`. -/
def queryPartition (aes : Nat → Nat → Nat) (config : SimpleBatchPianoPIRConfig)
    (rnd : BatchDraws) (bucket : List Nat) (queryNumToMake i : Nat) (st : BatchLoopState) :
    Option BatchLoopState :=
  (List.range queryNumToMake).foldlM (subQuery aes config rnd bucket i) st

/-- The entry put at a position of the output by the last loop of
`SimpleBatchPianoPIR.Query`: the response recorded for the index `x` of the position, and the
all-zero entry when there is none. -/
def outputEntry (responses : List (Nat × List Nat)) (DBEntrySize x : Nat) : List Nat :=
  match cacheLookup responses x with
  | some response => response
  | none => List.replicate DBEntrySize 0

/-- The method `SimpleBatchPianoPIR.Query`.  `none` is the aborted run: the division of
`len(idx)` by `PartitionNum = 0`; in the first loop, the division of an index by
`PartitionSize = 0`, or a quotient that is not an index of `partitionQueries`, which has
`PartitionNum` elements; the `log.Fatalf` of a sub-PIR; or an index outside `subPIR`. -/
def SimpleBatchPianoPIR.Query (aes : Nat → Nat → Nat) (p : SimpleBatchPianoPIR)
    (idx : List Nat) (rnd : BatchDraws) : Option BatchQueryResult :=
  if p.config.PartitionNum = 0 then none
  else if idx.any (fun x => decide (p.config.PartitionSize = 0 ∨
      p.config.PartitionNum ≤ x / p.config.PartitionSize)) then none
  else
    let queryNumToMake := idx.length / p.config.PartitionNum
    let partitionQueries := bucketQueries p.config idx
    match (List.range p.config.PartitionNum).foldlM (fun st i =>
        queryPartition aes p.config rnd (padQueries (partitionQueries.getD i []) queryNumToMake)
          queryNumToMake i st) { subPIR := p.subPIR, responses := [], calls := [] } with
    | none => none
    | some st =>
      let ret := idx.map (outputEntry st.responses p.config.DBEntrySize)
      match st.subPIR[0]? with
      | none => none
      | some sub0 =>
        if p.QueriesMadeInPartition ≥ (sub0.client.MaxQueryNum + 2 ^ 64 - 2) % 2 ^ 64 then
          match ({ p with subPIR := st.subPIR }).Preprocessing aes rnd.prepKey rnd.prepRng with
          | none => none
          | some p => some { pir := p, ret := ret, err := none, calls := st.calls }
        else
          some { pir := { p with
                   subPIR := st.subPIR
                   FinishedBatchNum := p.FinishedBatchNum + idx.length / p.config.BatchSize
                   QueriesMadeInPartition := p.QueriesMadeInPartition + queryNumToMake }
                 ret := ret, err := none, calls := st.calls }

/-- The indices of a batch that fall into partition `i`, in input order: the bucket of the
partition as the specification describes it. -/
def bucketOf (config : SimpleBatchPianoPIRConfig) (idx : List Nat) (i : Nat) : List Nat :=
  idx.filter fun x => x / config.PartitionSize = i

/-- What `NewSimpleBatchPianoPIR` sets up in the sub-PIR `q` of partition `i`: entries of
`DBEntrySize` words on both sides, at least one word (so that `Initialization` returns), a
database that holds every index of the partition, and a well-formed instance. -/
structure PartNew (config : SimpleBatchPianoPIRConfig) (i : Nat) (q : PianoPIR) : Prop where
  entry : 0 < config.DBEntrySize
  clientE : q.client.config.DBEntrySize = config.DBEntrySize
  serverE : q.server.config.DBEntrySize = config.DBEntrySize
  range : ∀ x, x < config.DBSize → x / config.PartitionSize = i →
    x - i * config.PartitionSize < q.client.config.DBSize
  inst : InstanceOK q

/-- What `SimpleBatchPianoPIR.Query` relies on in the sub-PIR `q` of partition `i`: the
instance is as built, its client has been initialised, and the cache holds entries of
`DBEntrySize` words. -/
structure PartOK (config : SimpleBatchPianoPIRConfig) (i : Nat) (q : PianoPIR) : Prop where
  new : PartNew config i q
  table : TableOK q.client
  cache : ∀ k v, cacheLookup q.client.localCache k = some v → v.length = config.DBEntrySize

/-- The shape of a batch instance as `NewSimpleBatchPianoPIR` builds it: one sub-PIR per
partition, each built for its partition, and partitions that cover the database. -/
structure BatchNew (p : SimpleBatchPianoPIR) : Prop where
  threads : 0 < p.config.ThreadNum
  parts : 0 < p.config.PartitionNum
  len : p.subPIR.length = p.config.PartitionNum
  cover : p.config.DBSize ≤ p.config.PartitionNum * p.config.PartitionSize
  part : ∀ i q, p.subPIR[i]? = some q → PartNew p.config i q

/-- The shape of a batch instance between two calls, once it has been preprocessed. -/
structure BatchOK (p : SimpleBatchPianoPIR) : Prop where
  threads : 0 < p.config.ThreadNum
  parts : 0 < p.config.PartitionNum
  len : p.subPIR.length = p.config.PartitionNum
  cover : p.config.DBSize ≤ p.config.PartitionNum * p.config.PartitionSize
  part : ∀ i q, p.subPIR[i]? = some q → PartOK p.config i q

/-- The shape of the state of the loops of `SimpleBatchPianoPIR.Query`. -/
structure LoopOK (config : SimpleBatchPianoPIRConfig) (st : BatchLoopState) : Prop where
  len : st.subPIR.length = config.PartitionNum
  part : ∀ i q, st.subPIR[i]? = some q → PartOK config i q
  resp : ∀ k v, cacheLookup st.responses k = some v → v.length = config.DBEntrySize
  src : ∀ k v, cacheLookup st.responses k = some v →
    v = zeroEntry config.DBEntrySize ∨
      ∃ c, c ∈ st.calls ∧ c.realQuery = true ∧ c.partition = k / config.PartitionSize ∧
        c.idx = k - c.partition * config.PartitionSize ∧ c.err = none ∧ c.ret = v

/-! ## Concrete instances of the batch PIR -/

/-- A database of 16 one-word entries. -/
def batchDB : Slice :=
  Slice.ofList [11, 22, 33, 44, 55, 66, 77, 88, 99, 110, 121, 132, 143, 154, 165, 176]

/-- An instance without partitions, the default of `Option.getD` below. -/
def emptyBatch : SimpleBatchPianoPIR :=
  { config := ⟨0, 0, 0, 0, 0, 0, 0, 0⟩, subPIR := [], FinishedBatchNum := 0,
    QueriesMadeInPartition := 0, SupportBatchNum := 0 }

/-- The instance that `NewSimpleBatchPianoPIR` builds for `batchDB` and batches of 4: two
partitions of 8 entries. -/
def demoBatchNew : Option SimpleBatchPianoPIR :=
  NewSimpleBatchPianoPIR smallFloat 16 8 4 batchDB 0 (fun i => i) (fun i => i + 7)

/-- The instance `demoBatchNew` after `Preprocessing`. -/
def demoBatch : SimpleBatchPianoPIR :=
  ((demoBatchNew.getD emptyBatch).Preprocessing demoAes (fun i => i + 1)
    (fun i c s => i + c + s)).getD emptyBatch

/-- Draws for a call of `SimpleBatchPianoPIR.Query`. -/
def demoDraws : BatchDraws :=
  { key := fun i j => i + j, rng := fun i j c s => i + j + c + s,
    rand := fun i j k => i + 2 * j + 3 * k, prepKey := fun i => i + 1,
    prepRng := fun i c s => i + c + s }

/-- A batch instance of one partition over the database of `sentinelConfig`. -/
def sentinelBatchNew : SimpleBatchPianoPIR :=
  { config := { DBEntryByteNum := 8, DBEntrySize := 1, DBSize := 2 ^ 33, BatchSize := 2,
                PartitionNum := 1, PartitionSize := 2 ^ 33, ThreadNum := 1,
                FailureProbLog2 := 0 }
    subPIR := [{ config := sentinelConfig, client := sentinelClient, server := sentinelServer }]
    FinishedBatchNum := 0, QueriesMadeInPartition := 0, SupportBatchNum := 0 }

/-- The instance `sentinelBatchNew` after `Preprocessing`. -/
def sentinelBatch : SimpleBatchPianoPIR :=
  (sentinelBatchNew.Preprocessing sentinelAes (fun _ => 0) (fun _ _ _ => 0)).getD emptyBatch

/-! ## The packed database entry (src/private-search.go)

A `float32` of a vector is represented by its bit pattern, the `uint32` that
`math.Float32bits` returns and `math.Float32frombits` takes; a byte is a number below 256.
The Go `int` values `N`, `Dim`, `M` are sizes and are natural numbers here; a neighbor id is
an `int`. -/

/-- The library function `binary.LittleEndian.PutUint32` applied to a slice of at least four
bytes: the four bytes written, least significant first. -/
def PutUint32 (v : Nat) : List Nat :=
  [v % 256, v / 2 ^ 8 % 256, v / 2 ^ 16 % 256, v / 2 ^ 24 % 256]

/-- The library function `binary.LittleEndian.PutUint64`: the eight bytes written, least
significant first. -/
def PutUint64 (v : Nat) : List Nat :=
  [v % 256, v / 2 ^ 8 % 256, v / 2 ^ 16 % 256, v / 2 ^ 24 % 256, v / 2 ^ 32 % 256,
    v / 2 ^ 40 % 256, v / 2 ^ 48 % 256, v / 2 ^ 56 % 256]

/-- The library function `binary.LittleEndian.Uint32`: the number held by the first four
bytes of `b`; `none` is the panic on a slice of fewer than four bytes. -/
def Uint32 (b : List Nat) : Option Nat :=
  if b.length < 4 then none
  else some (b.getD 0 0 + b.getD 1 0 * 2 ^ 8 + b.getD 2 0 * 2 ^ 16 + b.getD 3 0 * 2 ^ 24)

/-- The library function `binary.LittleEndian.Uint64`: the number held by the first eight
bytes of `b`; `none` is the panic on a slice of fewer than eight bytes. -/
def Uint64 (b : List Nat) : Option Nat :=
  if b.length < 8 then none
  else some (b.getD 0 0 + b.getD 1 0 * 2 ^ 8 + b.getD 2 0 * 2 ^ 16 + b.getD 3 0 * 2 ^ 24 +
    b.getD 4 0 * 2 ^ 32 + b.getD 5 0 * 2 ^ 40 + b.getD 6 0 * 2 ^ 48 + b.getD 7 0 * 2 ^ 56)

/-- The conversion `uint32(x)` of an `int`. -/
def intToUint32 (x : Int) : Nat := (x % 2 ^ 32).toNat

/-- The body of the loop of `PIRGraphInfo.Preprocess` for one vertex: the value of `entry`, the
`DBEntryByteNum / 8` words read from the bytes of the first `Dim` components of `vector`
followed by the bytes of the first `M` ids of `neighbors`.  `none` is the panic on a row that
is too short. -/
def packEntry (Dim M : Nat) (vector : List Nat) (neighbors : List Int) : Option (List Nat) :=
  let DBEntryByteNum := Dim * 4 + M * 4
  if vector.length < Dim ∨ neighbors.length < M then none
  else
    let vectorBytes := (vector.take Dim).flatMap PutUint32
    let neighborsBytes := (neighbors.take M).flatMap fun x => PutUint32 (intToUint32 x)
    let entryBytes := vectorBytes ++ neighborsBytes
    (List.range (DBEntryByteNum / 8)).mapM fun j => Uint64 (entryBytes.drop (j * 8))

/-- The first part of `PIRGraphInfo.Preprocess`: the value of `g.rawDB`, in which the entry of
vertex `i` is copied to `rawDB[i*DBEntryByteNum/8:]`.  `none` is the panic on a missing or
short row. -/
def packDB (N Dim M : Nat) (vectors : List (List Nat)) (graph : List (List Int)) :
    Option (List Nat) :=
  let DBEntryByteNum := Dim * 4 + M * 4
  (List.range N).foldlM (fun rawDB i =>
    match vectors[i]?, graph[i]? with
    | some vector, some neighbors =>
      match packEntry Dim M vector neighbors with
      | none => none
      | some entry =>
        if i * DBEntryByteNum / 8 > rawDB.length then none
        else some (copyAt rawDB (i * DBEntryByteNum / 8) rawDB.length entry)
    | _, _ => none) (List.replicate (N * DBEntryByteNum / 8) 0)

/-- The function `Entry2VectorAndNeighbors`: the `dim` components (bit patterns) and the `m`
neighbor ids read back from the bytes of `entry`.  `none` is the panic on an entry that is too
short. -/
def Entry2VectorAndNeighbors (dim m : Nat) (entry : List Nat) :
    Option (List Nat × List Int) :=
  let entryBytes := entry.flatMap PutUint64
  match (List.range dim).mapM (fun i => Uint32 (entryBytes.drop (i * 4))),
      (List.range m).mapM (fun i => Uint32 (entryBytes.drop ((dim + i) * 4))) with
  | some vector, some neighbors => some (vector, neighbors.map Int.ofNat)
  | _, _ => none

/-! ### Concrete rows -/

/-- Two vectors of two components, as bit patterns: `(1.0, -2.0)` and `(0.5, NaN)`. -/
def packVectors : List (List Nat) := [[0x3f800000, 0xc0000000], [0x3f000000, 0x7fc00000]]

/-- Two rows of two neighbor ids. -/
def packGraph : List (List Int) := [[1, 4294967295], [0, 70000]]

/-! ## The graph builder (src/graphann/build_graph.go)

A `float32` value is an element of a type `F`; the operations of the language on it and the
assembly routine `L2DistanceSIMD` are the fields of a record `Float32Ops F`, so that what is
proved holds for every behaviour of the arithmetic.  A vertex id is an `int`, the sizes `n`
and `m` are natural numbers.  An index outside a slice is a panic, the result `none`. -/

/-- The `float32` operations used by the graph builder and the search: the comparison `a < b`,
`a + b`, `a - b`, `a * b`, and `L2DistanceSIMD` (declared without body in build_graph.go),
applied to the two slices it reads. -/
structure Float32Ops (F : Type) where
  lt : F → F → Bool
  add : F → F → F
  sub : F → F → F
  mul : F → F → F
  L2DistanceSIMD : List F → List F → F

/-- The function `L2DistSIMD`; `&v1[0]` and `&v2[0]` panic on an empty slice. -/
def L2DistSIMD {F : Type} (ops : Float32Ops F) (v1 v2 : List F) : Option F :=
  if v1.length = 0 ∨ v2.length = 0 then none else some (ops.L2DistanceSIMD v1 v2)

/-- The function `L2Dist`: the SIMD routine on the first `dim - dim % 8` components, then the
loop over the others.  Slicing `v2` beyond its length is taken as a panic. -/
def L2Dist {F : Type} (ops : Float32Ops F) (v1 v2 : List F) : Option F :=
  let dim := v1.length
  let remainder := dim % 8
  if v2.length < dim - remainder then none
  else
    match L2DistSIMD ops (v1.take (dim - remainder)) (v2.take (dim - remainder)) with
    | none => none
    | some d =>
      (List.range remainder).foldlM (fun d k =>
        match v1[dim - remainder + k]?, v2[dim - remainder + k]? with
        | some a, some b => some (ops.add d (ops.mul (ops.sub a b) (ops.sub a b)))
        | _, _ => none) d

/-- The struct `IdWithDist`. -/
structure IdWithDist (F : Type) where
  id : Int
  dist : F

/-- The index expression `l[i]` for an `int` index. -/
def intIndex {α : Type} (l : List α) (i : Int) : Option α :=
  if i < 0 then none else l[i.toNat]?

/-- The distance `L2Dist(vectors[a], vectors[b])`. -/
def vertexDist {F : Type} (ops : Float32Ops F) (vectors : List (List F)) (a b : Int) :
    Option F :=
  match intIndex vectors a, intIndex vectors b with
  | some va, some vb => L2Dist ops va vb
  | _, _ => none

/-- The inner loop of `robustPrune`, the triangle condition: the value of `ok` for the
candidate `v` at distance `dist_uv`, `false` as soon as an accepted vertex `p` has
`L2Dist(p, v) * alpha < dist_uv`. -/
def diversityOk {F : Type} (ops : Float32Ops F) (vectors : List (List F)) (alpha : F) (v : Int)
    (dist_uv : F) : List (IdWithDist F) → Option Bool
  | [] => some true
  | p :: accept =>
    match vertexDist ops vectors p.id v with
    | none => none
    | some d =>
      if ops.lt (ops.mul d alpha) dist_uv then some false
      else diversityOk ops vectors alpha v dist_uv accept

/-- The loop of `robustPrune` over the sorted candidates: the lists `accept` and `discarded`
when the loop ends, which it does as soon as `accept` holds `m` elements. -/
def pruneScan {F : Type} (ops : Float32Ops F) (vectors : List (List F)) (alpha : F) (m : Nat) :
    List (IdWithDist F) → List (IdWithDist F) → List (IdWithDist F) →
      Option (List (IdWithDist F) × List (IdWithDist F))
  | [], accept, discarded => some (accept, discarded)
  | x :: dist2u, accept, discarded =>
    match diversityOk ops vectors alpha x.id x.dist accept with
    | none => none
    | some true =>
      if (accept ++ [x]).length = m then some (accept ++ [x], discarded)
      else pruneScan ops vectors alpha m dist2u (accept ++ [x]) discarded
    | some false => pruneScan ops vectors alpha m dist2u accept (discarded ++ [x])

/-- The loop of `robustPrune` that adds discarded candidates to `accept` until it holds `m`
elements. -/
def pruneFill {F : Type} (m : Nat) : List (IdWithDist F) → List (IdWithDist F) →
    List (IdWithDist F)
  | [], accept => accept
  | x :: discarded, accept =>
    if (accept ++ [x]).length = m then accept ++ [x]
    else pruneFill m discarded (accept ++ [x])

/-- The function `robustPrune`.  The parameter `sortSlice` stands for the library call
`sort.Slice(dist2u, less)` with `less` the comparison of the distances: it is an input, since
the order that the library gives to candidates of equal distance is not specified. -/
def robustPrune {F : Type} (ops : Float32Ops F)
    (sortSlice : List (IdWithDist F) → List (IdWithDist F)) (vectors : List (List F))
    (u : Int) (candidates : List Int) (m : Nat) (alpha : F) : Option (List Int) :=
  if candidates.length ≤ m then some candidates
  else
    match candidates.mapM (fun c =>
        (vertexDist ops vectors u c).map fun d => (⟨c, d⟩ : IdWithDist F)) with
    | none => none
    | some dist2u =>
      match pruneScan ops vectors alpha m (sortSlice dist2u) [] [] with
      | none => none
      | some (accept, discarded) =>
        let accept := if accept.length < m then pruneFill m discarded accept else accept
        some (accept.map fun x => x.id)

/-- The generator `rand.New(rand.NewSource(seed))` as pass 2 of `CreateGraphBasedOnNGT` uses
it.  `float64Lt t m inb` is the outcome of `r.Float64() < prob` when it is draw number `t` of
the generator, for `prob = math.Min(1.5*m/inb, 1.0)` computed in `float64`; `intn t n` is
`r.Intn(n)` when it is draw number `t`. -/
structure RandSource where
  float64Lt : Nat → Nat → Nat → Bool
  intn : Nat → Nat → Nat

/-- The inputs of `CreateGraphBasedOnNGT` besides the vectors and `m`: the constant
`float32(1.2)`, the library call `sort.Slice`, the answer `search u` of the NGT index to
`ngt.Search` for vertex `u` (the ids of the results, in order), the generator `rand seed` for
every seed, and a bound `fuel` on the number of rounds of the loop that fills a row with
random neighbors (the loop of the source has none). -/
structure GraphInputs (F : Type) where
  ops : Float32Ops F
  alpha : F
  sortSlice : List (IdWithDist F) → List (IdWithDist F)
  search : Nat → List Int
  rand : Nat → RandSource
  fuel : Nat

/-- The constant `maxThread` of `CreateGraphBasedOnNGT`. -/
def maxThread : Nat := 16

/-- The work of the goroutines of one pass of `CreateGraphBasedOnNGT`: goroutine `t` handles
the vertices `[t·perThreadVertices, min((t+1)·perThreadVertices, n))` in order, starting from
the state `init start s`.  The goroutines write to different rows and are awaited, so they are
run one after the other. -/
def forThreads {σ : Type} (n : Nat) (init : Nat → σ → σ) (body : σ → Nat → Option σ) (s : σ) :
    Option σ :=
  let perThreadVertices := (n + maxThread - 1) / maxThread
  (List.range maxThread).foldlM (fun s t =>
    let start := t * perThreadVertices
    let stop := min ((t + 1) * perThreadVertices) n
    (List.range (stop - start)).foldlM (fun s k => body s (start + k)) (init start s)) s

/-- The candidates of vertex `u` in pass 1: the ids returned by the index, minus 1, without
`u` itself and the ids that are not below `n`. -/
def passOneCandidates (n : Nat) (search : Nat → List Int) (u : Nat) : List Int :=
  ((search u).map fun id => id - 1).filter fun v => decide (v ≠ (u : Int) ∧ v < (n : Int))

/-- Pass 1 of `CreateGraphBasedOnNGT`: row `u` of `graph` is the pruned list of candidates. -/
def passOne {F : Type} (inp : GraphInputs F) (vectors : List (List F)) (m : Nat) :
    Option (List (List Int)) :=
  let n := vectors.length
  forThreads n (fun _ graph => graph) (fun graph u =>
    (robustPrune inp.ops inp.sortSlice vectors u (passOneCandidates n inp.search u) m
      inp.alpha).map fun candidates => graph.set u candidates) (List.replicate n [])

/-- The loops of `CreateGraphBasedOnNGT` that build `biGraph`: every edge `u → v` of `graph`
is added to row `u` and, reversed, to row `v`. -/
def symmetrize (n : Nat) (graph : List (List Int)) : Option (List (List Int)) :=
  (List.range n).foldlM (fun biGraph u =>
    (graph.getD u []).foldlM (fun biGraph v =>
      let biGraph := biGraph.set u (biGraph.getD u [] ++ [v])
      match intIndex biGraph v with
      | none => none
      | some row => some (biGraph.set v.toNat (row ++ [(u : Int)]))) biGraph)
    (List.replicate n [])

/-- The state of a goroutine of pass 2: the graph and the number of draws taken from the
generator of the goroutine. -/
structure PassTwoState where
  graph : List (List Int)
  seed : Nat
  draws : Nat

/-- The first loop of pass 2 for a vertex: the neighbors `v` in `biGraph[u]` that pass the
draw `r.Float64() < prob`, and the number of draws taken. -/
def sampleConnection (r : RandSource) (m : Nat) (inbounds : List Nat) (row : List Int)
    (draws : Nat) : Option (List Int × Nat) :=
  row.foldlM (fun (st : List Int × Nat) v =>
    match intIndex inbounds v with
    | none => none
    | some inb =>
      if r.float64Lt st.2 m inb then some (st.1 ++ [v], st.2 + 1)
      else some (st.1, st.2 + 1)) ([], draws)

/-- The loop of pass 2 that fills `connection` with random vertices until it holds `m` of
them: a draw `v` is added unless it is `u` or already in `connection`.  `none` is a run that
has not filled the row within `fuel` rounds. -/
def fillConnection (r : RandSource) (n m u : Nat) : Nat → Nat → List Int →
    Option (List Int × Nat)
  | 0, draws, connection => if connection.length < m then none else some (connection, draws)
  | fuel + 1, draws, connection =>
    if connection.length < m then
      let v : Int := (r.intn draws n : Nat)
      if v = (u : Int) then fillConnection r n m u fuel (draws + 1) connection
      else if connection.contains v then fillConnection r n m u fuel (draws + 1) connection
      else fillConnection r n m u fuel (draws + 1) (connection ++ [v])
    else some (connection, draws)

/-- The body of the loop of a goroutine of pass 2 for vertex `u`. -/
def passTwoRow {F : Type} (inp : GraphInputs F) (vectors : List (List F)) (m : Nat)
    (biGraph : List (List Int)) (inbounds : List Nat) (st : PassTwoState) (u : Nat) :
    Option PassTwoState :=
  let n := vectors.length
  let r := inp.rand st.seed
  match sampleConnection r m inbounds (biGraph.getD u []) st.draws with
  | none => none
  | some (connection, draws) =>
    let pruned :=
      if connection.length > m then
        robustPrune inp.ops inp.sortSlice vectors u connection m inp.alpha
      else some connection
    match pruned with
    | none => none
    | some connection =>
      match fillConnection r n m u inp.fuel draws connection with
      | none => none
      | some (connection, draws) =>
        some { st with graph := st.graph.set u connection, draws := draws }

/-- Pass 2 of `CreateGraphBasedOnNGT`: every goroutine starts a generator seeded with the
first vertex of its range. -/
def passTwo {F : Type} (inp : GraphInputs F) (vectors : List (List F)) (m : Nat)
    (graph biGraph : List (List Int)) : Option (List (List Int)) :=
  let n := vectors.length
  let inbounds := biGraph.map fun row => row.length
  (forThreads n (fun start st => { st with seed := start, draws := 0 })
    (passTwoRow inp vectors m biGraph inbounds)
    { graph := graph, seed := 0, draws := 0 }).map fun st => st.graph

/-- The last loops of `CreateGraphBasedOnNGT`, which count the inbound edges of every vertex:
they panic on an id outside `[0, n)`. -/
def inboundsInRange (n : Nat) (graph : List (List Int)) : Bool :=
  graph.all fun row => row.all fun v => decide (0 ≤ v ∧ v < (n : Int))

/-- The function `CreateGraphBasedOnNGT`, from the point where the NGT index is open.  `none`
is a run that does not return: a panic (`vectors[0]` without vectors, an index outside a
slice, `L2Dist` on vectors that it does not handle) or a row that is never filled. -/
def CreateGraphBasedOnNGT {F : Type} (inp : GraphInputs F) (vectors : List (List F))
    (m : Nat) : Option (List (List Int)) :=
  let n := vectors.length
  if n = 0 then none
  else
    match passOne inp vectors m with
    | none => none
    | some graph =>
      match symmetrize n graph with
      | none => none
      | some biGraph =>
        match passTwo inp vectors m graph biGraph with
        | none => none
        | some graph => if inboundsInRange n graph then some graph else none

/-- What is assumed of the library call `sort.Slice`: the result is a rearrangement of the
input in which no element is at a smaller distance than an element before it. -/
structure SortOK {F : Type} (ops : Float32Ops F)
    (sortSlice : List (IdWithDist F) → List (IdWithDist F)) : Prop where
  perm : ∀ l, (sortSlice l).Perm l
  sorted : ∀ l, (sortSlice l).Pairwise fun a b => ops.lt b.dist a.dist = false

/-- Every edge `u → v` of `graph` is valid: `0 ≤ v < n` and `v ≠ u`. -/
def ValidEdges (n : Nat) (graph : List (List Int)) : Prop :=
  ∀ u v, v ∈ graph.getD u [] → 0 ≤ v ∧ v < (n : Int) ∧ v ≠ (u : Int)

/-! ### Concrete inputs of the graph builder -/

/-- The `float32` values that are multiples of 1/5, written as their number of fifths (so
`5` is `1.0` and `6` is `float32(1.2)`, up to its rounding).  The SIMD routine is the sum of the
squared differences.  On the values used below, sums, differences and products are again
multiples of 1/5, and two numbers that are compared differ by at least 1/5. -/
def fifths : Float32Ops Int :=
  { lt := fun a b => decide (a < b)
    add := fun a b => a + b
    sub := fun a b => a - b
    mul := fun a b => a * b / 5
    L2DistanceSIMD := fun v1 v2 => ((List.zipWith (fun a b => (a - b) * (a - b) / 5) v1 v2).sum) }

/-- Insertion sort by distance, a function that `sort.Slice` can be. -/
def sortByDist (l : List (IdWithDist Int)) : List (IdWithDist Int) :=
  l.insertionSort fun a b => a.dist ≤ b.dist

/-- Five vectors of dimension 8: the origin, `(1, 0, …)`, `(2, 0, …)`, `(-2, -1, 0, …)` and
`(3, 0, …)`, in fifths. -/
def pruneVectors : List (List Int) :=
  [[0, 0, 0, 0, 0, 0, 0, 0], [5, 0, 0, 0, 0, 0, 0, 0], [10, 0, 0, 0, 0, 0, 0, 0],
    [-10, -5, 0, 0, 0, 0, 0, 0], [15, 0, 0, 0, 0, 0, 0, 0]]

/-- A generator whose draws of `Float64` are so close to 1 that `r.Float64() < prob` holds
only for `prob = 1.0`, that is for `1.5·m ≥ inb`, and whose draw number `t` of `Intn(n)` is
`(seed + t) mod n`. -/
def graphRand (seed : Nat) : RandSource :=
  { float64Lt := fun _ m inb => decide (2 * inb ≤ 3 * m)
    intn := fun t n => (seed + t) % n }

/-- Inputs for the five vectors `pruneVectors`: the index answers with the ids (from 1) of the
vertex itself and of its three nearest vertices. -/
def demoInputs : GraphInputs Int :=
  { ops := fifths, alpha := 6, sortSlice := sortByDist
    search := fun u => [[1, 2, 3, 4], [2, 1, 3, 4], [3, 2, 5, 1], [4, 1, 2, 3], [5, 3, 2, 1]].getD u []
    rand := graphRand, fuel := 20 }

/-- Inputs for three vectors in which the vertices 0 and 1 are each the only candidate of the
other, and vertex 2 has no candidate. -/
def mutualInputs : GraphInputs Int :=
  { ops := fifths, alpha := 6, sortSlice := sortByDist
    search := fun u => [[1, 2], [2, 1], [3]].getD u []
    rand := graphRand, fuel := 20 }

/-! ## The search frontend (src/graphann/search.go) -/

/-- The struct `Vertex`. -/
structure Vertex (F : Type) where
  Id : Int
  Neighbors : List Int
  Vector : List F

/-- The struct `VertexWithDist`. -/
structure VertexWithDist (F : Type) where
  dist : F
  vertex : Vertex F

/-- What `GraphANNFrontend.SearchKNN` takes from its receiver and from the libraries.  `n` and
`m` are the values of `GetMetadata`; `GetVertexInfo t batch` is the answer of the provider to
call number `t`, `none` for an error; `intn t` is draw number `t` of `rand.Intn(n)`.
`sortSort` is `sort.Sort` on an `exploreQueue` and `sortSlice` is the final `sort.Slice` applied
to the known vertices in the order in which the map yields them: both are inputs, since the
order of vertices at equal distance, and the order of iteration of a map, are not specified.
The priority queue is kept as the list of its elements: `heap.Push` adds one, and `heapPop` is
`heap.Pop`, which removes one of least distance. -/
structure SearchInputs (F : Type) where
  ops : Float32Ops F
  n : Nat
  m : Nat
  StartVertices : List (Vertex F)
  GetVertexInfo : Nat → List Int → Option (List (Vertex F))
  intn : Nat → Nat
  sortSort : List (VertexWithDist F) → List (VertexWithDist F)
  sortSlice : List (VertexWithDist F) → List (VertexWithDist F)
  heapPop : List (VertexWithDist F) → Option (VertexWithDist F × List (VertexWithDist F))

/-- The value `mp[k]` of a Go map kept as an association list, `none` when the key is
absent. -/
def mapLookup {β : Type} (mp : List (Int × β)) (k : Int) : Option β :=
  (mp.find? fun e => e.1 == k).map fun e => e.2

/-- The map after `mp[k] = v`. -/
def mapInsert {β : Type} (mp : List (Int × β)) (k : Int) (v : β) : List (Int × β) :=
  (mp.filter fun e => e.1 != k) ++ [(k, v)]

/-- The variables of `SearchKNN`: the maps `knownVertices` and `reachStep`, the queue
`toBeExploredVertices`, the number of draws taken from `rand.Intn`, and the batches handed to
`GetVertexInfo` so far. -/
structure SearchState (F : Type) where
  knownVertices : List (Int × Vertex F)
  reachStep : List (Int × Int)
  toBeExploredVertices : List (VertexWithDist F)
  draws : Nat
  calls : List (List Int)

/-- The start of `SearchKNN` when `benchmarking` is not set: the start vertices are sorted by
distance to the query, and they are made known and pushed in this order while the queue holds
fewer than `parallel` vertices.  `none` is a panic of `L2Dist`. -/
def fastStart {F : Type} (inp : SearchInputs F) (queryVector : List F) (parallel : Nat)
    (st : SearchState F) : Option (SearchState F) :=
  match inp.StartVertices.mapM (fun v =>
      (L2Dist inp.ops v.Vector queryVector).map fun dist =>
        ({ dist := dist, vertex := v } : VertexWithDist F)) with
  | none => none
  | some fastStartQueue =>
    some ((inp.sortSort fastStartQueue).foldl (fun st v =>
      if st.toBeExploredVertices.length < parallel then
        match mapLookup st.knownVertices v.vertex.Id with
        | some _ => st
        | none =>
          { st with
            knownVertices := mapInsert st.knownVertices v.vertex.Id v.vertex
            toBeExploredVertices := st.toBeExploredVertices ++ [v]
            reachStep := mapInsert st.reachStep v.vertex.Id 0 }
      else st) st)

/-- One round of the loop over `rept` in a step of `SearchKNN`: `m` random ids are added to
the batch when the queue is empty or `benchmarking` is set, and otherwise the neighbors of the
vertex popped from the queue.  `none` is a panic: `rand.Intn(0)`. -/
def exploreOne {F : Type} (inp : SearchInputs F) (benchmarking : Bool)
    (acc : SearchState F × List Int) : Option (SearchState F × List Int) :=
  let st := acc.1
  if st.toBeExploredVertices.length = 0 ∨ benchmarking = true then
    if inp.n = 0 then none
    else
      some ({ st with draws := st.draws + inp.m },
        acc.2 ++ (List.range inp.m).map fun i => ((inp.intn (st.draws + i) : Nat) : Int))
  else
    match inp.heapPop st.toBeExploredVertices with
    | none => none
    | some (item, rest) =>
      let neighbors :=
        match mapLookup st.knownVertices item.vertex.Id with
        | some v => v.Neighbors
        | none => []
      some ({ st with toBeExploredVertices := rest }, acc.2 ++ neighbors)

/-- The loop of a step of `SearchKNN` over the vertices returned by the provider: a vertex
that is not known and whose neighbor list is not all zeroes is made known, with the step as
its reach step, and pushed.  `none` is a panic of `L2Dist`. -/
def absorb {F : Type} (inp : SearchInputs F) (queryVector : List F) (step : Nat)
    (st : SearchState F) (v : Vertex F) : Option (SearchState F) :=
  match mapLookup st.knownVertices v.Id with
  | some _ => some st
  | none =>
    if v.Neighbors.any (fun neighbor => neighbor != 0) then
      match L2Dist inp.ops v.Vector queryVector with
      | none => none
      | some dist =>
        some { st with
          knownVertices := mapInsert st.knownVertices v.Id v
          reachStep := mapInsert st.reachStep v.Id (step : Int)
          toBeExploredVertices := st.toBeExploredVertices ++ [⟨dist, v⟩] }
    else some st

/-- The body of the loop of `SearchKNN` over the steps.  `none` is a panic, one of them
`panic(err)` on an error of the provider. -/
def searchStep {F : Type} (inp : SearchInputs F) (queryVector : List F) (parallel : Nat)
    (benchmarking : Bool) (st : SearchState F) (step : Nat) : Option (SearchState F) :=
  match (List.range parallel).foldlM (fun acc _ => exploreOne inp benchmarking acc)
      (st, []) with
  | none => none
  | some (st, batchQ) =>
    match inp.GetVertexInfo step batchQ with
    | none => none
    | some queryResults =>
      let st := { st with calls := st.calls ++ [batchQ] }
      if benchmarking then some st
      else queryResults.foldlM (absorb inp queryVector step) st

/-- The variables of `SearchKNN` after the loop over the steps. -/
def searchRun {F : Type} (inp : SearchInputs F) (queryVector : List F)
    (maxStep parallel : Nat) (benchmarking : Bool) : Option (SearchState F) :=
  let st : SearchState F :=
    { knownVertices := [], reachStep := [], toBeExploredVertices := [], draws := 0,
      calls := [] }
  let st := if benchmarking then some st else fastStart inp queryVector parallel st
  match st with
  | none => none
  | some st =>
    (List.range maxStep).foldlM (searchStep inp queryVector parallel benchmarking) st

/-- What a call of `SearchKNN` leaves: the two slices returned and the batches handed to
`GetVertexInfo`, in order. -/
structure SearchResult where
  ret : List Int
  stepRet : List Int
  calls : List (List Int)
  deriving DecidableEq

/-- The end of `SearchKNN`: the known vertices are sorted by distance to the query, and
position `i < k` of the results holds the id and the reach step of vertex `i`, or `-1` twice
when there is none.  A key absent from `reachStep` reads as 0. -/
def searchOutput {F : Type} (inp : SearchInputs F) (queryVector : List F) (k : Nat)
    (st : SearchState F) : Option SearchResult :=
  match st.knownVertices.mapM (fun e =>
      (L2Dist inp.ops e.2.Vector queryVector).map fun dist =>
        ({ dist := dist, vertex := e.2 } : VertexWithDist F)) with
  | none => none
  | some allKnownVertices =>
    let allKnownVertices := inp.sortSlice allKnownVertices
    let ret := (List.range k).map fun i =>
      match allKnownVertices[i]? with
      | none => (-1 : Int)
      | some v => v.vertex.Id
    let stepRet := (List.range k).map fun i =>
      match allKnownVertices[i]? with
      | none => (-1 : Int)
      | some v => (mapLookup st.reachStep v.vertex.Id).getD 0
    some { ret := ret, stepRet := stepRet, calls := st.calls }

/-- The method `GraphANNFrontend.SearchKNN`. -/
def SearchKNN {F : Type} (inp : SearchInputs F) (queryVector : List F)
    (k maxStep parallel : Nat) (benchmarking : Bool) : Option SearchResult :=
  match searchRun inp queryVector maxStep parallel benchmarking with
  | none => none
  | some st => searchOutput inp queryVector k st

/-- What is assumed of the library calls of `SearchKNN` and of a provider that serves
vertices: the two sorts rearrange their input, `heap.Pop` returns on a queue that is not
empty, the provider answers every call, and `L2Dist` returns on the vector of every vertex
that the search meets, whose id is not negative. -/
structure SearchOK {F : Type} (inp : SearchInputs F) (queryVector : List F) : Prop where
  sortSort : ∀ l, (inp.sortSort l).Perm l
  sortSlice : ∀ l, (inp.sortSlice l).Perm l
  heapPop : ∀ q, q ≠ [] → ∃ item rest, inp.heapPop q = some (item, rest)
  metadata : 0 < inp.n
  start : ∀ v, v ∈ inp.StartVertices →
    0 ≤ v.Id ∧ (L2Dist inp.ops v.Vector queryVector).isSome = true
  info : ∀ t batch, ∃ vs, inp.GetVertexInfo t batch = some vs ∧
    ∀ v, v ∈ vs → 0 ≤ v.Id ∧ (L2Dist inp.ops v.Vector queryVector).isSome = true

/-- What holds of the variables of `SearchKNN` throughout a search: a known vertex is kept
under its own id, which is not negative, no id is kept twice, `L2Dist` returns on the vector
of a known vertex, and no reach step is negative. -/
structure SearchInv {F : Type} (ops : Float32Ops F) (queryVector : List F)
    (st : SearchState F) : Prop where
  keys : (st.knownVertices.map fun e => e.1).Nodup
  ids : ∀ e, e ∈ st.knownVertices →
    e.2.Id = e.1 ∧ 0 ≤ e.1 ∧ (L2Dist ops e.2.Vector queryVector).isSome = true
  steps : ∀ e, e ∈ st.reachStep → 0 ≤ e.2

/-! ### Concrete inputs of the search -/

/-- Insertion sort of an `exploreQueue` by distance. -/
def sortQueue (l : List (VertexWithDist Int)) : List (VertexWithDist Int) :=
  l.insertionSort fun a b => a.dist ≤ b.dist

/-- The first element of least distance of a queue, and the others. -/
def popLeast : List (VertexWithDist Int) → Option (VertexWithDist Int × List (VertexWithDist Int))
  | [] => none
  | x :: q =>
    match popLeast q with
    | none => some (x, [])
    | some (y, rest) => if y.dist < x.dist then some (y, x :: rest) else some (x, q)

/-- The graph on the five vectors `pruneVectors` with the rows of neighbors
`[1, 3]`, `[0, 2]`, `[1, 4]`, `[0, 1]`, `[2, 1]`. -/
def searchGraph : List (List Int) := [[1, 3], [0, 2], [1, 4], [0, 1], [2, 1]]

/-- Vertex `i` of `searchGraph`. -/
def searchVertex (i : Nat) : Vertex Int :=
  { Id := (i : Int), Neighbors := searchGraph.getD i [], Vector := pruneVectors.getD i [] }

/-- The query vector `(3, 0, …)`, in fifths. -/
def searchQuery : List Int := [15, 0, 0, 0, 0, 0, 0, 0]

/-- A provider that serves the vertices of `searchGraph` (for an id, the vertex numbered by
the id modulo 5), the start vertices 0 and 1, and the draws `rand.Intn(5) = t mod 5`. -/
def demoSearch : SearchInputs Int :=
  { ops := fifths, n := 5, m := 2
    StartVertices := [searchVertex 0, searchVertex 1]
    GetVertexInfo := fun _ batch => some (batch.map fun id => searchVertex (id.toNat % 5))
    intn := fun t => t % 5
    sortSort := sortQueue, sortSlice := sortQueue, heapPop := popLeast }

/-! ## Further instances and specification-side notions -/

/-- The instance that `NewSimpleBatchPianoPIR` builds for `batchDB` and batches of 8: four
partitions of 4 entries. -/
def quadBatchNew : Option SimpleBatchPianoPIR :=
  NewSimpleBatchPianoPIR smallFloat 16 8 8 batchDB 0 (fun i => i) (fun i => i + 7)

/-- The instance `quadBatchNew` after `Preprocessing`. -/
def quadBatch : SimpleBatchPianoPIR :=
  ((quadBatchNew.getD emptyBatch).Preprocessing demoAes (fun i => i + 1)
    (fun i c s => i + c + s)).getD emptyBatch

/-- The result of the batch `[3, 12]` on `demoBatch`: one index in each partition. -/
def demoBatchFirst : BatchQueryResult :=
  (demoBatch.Query demoAes [3, 12] demoDraws).getD
    { pir := emptyBatch, ret := [], err := none, calls := [] }

/-- The configurations of the clients of the sub-PIRs, in the order of the partitions. -/
def subConfigs (subPIR : List PianoPIR) : List PianoPIRConfig :=
  subPIR.map fun q => q.client.config

/-- The instances reached from a batch instance by calls of `Preprocessing`,
`DummyPreprocessing` and `Query` that return. -/
inductive BatchReach (aes : Nat → Nat → Nat) :
    SimpleBatchPianoPIR → SimpleBatchPianoPIR → Prop where
  | refl (p : SimpleBatchPianoPIR) : BatchReach aes p p
  | prep (p p' p'' : SimpleBatchPianoPIR) (key : Nat → Nat) (rng : Nat → Nat → Nat → Nat) :
      BatchReach aes p p' → p'.Preprocessing aes key rng = some p'' → BatchReach aes p p''
  | dummy (p p' p'' : SimpleBatchPianoPIR) (key : Nat → Nat) :
      BatchReach aes p p' → p'.DummyPreprocessing key = some p'' → BatchReach aes p p''
  | query (p p' : SimpleBatchPianoPIR) (idx : List Nat) (rnd : BatchDraws)
      (r : BatchQueryResult) :
      BatchReach aes p p' → p'.Query aes idx rnd = some r → BatchReach aes p r.pir

/-- The instance that `NewSimpleBatchPianoPIR` builds for `DBSize = 2^64 - 1`, entries of 4
bytes (so that `rawDB` is empty) and batches of 4. -/
def wrapBatchNew : Option SimpleBatchPianoPIR :=
  NewSimpleBatchPianoPIR smallFloat (2 ^ 64 - 1) 4 4 ⟨0, fun _ => 0⟩ 0 (fun i => i)
    (fun i => i + 7)

/-- The client of the seven-entry database as `Initialization` leaves it, before any chunk
has been folded in. -/
def demoInit : PianoPIRClient := (demoClient.Initialization 1).getD demoClient

/-- The query for index 3 on `demoInit`. -/
def coldFirst : QueryResult :=
  (demoInit.Query demoAes 3 demoServer true demoRand).getD
    { client := demoClient, ret := [], err := none, sent := [] }

/-! ### The pruning rule as the specification words it -/

/-- The diversity test of the specification for a candidate `c` of vertex `u`, given the
accepted candidates `A` and the distance `l2`: `α · l2(p, c) ≥ l2(u, c)` for every `p` in `A`.
On `float32` values `x ≥ y` is read as the negation of `x < y`, which it is for numbers. -/
def specDiverse {F : Type} (ops : Float32Ops F) (l2 : Int → Int → F) (alpha : F) (u : Int)
    (A : List Int) (c : Int) : Bool :=
  A.all fun p => !ops.lt (ops.mul alpha (l2 p c)) (l2 u c)

/-- The scan of the specification over the candidates in ascending distance to `u`, from the
lists `A` and `D` built so far: the scan stops once `A` holds `m` candidates; a candidate goes
to `A` when it passes the diversity test, which the nearest one does since `A` is empty, and
to `D` otherwise. -/
def specScan {F : Type} (ops : Float32Ops F) (l2 : Int → Int → F) (alpha : F) (u : Int)
    (m : Nat) : List Int → List Int → List Int → List Int × List Int
  | [], A, D => (A, D)
  | c :: rest, A, D =>
    if A.length = m then (A, D)
    else if specDiverse ops l2 alpha u A c then specScan ops l2 alpha u m rest (A ++ [c]) D
    else specScan ops l2 alpha u m rest A (D ++ [c])

/-- The result of pruning in the words of the specification: the first `m` elements of
`A ++ D`, for the lists `A` and `D` of the scan of the candidates `sorted`, which are in
ascending distance to `u`. -/
def specPrune {F : Type} (ops : Float32Ops F) (l2 : Int → Int → F) (alpha : F) (u : Int)
    (m : Nat) (sorted : List Int) : List Int :=
  ((specScan ops l2 alpha u m sorted [] []).1 ++ (specScan ops l2 alpha u m sorted [] []).2).take m

/-- The distance between two of the vectors `pruneVectors`, 0 for an id that is not one of
theirs. -/
def pruneDist (a b : Int) : Int := (vertexDist fifths pruneVectors a b).getD 0

/-- What holds of the variables of `SearchKNN` when every vertex that the provider serves has
`m` neighbors: every known vertex has `m` neighbors, and every vertex of the queue is
known. -/
structure DegreeInv {F : Type} (m : Nat) (st : SearchState F) : Prop where
  known : ∀ e, e ∈ st.knownVertices → e.2.Neighbors.length = m
  queue : ∀ x, x ∈ st.toBeExploredVertices → ∃ e, e ∈ st.knownVertices ∧ e.1 = x.vertex.Id

/-! ### `ComputeRecall` (src/graphann/build_graph.go) -/

/-- The `float32` operations of `ComputeRecall`: the conversion `float32(n)` of an `int`,
`a + b` and `a / b`. -/
structure RecallOps (F : Type) where
  ofInt : Int → F
  add : F → F → F
  div : F → F → F

/-- The loop of `ComputeRecall` that looks for the answer `x` among `gnd[i][l]`, `l` in the
list of indices: `true` at the first index that holds `x`; `none` is the panic on an index
outside the row. -/
def scanGnd (x : Int) (g : List Int) : List Nat → Option Bool
  | [] => some false
  | l :: ls =>
    match g[l]? with
    | none => none
    | some y => if x == y then some true else scanGnd x g ls

/-- Round `j` of the loop of `ComputeRecall` over the answers of query `i`: whether the
answer `response[i][j]` is counted as a hit.  It is not when it repeats an earlier answer;
otherwise it is when it is found among the first `k` entries of `gnd[i]`.  `gndRow` is
`gnd[i]`, `none` when `gnd` has no such row; the result `none` is a panic. -/
def hitAt (gndRow : Option (List Int)) (row : List Int) (k j : Nat) : Option Bool :=
  match row[j]? with
  | none => none
  | some x =>
    if (List.range j).any (fun l => row[l]? == some x) then some false
    else
      match gndRow with
      | none => none
      | some g => scanGnd x g (List.range k)

/-- The value of `hit` after the loop of `ComputeRecall` over the `k` answers of a query. -/
def rowHits (gndRow : Option (List Int)) (row : List Int) (k : Nat) : Option Nat :=
  (List.range k).foldlM (fun hit j =>
    (hitAt gndRow row k j).map fun b => if b then hit + 1 else hit) 0

/-- The function `ComputeRecall`, for `k ≥ 0`; `total` is the variable `recall` of the source,
and `none` is a panic on an index out of range. -/
def ComputeRecall {F : Type} (ops : RecallOps F) (gnd response : List (List Int)) (k : Nat) :
    Option F :=
  let numQueries := response.length
  match (List.range numQueries).foldlM (fun total i =>
      match response[i]? with
      | none => none
      | some row =>
        (rowHits gnd[i]? row k).map fun (hit : Nat) =>
          ops.add total (ops.div (ops.ofInt (hit : Int)) (ops.ofInt (k : Int))))
      (ops.ofInt 0) with
  | none => none
  | some total => some (ops.div total (ops.ofInt (numQueries : Int)))

/-- The number `hit_i` of the specification for the answers `row` of a query and its ground
truth `g`: the positions `j < k` whose answer does not occur at an earlier position of `row`
and occurs among the first `k` entries of `g`. -/
def specHit (g row : List Int) (k : Nat) : Nat :=
  ((List.range k).filter fun j =>
    match row[j]? with
    | none => false
    | some x => !(row.take j).contains x && (g.take k).contains x).length

/-- The numbers `hit_i` of the queries of `response`. -/
def specHits (gnd response : List (List Int)) (k : Nat) : List Nat :=
  List.zipWith (fun g row => specHit g row k) gnd response

/-- The arithmetic of `ComputeRecall` carried out on rational numbers, without rounding.
`none` stands for a value that is not a finite number, as the quotient by zero is in
`float32`: `0 / 0` is NaN and `x / 0` is infinite. -/
def exactRecall : RecallOps (Option ℚ) :=
  { ofInt := fun n => some (n : ℚ)
    add := fun a b =>
      match a, b with
      | some x, some y => some (x + y)
      | _, _ => none
    div := fun a b =>
      match a, b with
      | some x, some y => if y = 0 then none else some (x / y)
      | _, _ => none }

/-! ### The hit hint as the specification words it -/

/-- The condition of the specification on a primary hint `h` for a query of index `idx`, with
`c = idx / ChunkSize`: `PRF(longKey, shortTag_h, c) mod ChunkSize = idx mod ChunkSize`, and the
program point of `h` is unset (it is `DefaultProgramPoint`) or lies in another chunk. -/
def PianoPIRClient.hitCondition (aes : Nat → Nat → Nat) (c : PianoPIRClient) (idx h : Nat) :
    Prop :=
  PRFEvalWithLongKeyAndTag aes c.longKey (c.primaryShortTag.getD h 0)
      (idx / c.config.ChunkSize) % c.config.ChunkSize = idx % c.config.ChunkSize ∧
    (c.primaryProgramPoint.getD h 0 = DefaultProgramPoint ∨
      c.primaryProgramPoint.getD h 0 / c.config.ChunkSize ≠ idx / c.config.ChunkSize)

/-! ## Lemmas on lists and tables -/

theorem xorSlices_length (d s : List Nat) (n : Nat) : (xorSlices d s n).length = d.length := by
  induction d generalizing s n with
  | nil => simp [xorSlices]
  | cons x xs ih =>
    cases s with
    | nil => simp [xorSlices]
    | cons y ys =>
      cases n with
      | zero => simp [xorSlices]
      | succ m => simp [xorSlices, ih]

theorem xorSlices_eq_zipWith (d s : List Nat) (n : Nat) (hd : d.length = n) (hs : s.length = n) :
    xorSlices d s n = List.zipWith (· ^^^ ·) d s := by
  induction d generalizing s n with
  | nil => simp [xorSlices]
  | cons x xs ih =>
    cases s with
    | nil => simp at hs; subst hs; simp at hd
    | cons y ys =>
      cases n with
      | zero => simp at hd
      | succ m =>
        simp only [List.length_cons, Nat.add_right_cancel_iff] at hd hs
        simp [xorSlices, ih ys m hd hs]

theorem copySlice_eq (d s : List Nat) (h : d.length = s.length) : copySlice d s = s := by
  induction d generalizing s with
  | nil => cases s <;> simp_all [copySlice]
  | cons x xs ih =>
    cases s with
    | nil => simp at h
    | cons y ys => simp at h; simp [copySlice, ih ys h]

theorem Slice.length_sub (s : Slice) (a b : Nat) : (s.sub a b).length = b - a := by
  simp [Slice.sub]

theorem length_slice (t : List Nat) (a b : Nat) (hb : b ≤ t.length) :
    (slice t a b).length = b - a := by
  simp [slice]; omega

theorem getElem?_slice (t : List Nat) (a b k : Nat) :
    (slice t a b)[k]? = if k < b - a then t[a + k]? else none := by
  simp [slice, List.getElem?_take]

/-- Words of a table after the words `[a, b)` were replaced by `mid`. -/
theorem getElem?_splice (t mid : List Nat) (a b k : Nat) (hab : a ≤ b) (hb : b ≤ t.length)
    (hm : mid.length = b - a) :
    (t.take a ++ mid ++ t.drop b)[k]? =
      if k < a then t[k]? else if k < b then mid[k - a]? else t[k]? := by
  have hta : (t.take a).length = a := by simp; omega
  by_cases h1 : k < a
  · rw [List.append_assoc, List.getElem?_append_left (by omega)]
    simp [h1, List.getElem?_take]
  · by_cases h2 : k < b
    · rw [List.getElem?_append_left (by simp; omega), List.getElem?_append_right (by omega)]
      simp [h1, h2, hta]
    · rw [List.getElem?_append_right (by simp; omega)]
      simp [h1, h2]
      congr 1
      omega

theorem length_splice (t mid : List Nat) (a b : Nat) (hab : a ≤ b) (hb : b ≤ t.length)
    (hm : mid.length = b - a) : (t.take a ++ mid ++ t.drop b).length = t.length := by
  simp; omega

theorem slice_splice_same (t mid : List Nat) (a b : Nat) (hab : a ≤ b) (hb : b ≤ t.length)
    (hm : mid.length = b - a) : slice (t.take a ++ mid ++ t.drop b) a b = mid := by
  apply List.ext_getElem?
  intro k
  rw [getElem?_slice, getElem?_splice t mid a b _ hab hb hm]
  by_cases hk : k < b - a
  · have : ¬ (a + k < a) := by omega
    have h2 : a + k < b := by omega
    simp [hk, h2]
  · simp [hk]
    omega

theorem slice_splice_other (t mid : List Nat) (a b a' b' : Nat) (hab : a ≤ b)
    (hb : b ≤ t.length) (hm : mid.length = b - a) (hd : b' ≤ a ∨ b ≤ a') :
    slice (t.take a ++ mid ++ t.drop b) a' b' = slice t a' b' := by
  apply List.ext_getElem?
  intro k
  rw [getElem?_slice, getElem?_slice, getElem?_splice t mid a b _ hab hb hm]
  by_cases hk : k < b' - a'
  · simp only [hk, if_true]
    rcases hd with hd | hd
    · have : a' + k < a := by omega
      simp [this]
    · have h1 : ¬ (a' + k < a) := by omega
      have h2 : ¬ (a' + k < b) := by omega
      simp [h1, h2]
  · simp [hk]

theorem length_xorOver (E : Nat) (l : List Nat) (f : Nat → List Nat) :
    (xorOver E l f).length = E := by
  simp [xorOver]

theorem xorOver_nil (E : Nat) (f : Nat → List Nat) : xorOver E [] f = List.replicate E 0 := by
  apply List.ext_getElem?
  intro k
  by_cases hk : k < E <;> simp [xorOver, hk, List.getElem?_replicate]

theorem foldr_xor_append_singleton (l : List Nat) (x : Nat) :
    (l ++ [x]).foldr (· ^^^ ·) 0 = l.foldr (· ^^^ ·) 0 ^^^ x := by
  induction l with
  | nil => simp
  | cons y ys ih =>
    simp only [List.cons_append, List.foldr_cons, ih, Nat.xor_assoc]

theorem xorOver_append_singleton (E : Nat) (l : List Nat) (x : Nat) (f : Nat → List Nat)
    (hx : (f x).length = E) :
    xorOver E (l ++ [x]) f = List.zipWith (· ^^^ ·) (xorOver E l f) (f x) := by
  apply List.ext_getElem?
  intro k
  by_cases hk : k < E
  · have hk2 : k < (f x).length := by omega
    simp only [xorOver, List.map_append, List.map_cons, List.map_nil, foldr_xor_append_singleton,
      List.getElem?_map, List.getElem?_range hk, Option.map_some', List.getElem?_zipWith,
      List.getElem?_eq_getElem hk2, List.getD_eq_getElem?_getD, Option.getD_some]
  · have h1 : (xorOver E (l ++ [x]) f).length ≤ k := by rw [length_xorOver]; omega
    have h2 : (List.zipWith (· ^^^ ·) (xorOver E l f) (f x)).length ≤ k := by
      rw [List.length_zipWith, length_xorOver]; omega
    rw [List.getElem?_eq_none h1, List.getElem?_eq_none h2]

theorem EntryXor_xorOver (E : Nat) (l : List Nat) (x : Nat) (f : Nat → List Nat)
    (hx : (f x).length = E) :
    EntryXor (xorOver E l f) (f x) E = xorOver E (l ++ [x]) f := by
  rw [xorOver_append_singleton E l x f hx, EntryXor,
    xorSlices_eq_zipWith _ _ E (length_xorOver E l f) hx]

theorem EntryXor_zero (a : List Nat) (E : Nat) : EntryXor a (zeroEntry E) E = a := by
  unfold EntryXor zeroEntry
  induction a generalizing E with
  | nil => simp [xorSlices]
  | cons x xs ih =>
    cases E with
    | zero => simp [xorSlices]
    | succ n => simp [xorSlices, List.replicate_succ, ih n]

theorem length_dbEntry (rawDB : Slice) (E idx : Nat) : (dbEntry rawDB E idx).length = E := by
  simp [dbEntry, Slice.sub, Nat.succ_mul]

theorem length_paddedEntry (rawDB : Slice) (E DBSize idx : Nat) :
    (paddedEntry rawDB E DBSize idx).length = E := by
  unfold paddedEntry
  split
  · exact length_dbEntry rawDB E idx
  · simp [zeroEntry]

/-- The loop of `PrivateQuery` over the first `n` chunks. -/
theorem PrivateQuery_loop (s : PianoPIRServer) (offsets : List Nat) (n : Nat) :
    (List.range n).foldl (fun ret i =>
      let idx := offsets.getD i 0 + i * s.config.ChunkSize
      if idx ≥ s.config.DBSize then ret
      else EntryXor ret
        (s.rawDB.sub (idx * s.config.DBEntrySize) ((idx + 1) * s.config.DBEntrySize))
        s.config.DBEntrySize) (List.replicate s.config.DBEntrySize 0) =
    xorOver s.config.DBEntrySize (List.range n) (fun i =>
      paddedEntry s.rawDB s.config.DBEntrySize s.config.DBSize
        (i * s.config.ChunkSize + offsets.getD i 0)) := by
  induction n with
  | zero => simp [xorOver_nil]
  | succ n ih =>
    rw [List.range_succ, List.foldl_append, ih]
    simp only [List.foldl_cons, List.foldl_nil]
    rw [← EntryXor_xorOver s.config.DBEntrySize (List.range n) n (fun i =>
      paddedEntry s.rawDB s.config.DBEntrySize s.config.DBSize
        (i * s.config.ChunkSize + offsets.getD i 0)) (length_paddedEntry _ _ _ _)]
    have hc : offsets.getD n 0 + n * s.config.ChunkSize = n * s.config.ChunkSize + offsets.getD n 0 :=
      Nat.add_comm _ _
    by_cases h : offsets.getD n 0 + n * s.config.ChunkSize ≥ s.config.DBSize
    · have h' : ¬ (n * s.config.ChunkSize + offsets.getD n 0 < s.config.DBSize) := by omega
      rw [if_pos h]
      simp only [paddedEntry, h', if_false, EntryXor_zero]
    · have h' : n * s.config.ChunkSize + offsets.getD n 0 < s.config.DBSize := by omega
      rw [if_neg h]
      simp only [paddedEntry, h', if_true, dbEntry, hc]

theorem PrivateQuery_eq (s : PianoPIRServer) (offsets : List Nat) :
    s.PrivateQuery offsets =
      (xorOver s.config.DBEntrySize (List.range s.config.SetSize) (fun i =>
        paddedEntry s.rawDB s.config.DBEntrySize s.config.DBSize
          (i * s.config.ChunkSize + offsets.getD i 0)), none) := by
  unfold PianoPIRServer.PrivateQuery
  simp only []
  rw [PrivateQuery_loop]

theorem copySlice_length (d s : List Nat) : (copySlice d s).length = d.length := by
  induction d generalizing s with
  | nil => simp [copySlice]
  | cons x xs ih =>
    cases s with
    | nil => simp [copySlice]
    | cons y ys => simp [copySlice, ih]

theorem EntryXor_length (a b : List Nat) (n : Nat) : (EntryXor a b n).length = a.length :=
  xorSlices_length a b n

theorem seg_le (E i H : Nat) (h : i < H) : (i + 1) * E ≤ H * E :=
  Nat.mul_le_mul_right E h

theorem seg_disjoint (E i j : Nat) (h : i ≠ j) : (j + 1) * E ≤ i * E ∨ (i + 1) * E ≤ j * E := by
  rcases Nat.lt_or_gt_of_ne h with h | h
  · right; exact Nat.mul_le_mul_right E h
  · left; exact Nat.mul_le_mul_right E h

theorem seg_width (E i : Nat) : (i + 1) * E - i * E = E := by
  rw [Nat.succ_mul]; omega

/-- A loop that rewrites segment `i` of a table of `H` segments of `E` words, `i = 0..n-1`,
from the old content of that segment alone. -/
theorem segFold (E H : Nat) (g : List Nat → Nat → List Nat)
    (hg : ∀ x i, (g x i).length = x.length) (t : List Nat) (ht : t.length = H * E)
    (n : Nat) (hn : n ≤ H) :
    ((List.range n).foldl (fun t i =>
        t.take (i * E) ++ g (slice t (i * E) ((i + 1) * E)) i ++ t.drop ((i + 1) * E)) t).length
      = H * E ∧
    ∀ j, j < H →
      slice ((List.range n).foldl (fun t i =>
        t.take (i * E) ++ g (slice t (i * E) ((i + 1) * E)) i ++ t.drop ((i + 1) * E)) t)
        (j * E) ((j + 1) * E) =
      if j < n then g (slice t (j * E) ((j + 1) * E)) j else slice t (j * E) ((j + 1) * E) := by
  induction n with
  | zero => simp [ht]
  | succ n ih =>
    obtain ⟨hl, hs⟩ := ih (by omega)
    rw [List.range_succ, List.foldl_append]
    simp only [List.foldl_cons, List.foldl_nil]
    generalize (List.range n).foldl (fun t i =>
        t.take (i * E) ++ g (slice t (i * E) ((i + 1) * E)) i ++ t.drop ((i + 1) * E)) t = u
      at hl hs ⊢
    have hnH : n < H := by omega
    have hb : (n + 1) * E ≤ u.length := by rw [hl]; exact seg_le E n H hnH
    have hab : n * E ≤ (n + 1) * E := Nat.mul_le_mul_right E (by omega)
    have hm : (g (slice u (n * E) ((n + 1) * E)) n).length = (n + 1) * E - n * E := by
      rw [hg, length_slice u _ _ hb]
    refine ⟨by rw [length_splice u _ _ _ hab hb hm, hl], ?_⟩
    intro j hj
    by_cases hjn : j = n
    · subst hjn
      rw [slice_splice_same u _ _ _ hab hb hm, hs j hj]
      simp
    · rw [slice_splice_other u _ _ _ _ _ hab hb hm (seg_disjoint E n j (Ne.symm hjn)), hs j hj]
      have : (j < n + 1) = (j < n) := by
        apply propext; constructor <;> intro h <;> omega
      simp only [this]

/-- A loop that replaces row `i` of a table of rows, `i = 0..n-1`, skipping the rows for which
`p` holds, from the old content of that row alone. -/
theorem rowFold (p : Nat → Prop) [DecidablePred p] (g : Nat → List Nat → List Nat)
    (b : List (List Nat)) (n : Nat) (hn : n ≤ b.length) :
    ((List.range n).foldl (fun b i => if p i then b else b.set i (g i (b.getD i []))) b).length
      = b.length ∧
    ∀ i, i < b.length →
      ((List.range n).foldl (fun b i => if p i then b else b.set i (g i (b.getD i []))) b).getD i []
        = if i < n ∧ ¬ p i then g i (b.getD i []) else b.getD i [] := by
  induction n with
  | zero => simp
  | succ n ih =>
    obtain ⟨hl, hs⟩ := ih (by omega)
    rw [List.range_succ, List.foldl_append]
    simp only [List.foldl_cons, List.foldl_nil]
    generalize (List.range n).foldl
      (fun b i => if p i then b else b.set i (g i (b.getD i []))) b = u at hl hs ⊢
    by_cases hp : p n
    · rw [if_pos hp]
      refine ⟨hl, ?_⟩
      intro i hi
      rw [hs i hi]
      by_cases hin : i = n
      · subst hin; simp [hp]
      · have : (i < n + 1) = (i < n) := by
          apply propext; constructor <;> intro h <;> omega
        simp only [this]
    · rw [if_neg hp]
      refine ⟨by simp [hl], ?_⟩
      intro i hi
      by_cases hin : i = n
      · subst hin
        have hi' : i < u.length := by omega
        simp only [List.getD_eq_getElem?_getD, List.getElem?_set_self hi', Option.getD_some]
        have := hs i hi
        simp only [List.getD_eq_getElem?_getD] at this
        rw [this]
        simp [hp]
      · have hne : n ≠ i := Ne.symm hin
        simp only [List.getD_eq_getElem?_getD, List.getElem?_set_ne hne]
        have := hs i hi
        simp only [List.getD_eq_getElem?_getD] at this
        rw [this]
        have : (i < n + 1) = (i < n) := by
          apply propext; constructor <;> intro h <;> omega
        simp only [this]

theorem chunkMask_eq (config : PianoPIRConfig) (h0 : 0 < config.ChunkSize)
    (h1 : config.ChunkSize ≤ 2 ^ 64) : chunkMask config = config.ChunkSize - 1 := by
  unfold chunkMask
  have : config.ChunkSize + 2 ^ 64 - 1 = (config.ChunkSize - 1) + 2 ^ 64 := by omega
  rw [this, Nat.add_mod_right, Nat.mod_eq_of_lt (by omega)]

theorem and_chunkMask_lt (config : PianoPIRConfig) (h0 : 0 < config.ChunkSize)
    (h1 : config.ChunkSize ≤ 2 ^ 64) (x : Nat) : x &&& chunkMask config < config.ChunkSize := by
  rw [chunkMask_eq config h0 h1]
  have := @Nat.and_le_right x (config.ChunkSize - 1)
  omega

theorem and_chunkMask_eq_mod (config : PianoPIRConfig) (k : Nat) (hk : config.ChunkSize = 2 ^ k)
    (h1 : k ≤ 64) (x : Nat) : x &&& chunkMask config = x % config.ChunkSize := by
  have h0 : 0 < config.ChunkSize := by rw [hk]; exact Nat.pow_pos (by decide)
  have h2 : config.ChunkSize ≤ 2 ^ 64 := by rw [hk]; exact Nat.pow_le_pow_right (by decide) h1
  rw [chunkMask_eq config h0 h2, hk, Nat.and_pow_two_sub_one_eq_mod]

/-- The entry at offset `off` of the chunk handed to `UpdatePreprocessing` is the entry of the
zero-padded database. -/
theorem preprocessingChunk_sub (config : PianoPIRConfig) (rawDB : Slice)
    (hdb : rawDB.len = config.DBSize * config.DBEntrySize) (i off : Nat)
    (hoff : off < config.ChunkSize) :
    (preprocessingChunk config rawDB i).sub (off * config.DBEntrySize)
        ((off + 1) * config.DBEntrySize) =
      paddedEntry rawDB config.DBEntrySize config.DBSize (i * config.ChunkSize + off) := by
  apply List.ext_getElem?
  intro k
  by_cases hk : k < config.DBEntrySize
  · have hidx : i * config.ChunkSize * config.DBEntrySize + (off * config.DBEntrySize + k) =
        (i * config.ChunkSize + off) * config.DBEntrySize + k := by
      rw [Nat.add_mul]; omega
    have hw := seg_width config.DBEntrySize off
    have hw2 := seg_width config.DBEntrySize (i * config.ChunkSize + off)
    unfold preprocessingChunk paddedEntry dbEntry Slice.sub zeroEntry
    simp only [hw, hw2]
    by_cases hfit : (i + 1) * config.ChunkSize * config.DBEntrySize > rawDB.len
    · simp only [hfit, if_true, List.getElem?_map, List.getElem?_range hk, Option.map_some', hidx]
      by_cases hin : i * config.ChunkSize + off < config.DBSize
      · have : (i * config.ChunkSize + off + 1) * config.DBEntrySize ≤
            config.DBSize * config.DBEntrySize := Nat.mul_le_mul_right _ hin
        have h2 : ¬ ((i * config.ChunkSize + off) * config.DBEntrySize + k ≥ rawDB.len) := by
          rw [Nat.succ_mul] at this; omega
        simp [hin, h2, hk]
      · have : config.DBSize * config.DBEntrySize ≤
            (i * config.ChunkSize + off) * config.DBEntrySize :=
          Nat.mul_le_mul_right _ (by omega)
        have h2 : (i * config.ChunkSize + off) * config.DBEntrySize + k ≥ rawDB.len := by omega
        simp [hin, h2, hk]
    · have hfit' : (i + 1) * config.ChunkSize * config.DBEntrySize ≤
          config.DBSize * config.DBEntrySize := by omega
      have hle : (i + 1) * config.ChunkSize ≤ config.DBSize :=
        Nat.le_of_mul_le_mul_right hfit' (by omega)
      have hin : i * config.ChunkSize + off < config.DBSize := by
        rw [Nat.succ_mul] at hle; omega
      simp only [hfit, if_false, hin, if_true, List.getElem?_map, List.getElem?_range hk,
        Option.map_some', hidx]
  · have h1 : ((preprocessingChunk config rawDB i).sub (off * config.DBEntrySize)
        ((off + 1) * config.DBEntrySize)).length ≤ k := by
      rw [Slice.length_sub, seg_width]; omega
    have h2 : (paddedEntry rawDB config.DBEntrySize config.DBSize
        (i * config.ChunkSize + off)).length ≤ k := by
      rw [length_paddedEntry]; omega
    rw [List.getElem?_eq_none h1, List.getElem?_eq_none h2]

theorem slice_replicate_zero (n E i : Nat) (h : i < n) :
    slice (List.replicate (n * E) 0) (i * E) ((i + 1) * E) = List.replicate E 0 := by
  have h1 := seg_le E i n h
  have h2 := seg_width E i
  apply List.ext_getElem?
  intro k
  rw [getElem?_slice, h2]
  by_cases hk : k < E
  · have : i * E + k < n * E := by rw [Nat.succ_mul] at h1; omega
    simp [hk, List.getElem?_replicate, this]
  · simp [hk, List.getElem?_replicate]

theorem getD_replicate_lt {α : Type} (n i : Nat) (x d : α) (h : i < n) :
    (List.replicate n x).getD i d = x := by
  simp [List.getElem?_replicate, h]

theorem getD_map_range {α : Type} (n i : Nat) (f : Nat → α) (d : α) (h : i < n) :
    ((List.range n).map f).getD i d = f i := by
  simp [List.getElem?_range h]

@[simp] theorem initTables_config (c : PianoPIRClient) (key : Nat) :
    (c.initTables key).config = c.config := rfl

@[simp] theorem initTables_primaryHintNum (c : PianoPIRClient) (key : Nat) :
    (c.initTables key).primaryHintNum = c.primaryHintNum := rfl

@[simp] theorem initTables_maxQueryPerChunk (c : PianoPIRClient) (key : Nat) :
    (c.initTables key).maxQueryPerChunk = c.maxQueryPerChunk := rfl

/-- With entries of at least one word no index of `Initialization` is out of range. -/
theorem Initialization_of_pos (c : PianoPIRClient) (key : Nat) (hE : 0 < c.config.DBEntrySize) :
    c.Initialization key = some (c.initTables key) := by
  unfold PianoPIRClient.Initialization
  have h1 : ¬ c.primaryHintNum * c.config.DBEntrySize < c.primaryHintNum :=
    Nat.not_lt.mpr (Nat.le_mul_of_pos_right _ hE)
  have h2 : ¬ (0 < c.config.SetSize ∧
      c.maxQueryPerChunk * c.config.DBEntrySize < c.maxQueryPerChunk) :=
    fun h => Nat.not_lt.mpr (Nat.le_mul_of_pos_right _ hE) h.2
  rw [if_neg h1, if_neg h2]

/-- A run of `Initialization` that returns leaves the tables of `initTables`. -/
theorem Initialization_some (c c1 : PianoPIRClient) (key : Nat)
    (h : c.Initialization key = some c1) : c1 = c.initTables key := by
  unfold PianoPIRClient.Initialization at h
  split at h
  · exact absurd h (by simp)
  · split at h
    · exact absurd h (by simp)
    · exact (Option.some.inj h).symm

/-- Whether `Initialization` returns depends on the configuration and on the sizes of the
tables only, which no method changes. -/
theorem Initialization_frame (c c' : PianoPIRClient) (key key' : Nat)
    (hcfg : c'.config = c.config) (hH : c'.primaryHintNum = c.primaryHintNum)
    (hM : c'.maxQueryPerChunk = c.maxQueryPerChunk)
    (h : c.Initialization key = some (c.initTables key)) :
    c'.Initialization key' = some (c'.initTables key') := by
  unfold PianoPIRClient.Initialization at h ⊢
  rw [hcfg, hH, hM]
  split at h
  · exact absurd h (by simp)
  · split at h
    · exact absurd h (by simp)
    · rename_i h1 h2
      rw [if_neg h1, if_neg h2]

/-- `Preprocessing` after an `Initialization` that returns. -/
theorem Preprocessing_of_init (aes : Nat → Nat → Nat) (key : Nat) (rng : Nat → Nat → Nat)
    (c0 c1 : PianoPIRClient) (rawDB : Slice) (h : c0.Initialization key = some c1) :
    c0.Preprocessing aes key rng rawDB =
      if c1.skipPrep then some c1
      else (List.range c1.config.SetSize).foldlM (fun c i =>
        c.UpdatePreprocessing aes (rng i) i (preprocessingChunk c.config rawDB i)) c1 := by
  unfold PianoPIRClient.Preprocessing
  rw [h]
  rfl

/-- A run of `Preprocessing` that returns has gone through an `Initialization` that
returns. -/
theorem Preprocessing_some (aes : Nat → Nat → Nat) (key : Nat) (rng : Nat → Nat → Nat)
    (c0 c : PianoPIRClient) (rawDB : Slice) (h : c0.Preprocessing aes key rng rawDB = some c) :
    c0.Initialization key = some (c0.initTables key) ∧
    (if (c0.initTables key).skipPrep then some (c0.initTables key)
      else (List.range (c0.initTables key).config.SetSize).foldlM (fun c i =>
        c.UpdatePreprocessing aes (rng i) i (preprocessingChunk c.config rawDB i))
        (c0.initTables key)) = some c := by
  cases hi : c0.Initialization key with
  | none =>
    unfold PianoPIRClient.Preprocessing at h
    rw [hi] at h
    exact absurd h (by simp)
  | some c1 =>
    have h1 := Initialization_some c0 c1 key hi
    subst h1
    refine ⟨rfl, ?_⟩
    rw [← Preprocessing_of_init aes key rng c0 _ rawDB hi]
    exact h

/-- The freshly initialised client satisfies the invariant for zero chunks. -/
theorem PrepInv_init (aes : Nat → Nat → Nat) (rng : Nat → Nat → Nat) (c0 : PianoPIRClient)
    (key : Nat) (rawDB : Slice) :
    PrepInv aes rng (c0.initTables key) rawDB 0 (c0.initTables key) where
  frame := rfl
  parLen := by simp [PianoPIRClient.initTables]
  par := by
    intro i hi
    simp only [List.range_zero, xorOver_nil]
    exact slice_replicate_zero _ _ _ hi
  bLen := by simp [PianoPIRClient.initTables]
  bRow := by
    intro i hi
    simp only [initTables_config, initTables_maxQueryPerChunk] at hi ⊢
    show ((List.replicate _ _).getD i []).length = _
    rw [getD_replicate_lt _ _ _ _ hi]; simp
  bpar := by
    intro i hi j hj
    simp only [initTables_config, initTables_maxQueryPerChunk] at hi hj ⊢
    simp only [List.range_zero, List.filter_nil, xorOver_nil]
    show slice ((List.replicate _ _).getD i []) _ _ = _
    rw [getD_replicate_lt _ _ _ _ hi]
    exact slice_replicate_zero _ _ _ hj
  riLen := by simp [PianoPIRClient.initTables]
  riRow := by
    intro i hi
    simp only [initTables_config, initTables_maxQueryPerChunk] at hi ⊢
    show ((List.replicate _ _).getD i []).length = _
    rw [getD_replicate_lt _ _ _ _ hi]; simp
  ri := by
    intro i hi j hj
    simp only [initTables_config, initTables_maxQueryPerChunk] at hi hj ⊢
    show ((List.replicate _ _).getD i []).getD j 0 = _
    rw [getD_replicate_lt _ _ _ _ hi, getD_replicate_lt _ _ _ _ hj]; simp
  rvLen := by simp [PianoPIRClient.initTables]
  rvRow := by
    intro i hi
    simp only [initTables_config, initTables_maxQueryPerChunk] at hi ⊢
    show ((List.replicate _ _).getD i []).length = _
    rw [getD_replicate_lt _ _ _ _ hi]; simp
  rv := by
    intro i hi j hj
    simp only [initTables_config, initTables_maxQueryPerChunk] at hi hj ⊢
    show slice ((List.replicate _ _).getD i []) _ _ = _
    rw [getD_replicate_lt _ _ _ _ hi]
    simp only [Nat.not_lt_zero, if_false, zeroEntry]
    exact slice_replicate_zero _ _ _ hj

theorem updatePrimaryParity_spec (aes : Nat → Nat → Nat) (c : PianoPIRClient) (chunkId : Nat)
    (chunk : Slice)
    (hlen : c.primaryParity.length = c.primaryHintNum * c.config.DBEntrySize) :
    (c.updatePrimaryParity aes chunkId chunk).length = c.primaryHintNum * c.config.DBEntrySize ∧
    ∀ i, i < c.primaryHintNum →
      slice (c.updatePrimaryParity aes chunkId chunk) (i * c.config.DBEntrySize)
          ((i + 1) * c.config.DBEntrySize) =
        EntryXor (slice c.primaryParity (i * c.config.DBEntrySize) ((i + 1) * c.config.DBEntrySize))
          (chunk.sub (c.hintOffset aes (c.primaryShortTag.getD i 0) chunkId * c.config.DBEntrySize)
            ((c.hintOffset aes (c.primaryShortTag.getD i 0) chunkId + 1) * c.config.DBEntrySize))
          c.config.DBEntrySize := by
  have h := segFold c.config.DBEntrySize c.primaryHintNum
    (fun x i => EntryXor x
      (chunk.sub (c.hintOffset aes (c.primaryShortTag.getD i 0) chunkId * c.config.DBEntrySize)
        ((c.hintOffset aes (c.primaryShortTag.getD i 0) chunkId + 1) * c.config.DBEntrySize))
      c.config.DBEntrySize)
    (fun x i => EntryXor_length _ _ _) c.primaryParity hlen c.primaryHintNum (Nat.le_refl _)
  refine ⟨h.1, ?_⟩
  intro i hi
  have := h.2 i hi
  rw [if_pos hi] at this
  exact this

theorem updateBackupRow_spec (aes : Nat → Nat → Nat) (c : PianoPIRClient) (chunkId : Nat)
    (chunk : Slice) (i : Nat) (row : List Nat)
    (hlen : row.length = c.maxQueryPerChunk * c.config.DBEntrySize) :
    (c.updateBackupRow aes chunkId chunk i row).length =
      c.maxQueryPerChunk * c.config.DBEntrySize ∧
    ∀ j, j < c.maxQueryPerChunk →
      slice (c.updateBackupRow aes chunkId chunk i row) (j * c.config.DBEntrySize)
          ((j + 1) * c.config.DBEntrySize) =
        EntryXor (slice row (j * c.config.DBEntrySize) ((j + 1) * c.config.DBEntrySize))
          (chunk.sub
            (c.hintOffset aes ((c.backupShortTag.getD i []).getD j 0) chunkId *
              c.config.DBEntrySize)
            ((c.hintOffset aes ((c.backupShortTag.getD i []).getD j 0) chunkId + 1) *
              c.config.DBEntrySize))
          c.config.DBEntrySize := by
  have h := segFold c.config.DBEntrySize c.maxQueryPerChunk
    (fun x j => EntryXor x
      (chunk.sub
        (c.hintOffset aes ((c.backupShortTag.getD i []).getD j 0) chunkId * c.config.DBEntrySize)
        ((c.hintOffset aes ((c.backupShortTag.getD i []).getD j 0) chunkId + 1) *
          c.config.DBEntrySize))
      c.config.DBEntrySize)
    (fun x i => EntryXor_length _ _ _) row hlen c.maxQueryPerChunk (Nat.le_refl _)
  refine ⟨h.1, ?_⟩
  intro j hj
  have := h.2 j hj
  rw [if_pos hj] at this
  exact this

theorem updateBackupParity_spec (aes : Nat → Nat → Nat) (c : PianoPIRClient) (chunkId : Nat)
    (chunk : Slice) (hlen : c.backupParity.length = c.config.SetSize) :
    (c.updateBackupParity aes chunkId chunk).length = c.config.SetSize ∧
    ∀ i, i < c.config.SetSize →
      (c.updateBackupParity aes chunkId chunk).getD i [] =
        if i = chunkId then c.backupParity.getD i []
        else c.updateBackupRow aes chunkId chunk i (c.backupParity.getD i []) := by
  have h := rowFold (fun i => i = chunkId) (fun i row => c.updateBackupRow aes chunkId chunk i row)
    c.backupParity c.config.SetSize (by omega)
  refine ⟨by rw [← hlen]; exact h.1, ?_⟩
  intro i hi
  have := h.2 i (by omega)
  by_cases hic : i = chunkId
  · rw [if_pos hic]
    rw [if_neg (by simp [hic])] at this
    exact this
  · rw [if_neg hic]
    rw [if_pos ⟨hi, hic⟩] at this
    exact this

/-- A loop that writes `v j` at position `j` of a row, `j = 0..m-1`. -/
theorem setFold (v : Nat → Nat) (row : List Nat) (m : Nat) (hm : m ≤ row.length) :
    ((List.range m).foldl (fun row j => row.set j (v j)) row).length = row.length ∧
    ∀ j, j < row.length →
      ((List.range m).foldl (fun row j => row.set j (v j)) row).getD j 0 =
        if j < m then v j else row.getD j 0 := by
  induction m with
  | zero => simp
  | succ m ih =>
    obtain ⟨hl, hs⟩ := ih (by omega)
    rw [List.range_succ, List.foldl_append]
    simp only [List.foldl_cons, List.foldl_nil]
    generalize (List.range m).foldl (fun row j => row.set j (v j)) row = u at hl hs ⊢
    refine ⟨by simp [hl], ?_⟩
    intro j hj
    by_cases hjm : j = m
    · subst hjm
      have hj' : j < u.length := by omega
      simp [List.getElem?_set_self hj']
    · have hne : m ≠ j := Ne.symm hjm
      have := hs j hj
      simp only [List.getD_eq_getElem?_getD] at this ⊢
      rw [List.getElem?_set_ne hne, this]
      have : (j < m + 1) = (j < m) := by
        apply propext; constructor <;> intro h <;> omega
      simp only [this]

theorem getD_set_self' {α : Type} (l : List α) (i : Nat) (x d : α) (h : i < l.length) :
    (l.set i x).getD i d = x := by
  simp [List.getElem?_set_self h]

theorem getD_set_ne' {α : Type} (l : List α) (i j : Nat) (x d : α) (h : i ≠ j) :
    (l.set i x).getD j d = l.getD j d := by
  simp [List.getElem?_set_ne h]

theorem filter_ne_range_succ_self (n : Nat) :
    (List.range (n + 1)).filter (fun ch => ch ≠ n) = (List.range n).filter (fun ch => ch ≠ n) := by
  rw [List.range_succ, List.filter_append]
  simp

theorem filter_ne_range_succ_ne (n i : Nat) (h : n ≠ i) :
    (List.range (n + 1)).filter (fun ch => ch ≠ i) =
      (List.range n).filter (fun ch => ch ≠ i) ++ [n] := by
  rw [List.range_succ, List.filter_append]
  simp [h]

theorem hintOffset_congr (aes : Nat → Nat → Nat) (c c1 : PianoPIRClient)
    (hkey : c.longKey = c1.longKey) (hcfg : c.config = c1.config) (tag ch : Nat) :
    c.hintOffset aes tag ch = c1.hintOffset aes tag ch := by
  unfold PianoPIRClient.hintOffset
  rw [hkey, hcfg]

theorem hintOffset_lt (aes : Nat → Nat → Nat) (c : PianoPIRClient)
    (h0 : 0 < c.config.ChunkSize) (h1 : c.config.ChunkSize ≤ 2 ^ 64) (tag ch : Nat) :
    c.hintOffset aes tag ch < c.config.ChunkSize :=
  and_chunkMask_lt c.config h0 h1 _

theorem length_setEntry (aes : Nat → Nat → Nat) (c : PianoPIRClient) (rawDB : Slice)
    (tag ch : Nat) : (c.setEntry aes rawDB tag ch).length = c.config.DBEntrySize :=
  length_paddedEntry _ _ _ _

/-- One call of `UpdatePreprocessing` by `Preprocessing` returns and extends the invariant by
one chunk. -/
theorem PrepInv_step (aes : Nat → Nat → Nat) (rng : Nat → Nat → Nat) (c1 : PianoPIRClient)
    (rawDB : Slice) (n : Nat) (c : PianoPIRClient)
    (hdb : rawDB.len = c.config.DBSize * c.config.DBEntrySize)
    (h0 : 0 < c.config.ChunkSize) (h1 : c.config.ChunkSize ≤ 2 ^ 64)
    (hn : n < c.config.SetSize)
    (inv : PrepInv aes rng c1 rawDB n c) :
    ∃ c', c.UpdatePreprocessing aes (rng n) n (preprocessingChunk c.config rawDB n) = some c' ∧
      PrepInv aes rng c1 rawDB (n + 1) c' := by
  have hguard : (List.range c.primaryHintNum).any
      (fun i => decide ((i + 1) * c.config.DBEntrySize > c.primaryParity.length)) = false := by
    rw [List.any_eq_false]
    intro i hi
    have hi' : i < c.primaryHintNum := List.mem_range.mp hi
    have := seg_le c.config.DBEntrySize i c.primaryHintNum hi'
    have := inv.parLen
    simp only [decide_eq_true_eq]
    omega
  have hsub : ∀ tag, (preprocessingChunk c.config rawDB n).sub
        (c.hintOffset aes tag n * c.config.DBEntrySize)
        ((c.hintOffset aes tag n + 1) * c.config.DBEntrySize) = c.setEntry aes rawDB tag n := by
    intro tag
    rw [preprocessingChunk_sub c.config rawDB hdb n _ (hintOffset_lt aes c h0 h1 tag n)]
    rfl
  refine ⟨_, by unfold PianoPIRClient.UpdatePreprocessing; rw [hguard]; rfl, ?_⟩
  have hP := updatePrimaryParity_spec aes c n (preprocessingChunk c.config rawDB n) inv.parLen
  have hB := updateBackupParity_spec aes c n (preprocessingChunk c.config rawDB n) inv.bLen
  constructor
  · exact inv.frame
  · exact hP.1
  · intro i hi
    show slice (c.updatePrimaryParity aes n _) _ _ =
      xorOver c.config.DBEntrySize (List.range (n + 1))
        (fun ch => c.setEntry aes rawDB (c.primaryShortTag.getD i 0) ch)
    rw [hP.2 i hi, hsub, inv.par i hi, List.range_succ]
    exact EntryXor_xorOver _ _ _ _ (length_setEntry _ _ _ _ _)
  · exact hB.1
  · intro i hi
    show ((c.updateBackupParity aes n _).getD i []).length = _
    rw [hB.2 i hi]
    split
    · exact inv.bRow i hi
    · exact (updateBackupRow_spec aes c n _ i _ (inv.bRow i hi)).1
  · intro i hi j hj
    show slice ((c.updateBackupParity aes n _).getD i []) _ _ =
      xorOver c.config.DBEntrySize ((List.range (n + 1)).filter fun ch => ch ≠ i)
        (fun ch => c.setEntry aes rawDB ((c.backupShortTag.getD i []).getD j 0) ch)
    rw [hB.2 i hi]
    by_cases hin : i = n
    · rw [if_pos hin, inv.bpar i hi j hj]
      subst hin
      rw [filter_ne_range_succ_self]
    · rw [if_neg hin, (updateBackupRow_spec aes c n (preprocessingChunk c.config rawDB n) i
        (c.backupParity.getD i []) (inv.bRow i hi)).2 j hj, hsub, inv.bpar i hi j hj,
        filter_ne_range_succ_ne n i (Ne.symm hin)]
      exact EntryXor_xorOver _ _ _ _ (length_setEntry _ _ _ _ _)
  · show (c.updateReplacementIdx (rng n) n).length = _
    simp [PianoPIRClient.updateReplacementIdx, inv.riLen]
  · intro i hi
    show ((c.updateReplacementIdx (rng n) n).getD i []).length = _
    unfold PianoPIRClient.updateReplacementIdx
    by_cases hin : n = i
    · subst hin
      rw [getD_set_self' _ _ _ _ (by rw [inv.riLen]; exact hi)]
      rw [(setFold _ _ _ (by rw [inv.riRow n hi])).1]
      exact inv.riRow n hi
    · rw [getD_set_ne' _ _ _ _ _ hin]
      exact inv.riRow i hi
  · intro i hi j hj
    show ((c.updateReplacementIdx (rng n) n).getD i []).getD j 0 =
      if i < n + 1 then (rng i j &&& chunkMask c.config) + i * c.config.ChunkSize
      else DefaultProgramPoint
    unfold PianoPIRClient.updateReplacementIdx
    by_cases hin : n = i
    · subst hin
      rw [getD_set_self' _ _ _ _ (by rw [inv.riLen]; exact hi)]
      rw [(setFold _ _ _ (by rw [inv.riRow n hi])).2 j (by rw [inv.riRow n hi]; exact hj)]
      rw [if_pos hj, if_pos (Nat.lt_succ_self n)]
    · rw [getD_set_ne' _ _ _ _ _ hin, inv.ri i hi j hj]
      have : (i < n + 1) = (i < n) := by
        apply propext; constructor <;> intro h <;> omega
      simp only [this]
  · show (c.updateReplacementVal (rng n) n _).length = _
    simp [PianoPIRClient.updateReplacementVal, inv.rvLen]
  · intro i hi
    show ((c.updateReplacementVal (rng n) n _).getD i []).length = _
    unfold PianoPIRClient.updateReplacementVal
    by_cases hin : n = i
    · subst hin
      rw [getD_set_self' _ _ _ _ (by rw [inv.rvLen]; exact hi)]
      exact (segFold c.config.DBEntrySize c.maxQueryPerChunk
        (fun x j => copySlice x
          ((preprocessingChunk c.config rawDB n).sub
            ((rng n j &&& chunkMask c.config) * c.config.DBEntrySize)
            (((rng n j &&& chunkMask c.config) + 1) * c.config.DBEntrySize)))
        (fun x i => copySlice_length _ _) (c.replacementVal.getD n [])
        (inv.rvRow n hi) c.maxQueryPerChunk (Nat.le_refl _)).1
    · rw [getD_set_ne' _ _ _ _ _ hin]
      exact inv.rvRow i hi
  · intro i hi j hj
    show slice ((c.updateReplacementVal (rng n) n _).getD i []) _ _ =
      if i < n + 1 then
        paddedEntry rawDB c.config.DBEntrySize c.config.DBSize
          (i * c.config.ChunkSize + (rng i j &&& chunkMask c.config))
      else zeroEntry c.config.DBEntrySize
    unfold PianoPIRClient.updateReplacementVal
    by_cases hin : n = i
    · subst hin
      rw [getD_set_self' _ _ _ _ (by rw [inv.rvLen]; exact hi)]
      have hrow := inv.rvRow n hi
      have h2 := (segFold c.config.DBEntrySize c.maxQueryPerChunk
        (fun x j => copySlice x
          ((preprocessingChunk c.config rawDB n).sub
            ((rng n j &&& chunkMask c.config) * c.config.DBEntrySize)
            (((rng n j &&& chunkMask c.config) + 1) * c.config.DBEntrySize)))
        (fun x i => copySlice_length _ _) (c.replacementVal.getD n []) hrow
        c.maxQueryPerChunk (Nat.le_refl _)).2 j hj
      rw [if_pos hj] at h2
      refine Eq.trans h2 ?_
      rw [if_pos (Nat.lt_succ_self n)]
      show copySlice _ _ = _
      rw [preprocessingChunk_sub c.config rawDB hdb n _ (and_chunkMask_lt c.config h0 h1 (rng n j))]
      apply copySlice_eq
      rw [length_paddedEntry, length_slice _ _ _ (by rw [hrow]; exact seg_le _ _ _ hj), seg_width]
    · rw [getD_set_ne' _ _ _ _ _ hin, inv.rv i hi j hj]
      have : (i < n + 1) = (i < n) := by
        apply propext; constructor <;> intro h <;> omega
      simp only [this]

theorem PrepInv_config (aes : Nat → Nat → Nat) (rng : Nat → Nat → Nat) (c1 : PianoPIRClient)
    (rawDB : Slice) (n : Nat) (c : PianoPIRClient) (inv : PrepInv aes rng c1 rawDB n c) :
    c.config = c1.config := congrArg (·.config) inv.frame

/-- The loop of `Preprocessing` over the first `n` chunks returns and establishes the
invariant for `n` chunks. -/
theorem Preprocessing_loop (aes : Nat → Nat → Nat) (rng : Nat → Nat → Nat)
    (c1 : PianoPIRClient) (rawDB : Slice)
    (hdb : rawDB.len = c1.config.DBSize * c1.config.DBEntrySize)
    (h0 : 0 < c1.config.ChunkSize) (h1 : c1.config.ChunkSize ≤ 2 ^ 64)
    (inv0 : PrepInv aes rng c1 rawDB 0 c1) (n : Nat) (hn : n ≤ c1.config.SetSize) :
    ∃ c, (List.range n).foldlM (fun c i =>
        c.UpdatePreprocessing aes (rng i) i (preprocessingChunk c.config rawDB i)) c1 = some c ∧
      PrepInv aes rng c1 rawDB n c := by
  induction n with
  | zero => exact ⟨c1, rfl, inv0⟩
  | succ n ih =>
    obtain ⟨c, hc, inv⟩ := ih (by omega)
    have hcfg := PrepInv_config aes rng c1 rawDB n c inv
    obtain ⟨c', hc', inv'⟩ := PrepInv_step aes rng c1 rawDB n c (by rw [hcfg]; exact hdb)
      (by rw [hcfg]; exact h0) (by rw [hcfg]; exact h1) (by rw [hcfg]; omega) inv
    refine ⟨c', ?_, inv'⟩
    rw [List.range_succ, List.foldlM_append, hc]
    simp only [Option.bind_eq_bind, Option.some_bind, List.foldlM_cons, List.foldlM_nil]
    rw [hc']
    rfl

/-- `Preprocessing` without `skipPrep` returns, and its result satisfies the invariant for all
`SetSize` chunks. -/
theorem Preprocessing_inv (aes : Nat → Nat → Nat) (key : Nat) (rng : Nat → Nat → Nat)
    (c0 : PianoPIRClient) (rawDB : Slice) (hskip : c0.skipPrep = false)
    (hinit : c0.Initialization key = some (c0.initTables key))
    (hdb : rawDB.len = c0.config.DBSize * c0.config.DBEntrySize)
    (h0 : 0 < c0.config.ChunkSize) (h1 : c0.config.ChunkSize ≤ 2 ^ 64) :
    ∃ c, c0.Preprocessing aes key rng rawDB = some c ∧
      PrepInv aes rng (c0.initTables key) rawDB c0.config.SetSize c := by
  obtain ⟨c, hc, inv⟩ := Preprocessing_loop aes rng (c0.initTables key) rawDB hdb h0 h1
    (PrepInv_init aes rng c0 key rawDB) c0.config.SetSize (Nat.le_refl _)
  refine ⟨c, ?_, inv⟩
  rw [Preprocessing_of_init aes key rng c0 _ rawDB hinit]
  have : (c0.initTables key).skipPrep = false := hskip
  simp only [this]
  exact hc

theorem setEntry_eq_mod (aes : Nat → Nat → Nat) (c : PianoPIRClient) (rawDB : Slice)
    (k : Nat) (hpow : c.config.ChunkSize = 2 ^ k) (hk : k < 64) (tag ch : Nat) :
    c.setEntry aes rawDB tag ch =
      paddedEntry rawDB c.config.DBEntrySize c.config.DBSize
        (ch * c.config.ChunkSize +
          PRFEvalWithLongKeyAndTag aes c.longKey tag ch % c.config.ChunkSize) := by
  unfold PianoPIRClient.setEntry PianoPIRClient.hintOffset
  rw [and_chunkMask_eq_mod c.config k hpow (by omega)]

theorem toUint32_le (x : Nat) : toUint32 x ≤ x := Nat.mod_le _ _

theorem findHit_eq_default_of_forall (aes : Nat → Nat → Nat) (c : PianoPIRClient)
    (chunkId offset : Nat)
    (h : ∀ i, i < c.primaryHintNum → c.isHit aes chunkId offset i = false) :
    c.findHit aes chunkId offset = DefaultProgramPoint := by
  unfold PianoPIRClient.findHit
  have : (List.range c.primaryHintNum).find? (c.isHit aes chunkId offset) = none := by
    rw [List.find?_eq_none]
    intro i hi
    rw [h i (List.mem_range.mp hi)]
    simp
  rw [this]
  rfl

theorem lookup_filter_ne (m : List (Nat × List Nat)) (k k' : Nat) (h : k ≠ k') :
    (m.filter fun p => p.1 != k').lookup k = m.lookup k := by
  induction m with
  | nil => rfl
  | cons p ps ih =>
    obtain ⟨a, v⟩ := p
    by_cases ha : a = k'
    · subst ha
      have hk : (k == a) = false := by simpa using h
      simp [List.filter_cons, List.lookup_cons, hk, ih]
    · have ha' : (a != k') = true := by simpa using ha
      simp only [List.filter_cons, ha', if_true, List.lookup_cons, ih]

theorem cacheLookup_cacheInsert_self (m : List (Nat × List Nat)) (k : Nat) (v : List Nat) :
    cacheLookup (cacheInsert m k v) k = some v := by
  simp [cacheLookup, cacheInsert, List.lookup_cons]

theorem cacheLookup_cacheInsert_ne (m : List (Nat × List Nat)) (k k' : Nat) (v : List Nat)
    (h : k ≠ k') : cacheLookup (cacheInsert m k' v) k = cacheLookup m k := by
  have hk : (k == k') = false := by simpa using h
  simp only [cacheLookup, cacheInsert, List.lookup_cons, hk]
  exact lookup_filter_ne m k k' h

/-- What `Query` can do to the cache: nothing, or add the response at an index that was not
cached. -/
theorem Query_cache (aes : Nat → Nat → Nat) (c : PianoPIRClient) (idx : Nat)
    (server : PianoPIRServer) (realQuery : Bool) (rand : Nat → Nat) (r : QueryResult)
    (h : c.Query aes idx server realQuery rand = some r) :
    r.client = c ∨
      (realQuery = true ∧ cacheLookup c.localCache idx = none ∧ r.err = none ∧
        r.client.localCache = cacheInsert c.localCache idx r.ret) := by
  unfold PianoPIRClient.Query at h
  cases realQuery with
  | false =>
    simp only [Bool.not_false, if_true, Option.some.injEq] at h
    left; rw [← h]
  | true =>
    simp only [Bool.not_true, Bool.false_eq_true, if_false] at h
    split at h
    · exact absurd h (by simp)
    · split at h
      · simp only [Option.some.injEq] at h
        left; rw [← h]
      · rename_i hmiss
        split at h
        · simp only [Option.some.injEq] at h
          left; rw [← h]
        · split at h
          · simp only [Option.some.injEq] at h
            left; rw [← h]
          · split at h
            · simp only [Option.some.injEq] at h
              left; rw [← h]
            · simp only [Option.some.injEq] at h
              right
              rw [← h]
              exact ⟨rfl, hmiss, by simp [PrivateQuery_eq], rfl⟩

theorem Query_config (aes : Nat → Nat → Nat) (c : PianoPIRClient) (idx : Nat)
    (server : PianoPIRServer) (realQuery : Bool) (rand : Nat → Nat) (r : QueryResult)
    (h : c.Query aes idx server realQuery rand = some r) : r.client.config = c.config := by
  unfold PianoPIRClient.Query at h
  cases realQuery with
  | false =>
    simp only [Bool.not_false, if_true, Option.some.injEq] at h
    rw [← h]
  | true =>
    simp only [Bool.not_true, Bool.false_eq_true, if_false] at h
    split at h
    · exact absurd h (by simp)
    · split at h
      · simp only [Option.some.injEq] at h; rw [← h]
      · split at h
        · simp only [Option.some.injEq] at h; rw [← h]
        · split at h
          · simp only [Option.some.injEq] at h; rw [← h]
          · split at h
            · simp only [Option.some.injEq] at h; rw [← h]
            · simp only [Option.some.injEq] at h; rw [← h]; rfl

theorem QueryReach_cache (aes : Nat → Nat → Nat) (server : PianoPIRServer)
    (c c' : PianoPIRClient) (hr : QueryReach aes server c c') (idx : Nat) (v : List Nat)
    (hv : cacheLookup c.localCache idx = some v) :
    cacheLookup c'.localCache idx = some v ∧ c'.config = c.config := by
  induction hr with
  | refl => exact ⟨hv, rfl⟩
  | step c' c'' _ hs ih =>
    obtain ⟨ih1, ih2⟩ := ih
    cases hs with
    | call idx' realQuery rand r hq =>
      refine ⟨?_, by rw [Query_config aes c' idx' server realQuery rand r hq, ih2]⟩
      rcases Query_cache aes c' idx' server realQuery rand r hq with h | ⟨_, hmiss, _, hc⟩
      · rw [h]; exact ih1
      · have hne : idx ≠ idx' := by
          intro heq
          rw [heq, hmiss] at ih1
          exact absurd ih1 (by simp)
        rw [hc, cacheLookup_cacheInsert_ne _ _ _ _ hne]
        exact ih1

theorem length_EntryXorAt (t : List Nat) (a b : Nat) (src : List Nat) (n : Nat) (hab : a ≤ b)
    (hb : b ≤ t.length) : (EntryXorAt t a b src n).length = t.length :=
  length_splice t _ a b hab hb (by rw [EntryXor_length, length_slice t a b hb])

theorem slice_EntryXorAt_same (t : List Nat) (a b : Nat) (src : List Nat) (n : Nat) (hab : a ≤ b)
    (hb : b ≤ t.length) : slice (EntryXorAt t a b src n) a b = EntryXor (slice t a b) src n :=
  slice_splice_same t _ a b hab hb (by rw [EntryXor_length, length_slice t a b hb])

theorem slice_EntryXorAt_other (t : List Nat) (a b : Nat) (src : List Nat) (n : Nat) (hab : a ≤ b)
    (hb : b ≤ t.length) (a' b' : Nat) (hd : b' ≤ a ∨ b ≤ a') :
    slice (EntryXorAt t a b src n) a' b' = slice t a' b' :=
  slice_splice_other t _ a b a' b' hab hb (by rw [EntryXor_length, length_slice t a b hb]) hd

theorem length_copyAt (t : List Nat) (a b : Nat) (src : List Nat) (hab : a ≤ b)
    (hb : b ≤ t.length) : (copyAt t a b src).length = t.length :=
  length_splice t _ a b hab hb (by rw [copySlice_length, length_slice t a b hb])

theorem slice_copyAt_same (t : List Nat) (a b : Nat) (src : List Nat) (hab : a ≤ b)
    (hb : b ≤ t.length) : slice (copyAt t a b src) a b = copySlice (slice t a b) src :=
  slice_splice_same t _ a b hab hb (by rw [copySlice_length, length_slice t a b hb])

theorem slice_copyAt_other (t : List Nat) (a b : Nat) (src : List Nat) (hab : a ≤ b)
    (hb : b ≤ t.length) (a' b' : Nat) (hd : b' ≤ a ∨ b ≤ a') :
    slice (copyAt t a b src) a' b' = slice t a' b' :=
  slice_splice_other t _ a b a' b' hab hb (by rw [copySlice_length, length_slice t a b hb]) hd

theorem seg_mono (E i : Nat) : i * E ≤ (i + 1) * E := Nat.mul_le_mul_right E (Nat.le_succ i)

/-- A hit found by the scan is a hint index that passes the test, and no smaller index does. -/
theorem findHit_spec (aes : Nat → Nat → Nat) (c : PianoPIRClient) (chunkId offset : Nat)
    (h : c.findHit aes chunkId offset ≠ DefaultProgramPoint) :
    c.findHit aes chunkId offset < c.primaryHintNum ∧
      c.isHit aes chunkId offset (c.findHit aes chunkId offset) = true ∧
      ∀ i, i < c.findHit aes chunkId offset → c.isHit aes chunkId offset i = false := by
  unfold PianoPIRClient.findHit at h ⊢
  cases hf : (List.range c.primaryHintNum).find? (c.isHit aes chunkId offset) with
  | none => rw [hf] at h; exact absurd rfl h
  | some i =>
    simp only [Option.getD_some]
    rw [List.find?_range_eq_some] at hf
    obtain ⟨hp, hmem, hall⟩ := hf
    refine ⟨List.mem_range.mp hmem, hp, ?_⟩
    intro k hk
    have := hall k hk
    simpa using this

theorem UpdatePreprocessing_counters (aes : Nat → Nat → Nat) (rng : Nat → Nat)
    (c : PianoPIRClient) (chunkId : Nat) (chunk : Slice) (c' : PianoPIRClient)
    (h : c.UpdatePreprocessing aes rng chunkId chunk = some c') :
    c'.FinishedQueryNum = c.FinishedQueryNum ∧ c'.MaxQueryNum = c.MaxQueryNum := by
  unfold PianoPIRClient.UpdatePreprocessing at h
  split at h
  · exact absurd h (by simp)
  · simp only [Option.some.injEq] at h
    rw [← h]
    exact ⟨rfl, rfl⟩

theorem foldlM_counters (aes : Nat → Nat → Nat) (rng : Nat → Nat → Nat) (rawDB : Slice)
    (l : List Nat) (c c' : PianoPIRClient)
    (h : l.foldlM (fun c i =>
      c.UpdatePreprocessing aes (rng i) i (preprocessingChunk c.config rawDB i)) c = some c') :
    c'.FinishedQueryNum = c.FinishedQueryNum ∧ c'.MaxQueryNum = c.MaxQueryNum := by
  induction l generalizing c with
  | nil =>
    simp only [List.foldlM_nil, Option.pure_def, Option.some.injEq] at h
    rw [← h]; exact ⟨rfl, rfl⟩
  | cons i l ih =>
    rw [List.foldlM_cons] at h
    cases hu : c.UpdatePreprocessing aes (rng i) i (preprocessingChunk c.config rawDB i) with
    | none => rw [hu] at h; exact absurd h (by simp)
    | some c1 =>
      rw [hu] at h
      simp only [Option.bind_eq_bind, Option.some_bind] at h
      obtain ⟨h1, h2⟩ := ih c1 h
      obtain ⟨h3, h4⟩ := UpdatePreprocessing_counters aes _ c i _ c1 hu
      exact ⟨by rw [h1, h3], by rw [h2, h4]⟩

/-- `Preprocessing` starts an epoch: no query finished, the budget unchanged. -/
theorem Preprocessing_counters (aes : Nat → Nat → Nat) (key : Nat) (rng : Nat → Nat → Nat)
    (c0 : PianoPIRClient) (rawDB : Slice) (c : PianoPIRClient)
    (h : c0.Preprocessing aes key rng rawDB = some c) :
    c.FinishedQueryNum = 0 ∧ c.MaxQueryNum = c0.MaxQueryNum := by
  replace h := (Preprocessing_some aes key rng c0 c rawDB h).2
  split at h
  · simp only [Option.some.injEq] at h
    rw [← h]; exact ⟨rfl, rfl⟩
  · obtain ⟨h1, h2⟩ := foldlM_counters aes rng rawDB _ _ _ h
    exact ⟨by rw [h1]; rfl, by rw [h2]; rfl⟩

/-- `Query` keeps the budget, never takes the count of finished queries above it, and reports
the exhausted epoch only when the count has reached the budget. -/
theorem Query_counters (aes : Nat → Nat → Nat) (c : PianoPIRClient) (idx : Nat)
    (server : PianoPIRServer) (realQuery : Bool) (rand : Nat → Nat) (r : QueryResult)
    (h : c.Query aes idx server realQuery rand = some r) :
    r.client.MaxQueryNum = c.MaxQueryNum ∧
      (c.FinishedQueryNum ≤ c.MaxQueryNum → r.client.FinishedQueryNum ≤ c.MaxQueryNum) ∧
      (c.FinishedQueryNum < c.MaxQueryNum → r.err ≠ some QueryError.exceedMaxQueries) := by
  unfold PianoPIRClient.Query at h
  cases realQuery with
  | false =>
    simp only [Bool.not_false, if_true, Option.some.injEq] at h
    rw [← h]
    exact ⟨rfl, fun h => h, fun _ => by simp [PrivateQuery_eq]⟩
  | true =>
    simp only [Bool.not_true, Bool.false_eq_true, if_false] at h
    split at h
    · exact absurd h (by simp)
    · split at h
      · simp only [Option.some.injEq] at h; rw [← h]
        exact ⟨rfl, fun h => h, fun _ => by simp⟩
      · split at h
        · rename_i hF
          simp only [Option.some.injEq] at h; rw [← h]
          exact ⟨rfl, fun h => h, fun hlt => absurd hF (by omega)⟩
        · rename_i hF
          split at h
          · simp only [Option.some.injEq] at h; rw [← h]
            exact ⟨rfl, fun h => h, fun _ => by simp⟩
          · split at h
            · simp only [Option.some.injEq] at h; rw [← h]
              exact ⟨rfl, fun h => h, fun _ => by simp⟩
            · simp only [Option.some.injEq] at h; rw [← h]
              refine ⟨rfl, fun _ => ?_, fun _ => by simp [PrivateQuery_eq]⟩
              show c.FinishedQueryNum + 1 ≤ c.MaxQueryNum
              omega

theorem PianoPIR_Query_counters (aes : Nat → Nat → Nat) (p : PianoPIR) (idx : Nat)
    (realQuery : Bool) (key : Nat) (rng : Nat → Nat → Nat) (rand : Nat → Nat)
    (r : PIRQueryResult) (h : p.Query aes idx realQuery key rng rand = some r)
    (hM : 0 < p.client.MaxQueryNum) (hle : p.client.FinishedQueryNum ≤ p.client.MaxQueryNum) :
    r.pir.client.MaxQueryNum = p.client.MaxQueryNum ∧
      r.pir.client.FinishedQueryNum ≤ p.client.MaxQueryNum ∧
      r.err ≠ some QueryError.exceedMaxQueries := by
  unfold PianoPIR.Query at h
  simp only [] at h
  split at h
  · exact absurd h (by simp)
  · rename_i c hc
    split at h
    · exact absurd h (by simp)
    · rename_i q hq
      simp only [Option.some.injEq] at h
      rw [← h]
      obtain ⟨q1, q2, q3⟩ := Query_counters aes c idx p.server realQuery rand q hq
      by_cases hF : p.client.FinishedQueryNum = p.client.MaxQueryNum
      · rw [if_pos hF] at hc
        obtain ⟨c1, c2⟩ := Preprocessing_counters aes key rng p.client p.server.rawDB c hc
        refine ⟨by rw [← c2]; exact q1, ?_, q3 (by omega)⟩
        have := q2 (by omega)
        show q.client.FinishedQueryNum ≤ _
        omega
      · rw [if_neg hF] at hc
        simp only [Option.some.injEq] at hc
        subst hc
        exact ⟨q1, q2 hle, q3 (by omega)⟩

theorem PIRReach_counters (aes : Nat → Nat → Nat) (p1 p : PianoPIR) (hr : PIRReach aes p1 p)
    (hM : 0 < p1.client.MaxQueryNum)
    (h1 : p1.client.FinishedQueryNum ≤ p1.client.MaxQueryNum) :
    p.client.MaxQueryNum = p1.client.MaxQueryNum ∧
      p.client.FinishedQueryNum ≤ p1.client.MaxQueryNum := by
  induction hr with
  | refl => exact ⟨rfl, h1⟩
  | step p' idx' real' key' rng' rand' r' _ hq' ih =>
    obtain ⟨i1, i2⟩ := ih
    obtain ⟨a, b, _⟩ := PianoPIR_Query_counters aes p' idx' real' key' rng' rand' r' hq'
      (by rw [i1]; exact hM) (by rw [i1]; exact i2)
    exact ⟨by rw [a, i1], by rw [← i1]; exact b⟩

theorem EntryXor_eq_zipWith (a b : List Nat) (E : Nat) (ha : a.length = E) (hb : b.length = E) :
    EntryXor a b E = List.zipWith (· ^^^ ·) a b :=
  xorSlices_eq_zipWith a b E ha hb

theorem foldr_xor_filter_ne (l : List Nat) (ch : Nat) (g : Nat → Nat) (hnd : l.Nodup)
    (hmem : ch ∈ l) :
    (l.map g).foldr (· ^^^ ·) 0 =
      ((l.filter fun x => x ≠ ch).map g).foldr (· ^^^ ·) 0 ^^^ g ch := by
  induction l with
  | nil => exact absurd hmem (List.not_mem_nil _)
  | cons x xs ih =>
    rw [List.nodup_cons] at hnd
    by_cases hx : x = ch
    · subst hx
      have hall : xs.filter (fun y => y ≠ x) = xs := by
        rw [List.filter_eq_self]
        intro y hy
        have : y ≠ x := fun h => hnd.1 (h ▸ hy)
        simpa using this
      simp only [List.map_cons, List.foldr_cons, List.filter_cons, ne_eq, not_true_eq_false,
        decide_False, Bool.false_eq_true, if_false]
      rw [hall, Nat.xor_comm]
    · have hmem' : ch ∈ xs := by
        rcases List.mem_cons.mp hmem with h | h
        · exact absurd h.symm hx
        · exact h
      have hd : decide (x ≠ ch) = true := by simpa using hx
      simp only [List.map_cons, List.foldr_cons, List.filter_cons, hd, if_true]
      rw [ih hnd.2 hmem', Nat.xor_assoc]

/-- The XOR over all chunks is the XOR over the chunks other than `ch`, XOR the term of `ch`. -/
theorem xorOver_split (E S ch : Nat) (f : Nat → List Nat) (hch : ch < S)
    (hf : (f ch).length = E) :
    xorOver E (List.range S) f =
      List.zipWith (· ^^^ ·) (xorOver E ((List.range S).filter fun x => x ≠ ch) f) (f ch) := by
  apply List.ext_getElem?
  intro k
  by_cases hk : k < E
  · have hk2 : k < (f ch).length := by omega
    simp only [xorOver, List.getElem?_map, List.getElem?_range hk, Option.map_some',
      List.getElem?_zipWith, List.getElem?_eq_getElem hk2]
    rw [foldr_xor_filter_ne (List.range S) ch (fun i => (f i).getD k 0) (List.nodup_range S)
      (List.mem_range.mpr hch)]
    simp [List.getElem?_eq_getElem hk2]
  · have h1 : (xorOver E (List.range S) f).length ≤ k := by rw [length_xorOver]; omega
    have h2 : (List.zipWith (· ^^^ ·)
        (xorOver E ((List.range S).filter fun x => x ≠ ch) f) (f ch)).length ≤ k := by
      rw [List.length_zipWith, length_xorOver]; omega
    rw [List.getElem?_eq_none h1, List.getElem?_eq_none h2]

theorem xorOver_congr (E : Nat) (l : List Nat) (f g : Nat → List Nat)
    (h : ∀ i, i ∈ l → f i = g i) : xorOver E l f = xorOver E l g := by
  unfold xorOver
  apply List.map_congr_left
  intro k _
  congr 1
  apply List.map_congr_left
  intro i hi
  rw [h i hi]

/-- The algebra of the response: with `A` the XOR of the common terms, `R` the replacement entry
and `D` the queried entry, `((A ⊕ R) ⊕ R) ⊕ (A ⊕ D) = D`. -/
theorem zipWith_xor_cancel (A R D : List Nat) (E : Nat) (hA : A.length = E) (hR : R.length = E)
    (hD : D.length = E) :
    List.zipWith (· ^^^ ·)
      (List.zipWith (· ^^^ ·) (List.zipWith (· ^^^ ·) A R) R)
      (List.zipWith (· ^^^ ·) A D) = D := by
  apply List.ext_getElem
  · simp [hA, hR, hD]
  · intro k h1 h2
    simp only [List.getElem_zipWith]
    rw [Nat.xor_assoc A[k] R[k] R[k], Nat.xor_self, Nat.xor_zero, ← Nat.xor_assoc, Nat.xor_self,
      Nat.zero_xor]

theorem toUint32_mask (config : PianoPIRConfig) (k : Nat) (hk : k ≤ 32)
    (hpow : config.ChunkSize = 2 ^ k) (q i : Nat) (hq : q / config.ChunkSize = i) :
    i * config.ChunkSize + toUint32 (q &&& chunkMask config) = q := by
  have h0 : 0 < config.ChunkSize := by rw [hpow]; exact Nat.pow_pos (by decide)
  have h32 : config.ChunkSize ≤ 2 ^ 32 := by rw [hpow]; exact Nat.pow_le_pow_right (by decide) hk
  rw [and_chunkMask_eq_mod config k hpow (by omega)]
  have hlt : q % config.ChunkSize < 2 ^ 32 := Nat.lt_of_lt_of_le (Nat.mod_lt _ h0) h32
  unfold toUint32
  rw [Nat.mod_eq_of_lt hlt, ← hq, Nat.mul_comm]
  exact Nat.div_add_mod q config.ChunkSize

theorem getD_set_lt {α : Type} (l : List α) (i j : Nat) (x d : α) (hj : j < l.length) :
    (l.set i x).getD j d = if i = j then x else l.getD j d := by
  by_cases h : i = j
  · subst h; rw [if_pos rfl, getD_set_self' _ _ _ _ hj]
  · rw [if_neg h, getD_set_ne' _ _ _ _ _ h]

/-- The elements of the set that `Query` expands. -/
theorem querySet_getD (aes : Nat → Nat → Nat) (c : PianoPIRClient) (hitId chunkId i : Nat)
    (hi : i < c.config.SetSize) :
    (c.querySet aes hitId chunkId).getD i 0 =
      if chunkId = i then
        (c.replacementIdx.getD chunkId []).getD (c.QueryHistogram.getD chunkId 0) 0
      else if c.primaryProgramPoint.getD hitId 0 ≠ DefaultProgramPoint ∧
          c.primaryProgramPoint.getD hitId 0 / c.config.ChunkSize = i then
        c.primaryProgramPoint.getD hitId 0
      else i * c.config.ChunkSize + c.hintOffset aes (c.primaryShortTag.getD hitId 0) i := by
  unfold PianoPIRClient.querySet
  simp only []
  have hbase : ((List.range c.config.SetSize).map fun i =>
      i * c.config.ChunkSize + c.hintOffset aes (c.primaryShortTag.getD hitId 0) i).length =
      c.config.SetSize := by simp
  by_cases hp : c.primaryProgramPoint.getD hitId 0 ≠ DefaultProgramPoint
  · rw [if_pos hp, getD_set_lt _ _ _ _ _ (by rw [List.length_set, hbase]; exact hi),
      getD_set_lt _ _ _ _ _ (by rw [hbase]; exact hi), getD_map_range _ _ _ _ hi]
    by_cases h1 : chunkId = i
    · rw [if_pos h1, if_pos h1]
    · rw [if_neg h1, if_neg h1]
      by_cases h2 : c.primaryProgramPoint.getD hitId 0 / c.config.ChunkSize = i
      · rw [if_pos h2, if_pos ⟨hp, h2⟩]
      · rw [if_neg h2, if_neg (fun h => h2 h.2)]
  · rw [if_neg hp, getD_set_lt _ _ _ _ _ (by rw [hbase]; exact hi), getD_map_range _ _ _ _ hi]
    by_cases h1 : chunkId = i
    · rw [if_pos h1, if_pos h1]
    · rw [if_neg h1, if_neg h1, if_neg (fun h => hp h.1)]

theorem length_querySet (aes : Nat → Nat → Nat) (c : PianoPIRClient) (hitId chunkId : Nat) :
    (c.querySet aes hitId chunkId).length = c.config.SetSize := by
  unfold PianoPIRClient.querySet
  simp only []
  split <;> simp

theorem hintOffset_eq_mod (aes : Nat → Nat → Nat) (c : PianoPIRClient) (k : Nat)
    (hpow : c.config.ChunkSize = 2 ^ k) (hk : k ≤ 64) (tag ch : Nat) :
    c.hintOffset aes tag ch =
      PRFEvalWithLongKeyAndTag aes c.longKey tag ch % c.config.ChunkSize := by
  unfold PianoPIRClient.hintOffset
  rw [and_chunkMask_eq_mod c.config k hpow hk]

theorem add_mul_div_chunk (n o i : Nat) (h0 : 0 < n) (ho : o < n) : (i * n + o) / n = i := by
  rw [Nat.add_comm, Nat.add_mul_div_right _ _ h0, Nat.div_eq_of_lt ho, Nat.zero_add]

/-- The reply of the server to the offsets of `Query` is the XOR of the entries at the elements
of the expanded set. -/
theorem reply_eq (aes : Nat → Nat → Nat) (c : PianoPIRClient) (rawDB : Slice)
    (server : PianoPIRServer) (hcfg : server.config = c.config) (hdb : server.rawDB = rawDB)
    (k : Nat) (hk : k ≤ 32) (hpow : c.config.ChunkSize = 2 ^ k) (hitId chunkId : Nat)
    (hq : ∀ i, i < c.config.SetSize →
      (c.querySet aes hitId chunkId).getD i 0 / c.config.ChunkSize = i) :
    (server.PrivateQuery (c.querySetOffset aes hitId chunkId)).1 =
      xorOver c.config.DBEntrySize (List.range c.config.SetSize) (fun i =>
        paddedEntry rawDB c.config.DBEntrySize c.config.DBSize
          ((c.querySet aes hitId chunkId).getD i 0)) := by
  rw [PrivateQuery_eq, hcfg, hdb]
  apply xorOver_congr
  intro i hi
  have hi' : i < c.config.SetSize := List.mem_range.mp hi
  congr 1
  unfold PianoPIRClient.querySetOffset
  have : ((c.querySet aes hitId chunkId).map fun q => toUint32 (q &&& chunkMask c.config)).getD i 0
      = toUint32 ((c.querySet aes hitId chunkId).getD i 0 &&& chunkMask c.config) := by
    have hl : i < (c.querySet aes hitId chunkId).length := by rw [length_querySet]; exact hi'
    simp [List.getElem?_eq_getElem hl]
  rw [this]
  exact toUint32_mask c.config k hk hpow _ i (hq i hi')

theorem chunk_lt_SetSize (config : PianoPIRConfig) (idx : Nat)
    (hcover : config.DBSize ≤ config.ChunkSize * config.SetSize) (hidx : idx < config.DBSize) :
    idx / config.ChunkSize < config.SetSize :=
  Nat.div_lt_of_lt_mul (Nat.lt_of_lt_of_le hidx hcover)

/-- What the hit test says about the hint it accepts. -/
theorem isHit_iff (aes : Nat → Nat → Nat) (c : PianoPIRClient) (chunkId offset i : Nat) :
    c.isHit aes chunkId offset i = true ↔
      c.hintOffset aes (c.primaryShortTag.getD i 0) chunkId = offset ∧
        (c.primaryProgramPoint.getD i 0 = DefaultProgramPoint ∨
          c.primaryProgramPoint.getD i 0 / c.config.ChunkSize ≠ chunkId) := by
  unfold PianoPIRClient.isHit
  simp only [Bool.and_eq_true, Bool.or_eq_true, decide_eq_true_eq]

/-- The elements of the expanded set lie in their chunks. -/
theorem querySet_div (aes : Nat → Nat → Nat) (c : PianoPIRClient) (rawDB : Slice)
    (rd : Ready aes rawDB c) (h0 : 0 < c.config.ChunkSize) (h1 : c.config.ChunkSize ≤ 2 ^ 64)
    (hitId chunkId : Nat) (hch : chunkId < c.config.SetSize)
    (hQ : c.QueryHistogram.getD chunkId 0 < c.maxQueryPerChunk) (i : Nat)
    (hi : i < c.config.SetSize) :
    (c.querySet aes hitId chunkId).getD i 0 / c.config.ChunkSize = i := by
  rw [querySet_getD aes c hitId chunkId i hi]
  by_cases h1' : chunkId = i
  · rw [if_pos h1', ← h1']
    exact rd.ri chunkId hch _ hQ
  · rw [if_neg h1']
    by_cases h2 : c.primaryProgramPoint.getD hitId 0 ≠ DefaultProgramPoint ∧
        c.primaryProgramPoint.getD hitId 0 / c.config.ChunkSize = i
    · rw [if_pos h2]; exact h2.2
    · rw [if_neg h2]
      exact add_mul_div_chunk _ _ _ h0 (hintOffset_lt aes c h0 h1 _ _)

/-- The heart of the protocol: on a client that satisfies the invariant, the response of a query
that found a hit is the queried entry of the database. -/
theorem response_eq_dbEntry (aes : Nat → Nat → Nat) (c : PianoPIRClient) (rawDB : Slice)
    (server : PianoPIRServer) (hcfg : server.config = c.config) (hdb : server.rawDB = rawDB)
    (ok : ConfigOK c.config rawDB) (rd : Ready aes rawDB c) (idx : Nat)
    (hidx : idx < c.config.DBSize)
    (hQ : c.QueryHistogram.getD (idx / c.config.ChunkSize) 0 < c.maxQueryPerChunk)
    (hhit : c.findHit aes (idx / c.config.ChunkSize) (idx % c.config.ChunkSize) ≠
      DefaultProgramPoint) :
    c.response aes server (c.findHit aes (idx / c.config.ChunkSize) (idx % c.config.ChunkSize))
      (idx / c.config.ChunkSize) = dbEntry rawDB c.config.DBEntrySize idx := by
  obtain ⟨k, hk, hpow⟩ := ok.pow
  have h0 : 0 < c.config.ChunkSize := by rw [hpow]; exact Nat.pow_pos (by decide)
  have h1 : c.config.ChunkSize ≤ 2 ^ 64 := by
    rw [hpow]; exact Nat.pow_le_pow_right (by decide) (by omega)
  have hch := chunk_lt_SetSize c.config idx ok.cover hidx
  obtain ⟨hlt, hisHit, -⟩ := findHit_spec aes c _ _ hhit
  generalize c.findHit aes (idx / c.config.ChunkSize) (idx % c.config.ChunkSize) = h
    at hhit hlt hisHit ⊢
  generalize hchdef : idx / c.config.ChunkSize = ch at hch hQ hisHit ⊢
  obtain ⟨hoff, hpp⟩ := (isHit_iff aes c ch _ h).mp hisHit
  -- the three entries
  have hD : paddedEntry rawDB c.config.DBEntrySize c.config.DBSize (c.hintElement aes h ch) =
      dbEntry rawDB c.config.DBEntrySize idx := by
    have : c.hintElement aes h ch = idx := by
      unfold PianoPIRClient.hintElement
      rw [if_neg (by
        intro hcon
        rcases hpp with hp | hp
        · exact hcon.1 hp
        · exact hp hcon.2)]
      rw [← hintOffset_eq_mod aes c k hpow (by omega), hoff, ← hchdef, Nat.mul_comm]
      exact Nat.div_add_mod idx c.config.ChunkSize
    rw [this, paddedEntry, if_pos hidx]
  have hA : xorOver c.config.DBEntrySize ((List.range c.config.SetSize).filter fun x => x ≠ ch)
      (fun i => paddedEntry rawDB c.config.DBEntrySize c.config.DBSize
        ((c.querySet aes h ch).getD i 0)) =
      xorOver c.config.DBEntrySize ((List.range c.config.SetSize).filter fun x => x ≠ ch)
      (fun i => paddedEntry rawDB c.config.DBEntrySize c.config.DBSize
        (c.hintElement aes h i)) := by
    apply xorOver_congr
    intro i hi
    rw [List.mem_filter] at hi
    have hi1 : i < c.config.SetSize := List.mem_range.mp hi.1
    have hi2 : ¬ (ch = i) := by
      have := hi.2
      simp only [ne_eq, decide_not, Bool.not_eq_true', decide_eq_false_iff_not] at this
      exact fun h => this h.symm
    congr 1
    rw [querySet_getD aes c h ch i hi1, if_neg hi2]
    unfold PianoPIRClient.hintElement
    rw [hintOffset_eq_mod aes c k hpow (by omega)]
  have hreply := reply_eq aes c rawDB server hcfg hdb k hk hpow h ch
    (querySet_div aes c rawDB rd h0 h1 h ch hch hQ)
  have hs1 := xorOver_split c.config.DBEntrySize c.config.SetSize ch (fun i =>
    paddedEntry rawDB c.config.DBEntrySize c.config.DBSize ((c.querySet aes h ch).getD i 0))
    hch (length_paddedEntry _ _ _ _)
  beta_reduce at hs1
  rw [hs1, hA, querySet_getD aes c h ch ch hch, if_pos rfl] at hreply
  have hpar := rd.par h hlt
  unfold PianoPIRClient.parityConsistent at hpar
  have hs2 := xorOver_split c.config.DBEntrySize c.config.SetSize ch (fun i =>
    paddedEntry rawDB c.config.DBEntrySize c.config.DBSize (c.hintElement aes h i))
    hch (length_paddedEntry _ _ _ _)
  beta_reduce at hs2
  rw [hs2, hD] at hpar
  have hrv := rd.rv ch hch _ hQ
  unfold PianoPIRClient.response
  simp only []
  rw [hreply, hpar, hrv]
  rw [EntryXor_eq_zipWith _ _ _ (by
      rw [List.length_zipWith, length_xorOver, length_paddedEntry]; simp)
    (length_paddedEntry _ _ _ _)]
  rw [EntryXor_eq_zipWith _ _ _ (by
      rw [List.length_zipWith, List.length_zipWith, length_xorOver, length_paddedEntry]; simp)
    (by rw [List.length_zipWith, length_xorOver, length_dbEntry]; simp)]
  exact zipWith_xor_cancel _ _ _ c.config.DBEntrySize (length_xorOver _ _ _)
    (length_paddedEntry _ _ _ _) (length_dbEntry _ _ _)

/-- The cases of a real query that returns. -/
theorem Query_real_cases (aes : Nat → Nat → Nat) (c : PianoPIRClient) (idx : Nat)
    (server : PianoPIRServer) (rand : Nat → Nat) (r : QueryResult)
    (h : c.Query aes idx server true rand = some r) :
    idx < c.config.DBSize ∧
      ((∃ v, cacheLookup c.localCache idx = some v ∧
          r = { client := c, ret := v, err := none, sent := [] }) ∨
        (∃ e, r = { client := c, ret := List.replicate c.config.DBEntrySize 0, err := some e,
                    sent := [] }) ∨
        (cacheLookup c.localCache idx = none ∧
          c.QueryHistogram.getD (idx / c.config.ChunkSize) 0 < c.maxQueryPerChunk ∧
          c.findHit aes (idx / c.config.ChunkSize) (idx % c.config.ChunkSize) ≠
            DefaultProgramPoint ∧
          r.client = c.refresh
            (c.findHit aes (idx / c.config.ChunkSize) (idx % c.config.ChunkSize))
            (idx / c.config.ChunkSize) idx
            (c.response aes server
              (c.findHit aes (idx / c.config.ChunkSize) (idx % c.config.ChunkSize))
              (idx / c.config.ChunkSize)) ∧
          r.ret = c.response aes server
            (c.findHit aes (idx / c.config.ChunkSize) (idx % c.config.ChunkSize))
            (idx / c.config.ChunkSize))) := by
  unfold PianoPIRClient.Query at h
  simp only [Bool.not_true, Bool.false_eq_true, if_false] at h
  split at h
  · exact absurd h (by simp)
  · rename_i hidx
    refine ⟨by omega, ?_⟩
    split at h
    · rename_i v hv
      simp only [Option.some.injEq] at h
      exact Or.inl ⟨v, hv, h.symm⟩
    · rename_i hmiss
      split at h
      · simp only [Option.some.injEq] at h
        exact Or.inr (Or.inl ⟨_, h.symm⟩)
      · split at h
        · simp only [Option.some.injEq] at h
          exact Or.inr (Or.inl ⟨_, h.symm⟩)
        · rename_i hQ
          split at h
          · simp only [Option.some.injEq] at h
            exact Or.inr (Or.inl ⟨_, h.symm⟩)
          · rename_i hhit
            simp only [Option.some.injEq] at h
            refine Or.inr (Or.inr ⟨hmiss, by omega, hhit, ?_, ?_⟩)
            · rw [← h]
            · rw [← h]

/-- A dummy query that returns leaves the client as it was. -/
theorem dummy_Query_client (aes : Nat → Nat → Nat) (c : PianoPIRClient) (idx : Nat)
    (server : PianoPIRServer) (rand : Nat → Nat) (r : QueryResult)
    (h : c.Query aes idx server false rand = some r) : r.client = c := by
  unfold PianoPIRClient.Query at h
  simp only [Bool.not_false, if_true, Option.some.injEq] at h
  rw [← h]

/-- The refresh of the hit hint with the queried entry keeps the invariant. -/
theorem Ready_refresh (aes : Nat → Nat → Nat) (c : PianoPIRClient) (rawDB : Slice)
    (ok : ConfigOK c.config rawDB) (rd : Ready aes rawDB c) (idx : Nat)
    (hidx : idx < c.config.DBSize) (h : Nat) (hlt : h < c.primaryHintNum)
    (hQ : c.QueryHistogram.getD (idx / c.config.ChunkSize) 0 < c.maxQueryPerChunk) :
    Ready aes rawDB
      (c.refresh h (idx / c.config.ChunkSize) idx (dbEntry rawDB c.config.DBEntrySize idx)) := by
  obtain ⟨k, hk, hpow⟩ := ok.pow
  have hch := chunk_lt_SetSize c.config idx ok.cover hidx
  have hab := seg_mono c.config.DBEntrySize h
  have hb : (h + 1) * c.config.DBEntrySize ≤ c.primaryParity.length := by
    rw [rd.parLen]; exact seg_le _ _ _ hlt
  have hbseg : (slice (c.backupParity.getD (idx / c.config.ChunkSize) [])
      (c.QueryHistogram.getD (idx / c.config.ChunkSize) 0 * c.config.DBEntrySize)
      ((c.QueryHistogram.getD (idx / c.config.ChunkSize) 0 + 1) * c.config.DBEntrySize)).length =
      c.config.DBEntrySize := by
    rw [length_slice _ _ _ (by rw [rd.bRow _ hch]; exact seg_le _ _ _ hQ), seg_width]
  have hcl := length_copyAt c.primaryParity _ _
    (slice (c.backupParity.getD (idx / c.config.ChunkSize) [])
      (c.QueryHistogram.getD (idx / c.config.ChunkSize) 0 * c.config.DBEntrySize)
      ((c.QueryHistogram.getD (idx / c.config.ChunkSize) 0 + 1) * c.config.DBEntrySize)) hab hb
  have hne : idx ≠ DefaultProgramPoint := by
    have := ok.small
    omega
  constructor
  · show (c.primaryShortTag.set h _).length = _
    rw [List.length_set]; exact rd.tagLen
  · show (EntryXorAt (copyAt c.primaryParity _ _ _) _ _ _ _).length = _
    rw [length_EntryXorAt _ _ _ _ _ hab (by rw [hcl]; exact hb), hcl]
    exact rd.parLen
  · show (c.primaryProgramPoint.set h idx).length = _
    rw [List.length_set]; exact rd.ppLen
  · show (c.QueryHistogram.set _ _).length = _
    rw [List.length_set]; exact rd.histLen
  · exact rd.bRow
  · exact rd.rvRow
  · intro h' hh'
    show (c.primaryProgramPoint.set h idx).getD h' 0 = _ ∨
      (c.primaryProgramPoint.set h idx).getD h' 0 < c.config.DBSize
    rw [getD_set_lt _ _ _ _ _ (by rw [rd.ppLen]; exact hh')]
    by_cases hhh : h = h'
    · rw [if_pos hhh]; exact Or.inr hidx
    · rw [if_neg hhh]; exact rd.pp h' hh'
  · intro h' hh'
    unfold PianoPIRClient.parityConsistent
    show slice (EntryXorAt (copyAt c.primaryParity _ _ _) _ _ _ _)
        (h' * c.config.DBEntrySize) ((h' + 1) * c.config.DBEntrySize) =
      xorOver c.config.DBEntrySize (List.range c.config.SetSize) (fun ch =>
        paddedEntry rawDB c.config.DBEntrySize c.config.DBSize
          (if (c.primaryProgramPoint.set h idx).getD h' 0 ≠ DefaultProgramPoint ∧
              (c.primaryProgramPoint.set h idx).getD h' 0 / c.config.ChunkSize = ch then
            (c.primaryProgramPoint.set h idx).getD h' 0
          else ch * c.config.ChunkSize +
            PRFEvalWithLongKeyAndTag aes c.longKey
              ((c.primaryShortTag.set h ((c.backupShortTag.getD (idx / c.config.ChunkSize) []).getD
                (c.QueryHistogram.getD (idx / c.config.ChunkSize) 0) 0)).getD h' 0) ch %
              c.config.ChunkSize))
    rw [getD_set_lt _ _ _ _ _ (by rw [rd.ppLen]; exact hh'),
      getD_set_lt _ _ _ _ _ (by rw [rd.tagLen]; exact hh')]
    by_cases hhh : h = h'
    · subst hhh
      simp only [if_true]
      rw [slice_EntryXorAt_same _ _ _ _ _ hab (by rw [hcl]; exact hb),
        slice_copyAt_same _ _ _ _ hab hb, copySlice_eq _ _ (by
          rw [hbseg, length_slice _ _ _ hb, seg_width]),
        EntryXor_eq_zipWith _ _ _ hbseg (length_dbEntry _ _ _), rd.bpar _ hch _ hQ]
      have hs := xorOver_split c.config.DBEntrySize c.config.SetSize (idx / c.config.ChunkSize)
        (fun ch => paddedEntry rawDB c.config.DBEntrySize c.config.DBSize
          (if idx ≠ DefaultProgramPoint ∧ idx / c.config.ChunkSize = ch then idx
          else ch * c.config.ChunkSize +
            PRFEvalWithLongKeyAndTag aes c.longKey
              ((c.backupShortTag.getD (idx / c.config.ChunkSize) []).getD
                (c.QueryHistogram.getD (idx / c.config.ChunkSize) 0) 0) ch %
              c.config.ChunkSize)) hch (length_paddedEntry _ _ _ _)
      beta_reduce at hs
      rw [hs, if_pos ⟨hne, rfl⟩]
      congr 1
      · apply xorOver_congr
        intro i hi
        rw [List.mem_filter] at hi
        have hi2 : ¬ (idx / c.config.ChunkSize = i) := by
          have := hi.2
          simp only [ne_eq, decide_not, Bool.not_eq_true', decide_eq_false_iff_not] at this
          exact fun h => this h.symm
        rw [if_neg (fun hcon => hi2 hcon.2)]
        unfold PianoPIRClient.setEntry
        rw [hintOffset_eq_mod aes c k hpow (by omega)]
      · rw [paddedEntry, if_pos hidx]
    · simp only [if_neg hhh]
      rw [slice_EntryXorAt_other _ _ _ _ _ hab (by rw [hcl]; exact hb) _ _
        (seg_disjoint _ _ _ hhh),
        slice_copyAt_other _ _ _ _ hab hb _ _ (seg_disjoint _ _ _ hhh)]
      exact rd.par h' hh'
  · exact rd.bpar
  · exact rd.ri
  · exact rd.rv
  · intro k' v hv
    change cacheLookup (cacheInsert c.localCache idx _) k' = some v at hv
    by_cases hk' : k' = idx
    · subst hk'
      rw [cacheLookup_cacheInsert_self] at hv
      exact (Option.some.inj hv).symm
    · rw [cacheLookup_cacheInsert_ne _ _ _ _ hk'] at hv
      exact rd.cache k' v hv

/-- The client that `Preprocessing` returns satisfies the invariant. -/
theorem Ready_of_Preprocessing (aes : Nat → Nat → Nat) (key : Nat) (rng : Nat → Nat → Nat)
    (c0 : PianoPIRClient) (rawDB : Slice) (ok : ConfigOK c0.config rawDB)
    (hskip : c0.skipPrep = false) (c : PianoPIRClient)
    (hprep : c0.Preprocessing aes key rng rawDB = some c) :
    Ready aes rawDB c ∧ c.config = c0.config ∧ c.skipPrep = false := by
  obtain ⟨k, hk, hpow⟩ := ok.pow
  have h0 : 0 < c0.config.ChunkSize := by rw [hpow]; exact Nat.pow_pos (by decide)
  have h1 : c0.config.ChunkSize ≤ 2 ^ 64 := by
    rw [hpow]; exact Nat.pow_le_pow_right (by decide) (by omega)
  obtain ⟨c', hc', inv⟩ := Preprocessing_inv aes key rng c0 rawDB hskip
    (Preprocessing_some aes key rng c0 c rawDB hprep).1 ok.len h0 h1
  rw [hprep] at hc'
  have hcc : c = c' := Option.some.inj hc'
  subst hcc
  have hcfg : c.config = c0.config := congrArg (·.config) inv.frame
  have hH : c.primaryHintNum = c0.primaryHintNum := congrArg (·.primaryHintNum) inv.frame
  have htag : c.primaryShortTag = List.range c0.primaryHintNum :=
    congrArg (·.primaryShortTag) inv.frame
  have hpp : c.primaryProgramPoint = List.replicate c0.primaryHintNum DefaultProgramPoint :=
    congrArg (·.primaryProgramPoint) inv.frame
  have hhist : c.QueryHistogram = List.replicate c0.config.SetSize 0 :=
    congrArg (·.QueryHistogram) inv.frame
  have hcache : c.localCache = [] := congrArg (·.localCache) inv.frame
  have hsk : c.skipPrep = c0.skipPrep := congrArg (·.skipPrep) inv.frame
  have hpow' : c.config.ChunkSize = 2 ^ k := by rw [hcfg]; exact hpow
  have hc0 : 0 < c.config.ChunkSize := by rw [hcfg]; exact h0
  have hc1 : c.config.ChunkSize ≤ 2 ^ 64 := by rw [hcfg]; exact h1
  refine ⟨?_, hcfg, by rw [hsk]; exact hskip⟩
  constructor
  · rw [htag, hH]; simp
  · exact inv.parLen
  · rw [hpp, hH]; simp
  · rw [hhist, hcfg]; simp
  · exact inv.bRow
  · exact inv.rvRow
  · intro h hh
    left
    rw [hpp, getD_replicate_lt _ _ _ _ (by rw [← hH]; exact hh)]
  · intro h hh
    unfold PianoPIRClient.parityConsistent
    rw [inv.par h hh, ← hcfg]
    apply xorOver_congr
    intro ch _
    unfold PianoPIRClient.setEntry PianoPIRClient.hintElement
    have : c.primaryProgramPoint.getD h 0 = DefaultProgramPoint := by
      rw [hpp, getD_replicate_lt _ _ _ _ (by rw [← hH]; exact hh)]
    rw [if_neg (fun hcon => hcon.1 this), hintOffset_eq_mod aes c k hpow' (by omega)]
  · intro i hi j hj
    rw [inv.bpar i hi j hj, hcfg]
  · intro i hi j hj
    rw [inv.ri i hi j hj, if_pos (by rw [← hcfg]; exact hi), Nat.add_comm]
    exact add_mul_div_chunk _ _ _ hc0 (and_chunkMask_lt c.config hc0 hc1 _)
  · intro i hi j hj
    rw [inv.rv i hi j hj, if_pos (by rw [← hcfg]; exact hi), inv.ri i hi j hj,
      if_pos (by rw [← hcfg]; exact hi), Nat.add_comm]
  · intro k' v hv
    rw [hcache] at hv
    exact absurd hv (by simp [cacheLookup])

/-- A call of `Query` that returns keeps the invariant, the configuration and `skipPrep`. -/
theorem Ready_Query (aes : Nat → Nat → Nat) (c : PianoPIRClient) (rawDB : Slice)
    (server : PianoPIRServer) (hcfg : server.config = c.config) (hdb : server.rawDB = rawDB)
    (ok : ConfigOK c.config rawDB) (rd : Ready aes rawDB c) (idx : Nat) (realQuery : Bool)
    (rand : Nat → Nat) (r : QueryResult)
    (hq : c.Query aes idx server realQuery rand = some r) :
    Ready aes rawDB r.client ∧ r.client.config = c.config ∧ r.client.skipPrep = c.skipPrep ∧
      (realQuery = true → r.err = none → r.ret = dbEntry rawDB c.config.DBEntrySize idx) := by
  cases realQuery with
  | false =>
    rw [dummy_Query_client aes c idx server rand r hq]
    exact ⟨rd, rfl, rfl, fun h => absurd h (by simp)⟩
  | true =>
    obtain ⟨hidx, hcase⟩ := Query_real_cases aes c idx server rand r hq
    rcases hcase with ⟨v, hv, hr⟩ | ⟨e, hr⟩ | ⟨_, hQ, hhit, hcl, hret⟩
    · rw [hr]
      exact ⟨rd, rfl, rfl, fun _ _ => rd.cache idx v hv⟩
    · rw [hr]
      exact ⟨rd, rfl, rfl, fun _ h => absurd h (by simp)⟩
    · have hresp := response_eq_dbEntry aes c rawDB server hcfg hdb ok rd idx hidx hQ hhit
      rw [hresp] at hcl hret
      obtain ⟨hlt, -, -⟩ := findHit_spec aes c _ _ hhit
      rw [hcl]
      exact ⟨Ready_refresh aes c rawDB ok rd idx hidx _ hlt hQ, rfl, rfl, fun _ _ => hret⟩

theorem Ready_QueryReach (aes : Nat → Nat → Nat) (rawDB : Slice) (server : PianoPIRServer)
    (hdb : server.rawDB = rawDB) (c1 c : PianoPIRClient) (hr : QueryReach aes server c1 c)
    (hcfg : server.config = c1.config) (ok : ConfigOK c1.config rawDB)
    (rd : Ready aes rawDB c1) : Ready aes rawDB c ∧ c.config = c1.config := by
  induction hr with
  | refl => exact ⟨rd, rfl⟩
  | step c' c'' _ hs ih =>
    obtain ⟨ih1, ih2⟩ := ih
    cases hs with
    | call idx realQuery rand r hq =>
      obtain ⟨a, b, _, _⟩ := Ready_Query aes c' rawDB server (by rw [ih2]; exact hcfg) hdb
        (by rw [ih2]; exact ok) ih1 idx realQuery rand r hq
      exact ⟨a, by rw [b, ih2]⟩

/-- The invariant of the instance between two calls of `PianoPIR.Query`. -/
theorem Ready_PIRReach (aes : Nat → Nat → Nat) (p1 p : PianoPIR) (hr : PIRReach aes p1 p)
    (hcfg : p1.server.config = p1.client.config)
    (ok : ConfigOK p1.client.config p1.server.rawDB) (hskip : p1.client.skipPrep = false)
    (rd : Ready aes p1.server.rawDB p1.client) :
    Ready aes p1.server.rawDB p.client ∧ p.client.config = p1.client.config ∧
      p.client.skipPrep = false ∧ p.server = p1.server := by
  induction hr with
  | refl => exact ⟨rd, rfl, hskip, rfl⟩
  | step p' idx realQuery key rng rand r _ hq ih =>
    obtain ⟨i1, i2, i3, i4⟩ := ih
    unfold PianoPIR.Query at hq
    simp only [] at hq
    split at hq
    · exact absurd hq (by simp)
    · rename_i c hc
      split at hq
      · exact absurd hq (by simp)
      · rename_i q hq'
        simp only [Option.some.injEq] at hq
        rw [← hq]
        have hc' : Ready aes p1.server.rawDB c ∧ c.config = p1.client.config ∧
            c.skipPrep = false := by
          by_cases hF : p'.client.FinishedQueryNum = p'.client.MaxQueryNum
          · rw [if_pos hF, i4] at hc
            obtain ⟨a, b, d⟩ := Ready_of_Preprocessing aes key rng p'.client p1.server.rawDB
              (by rw [i2]; exact ok) i3 c hc
            exact ⟨a, by rw [b, i2], d⟩
          · rw [if_neg hF] at hc
            simp only [Option.some.injEq] at hc
            rw [← hc]
            exact ⟨i1, i2, i3⟩
        obtain ⟨a, b, d, _⟩ := Ready_Query aes c p1.server.rawDB p'.server
          (by rw [i4, hc'.2.1]; exact hcfg) (by rw [i4]) (by rw [hc'.2.1]; exact ok) hc'.1
          idx realQuery rand q hq'
        exact ⟨a, by rw [b, hc'.2.1], by rw [d]; exact hc'.2.2, i4⟩

/-! ## The parameters computed by the constructors -/

theorem chunkSizeLoop_spec (t : Nat) (ht : t ≤ 2 ^ 63) :
    ∀ fuel k, k + fuel = 64 → 0 < fuel → (k = 0 ∨ 2 ^ (k - 1) < t) →
      ∃ k', k' ≤ 63 ∧ chunkSizeLoop fuel (2 ^ k) t = some (2 ^ k') ∧ t ≤ 2 ^ k' ∧
        (k' = 0 ∨ 2 ^ (k' - 1) < t) := by
  intro fuel
  induction fuel with
  | zero => intro k _ h; omega
  | succ fuel ih =>
    intro k hk _ hprev
    unfold chunkSizeLoop
    by_cases h : 2 ^ k < t
    · have hk63 : k < 63 :=
        (Nat.pow_lt_pow_iff_right (by norm_num : 1 < 2)).mp (lt_of_lt_of_le h ht)
      have hlt : 2 ^ (k + 1) < 2 ^ 64 :=
        (Nat.pow_lt_pow_iff_right (by norm_num : 1 < 2)).mpr (by omega)
      have hmod : 2 ^ k * 2 % 2 ^ 64 = 2 ^ (k + 1) := by
        rw [← Nat.pow_succ]; exact Nat.mod_eq_of_lt hlt
      rw [if_pos h, hmod]
      exact ih (k + 1) (by omega) (by omega) (Or.inr (by simpa using h))
    · rw [if_neg h]
      exact ⟨k, by omega, rfl, not_lt.mp h, hprev⟩

/-- The chunk size of `NewPianoPIR`: the least power of two that is not below the target. -/
theorem chunkSizeLoop_least (t : Nat) (ht : t ≤ 2 ^ 63) :
    ∃ k, k ≤ 63 ∧ chunkSizeLoop 64 1 t = some (2 ^ k) ∧ t ≤ 2 ^ k ∧
      (k = 0 ∨ 2 ^ (k - 1) < t) := by
  have := chunkSizeLoop_spec t ht 64 0 (by omega) (by omega) (Or.inl rfl)
  simpa using this

theorem NewPianoPIR_eq (fl : FloatValues) (DBSize DBEntryByteNum : Nat) (rawDB : Slice)
    (FailureProbLog2 key key2 : Nat)
    (hlen : rawDB.len = DBSize * (DBEntryByteNum / 8) % 2 ^ 64) (cs : Nat)
    (hcs : chunkSizeLoop 64 1 (fl.twoSqrt DBSize) = some cs) :
    ∃ p, NewPianoPIR fl DBSize DBEntryByteNum rawDB FailureProbLog2 key key2 = some p ∧
      p.config.ChunkSize = cs ∧ p.config.SetSize = (fl.ceilDiv DBSize cs + 3) / 4 * 4 ∧
      p.config.DBSize = DBSize ∧ p.config.DBEntrySize = DBEntryByteNum / 8 ∧
      p.config.ThreadNum = 8 ∧ p.client.config = p.config ∧ p.server.config = p.config ∧
      p.server.rawDB = rawDB ∧ p.client.localCache = [] ∧ p.client.skipPrep = false ∧
      p.client.MaxQueryNum = fl.sqrtLog DBSize := by
  unfold NewPianoPIR
  simp only [hlen, ne_eq, not_true_eq_false, if_false, hcs]
  exact ⟨_, rfl, rfl, rfl, rfl, rfl, rfl, rfl, rfl, rfl, rfl, rfl, rfl⟩

/-! ## The query histogram and the short tags along an epoch -/

theorem getD_set_any {α : Type} (l : List α) (i j : Nat) (x d : α) :
    (l.set i x).getD j d = if i = j ∧ j < l.length then x else l.getD j d := by
  by_cases h : i = j
  · subst h
    by_cases hl : i < l.length
    · rw [if_pos ⟨rfl, hl⟩, getD_set_self' _ _ _ _ hl]
    · rw [if_neg (fun hc => hl hc.2), List.set_eq_of_length_le (by omega)]
  · rw [if_neg (fun hc => h hc.1), getD_set_ne' _ _ _ _ _ h]

/-- What a call of `Query` that returns does to the client: nothing, or the refresh of the hit
hint with a slot of the chunk whose budget is not used up. -/
theorem Query_client_cases (aes : Nat → Nat → Nat) (c : PianoPIRClient) (idx : Nat)
    (server : PianoPIRServer) (realQuery : Bool) (rand : Nat → Nat) (r : QueryResult)
    (h : c.Query aes idx server realQuery rand = some r) :
    r.client = c ∨
      (realQuery = true ∧ idx < c.config.DBSize ∧
        c.QueryHistogram.getD (idx / c.config.ChunkSize) 0 < c.maxQueryPerChunk ∧
        r.client = c.refresh
          (c.findHit aes (idx / c.config.ChunkSize) (idx % c.config.ChunkSize))
          (idx / c.config.ChunkSize) idx r.ret) := by
  cases realQuery with
  | false => exact Or.inl (dummy_Query_client aes c idx server rand r h)
  | true =>
    obtain ⟨hidx, hc⟩ := Query_real_cases aes c idx server rand r h
    rcases hc with ⟨v, _, hr⟩ | ⟨e, hr⟩ | ⟨_, hQ, _, hcl, hret⟩
    · left; rw [hr]
    · left; rw [hr]
    · right; exact ⟨rfl, hidx, hQ, by rw [hcl, hret]⟩

theorem hist_refresh (c : PianoPIRClient) (h ch idx : Nat) (resp : List Nat)
    (hQ : c.QueryHistogram.getD ch 0 < c.maxQueryPerChunk)
    (hinv : ∀ x, c.QueryHistogram.getD x 0 ≤ c.maxQueryPerChunk) :
    ∀ x, (c.refresh h ch idx resp).QueryHistogram.getD x 0 ≤
      (c.refresh h ch idx resp).maxQueryPerChunk := by
  intro x
  show (c.QueryHistogram.set ch (c.QueryHistogram.getD ch 0 + 1)).getD x 0 ≤ c.maxQueryPerChunk
  rw [getD_set_any]
  split
  · omega
  · exact hinv x

theorem hist_Query (aes : Nat → Nat → Nat) (c : PianoPIRClient) (idx : Nat)
    (server : PianoPIRServer) (realQuery : Bool) (rand : Nat → Nat) (r : QueryResult)
    (h : c.Query aes idx server realQuery rand = some r)
    (hinv : ∀ x, c.QueryHistogram.getD x 0 ≤ c.maxQueryPerChunk) :
    r.client.maxQueryPerChunk = c.maxQueryPerChunk ∧
      ∀ x, r.client.QueryHistogram.getD x 0 ≤ r.client.maxQueryPerChunk := by
  rcases Query_client_cases aes c idx server realQuery rand r h with hc | ⟨_, _, hQ, hc⟩
  · rw [hc]; exact ⟨rfl, hinv⟩
  · rw [hc]; exact ⟨rfl, hist_refresh c _ _ _ _ hQ hinv⟩

theorem hist_QueryReach (aes : Nat → Nat → Nat) (server : PianoPIRServer)
    (c1 c : PianoPIRClient) (hr : QueryReach aes server c1 c)
    (hinv : ∀ x, c1.QueryHistogram.getD x 0 ≤ c1.maxQueryPerChunk) :
    c.maxQueryPerChunk = c1.maxQueryPerChunk ∧
      ∀ x, c.QueryHistogram.getD x 0 ≤ c.maxQueryPerChunk := by
  induction hr with
  | refl => exact ⟨rfl, hinv⟩
  | step c' c'' _ hs ih =>
    cases hs with
    | call idx realQuery rand r hq =>
      obtain ⟨h1, h2⟩ := hist_Query aes c' idx server realQuery rand r hq ih.2
      exact ⟨h1.trans ih.1, h2⟩

theorem hist_Initialization (c : PianoPIRClient) (key : Nat) :
    ∀ x, (c.initTables key).QueryHistogram.getD x 0 ≤
      (c.initTables key).maxQueryPerChunk := by
  intro x
  show (List.replicate c.config.SetSize 0).getD x 0 ≤ c.maxQueryPerChunk
  by_cases hx : x < c.config.SetSize
  · rw [getD_replicate_lt _ _ _ _ hx]; omega
  · simp [List.getD, List.getElem?_replicate, hx]

theorem slot_inj (Q a j a' j' : Nat) (hj : j < Q) (hj' : j' < Q)
    (h : a * Q + j = a' * Q + j') : a = a' ∧ j = j' := by
  have hQ : 0 < Q := by omega
  have h1 := add_mul_div_chunk Q j a hQ hj
  have h2 := add_mul_div_chunk Q j' a' hQ hj'
  have ha : a = a' := by rw [← h1, ← h2, h]
  subst ha
  exact ⟨rfl, by omega⟩

theorem TagInv_init (c : PianoPIRClient) (key : Nat) : TagInv (c.initTables key) where
  tagLen := by show (List.range c.primaryHintNum).length = c.primaryHintNum; simp
  histLen := by show (List.replicate c.config.SetSize 0).length = c.config.SetSize; simp
  btag := by
    intro ch hch j hj
    have hch' : ch < c.config.SetSize := hch
    have hj' : j < c.maxQueryPerChunk := hj
    show (((List.range c.config.SetSize).map fun i =>
      (List.range c.maxQueryPerChunk).map fun j =>
        c.primaryHintNum + i * c.maxQueryPerChunk + j).getD ch []).getD j 0 =
      c.primaryHintNum + ch * c.maxQueryPerChunk + j
    rw [getD_map_range _ _ _ _ hch', getD_map_range _ _ _ _ hj']
  ptag := by
    intro i hi
    have hi' : i < c.primaryHintNum := hi
    left
    show (List.range c.primaryHintNum).getD i 0 = i
    simp [List.getD, List.getElem?_range hi']
  distinct := by
    intro i i' hi hi' hne
    have h1 : i < c.primaryHintNum := hi
    have h2 : i' < c.primaryHintNum := hi'
    show (List.range c.primaryHintNum).getD i 0 ≠ (List.range c.primaryHintNum).getD i' 0
    simp [List.getD, List.getElem?_range h1, List.getElem?_range h2, hne]

/-- A primary tag differs from the tag of every backup slot that is not consumed. -/
theorem TagInv_fresh (c : PianoPIRClient) (inv : TagInv c) (i ch j : Nat)
    (hi : i < c.primaryHintNum) (hge : c.QueryHistogram.getD ch 0 ≤ j)
    (hj : j < c.maxQueryPerChunk) :
    c.primaryShortTag.getD i 0 ≠ c.primaryHintNum + ch * c.maxQueryPerChunk + j := by
  rcases inv.ptag i hi with h0 | ⟨ch', j', _, hj', hjQ, h1⟩
  · rw [h0]; omega
  · rw [h1]
    intro heq
    have := slot_inj c.maxQueryPerChunk ch' j' ch j hjQ hj (by omega)
    obtain ⟨h2, h3⟩ := this
    subst h2; subst h3
    omega

theorem TagInv_refresh (c : PianoPIRClient) (inv : TagInv c) (h ch idx : Nat)
    (resp : List Nat) (hch : ch < c.config.SetSize)
    (hQ : c.QueryHistogram.getD ch 0 < c.maxQueryPerChunk) :
    TagInv (c.refresh h ch idx resp) := by
  have hnew := inv.btag ch hch _ hQ
  have hmono : ∀ x, c.QueryHistogram.getD x 0 ≤
      (c.QueryHistogram.set ch (c.QueryHistogram.getD ch 0 + 1)).getD x 0 := by
    intro x
    rw [getD_set_any]
    split
    · rename_i hx; rw [← hx.1]; omega
    · exact Nat.le_refl _
  have hself : (c.QueryHistogram.set ch (c.QueryHistogram.getD ch 0 + 1)).getD ch 0 =
      c.QueryHistogram.getD ch 0 + 1 := by
    rw [getD_set_any, if_pos ⟨rfl, by rw [inv.histLen]; exact hch⟩]
  refine ⟨?_, ?_, inv.btag, ?_, ?_⟩
  · show (c.primaryShortTag.set h _).length = c.primaryHintNum
    rw [List.length_set]; exact inv.tagLen
  · show (c.QueryHistogram.set ch _).length = c.config.SetSize
    rw [List.length_set]; exact inv.histLen
  · intro i hi
    show (c.primaryShortTag.set h _).getD i 0 = i ∨
      ∃ ch' j, ch' < c.config.SetSize ∧
        j < (c.QueryHistogram.set ch (c.QueryHistogram.getD ch 0 + 1)).getD ch' 0 ∧
        j < c.maxQueryPerChunk ∧
        (c.primaryShortTag.set h _).getD i 0 = c.primaryHintNum + ch' * c.maxQueryPerChunk + j
    rw [getD_set_any]
    split
    · right
      exact ⟨ch, _, hch, by rw [hself]; omega, hQ, hnew⟩
    · rcases inv.ptag i hi with h0 | ⟨ch', j', hc', hj', hjQ, h1⟩
      · exact Or.inl h0
      · exact Or.inr ⟨ch', j', hc', lt_of_lt_of_le hj' (hmono ch'), hjQ, h1⟩
  · intro i i' hi hi' hne
    show (c.primaryShortTag.set h _).getD i 0 ≠ (c.primaryShortTag.set h _).getD i' 0
    rw [getD_set_any, getD_set_any]
    by_cases h1 : h = i ∧ i < c.primaryShortTag.length
    · have h2 : ¬ (h = i' ∧ i' < c.primaryShortTag.length) := fun hc => hne (h1.1.symm.trans hc.1)
      rw [if_pos h1, if_neg h2, hnew]
      exact Ne.symm (TagInv_fresh c inv i' ch _ hi' (Nat.le_refl _) hQ)
    · rw [if_neg h1]
      by_cases h2 : h = i' ∧ i' < c.primaryShortTag.length
      · rw [if_pos h2, hnew]
        exact TagInv_fresh c inv i ch _ hi (Nat.le_refl _) hQ
      · rw [if_neg h2]
        exact inv.distinct i i' hi hi' hne

theorem TagInv_Query (aes : Nat → Nat → Nat) (c : PianoPIRClient) (idx : Nat)
    (server : PianoPIRServer) (realQuery : Bool) (rand : Nat → Nat) (r : QueryResult)
    (h : c.Query aes idx server realQuery rand = some r)
    (hcover : c.config.DBSize ≤ c.config.ChunkSize * c.config.SetSize) (inv : TagInv c) :
    TagInv r.client := by
  rcases Query_client_cases aes c idx server realQuery rand r h with hc | ⟨_, hidx, hQ, hc⟩
  · rw [hc]; exact inv
  · rw [hc]
    exact TagInv_refresh c inv _ _ _ _ (chunk_lt_SetSize c.config idx hcover hidx) hQ

theorem TagInv_QueryReach (aes : Nat → Nat → Nat) (server : PianoPIRServer)
    (c1 c : PianoPIRClient) (hr : QueryReach aes server c1 c)
    (hcover : c1.config.DBSize ≤ c1.config.ChunkSize * c1.config.SetSize) (inv : TagInv c1) :
    TagInv c ∧ c.config = c1.config := by
  induction hr with
  | refl => exact ⟨inv, rfl⟩
  | step c' c'' _ hs ih =>
    cases hs with
    | call idx realQuery rand r hq =>
      have hcfg := Query_config aes c' idx server realQuery rand r hq
      exact ⟨TagInv_Query aes c' idx server realQuery rand r hq (by rw [ih.2]; exact hcover) ih.1,
        hcfg.trans ih.2⟩

/-! ## The request of a real query -/

theorem querySetOffset_getD (aes : Nat → Nat → Nat) (c : PianoPIRClient) (h ch i : Nat)
    (hi : i < c.config.SetSize) :
    (c.querySetOffset aes h ch).getD i 0 =
      toUint32 ((c.querySet aes h ch).getD i 0 &&& chunkMask c.config) := by
  have hl : i < (c.querySet aes h ch).length := by rw [length_querySet]; exact hi
  unfold PianoPIRClient.querySetOffset
  simp [List.getD, List.getElem?_map, List.getElem?_eq_getElem hl]

theorem toUint32_and_chunkMask (config : PianoPIRConfig) (k : Nat) (hk : k ≤ 32)
    (hpow : config.ChunkSize = 2 ^ k) (q : Nat) :
    toUint32 (q &&& chunkMask config) = q % config.ChunkSize := by
  have h0 : 0 < config.ChunkSize := by rw [hpow]; exact Nat.pow_pos (by decide)
  have h32 : config.ChunkSize ≤ 2 ^ 32 := by rw [hpow]; exact Nat.pow_le_pow_right (by decide) hk
  rw [and_chunkMask_eq_mod config k hpow (by omega)]
  unfold toUint32
  exact Nat.mod_eq_of_lt (Nat.lt_of_lt_of_le (Nat.mod_lt _ h0) h32)

theorem querySetOffset_lt (aes : Nat → Nat → Nat) (c : PianoPIRClient) (h ch : Nat)
    (h0 : 0 < c.config.ChunkSize) (h1 : c.config.ChunkSize ≤ 2 ^ 64) :
    ∀ o, o ∈ c.querySetOffset aes h ch → o < c.config.ChunkSize := by
  intro o ho
  unfold PianoPIRClient.querySetOffset at ho
  obtain ⟨q, _, hq⟩ := List.mem_map.mp ho
  rw [← hq]
  exact Nat.lt_of_le_of_lt (toUint32_le _) (and_chunkMask_lt c.config h0 h1 q)

theorem length_querySetOffset (aes : Nat → Nat → Nat) (c : PianoPIRClient) (h ch : Nat) :
    (c.querySetOffset aes h ch).length = c.config.SetSize := by
  unfold PianoPIRClient.querySetOffset
  rw [List.length_map, length_querySet]

/-! ## Queries after `DummyPreprocessing` -/

theorem xorSlices_zero_src (d s : List Nat) (n : Nat) (hs : ∀ x, x ∈ s → x = 0) :
    xorSlices d s n = d := by
  induction d generalizing s n with
  | nil => cases s <;> cases n <;> simp [xorSlices]
  | cons x xs ih =>
    cases s with
    | nil => cases n <;> simp [xorSlices]
    | cons y ys =>
      cases n with
      | zero => simp [xorSlices]
      | succ n =>
        have hy : y = 0 := hs y (List.mem_cons_self _ _)
        have hys : ∀ x, x ∈ ys → x = 0 := fun x hx => hs x (List.mem_cons_of_mem _ hx)
        simp [xorSlices, hy, ih ys n hys]

theorem mem_slice (t : List Nat) (a b x : Nat) (h : x ∈ slice t a b) : x ∈ t :=
  List.mem_of_mem_drop (List.mem_of_mem_take h)

theorem mem_copySlice (d s : List Nat) (x : Nat) (h : x ∈ copySlice d s) : x ∈ d ∨ x ∈ s := by
  induction d generalizing s with
  | nil => cases s <;> simp [copySlice] at h
  | cons y ys ih =>
    cases s with
    | nil => left; simpa [copySlice] using h
    | cons z zs =>
      simp only [copySlice, List.mem_cons] at h
      rcases h with h | h
      · right; rw [h]; exact List.mem_cons_self _ _
      · rcases ih zs h with h1 | h1
        · left; exact List.mem_cons_of_mem _ h1
        · right; exact List.mem_cons_of_mem _ h1

theorem mem_getD_row (l : List (List Nat)) (i x : Nat) (h : x ∈ l.getD i []) :
    ∃ row, row ∈ l ∧ x ∈ row := by
  rw [List.getD_eq_getElem?_getD] at h
  cases hi : l[i]? with
  | none => rw [hi] at h; simp at h
  | some row =>
    rw [hi] at h
    exact ⟨row, List.getElem?_mem hi, h⟩

theorem eq_zeroEntry_of_forall (l : List Nat) (E : Nat) (hl : l.length = E)
    (h : ∀ x, x ∈ l → x = 0) : l = zeroEntry E := by
  unfold zeroEntry
  exact List.eq_replicate_iff.mpr ⟨hl, h⟩

theorem mem_zeroEntry (E x : Nat) (h : x ∈ zeroEntry E) : x = 0 := by
  unfold zeroEntry at h
  exact (List.mem_replicate.mp h).2

theorem foldr_xor_zero (l : List Nat) (g : Nat → Nat) (h : ∀ i, i ∈ l → g i = 0) :
    (l.map g).foldr (· ^^^ ·) 0 = 0 := by
  induction l with
  | nil => rfl
  | cons a as ih =>
    simp only [List.map_cons, List.foldr_cons]
    rw [ih (fun i hi => h i (List.mem_cons_of_mem _ hi)), h a (List.mem_cons_self _ _)]
    rfl

theorem xorOver_zero (E : Nat) (l : List Nat) (f : Nat → List Nat)
    (h : ∀ i, i ∈ l → f i = zeroEntry E) : xorOver E l f = zeroEntry E := by
  apply eq_zeroEntry_of_forall _ _ (length_xorOver _ _ _)
  intro x hx
  unfold xorOver at hx
  obtain ⟨k, hk, hx⟩ := List.mem_map.mp hx
  rw [← hx]
  have hk' : k < E := List.mem_range.mp hk
  apply foldr_xor_zero
  intro i hi
  rw [h i hi]
  simp [zeroEntry, List.getD, List.getElem?_replicate, hk']

theorem paddedEntry_zero (rawDB : Slice) (E DBSize idx : Nat) (h : ∀ i, rawDB.get i = 0) :
    paddedEntry rawDB E DBSize idx = zeroEntry E := by
  unfold paddedEntry
  split
  · apply eq_zeroEntry_of_forall _ _ (length_dbEntry _ _ _)
    intro x hx
    unfold dbEntry Slice.sub at hx
    obtain ⟨k, _, hx⟩ := List.mem_map.mp hx
    rw [← hx]; exact h _
  · rfl

theorem PrivateQuery_zero (s : PianoPIRServer) (offsets : List Nat)
    (h : ∀ i, s.rawDB.get i = 0) :
    (s.PrivateQuery offsets).1 = zeroEntry s.config.DBEntrySize := by
  rw [PrivateQuery_eq]
  exact xorOver_zero _ _ _ (fun _ _ => paddedEntry_zero _ _ _ _ h)

theorem response_zero (aes : Nat → Nat → Nat) (c : PianoPIRClient) (server : PianoPIRServer)
    (h ch : Nat) (inv : ZeroInv c) (hdb : ∀ i, server.rawDB.get i = 0)
    (hE : server.config.DBEntrySize = c.config.DBEntrySize) :
    c.response aes server h ch = zeroEntry c.config.DBEntrySize := by
  unfold PianoPIRClient.response
  simp only []
  rw [PrivateQuery_zero server _ hdb, hE]
  unfold EntryXor
  rw [xorSlices_zero_src _ _ _ (fun x hx => inv.par x (mem_slice _ _ _ _ hx))]
  apply xorSlices_zero_src
  intro x hx
  obtain ⟨row, hrow, hx'⟩ := mem_getD_row _ _ _ (mem_slice _ _ _ _ hx)
  exact inv.rv row hrow x hx'

theorem ZeroInv_refresh (c : PianoPIRClient) (inv : ZeroInv c) (h ch idx : Nat) :
    ZeroInv (c.refresh h ch idx (zeroEntry c.config.DBEntrySize)) where
  skip := inv.skip
  par := by
    intro x hx
    have hx' : x ∈ EntryXorAt
        (copyAt c.primaryParity (h * c.config.DBEntrySize) ((h + 1) * c.config.DBEntrySize)
          (slice (c.backupParity.getD ch [])
            (c.QueryHistogram.getD ch 0 * c.config.DBEntrySize)
            ((c.QueryHistogram.getD ch 0 + 1) * c.config.DBEntrySize)))
        (h * c.config.DBEntrySize) ((h + 1) * c.config.DBEntrySize)
        (zeroEntry c.config.DBEntrySize) c.config.DBEntrySize := hx
    have hcopy : ∀ y, y ∈ copyAt c.primaryParity (h * c.config.DBEntrySize)
        ((h + 1) * c.config.DBEntrySize)
        (slice (c.backupParity.getD ch [])
          (c.QueryHistogram.getD ch 0 * c.config.DBEntrySize)
          ((c.QueryHistogram.getD ch 0 + 1) * c.config.DBEntrySize)) → y = 0 := by
      intro y hy
      unfold copyAt at hy
      simp only [List.mem_append] at hy
      rcases hy with (hy | hy) | hy
      · exact inv.par y (List.mem_of_mem_take hy)
      · rcases mem_copySlice _ _ _ hy with hy | hy
        · exact inv.par y (mem_slice _ _ _ _ hy)
        · obtain ⟨row, hrow, hy'⟩ := mem_getD_row _ _ _ (mem_slice _ _ _ _ hy)
          exact inv.bpar row hrow y hy'
      · exact inv.par y (List.mem_of_mem_drop hy)
    unfold EntryXorAt EntryXor at hx'
    rw [xorSlices_zero_src _ _ _ (mem_zeroEntry _)] at hx'
    simp only [List.mem_append] at hx'
    rcases hx' with (hx' | hx') | hx'
    · exact hcopy x (List.mem_of_mem_take hx')
    · exact hcopy x (mem_slice _ _ _ _ hx')
    · exact hcopy x (List.mem_of_mem_drop hx')
  bpar := inv.bpar
  rv := inv.rv
  cache := by
    intro k v hv
    have hv' : cacheLookup (cacheInsert c.localCache idx (zeroEntry c.config.DBEntrySize)) k =
        some v := hv
    show v = zeroEntry c.config.DBEntrySize
    by_cases hk : k = idx
    · subst hk
      rw [cacheLookup_cacheInsert_self] at hv'
      exact (Option.some.inj hv').symm
    · rw [cacheLookup_cacheInsert_ne _ _ _ _ hk] at hv'
      exact inv.cache k v hv'

theorem ZeroInv_init (c : PianoPIRClient) (key : Nat) :
    ZeroInv { c.initTables key with skipPrep := true } where
  skip := rfl
  par := fun x hx => (List.mem_replicate.mp hx).2
  bpar := by
    intro row hrow x hx
    have := (List.mem_replicate.mp hrow).2
    rw [this] at hx
    exact (List.mem_replicate.mp hx).2
  rv := by
    intro row hrow x hx
    have := (List.mem_replicate.mp hrow).2
    rw [this] at hx
    exact (List.mem_replicate.mp hx).2
  cache := by
    intro k v hv
    exact absurd hv (by simp [cacheLookup, PianoPIRClient.initTables])

/-- With `skipPrep` set, `Preprocessing` returns the initialised client when `Initialization`
returns. -/
theorem Preprocessing_skip_eq (aes : Nat → Nat → Nat) (key : Nat) (rng : Nat → Nat → Nat)
    (c : PianoPIRClient) (rawDB : Slice) (h : c.skipPrep = true)
    (hinit : c.Initialization key = some (c.initTables key)) :
    c.Preprocessing aes key rng rawDB = some (c.initTables key) := by
  have h1 : (c.initTables key).skipPrep = true := h
  rw [Preprocessing_of_init aes key rng c _ rawDB hinit]
  simp only [h1, if_true]

/-- With `skipPrep` set, `Preprocessing` returns the initialised client. -/
theorem Preprocessing_skip (aes : Nat → Nat → Nat) (key : Nat) (rng : Nat → Nat → Nat)
    (c : PianoPIRClient) (rawDB : Slice) (h : c.skipPrep = true)
    (hinit : c.Initialization key = some (c.initTables key)) :
    ∃ c', c.Preprocessing aes key rng rawDB = some c' ∧ c'.skipPrep = true ∧
      c'.config = c.config ∧ ZeroInv c' := by
  have h1 : (c.initTables key).skipPrep = true := h
  have h2 : c.initTables key = { c.initTables key with skipPrep := true } := by
    rw [← h1]
  refine ⟨c.initTables key, Preprocessing_skip_eq aes key rng c rawDB h hinit, h1, rfl, ?_⟩
  rw [h2]; exact ZeroInv_init c key

/-- `Query` keeps the sizes of the tables. -/
theorem Query_sizes (aes : Nat → Nat → Nat) (c : PianoPIRClient) (idx : Nat)
    (server : PianoPIRServer) (realQuery : Bool) (rand : Nat → Nat) (r : QueryResult)
    (h : c.Query aes idx server realQuery rand = some r) :
    r.client.primaryHintNum = c.primaryHintNum ∧
      r.client.maxQueryPerChunk = c.maxQueryPerChunk := by
  unfold PianoPIRClient.Query at h
  cases realQuery with
  | false =>
    simp only [Bool.not_false, if_true, Option.some.injEq] at h
    rw [← h]; exact ⟨rfl, rfl⟩
  | true =>
    simp only [Bool.not_true, Bool.false_eq_true, if_false] at h
    split at h
    · exact absurd h (by simp)
    · split at h
      · simp only [Option.some.injEq] at h; rw [← h]; exact ⟨rfl, rfl⟩
      · split at h
        · simp only [Option.some.injEq] at h; rw [← h]; exact ⟨rfl, rfl⟩
        · split at h
          · simp only [Option.some.injEq] at h; rw [← h]; exact ⟨rfl, rfl⟩
          · split at h
            · simp only [Option.some.injEq] at h; rw [← h]; exact ⟨rfl, rfl⟩
            · simp only [Option.some.injEq] at h; rw [← h]; exact ⟨rfl, rfl⟩

/-- A run of `DummyPreprocessing` that returns. -/
theorem DummyPreprocessing_some (p0 pd : PianoPIR) (key0 : Nat)
    (hd : p0.DummyPreprocessing key0 = some pd) :
    p0.client.Initialization key0 = some (p0.client.initTables key0) ∧
      pd = { p0 with client := { p0.client.initTables key0 with skipPrep := true } } := by
  unfold PianoPIR.DummyPreprocessing at hd
  cases hi : p0.client.Initialization key0 with
  | none =>
    rw [hi] at hd
    exact absurd hd (by simp)
  | some c1 =>
    have h1 := Initialization_some p0.client c1 key0 hi
    subst h1
    rw [hi] at hd
    exact ⟨rfl, (Option.some.inj hd).symm⟩

/-- The two steps of `PianoPIR.Query`: the client is preprocessed again when its budget is
used up, then it is queried. -/
theorem PianoPIR_Query_cases (aes : Nat → Nat → Nat) (p : PianoPIR) (idx : Nat)
    (realQuery : Bool) (key : Nat) (rng : Nat → Nat → Nat) (rand : Nat → Nat)
    (r : PIRQueryResult) (h : p.Query aes idx realQuery key rng rand = some r) :
    ∃ c r', ((p.client.FinishedQueryNum ≠ p.client.MaxQueryNum ∧ c = p.client) ∨
        (p.client.FinishedQueryNum = p.client.MaxQueryNum ∧
          p.client.Preprocessing aes key rng p.server.rawDB = some c)) ∧
      c.Query aes idx p.server realQuery rand = some r' ∧
      r.pir = { p with client := r'.client } ∧ r.ret = r'.ret ∧ r.err = r'.err ∧
      r.sent = r'.sent := by
  unfold PianoPIR.Query at h
  by_cases hF : p.client.FinishedQueryNum = p.client.MaxQueryNum
  · rw [if_pos hF] at h
    cases hp : p.client.Preprocessing aes key rng p.server.rawDB with
    | none => rw [hp] at h; exact absurd h (by simp)
    | some c =>
      rw [hp] at h
      simp only [] at h
      cases hq : c.Query aes idx p.server realQuery rand with
      | none => rw [hq] at h; exact absurd h (by simp)
      | some r' =>
        rw [hq] at h
        simp only [Option.some.injEq] at h
        exact ⟨c, r', Or.inr ⟨hF, rfl⟩, hq, by rw [← h], by rw [← h], by rw [← h], by rw [← h]⟩
  · rw [if_neg hF] at h
    simp only [] at h
    cases hq : p.client.Query aes idx p.server realQuery rand with
    | none => rw [hq] at h; exact absurd h (by simp)
    | some r' =>
      rw [hq] at h
      simp only [Option.some.injEq] at h
      exact ⟨p.client, r', Or.inl ⟨hF, rfl⟩, hq, by rw [← h], by rw [← h], by rw [← h],
        by rw [← h]⟩

theorem Query_skipPrep (aes : Nat → Nat → Nat) (c : PianoPIRClient) (idx : Nat)
    (server : PianoPIRServer) (realQuery : Bool) (rand : Nat → Nat) (r : QueryResult)
    (h : c.Query aes idx server realQuery rand = some r) : r.client.skipPrep = c.skipPrep := by
  rcases Query_client_cases aes c idx server realQuery rand r h with hc | ⟨_, _, _, hc⟩ <;>
    rw [hc]
  rfl

/-- A call of `Query` that is a dummy query, or a real query for an index of the database,
returns. -/
theorem Query_returns (aes : Nat → Nat → Nat) (c : PianoPIRClient) (idx : Nat)
    (server : PianoPIRServer) (realQuery : Bool) (rand : Nat → Nat)
    (h : realQuery = false ∨ idx < c.config.DBSize) :
    ∃ r, c.Query aes idx server realQuery rand = some r := by
  unfold PianoPIRClient.Query
  cases realQuery with
  | false => exact ⟨_, rfl⟩
  | true =>
    have hidx : ¬ (idx ≥ c.config.DBSize) := by
      rcases h with h | h
      · exact absurd h (by simp)
      · omega
    simp only [Bool.not_true, Bool.false_eq_true, if_false, hidx]
    split
    · exact ⟨_, rfl⟩
    · split
      · exact ⟨_, rfl⟩
      · split
        · exact ⟨_, rfl⟩
        · split
          · exact ⟨_, rfl⟩
          · exact ⟨_, rfl⟩

/-- The entry returned by a dummy query and by a query that fails is all-zero. -/
theorem Query_ret_zero (aes : Nat → Nat → Nat) (c : PianoPIRClient) (idx : Nat)
    (server : PianoPIRServer) (realQuery : Bool) (rand : Nat → Nat) (r : QueryResult)
    (h : c.Query aes idx server realQuery rand = some r)
    (hz : realQuery = false ∨ r.err ≠ none) : r.ret = zeroEntry c.config.DBEntrySize := by
  cases realQuery with
  | false =>
    unfold PianoPIRClient.Query at h
    simp only [Bool.not_false, if_true, Option.some.injEq] at h
    rw [← h]; rfl
  | true =>
    have herr : r.err ≠ none := by
      rcases hz with hz | hz
      · exact absurd hz (by simp)
      · exact hz
    unfold PianoPIRClient.Query at h
    simp only [Bool.not_true, Bool.false_eq_true, if_false] at h
    split at h
    · exact absurd h (by simp)
    · split at h
      · simp only [Option.some.injEq] at h
        rw [← h] at herr; exact absurd rfl herr
      · split at h
        · simp only [Option.some.injEq] at h
          rw [← h]; rfl
        · split at h
          · simp only [Option.some.injEq] at h
            rw [← h]; rfl
          · split at h
            · simp only [Option.some.injEq] at h
              rw [← h]; rfl
            · simp only [Option.some.injEq] at h
              rw [← h] at herr
              exact absurd (by simp [PrivateQuery_eq]) herr

theorem ZeroInv_Query (aes : Nat → Nat → Nat) (c : PianoPIRClient) (idx : Nat)
    (server : PianoPIRServer) (realQuery : Bool) (rand : Nat → Nat) (r : QueryResult)
    (h : c.Query aes idx server realQuery rand = some r) (inv : ZeroInv c)
    (hdb : ∀ i, server.rawDB.get i = 0)
    (hE : server.config.DBEntrySize = c.config.DBEntrySize) :
    ZeroInv r.client ∧ r.ret = zeroEntry c.config.DBEntrySize := by
  cases realQuery with
  | false =>
    refine ⟨?_, Query_ret_zero aes c idx server false rand r h (Or.inl rfl)⟩
    rw [dummy_Query_client aes c idx server rand r h]; exact inv
  | true =>
    obtain ⟨_, hc⟩ := Query_real_cases aes c idx server rand r h
    rcases hc with ⟨v, hv, hr⟩ | ⟨e, hr⟩ | ⟨_, _, _, hcl, hret⟩
    · rw [hr]; exact ⟨inv, inv.cache idx v hv⟩
    · rw [hr]; exact ⟨inv, rfl⟩
    · rw [response_zero aes c server _ _ inv hdb hE] at hcl hret
      rw [hcl, hret]
      exact ⟨ZeroInv_refresh c inv _ _ _, rfl⟩

/-- With `skipPrep` set, `PianoPIR.Query` returns for a dummy query and for a real query for an
index of the database. -/
theorem PianoPIR_Query_returns_skip (aes : Nat → Nat → Nat) (p : PianoPIR) (idx : Nat)
    (realQuery : Bool) (key : Nat) (rng : Nat → Nat → Nat) (rand : Nat → Nat)
    (hskip : p.client.skipPrep = true)
    (hinit : p.client.Initialization key = some (p.client.initTables key))
    (h : realQuery = false ∨ idx < p.client.config.DBSize) :
    ∃ r, p.Query aes idx realQuery key rng rand = some r := by
  unfold PianoPIR.Query
  by_cases hF : p.client.FinishedQueryNum = p.client.MaxQueryNum
  · obtain ⟨c', hc', _, h2, _⟩ :=
      Preprocessing_skip aes key rng p.client p.server.rawDB hskip hinit
    obtain ⟨r', hr'⟩ := Query_returns aes c' idx p.server realQuery rand (by rw [h2]; exact h)
    rw [if_pos hF, hc']
    simp only [hr']
    exact ⟨_, rfl⟩
  · obtain ⟨r', hr'⟩ := Query_returns aes p.client idx p.server realQuery rand h
    rw [if_neg hF]
    simp only [hr']
    exact ⟨_, rfl⟩

/-- The instances reached from `DummyPreprocessing` by calls of `PianoPIR.Query`: `skipPrep`
stays set, configuration and server stay, and on an all-zero database everything the client
holds stays zero. -/
theorem PIRReach_dummy (aes : Nat → Nat → Nat) (p0 pd : PianoPIR) (key0 : Nat) (p : PianoPIR)
    (hE : p0.server.config.DBEntrySize = p0.client.config.DBEntrySize)
    (hd : p0.DummyPreprocessing key0 = some pd) (hr : PIRReach aes pd p) :
    p.client.skipPrep = true ∧ p.client.config = p0.client.config ∧ p.server = p0.server ∧
      ((∀ i, p0.server.rawDB.get i = 0) → ZeroInv p.client) ∧
      ∀ key, p.client.Initialization key = some (p.client.initTables key) := by
  obtain ⟨hinit, hpd⟩ := DummyPreprocessing_some p0 pd key0 hd
  have main : p.client.skipPrep = true ∧ p.client.config = p0.client.config ∧
      p.server = p0.server ∧ ((∀ i, p0.server.rawDB.get i = 0) → ZeroInv p.client) ∧
      p.client.primaryHintNum = p0.client.primaryHintNum ∧
      p.client.maxQueryPerChunk = p0.client.maxQueryPerChunk := by
    induction hr with
    | refl =>
      rw [hpd]
      exact ⟨rfl, rfl, rfl, fun _ => ZeroInv_init p0.client key0, rfl, rfl⟩
    | step p' idx realQuery key rng rand r _ hq ih =>
      obtain ⟨hskip, hcfg, hsrv, hz, hH, hM⟩ := ih
      obtain ⟨c, r', hc, hq', hpir, _, _, _⟩ :=
        PianoPIR_Query_cases aes p' idx realQuery key rng rand r hq
      have hcz : c.skipPrep = true ∧ c.config = p0.client.config ∧
          ((∀ i, p0.server.rawDB.get i = 0) → ZeroInv c) ∧
          c.primaryHintNum = p0.client.primaryHintNum ∧
          c.maxQueryPerChunk = p0.client.maxQueryPerChunk := by
        rcases hc with ⟨_, hc⟩ | ⟨_, hc⟩
        · rw [hc]; exact ⟨hskip, hcfg, hz, hH, hM⟩
        · have hi := Initialization_frame p0.client p'.client key0 key hcfg hH hM hinit
          obtain ⟨c', hc', h1, h2, h3⟩ :=
            Preprocessing_skip aes key rng p'.client p'.server.rawDB hskip hi
          have he := Preprocessing_skip_eq aes key rng p'.client p'.server.rawDB hskip hi
          rw [hc'] at hc
          have hcc : c' = c := Option.some.inj hc
          rw [hc'] at he
          have hce : c' = p'.client.initTables key := Option.some.inj he
          rw [← hcc]
          refine ⟨h1, h2.trans hcfg, fun _ => h3, ?_, ?_⟩
          · rw [hce]; exact hH
          · rw [hce]; exact hM
      obtain ⟨hs, hcf, hzz, hH', hM'⟩ := hcz
      obtain ⟨hq1, hq2⟩ := Query_sizes aes c idx p'.server realQuery rand r' hq'
      rw [hpir]
      refine ⟨(Query_skipPrep aes c idx p'.server realQuery rand r' hq').trans hs,
        (Query_config aes c idx p'.server realQuery rand r' hq').trans hcf, hsrv, ?_,
        hq1.trans hH', hq2.trans hM'⟩
      intro hdb
      exact (ZeroInv_Query aes c idx p'.server realQuery rand r' hq' (hzz hdb)
        (by rw [hsrv]; exact hdb) (by rw [hsrv, hE, hcf])).1
  obtain ⟨h1, h2, h3, h4, h5, h6⟩ := main
  exact ⟨h1, h2, h3, h4, fun key => Initialization_frame p0.client p.client key0 key h2 h5 h6
    hinit⟩

/-! ## The shape of the client's tables -/

theorem TableOK_init (c : PianoPIRClient) (key : Nat) : TableOK (c.initTables key) where
  tagLen := by show (List.range c.primaryHintNum).length = c.primaryHintNum; simp
  parLen := by
    show (List.replicate (c.primaryHintNum * c.config.DBEntrySize) 0).length = _
    simp
  ppLen := by
    show (List.replicate c.primaryHintNum DefaultProgramPoint).length = c.primaryHintNum
    simp
  histLen := by show (List.replicate c.config.SetSize 0).length = c.config.SetSize; simp
  riRow := by
    intro i hi
    have hi' : i < c.config.SetSize := hi
    show ((List.replicate c.config.SetSize
      (List.replicate c.maxQueryPerChunk DefaultProgramPoint)).getD i []).length =
      c.maxQueryPerChunk
    rw [getD_replicate_lt _ _ _ _ hi']; simp
  rvRow := by
    intro i hi
    have hi' : i < c.config.SetSize := hi
    show ((List.replicate c.config.SetSize
      (List.replicate (c.maxQueryPerChunk * c.config.DBEntrySize) 0)).getD i []).length =
      c.maxQueryPerChunk * c.config.DBEntrySize
    rw [getD_replicate_lt _ _ _ _ hi']; simp
  btRow := by
    intro i hi
    have hi' : i < c.config.SetSize := hi
    show (((List.range c.config.SetSize).map fun i =>
      (List.range c.maxQueryPerChunk).map fun j =>
        c.primaryHintNum + i * c.maxQueryPerChunk + j).getD i []).length = c.maxQueryPerChunk
    rw [getD_map_range _ _ _ _ hi']; simp
  bRow := by
    intro i hi
    have hi' : i < c.config.SetSize := hi
    show ((List.replicate c.config.SetSize
      (List.replicate (c.maxQueryPerChunk * c.config.DBEntrySize) 0)).getD i []).length =
      c.maxQueryPerChunk * c.config.DBEntrySize
    rw [getD_replicate_lt _ _ _ _ hi']; simp
  pp := by
    intro h hh
    have hh' : h < c.primaryHintNum := hh
    left
    show (List.replicate c.primaryHintNum DefaultProgramPoint).getD h 0 = DefaultProgramPoint
    exact getD_replicate_lt _ _ _ _ hh'

/-- `Preprocessing` leaves the tables with the lengths given by `Initialization`. -/
theorem TableOK_Preprocessing (aes : Nat → Nat → Nat) (key : Nat) (rng : Nat → Nat → Nat)
    (c0 : PianoPIRClient) (rawDB : Slice) (c : PianoPIRClient)
    (hdb : rawDB.len = c0.config.DBSize * c0.config.DBEntrySize)
    (h0 : 0 < c0.config.ChunkSize) (h1 : c0.config.ChunkSize ≤ 2 ^ 64)
    (hprep : c0.Preprocessing aes key rng rawDB = some c) : TableOK c := by
  cases hskip : c0.skipPrep with
  | true =>
    have hs : (c0.initTables key).skipPrep = true := hskip
    replace hprep := (Preprocessing_some aes key rng c0 c rawDB hprep).2
    simp only [hs, if_true, Option.some.injEq] at hprep
    rw [← hprep]
    exact TableOK_init c0 key
  | false =>
    obtain ⟨c', hc', inv⟩ := Preprocessing_inv aes key rng c0 rawDB hskip
      (Preprocessing_some aes key rng c0 c rawDB hprep).1 hdb h0 h1
    rw [hprep] at hc'
    have hcc : c = c' := Option.some.inj hc'
    subst hcc
    have ini := TableOK_init c0 key
    have hcfg : c.config = c0.config := congrArg (·.config) inv.frame
    have hH : c.primaryHintNum = c0.primaryHintNum := congrArg (·.primaryHintNum) inv.frame
    have hQ : c.maxQueryPerChunk = c0.maxQueryPerChunk :=
      congrArg (·.maxQueryPerChunk) inv.frame
    have htag : c.primaryShortTag = (c0.initTables key).primaryShortTag :=
      congrArg (·.primaryShortTag) inv.frame
    have hpp : c.primaryProgramPoint = (c0.initTables key).primaryProgramPoint :=
      congrArg (·.primaryProgramPoint) inv.frame
    have hhist : c.QueryHistogram = (c0.initTables key).QueryHistogram :=
      congrArg (·.QueryHistogram) inv.frame
    have hbt : c.backupShortTag = (c0.initTables key).backupShortTag :=
      congrArg (·.backupShortTag) inv.frame
    refine ⟨?_, inv.parLen, ?_, ?_, inv.riRow, inv.rvRow, ?_, inv.bRow, ?_⟩
    · rw [htag, hH]; exact ini.tagLen
    · rw [hpp, hH]; exact ini.ppLen
    · rw [hhist, hcfg]; exact ini.histLen
    · intro i hi
      rw [hbt, hQ]
      exact ini.btRow i (by rw [hcfg] at hi; exact hi)
    · intro h hh
      rw [hpp, hcfg]
      exact ini.pp h (by rw [hH] at hh; exact hh)

theorem TableOK_refresh (c : PianoPIRClient) (ok : TableOK c) (h ch idx : Nat)
    (resp : List Nat) (hh : h < c.primaryHintNum) (hidx : idx < c.config.DBSize) :
    TableOK (c.refresh h ch idx resp) := by
  have hab := seg_mono c.config.DBEntrySize h
  have hb : (h + 1) * c.config.DBEntrySize ≤ c.primaryParity.length := by
    rw [ok.parLen]; exact seg_le _ _ _ hh
  refine ⟨?_, ?_, ?_, ?_, ok.riRow, ok.rvRow, ok.btRow, ok.bRow, ?_⟩
  · show (c.primaryShortTag.set h _).length = c.primaryHintNum
    rw [List.length_set]; exact ok.tagLen
  · show (EntryXorAt (copyAt c.primaryParity _ _ _) _ _ _ _).length = _
    rw [length_EntryXorAt _ _ _ _ _ hab (by rw [length_copyAt _ _ _ _ hab hb]; exact hb),
      length_copyAt _ _ _ _ hab hb]
    exact ok.parLen
  · show (c.primaryProgramPoint.set h idx).length = c.primaryHintNum
    rw [List.length_set]; exact ok.ppLen
  · show (c.QueryHistogram.set ch _).length = c.config.SetSize
    rw [List.length_set]; exact ok.histLen
  · intro h' hh'
    show (c.primaryProgramPoint.set h idx).getD h' 0 = DefaultProgramPoint ∨
      (c.primaryProgramPoint.set h idx).getD h' 0 < c.config.DBSize
    rw [getD_set_any]
    split
    · exact Or.inr hidx
    · exact ok.pp h' hh'

theorem TableOK_Query (aes : Nat → Nat → Nat) (c : PianoPIRClient) (idx : Nat)
    (server : PianoPIRServer) (realQuery : Bool) (rand : Nat → Nat) (r : QueryResult)
    (h : c.Query aes idx server realQuery rand = some r) (ok : TableOK c) :
    TableOK r.client := by
  cases realQuery with
  | false => rw [dummy_Query_client aes c idx server rand r h]; exact ok
  | true =>
    obtain ⟨hidx, hc⟩ := Query_real_cases aes c idx server rand r h
    rcases hc with ⟨v, _, hr⟩ | ⟨e, hr⟩ | ⟨_, _, hhit, hcl, _⟩
    · rw [hr]; exact ok
    · rw [hr]; exact ok
    · rw [hcl]
      exact TableOK_refresh c ok _ _ _ _ (findHit_spec aes c _ _ hhit).1 hidx

theorem demoReady_table : TableOK demoReady :=
  TableOK_Preprocessing demoAes 1 demoRng demoClient demoDB demoReady (by decide) (by decide)
    (by decide) (by rfl)

theorem eightPIR_ok : InstanceOK (eightPIR.getD demoPIR) :=
  ⟨by rfl, by decide, by decide, by decide⟩

/-! ## Loops that can abort -/

theorem foldlM_some_inv {σ α : Type} (f : σ → α → Option σ) (Inv : σ → Prop) (l : List α)
    (h : ∀ s a, a ∈ l → Inv s → ∃ s', f s a = some s' ∧ Inv s') (s0 : σ) (h0 : Inv s0) :
    ∃ s', l.foldlM f s0 = some s' ∧ Inv s' := by
  induction l generalizing s0 with
  | nil => exact ⟨s0, rfl, h0⟩
  | cons a as ih =>
    obtain ⟨s1, h1, hi1⟩ := h s0 a (List.mem_cons_self _ _) h0
    obtain ⟨s', h2, hi2⟩ := ih (fun s b hb => h s b (List.mem_cons_of_mem _ hb)) s1 hi1
    refine ⟨s', ?_, hi2⟩
    rw [List.foldlM_cons, h1]
    exact h2

theorem foldlM_inv {σ α : Type} (f : σ → α → Option σ) (Inv : σ → Prop) (l : List α)
    (h : ∀ s a s', a ∈ l → Inv s → f s a = some s' → Inv s') (s0 : σ) (h0 : Inv s0) (s' : σ)
    (hs : l.foldlM f s0 = some s') : Inv s' := by
  induction l generalizing s0 with
  | nil =>
    have : s0 = s' := by simpa using hs
    rw [← this]; exact h0
  | cons a as ih =>
    rw [List.foldlM_cons] at hs
    cases h1 : f s0 a with
    | none => rw [h1] at hs; exact absurd hs (by simp)
    | some s1 =>
      rw [h1] at hs
      exact ih (fun s b s2 hb => h s b s2 (List.mem_cons_of_mem _ hb)) s1
        (h s0 a s1 (List.mem_cons_self _ _) h0 h1) hs

/-! ## Entries of the right length -/

theorem length_response (aes : Nat → Nat → Nat) (c : PianoPIRClient) (server : PianoPIRServer)
    (h ch : Nat) : (c.response aes server h ch).length = server.config.DBEntrySize := by
  unfold PianoPIRClient.response
  simp only []
  rw [EntryXor_length, EntryXor_length, PrivateQuery_eq]
  exact length_xorOver _ _ _

theorem Query_length (aes : Nat → Nat → Nat) (c : PianoPIRClient) (idx : Nat)
    (server : PianoPIRServer) (realQuery : Bool) (rand : Nat → Nat) (r : QueryResult)
    (h : c.Query aes idx server realQuery rand = some r) (E : Nat)
    (hc : c.config.DBEntrySize = E) (hs : server.config.DBEntrySize = E)
    (hcache : ∀ k v, cacheLookup c.localCache k = some v → v.length = E) :
    r.ret.length = E ∧ ∀ k v, cacheLookup r.client.localCache k = some v → v.length = E := by
  cases realQuery with
  | false =>
    rw [Query_ret_zero aes c idx server false rand r h (Or.inl rfl),
      dummy_Query_client aes c idx server rand r h]
    exact ⟨by simp [zeroEntry, hc], hcache⟩
  | true =>
    obtain ⟨_, hcs⟩ := Query_real_cases aes c idx server rand r h
    rcases hcs with ⟨v, hv, hr⟩ | ⟨e, hr⟩ | ⟨_, _, _, hcl, hret⟩
    · rw [hr]; exact ⟨hcache idx v hv, hcache⟩
    · rw [hr]; exact ⟨by simp [hc], hcache⟩
    · have hl := length_response aes c server
        (c.findHit aes (idx / c.config.ChunkSize) (idx % c.config.ChunkSize))
        (idx / c.config.ChunkSize)
      rw [hs] at hl
      refine ⟨by rw [hret]; exact hl, ?_⟩
      intro k v hv
      rw [hcl] at hv
      have hv' : cacheLookup (cacheInsert c.localCache idx
          (c.response aes server
            (c.findHit aes (idx / c.config.ChunkSize) (idx % c.config.ChunkSize))
            (idx / c.config.ChunkSize))) k = some v := hv
      by_cases hk : k = idx
      · subst hk
        rw [cacheLookup_cacheInsert_self] at hv'
        rw [← Option.some.inj hv']; exact hl
      · rw [cacheLookup_cacheInsert_ne _ _ _ _ hk] at hv'
        exact hcache k v hv'

/-! ## `Preprocessing` returns -/

theorem UpdatePreprocessing_returns (aes : Nat → Nat → Nat) (rng : Nat → Nat)
    (c : PianoPIRClient) (chunkId : Nat) (chunk : Slice)
    (hlen : c.primaryParity.length = c.primaryHintNum * c.config.DBEntrySize) :
    ∃ c', c.UpdatePreprocessing aes rng chunkId chunk = some c' ∧ c'.config = c.config ∧
      c'.primaryHintNum = c.primaryHintNum ∧
      c'.primaryParity.length = c.primaryHintNum * c.config.DBEntrySize ∧
      c'.localCache = c.localCache := by
  have hguard : (List.range c.primaryHintNum).any
      (fun i => decide ((i + 1) * c.config.DBEntrySize > c.primaryParity.length)) = false := by
    rw [List.any_eq_false]
    intro i hi
    have := seg_le c.config.DBEntrySize i c.primaryHintNum (List.mem_range.mp hi)
    simp only [decide_eq_true_eq]
    omega
  unfold PianoPIRClient.UpdatePreprocessing
  rw [hguard]
  exact ⟨_, rfl, rfl, rfl, (updatePrimaryParity_spec aes c chunkId chunk hlen).1, rfl⟩

theorem Preprocessing_returns (aes : Nat → Nat → Nat) (key : Nat) (rng : Nat → Nat → Nat)
    (c : PianoPIRClient) (rawDB : Slice)
    (hinit : c.Initialization key = some (c.initTables key)) :
    ∃ c', c.Preprocessing aes key rng rawDB = some c' ∧ c'.config = c.config ∧
      c'.localCache = [] := by
  rw [Preprocessing_of_init aes key rng c _ rawDB hinit]
  split
  · exact ⟨_, rfl, rfl, rfl⟩
  · obtain ⟨c', h1, h2, _, _, h3⟩ := foldlM_some_inv
      (fun c' i => c'.UpdatePreprocessing aes (rng i) i (preprocessingChunk c'.config rawDB i))
      (fun c' => c'.config = c.config ∧ c'.primaryHintNum = c.primaryHintNum ∧
        c'.primaryParity.length = c.primaryHintNum * c.config.DBEntrySize ∧ c'.localCache = [])
      (List.range (c.initTables key).config.SetSize)
      (by
        intro s a _ ⟨h1, h2, h3, h4⟩
        obtain ⟨s', hs', g1, g2, g3, g4⟩ := UpdatePreprocessing_returns aes (rng a) s a
          (preprocessingChunk s.config rawDB a) (by rw [h3, h2, h1])
        exact ⟨s', hs', g1.trans h1, g2.trans h2, by rw [g3, h2, h1], g4.trans h4⟩)
      (c.initTables key)
      ⟨rfl, rfl, by simp [PianoPIRClient.initTables], rfl⟩
    exact ⟨c', h1, h2, h3⟩

/-! ## The sub-PIR of a partition -/

theorem PartNew_client (config : SimpleBatchPianoPIRConfig) (i : Nat) (q : PianoPIR)
    (c : PianoPIRClient) (new : PartNew config i q) (hcfg : c.config = q.client.config) :
    PartNew config i { q with client := c } where
  entry := new.entry
  clientE := by show c.config.DBEntrySize = _; rw [hcfg]; exact new.clientE
  serverE := new.serverE
  range := by
    intro x hx hxi
    show _ < c.config.DBSize
    rw [hcfg]; exact new.range x hx hxi
  inst := by
    refine ⟨?_, ?_, ?_, ?_⟩
    · show q.server.config = c.config
      rw [hcfg]; exact new.inst.server
    · show 0 < c.config.ChunkSize ∧ c.config.ChunkSize ≤ 2 ^ 64
      rw [hcfg]; exact new.inst.chunk
    · show c.config.DBSize ≤ c.config.ChunkSize * c.config.SetSize
      rw [hcfg]; exact new.inst.cover
    · show q.server.rawDB.len = c.config.DBSize * c.config.DBEntrySize
      rw [hcfg]; exact new.inst.len

theorem PianoPIR_Preprocessing_PartOK (aes : Nat → Nat → Nat) (key : Nat)
    (rng : Nat → Nat → Nat) (config : SimpleBatchPianoPIRConfig) (i : Nat) (q : PianoPIR)
    (new : PartNew config i q) :
    ∃ q', q.Preprocessing aes key rng = some q' ∧ PartOK config i q' := by
  obtain ⟨c', h1, h2, h3⟩ := Preprocessing_returns aes key rng q.client q.server.rawDB
    (Initialization_of_pos _ _ (by rw [new.clientE]; exact new.entry))
  have ht := TableOK_Preprocessing aes key rng q.client q.server.rawDB c' new.inst.len
    new.inst.chunk.1 new.inst.chunk.2 h1
  refine ⟨{ q with client := c' }, by unfold PianoPIR.Preprocessing; rw [h1]; rfl, ?_⟩
  refine ⟨PartNew_client config i q c' new h2, ht, ?_⟩
  intro k v hv
  have hv' : cacheLookup c'.localCache k = some v := hv
  rw [h3] at hv'
  exact absurd hv' (by simp [cacheLookup])

/-- A sub-query returns, with an entry of `DBEntrySize` words that is all-zero when the
sub-query fails, and leaves the sub-PIR fit for its partition. -/
theorem PianoPIR_Query_PartOK (aes : Nat → Nat → Nat) (config : SimpleBatchPianoPIRConfig)
    (i : Nat) (q : PianoPIR) (idx : Nat) (realQuery : Bool) (key : Nat)
    (rng : Nat → Nat → Nat) (rand : Nat → Nat) (ok : PartOK config i q)
    (h : realQuery = false ∨ idx < q.client.config.DBSize) :
    ∃ r, q.Query aes idx realQuery key rng rand = some r ∧ PartOK config i r.pir ∧
      r.ret.length = config.DBEntrySize ∧
      (r.err ≠ none → r.ret = zeroEntry config.DBEntrySize) := by
  have hc : ∃ c, ((q.client.FinishedQueryNum ≠ q.client.MaxQueryNum ∧ c = q.client) ∨
      (q.client.FinishedQueryNum = q.client.MaxQueryNum ∧
        q.client.Preprocessing aes key rng q.server.rawDB = some c)) ∧
      c.config = q.client.config ∧ TableOK c ∧
      ∀ k v, cacheLookup c.localCache k = some v → v.length = config.DBEntrySize := by
    by_cases hF : q.client.FinishedQueryNum = q.client.MaxQueryNum
    · obtain ⟨c', h1, h2, h3⟩ := Preprocessing_returns aes key rng q.client q.server.rawDB
        (Initialization_of_pos _ _ (by rw [ok.new.clientE]; exact ok.new.entry))
      refine ⟨c', Or.inr ⟨hF, h1⟩, h2,
        TableOK_Preprocessing aes key rng q.client q.server.rawDB c' ok.new.inst.len
          ok.new.inst.chunk.1 ok.new.inst.chunk.2 h1, ?_⟩
      intro k v hv
      rw [h3] at hv
      exact absurd hv (by simp [cacheLookup])
    · exact ⟨q.client, Or.inl ⟨hF, rfl⟩, rfl, ok.table, ok.cache⟩
  obtain ⟨c, hcase, hcfg, htab, hcache⟩ := hc
  obtain ⟨r', hr'⟩ := Query_returns aes c idx q.server realQuery rand (by rw [hcfg]; exact h)
  have hlen := Query_length aes c idx q.server realQuery rand r' hr' config.DBEntrySize
    (by rw [hcfg]; exact ok.new.clientE) ok.new.serverE hcache
  have hcfg' := Query_config aes c idx q.server realQuery rand r' hr'
  refine ⟨{ pir := { q with client := r'.client }, ret := r'.ret, err := r'.err,
            sent := r'.sent }, ?_, ?_, hlen.1, ?_⟩
  · unfold PianoPIR.Query
    rcases hcase with ⟨hF, hc⟩ | ⟨hF, hc⟩
    · rw [if_neg hF]
      simp only []
      rw [← hc, hr']
    · rw [if_pos hF, hc]
      simp only []
      rw [hr']
  · exact ⟨PartNew_client config i q r'.client ok.new (hcfg'.trans hcfg),
      TableOK_Query aes c idx q.server realQuery rand r' hr' htab, hlen.2⟩
  · intro he
    have := Query_ret_zero aes c idx q.server realQuery rand r' hr' (Or.inr he)
    rw [hcfg, ok.new.clientE] at this
    exact this

/-! ## Buckets and padding -/

theorem bucketQueries_fold (config : SimpleBatchPianoPIRConfig) (idx : List Nat) (i : Nat) :
    ∀ pq : List (List Nat), i < pq.length →
      (idx.foldl (fun partitionQueries x =>
        partitionQueries.set (x / config.PartitionSize)
          (partitionQueries.getD (x / config.PartitionSize) [] ++ [x])) pq).getD i [] =
        pq.getD i [] ++ idx.filter (fun x => x / config.PartitionSize = i) := by
  induction idx with
  | nil => intro pq _; simp
  | cons x xs ih =>
    intro pq hi
    rw [List.foldl_cons, ih _ (by rw [List.length_set]; exact hi), getD_set_any]
    by_cases hx : x / config.PartitionSize = i
    · rw [if_pos ⟨hx, hi⟩, List.filter_cons_of_pos (by simpa using hx), hx]
      simp
    · rw [if_neg (fun hc => hx hc.1), List.filter_cons_of_neg (by simpa using hx)]

theorem bucketQueries_getD (config : SimpleBatchPianoPIRConfig) (idx : List Nat) (i : Nat)
    (hi : i < config.PartitionNum) :
    (bucketQueries config idx).getD i [] = bucketOf config idx i := by
  unfold bucketQueries bucketOf
  rw [bucketQueries_fold config idx i _ (by rw [List.length_replicate]; exact hi),
    getD_replicate_lt _ _ _ _ hi, List.nil_append]

/-- An index found in the first `queryNumToMake` places of a padded bucket is `DefaultValue` or
one of the first `queryNumToMake` indices of the bucket. -/
theorem padQueries_getD (bucket : List Nat) (queryNumToMake j : Nat) (hj : j < queryNumToMake)
    (hne : (padQueries bucket queryNumToMake).getD j 0 ≠ DefaultValue) :
    (padQueries bucket queryNumToMake).getD j 0 ∈ bucket.take queryNumToMake := by
  by_cases hb : j < bucket.length
  · have h1 : (padQueries bucket queryNumToMake).getD j 0 = bucket.getD j 0 := by
      unfold padQueries
      split
      · exact List.getD_append _ _ _ _ hb
      · rfl
    rw [h1]
    apply List.mem_iff_getElem?.mpr
    refine ⟨j, ?_⟩
    rw [List.getElem?_take, if_pos hj]
    simp [List.getD, List.getElem?_eq_getElem hb]
  · exfalso
    apply hne
    unfold padQueries
    rw [if_pos (by omega), List.getD_append_right _ _ _ _ (by omega)]
    exact getD_replicate_lt _ _ _ _ (by omega)

theorem mem_bucketOf (config : SimpleBatchPianoPIRConfig) (idx : List Nat) (i x : Nat)
    (h : x ∈ bucketOf config idx i) : x ∈ idx ∧ x / config.PartitionSize = i := by
  unfold bucketOf at h
  obtain ⟨h1, h2⟩ := List.mem_filter.mp h
  exact ⟨h1, by simpa using h2⟩

/-! ## The sub-queries of a batch -/

theorem part_set (P : Nat → PianoPIR → Prop) (subs : List PianoPIR) (i : Nat)
    (q' : PianoPIR) (h : ∀ k q, subs[k]? = some q → P k q)
    (hq : P i q') : ∀ k q, (subs.set i q')[k]? = some q → P k q := by
  intro k q hk
  rw [List.getElem?_set] at hk
  by_cases hik : i = k
  · rw [if_pos hik] at hk
    split at hk
    · rw [← hik, ← Option.some.inj hk]; exact hq
    · exact absurd hk (by simp)
  · rw [if_neg hik] at hk
    exact h k q hk

theorem subQuery_ok (aes : Nat → Nat → Nat) (config : SimpleBatchPianoPIRConfig)
    (rnd : BatchDraws) (bucket : List Nat) (i : Nat) (st : BatchLoopState) (j : Nat)
    (ok : LoopOK config st) (hi : i < config.PartitionNum)
    (hx : bucket.getD j 0 = DefaultValue ∨
      (bucket.getD j 0 < config.DBSize ∧ bucket.getD j 0 / config.PartitionSize = i)) :
    ∃ st', subQuery aes config rnd bucket i st j = some st' ∧ LoopOK config st' := by
  have hlt : i < st.subPIR.length := by rw [ok.len]; exact hi
  have hsub : st.subPIR[i]? = some st.subPIR[i] := List.getElem?_eq_getElem hlt
  have hpart := ok.part i _ hsub
  unfold subQuery
  rw [hsub]
  simp only []
  by_cases hd : bucket.getD j 0 = DefaultValue
  · rw [if_pos hd]
    obtain ⟨r, hr, hok, _⟩ := PianoPIR_Query_PartOK aes config i st.subPIR[i] 0 false
      (rnd.key i j) (rnd.rng i j) (rnd.rand i j) hpart (Or.inl rfl)
    rw [hr]
    refine ⟨_, rfl, by rw [List.length_set]; exact ok.len,
      part_set (PartOK config) _ i _ ok.part hok, ok.resp, ?_⟩
    intro k v hv
    rcases ok.src k v hv with h0 | ⟨c, hc, hrest⟩
    · exact Or.inl h0
    · exact Or.inr ⟨c, List.mem_append_left _ hc, hrest⟩
  · rw [if_neg hd]
    have hx' : bucket.getD j 0 < config.DBSize ∧ bucket.getD j 0 / config.PartitionSize = i := by
      rcases hx with hx | hx
      · exact absurd hx hd
      · exact hx
    obtain ⟨r, hr, hok, hlen, hzero⟩ := PianoPIR_Query_PartOK aes config i st.subPIR[i]
      (bucket.getD j 0 - i * config.PartitionSize) true
      (rnd.key i j) (rnd.rng i j) (rnd.rand i j) hpart
      (Or.inr (hpart.new.range _ hx'.1 hx'.2))
    rw [hr]
    refine ⟨_, rfl, by rw [List.length_set]; exact ok.len,
      part_set (PartOK config) _ i _ ok.part hok, ?_, ?_⟩
    · intro k v hv
      have hv' : cacheLookup (cacheInsert st.responses (bucket.getD j 0) r.ret) k = some v := hv
      by_cases hk : k = bucket.getD j 0
      · rw [hk, cacheLookup_cacheInsert_self] at hv'
        rw [← Option.some.inj hv']; exact hlen
      · rw [cacheLookup_cacheInsert_ne _ _ _ _ hk] at hv'
        exact ok.resp k v hv'
    · intro k v hv
      have hv' : cacheLookup (cacheInsert st.responses (bucket.getD j 0) r.ret) k = some v := hv
      by_cases hk : k = bucket.getD j 0
      · rw [hk, cacheLookup_cacheInsert_self] at hv'
        have hrv : r.ret = v := Option.some.inj hv'
        by_cases he : r.err = none
        · right
          exact ⟨⟨i, bucket.getD j 0 - i * config.PartitionSize, true, r.ret, r.err⟩,
            List.mem_append_right _ (List.mem_singleton.mpr rfl), rfl,
            by rw [hk]; exact hx'.2.symm, by rw [hk], he, hrv⟩
        · left; rw [← hrv]; exact hzero he
      · rw [cacheLookup_cacheInsert_ne _ _ _ _ hk] at hv'
        rcases ok.src k v hv' with h0 | ⟨c, hc, hrest⟩
        · exact Or.inl h0
        · exact Or.inr ⟨c, List.mem_append_left _ hc, hrest⟩

theorem subQuery_keys (aes : Nat → Nat → Nat) (config : SimpleBatchPianoPIRConfig)
    (rnd : BatchDraws) (bucket : List Nat) (i : Nat) (st st' : BatchLoopState) (j : Nat)
    (S : Nat → Prop) (hS : bucket.getD j 0 ≠ DefaultValue → S (bucket.getD j 0))
    (hk : ∀ k, cacheLookup st.responses k ≠ none → S k)
    (h : subQuery aes config rnd bucket i st j = some st') :
    ∀ k, cacheLookup st'.responses k ≠ none → S k := by
  unfold subQuery at h
  split at h
  · exact absurd h (by simp)
  · split at h
    · split at h
      · exact absurd h (by simp)
      · simp only [Option.some.injEq] at h
        rw [← h]; exact hk
    · rename_i hd
      split at h
      · exact absurd h (by simp)
      · rename_i r _
        simp only [Option.some.injEq] at h
        rw [← h]
        intro k hne
        have hne' : cacheLookup (cacheInsert st.responses (bucket.getD j 0) r.ret) k ≠ none :=
          hne
        by_cases hkj : k = bucket.getD j 0
        · rw [hkj]; exact hS hd
        · rw [cacheLookup_cacheInsert_ne _ _ _ _ hkj] at hne'
          exact hk k hne'

theorem queryPartition_ok (aes : Nat → Nat → Nat) (config : SimpleBatchPianoPIRConfig)
    (rnd : BatchDraws) (bucket : List Nat) (queryNumToMake i : Nat) (st : BatchLoopState)
    (ok : LoopOK config st) (hi : i < config.PartitionNum)
    (hx : ∀ j, j < queryNumToMake → bucket.getD j 0 = DefaultValue ∨
      (bucket.getD j 0 < config.DBSize ∧ bucket.getD j 0 / config.PartitionSize = i)) :
    ∃ st', queryPartition aes config rnd bucket queryNumToMake i st = some st' ∧
      LoopOK config st' := by
  unfold queryPartition
  exact foldlM_some_inv _ (LoopOK config) _
    (fun s j hj hs => subQuery_ok aes config rnd bucket i s j hs hi
      (hx j (List.mem_range.mp hj))) st ok

theorem queryPartition_keys (aes : Nat → Nat → Nat) (config : SimpleBatchPianoPIRConfig)
    (rnd : BatchDraws) (bucket : List Nat) (queryNumToMake i : Nat) (st st' : BatchLoopState)
    (S : Nat → Prop)
    (hS : ∀ j, j < queryNumToMake → bucket.getD j 0 ≠ DefaultValue → S (bucket.getD j 0))
    (hk : ∀ k, cacheLookup st.responses k ≠ none → S k)
    (h : queryPartition aes config rnd bucket queryNumToMake i st = some st') :
    ∀ k, cacheLookup st'.responses k ≠ none → S k := by
  unfold queryPartition at h
  exact foldlM_inv _ (fun s => ∀ k, cacheLookup s.responses k ≠ none → S k) _
    (fun s j s' hj hs hq => subQuery_keys aes config rnd bucket i s s' j S
      (hS j (List.mem_range.mp hj)) hs hq) st hk st' h

/-! ## `SimpleBatchPianoPIR.Preprocessing` and `SimpleBatchPianoPIR.Query` return -/

theorem ceil_cover (n k : Nat) (hk : 0 < k) : n ≤ k * ((n + k - 1) / k) := by
  have h1 := Nat.div_add_mod (n + k - 1) k
  have h2 := Nat.mod_lt (n + k - 1) hk
  omega

theorem foldlM_range_inv {σ : Type} (f : σ → Nat → Option σ) (Inv : Nat → σ → Prop) (n : Nat)
    (h : ∀ s j, j < n → Inv j s → ∃ s', f s j = some s' ∧ Inv (j + 1) s') (s0 : σ)
    (h0 : Inv 0 s0) : ∃ s', (List.range n).foldlM f s0 = some s' ∧ Inv n s' := by
  induction n with
  | zero => exact ⟨s0, rfl, h0⟩
  | succ n ih =>
    obtain ⟨s1, h1, hi1⟩ := ih (fun s j hj => h s j (by omega))
    obtain ⟨s2, h2, hi2⟩ := h s1 n (by omega) hi1
    refine ⟨s2, ?_, hi2⟩
    rw [List.range_succ, List.foldlM_append, h1]
    show List.foldlM f s1 [n] = some s2
    rw [List.foldlM_cons, h2]
    rfl

theorem preprocessPartition_ok (aes : Nat → Nat → Nat) (key : Nat → Nat)
    (rng : Nat → Nat → Nat → Nat) (config : SimpleBatchPianoPIRConfig) (subs : List PianoPIR)
    (i : Nat) (D : Nat → Prop) (hlen : subs.length = config.PartitionNum)
    (hnew : ∀ k q, subs[k]? = some q → PartNew config k q)
    (hpart : ∀ k q, subs[k]? = some q → D k → PartOK config k q)
    (hi : i < config.PartitionNum) :
    ∃ subs', preprocessPartition aes key rng subs i = some subs' ∧
      subs'.length = config.PartitionNum ∧
      (∀ k q, subs'[k]? = some q → PartNew config k q) ∧
      ∀ k q, subs'[k]? = some q → (D k ∨ k = i) → PartOK config k q := by
  have hlt : i < subs.length := by rw [hlen]; exact hi
  have hsub : subs[i]? = some subs[i] := List.getElem?_eq_getElem hlt
  obtain ⟨q', hq', hok⟩ :=
    PianoPIR_Preprocessing_PartOK aes (key i) (rng i) config i subs[i] (hnew i _ hsub)
  unfold preprocessPartition
  rw [hsub]
  simp only []
  rw [hq']
  refine ⟨_, rfl, by rw [List.length_set]; exact hlen,
    part_set (PartNew config) _ i _ hnew hok.new, ?_⟩
  intro k q hk hd
  rw [List.getElem?_set] at hk
  by_cases hik : i = k
  · rw [if_pos hik, if_pos hlt] at hk
    rw [← hik, ← Option.some.inj hk]; exact hok
  · rw [if_neg hik] at hk
    rcases hd with hd | hd
    · exact hpart k q hk hd
    · exact absurd hd.symm hik

theorem preprocessPartitions_ok (aes : Nat → Nat → Nat) (key : Nat → Nat)
    (rng : Nat → Nat → Nat → Nat) (config : SimpleBatchPianoPIRConfig) (start stop : Nat)
    (subs : List PianoPIR) (D : Nat → Prop) (hstop : stop ≤ config.PartitionNum)
    (hlen : subs.length = config.PartitionNum)
    (hnew : ∀ k q, subs[k]? = some q → PartNew config k q)
    (hpart : ∀ k q, subs[k]? = some q → D k → PartOK config k q) :
    ∃ subs', preprocessPartitions aes key rng start stop subs = some subs' ∧
      subs'.length = config.PartitionNum ∧
      (∀ k q, subs'[k]? = some q → PartNew config k q) ∧
      ∀ k q, subs'[k]? = some q → (D k ∨ (start ≤ k ∧ k < stop)) → PartOK config k q := by
  unfold preprocessPartitions
  obtain ⟨subs', h1, h2, h3, h4⟩ := foldlM_range_inv
    (fun subPIR k => preprocessPartition aes key rng subPIR (start + k))
    (fun j s => s.length = config.PartitionNum ∧
      (∀ k q, s[k]? = some q → PartNew config k q) ∧
      ∀ k q, s[k]? = some q → (D k ∨ (start ≤ k ∧ k < start + j)) → PartOK config k q)
    (stop - start)
    (by
      intro s j hj ⟨g1, g2, g3⟩
      obtain ⟨s', e1, e2, e3, e4⟩ := preprocessPartition_ok aes key rng config s (start + j)
        (fun k => D k ∨ (start ≤ k ∧ k < start + j)) g1 g2 g3 (by omega)
      refine ⟨s', e1, e2, e3, ?_⟩
      intro k q hk hd
      apply e4 k q hk
      rcases hd with hd | hd
      · exact Or.inl (Or.inl hd)
      · by_cases hkj : k = start + j
        · exact Or.inr hkj
        · exact Or.inl (Or.inr ⟨hd.1, by omega⟩))
    subs ⟨hlen, hnew, by
      intro k q hk hd
      rcases hd with hd | hd
      · exact hpart k q hk hd
      · omega⟩
  refine ⟨subs', h1, h2, h3, ?_⟩
  intro k q hk hd
  apply h4 k q hk
  rcases hd with hd | hd
  · exact Or.inl hd
  · exact Or.inr ⟨hd.1, by omega⟩

theorem BatchOK_toNew (p : SimpleBatchPianoPIR) (ok : BatchOK p) : BatchNew p :=
  ⟨ok.threads, ok.parts, ok.len, ok.cover, fun i q h => (ok.part i q h).new⟩

/-- `SimpleBatchPianoPIR.Preprocessing` returns on an instance as built, and leaves it fit
for queries, with its counters at 0. -/
theorem Batch_Preprocessing_ok (aes : Nat → Nat → Nat) (key : Nat → Nat)
    (rng : Nat → Nat → Nat → Nat) (p : SimpleBatchPianoPIR) (ok : BatchNew p) :
    ∃ p', p.Preprocessing aes key rng = some p' ∧ BatchOK p' ∧ p'.config = p.config ∧
      p'.FinishedBatchNum = 0 ∧ p'.QueriesMadeInPartition = 0 := by
  obtain ⟨subs, hsubs, hlen, _, hpart⟩ := foldlM_range_inv
    (fun subPIR tid => preprocessPartitions aes key rng
      (tid * ((p.config.PartitionNum + p.config.ThreadNum - 1) / p.config.ThreadNum))
      (min ((tid + 1) * ((p.config.PartitionNum + p.config.ThreadNum - 1) / p.config.ThreadNum))
        p.config.PartitionNum) subPIR)
    (fun t s => s.length = p.config.PartitionNum ∧
      (∀ k q, s[k]? = some q → PartNew p.config k q) ∧
      ∀ k q, s[k]? = some q →
        k < t * ((p.config.PartitionNum + p.config.ThreadNum - 1) / p.config.ThreadNum) →
        PartOK p.config k q)
    p.config.ThreadNum
    (by
      intro s tid _ ⟨g1, g2, g3⟩
      obtain ⟨s', e1, e2, e3, e4⟩ := preprocessPartitions_ok aes key rng p.config
        (tid * ((p.config.PartitionNum + p.config.ThreadNum - 1) / p.config.ThreadNum))
        (min ((tid + 1) *
          ((p.config.PartitionNum + p.config.ThreadNum - 1) / p.config.ThreadNum))
          p.config.PartitionNum) s
        (fun k => k < tid *
          ((p.config.PartitionNum + p.config.ThreadNum - 1) / p.config.ThreadNum))
        (Nat.min_le_right _ _) g1 g2 g3
      refine ⟨s', e1, e2, e3, ?_⟩
      intro k q hk hlt
      apply e4 k q hk
      have hkl : k < p.config.PartitionNum := by
        by_contra hc
        rw [List.getElem?_eq_none (by omega)] at hk
        exact absurd hk (by simp)
      by_cases hd : k < tid *
          ((p.config.PartitionNum + p.config.ThreadNum - 1) / p.config.ThreadNum)
      · exact Or.inl hd
      · exact Or.inr ⟨by omega, lt_min hlt hkl⟩)
    p.subPIR ⟨ok.len, ok.part, by intro k q _ hk; omega⟩
  have hall : ∀ k q, subs[k]? = some q → PartOK p.config k q := by
    intro k q hk
    apply hpart k q hk
    have hkl : k < p.config.PartitionNum := by
      by_contra hc
      rw [List.getElem?_eq_none (by omega)] at hk
      exact absurd hk (by simp)
    exact lt_of_lt_of_le hkl (ceil_cover p.config.PartitionNum p.config.ThreadNum ok.threads)
  have h0 : 0 < subs.length := by rw [hlen]; exact ok.parts
  have hsub0 : subs[0]? = some subs[0] := List.getElem?_eq_getElem h0
  have hT : ¬ (p.config.ThreadNum = 0) := by have := ok.threads; omega
  unfold SimpleBatchPianoPIR.Preprocessing
  rw [if_neg hT]
  simp only []
  rw [hsubs]
  simp only []
  rw [hsub0]
  exact ⟨_, rfl, ⟨ok.threads, ok.parts, hlen, ok.cover, hall⟩, rfl, rfl, rfl⟩

/-- The two loops of `SimpleBatchPianoPIR.Query` over the partitions return for a batch of
indices of the database. -/
theorem Batch_loop_ok (aes : Nat → Nat → Nat) (p : SimpleBatchPianoPIR) (idx : List Nat)
    (rnd : BatchDraws) (ok : BatchOK p) (hidx : ∀ x, x ∈ idx → x < p.config.DBSize) :
    ∃ st, (List.range p.config.PartitionNum).foldlM (fun st i =>
        queryPartition aes p.config rnd
          (padQueries ((bucketQueries p.config idx).getD i [])
            (idx.length / p.config.PartitionNum))
          (idx.length / p.config.PartitionNum) i st)
        { subPIR := p.subPIR, responses := [], calls := [] } = some st ∧
      LoopOK p.config st := by
  apply foldlM_some_inv _ (LoopOK p.config)
  · intro s i hi hs
    have hi' := List.mem_range.mp hi
    apply queryPartition_ok aes p.config rnd _ _ i s hs hi'
    intro j hj
    rw [bucketQueries_getD p.config idx i hi']
    by_cases hd : (padQueries (bucketOf p.config idx i)
        (idx.length / p.config.PartitionNum)).getD j 0 = DefaultValue
    · exact Or.inl hd
    · right
      have hm := List.mem_of_mem_take (padQueries_getD _ _ j hj hd)
      obtain ⟨h1, h2⟩ := mem_bucketOf p.config idx i _ hm
      exact ⟨hidx _ h1, h2⟩
  · exact ⟨ok.len, ok.part, fun k v hv => absurd hv (by simp [cacheLookup]),
      fun k v hv => absurd hv (by simp [cacheLookup])⟩

/-- A key of the map `responses` is one of the first `queryNumToMake` indices of its bucket. -/
theorem Batch_loop_keys (aes : Nat → Nat → Nat) (config : SimpleBatchPianoPIRConfig)
    (idx : List Nat) (rnd : BatchDraws) (queryNumToMake : Nat) (st0 st : BatchLoopState)
    (h0 : st0.responses = [])
    (h : (List.range config.PartitionNum).foldlM (fun st i =>
        queryPartition aes config rnd
          (padQueries ((bucketQueries config idx).getD i []) queryNumToMake)
          queryNumToMake i st) st0 = some st) :
    ∀ k, cacheLookup st.responses k ≠ none →
      k ∈ (bucketOf config idx (k / config.PartitionSize)).take queryNumToMake := by
  refine foldlM_inv _ (fun s => ∀ k, cacheLookup s.responses k ≠ none →
      k ∈ (bucketOf config idx (k / config.PartitionSize)).take queryNumToMake) _ ?_ st0 ?_ st h
  · intro s i s' hi hs hq
    have hi' := List.mem_range.mp hi
    refine queryPartition_keys aes config rnd _ queryNumToMake i s s' _ ?_ hs hq
    rw [bucketQueries_getD config idx i hi']
    intro j hj hd
    have hm := padQueries_getD _ _ j hj hd
    obtain ⟨_, h2⟩ := mem_bucketOf config idx i _ (List.mem_of_mem_take hm)
    rw [h2]; exact hm
  · intro k hk
    rw [h0] at hk
    exact absurd rfl hk

/-- On an instance of the right shape, for a batch of indices of the database, no division
of `SimpleBatchPianoPIR.Query` is by zero and every bucket number is in range. -/
theorem Batch_Query_guards (p : SimpleBatchPianoPIR) (idx : List Nat) (ok : BatchOK p)
    (hidx : ∀ x, x ∈ idx → x < p.config.DBSize) :
    ¬ (p.config.PartitionNum = 0) ∧
      idx.any (fun x => decide (p.config.PartitionSize = 0 ∨
        p.config.PartitionNum ≤ x / p.config.PartitionSize)) = false := by
  refine ⟨by have := ok.parts; omega, ?_⟩
  rw [List.any_eq_false]
  intro x hx
  have hlt := lt_of_lt_of_le (hidx x hx) ok.cover
  have hPS : 0 < p.config.PartitionSize := by
    rcases Nat.eq_zero_or_pos p.config.PartitionSize with h0 | h0
    · rw [h0] at hlt; omega
    · exact h0
  have hdiv : x / p.config.PartitionSize < p.config.PartitionNum :=
    (Nat.div_lt_iff_lt_mul hPS).mpr hlt
  simp only [decide_eq_true_eq]
  omega

/-- The result of `SimpleBatchPianoPIR.Query` on an instance of the right shape, for a batch of
indices of the database. -/
theorem Batch_Query_eq (aes : Nat → Nat → Nat) (p : SimpleBatchPianoPIR) (idx : List Nat)
    (rnd : BatchDraws) (ok : BatchOK p) (hidx : ∀ x, x ∈ idx → x < p.config.DBSize) :
    ∃ st r, (List.range p.config.PartitionNum).foldlM (fun st i =>
        queryPartition aes p.config rnd
          (padQueries ((bucketQueries p.config idx).getD i [])
            (idx.length / p.config.PartitionNum))
          (idx.length / p.config.PartitionNum) i st)
        { subPIR := p.subPIR, responses := [], calls := [] } = some st ∧
      LoopOK p.config st ∧ p.Query aes idx rnd = some r ∧ r.err = none ∧
      r.calls = st.calls ∧
      r.ret = idx.map (outputEntry st.responses p.config.DBEntrySize) ∧
      BatchOK r.pir ∧ r.pir.config = p.config := by
  obtain ⟨st, hst, hok⟩ := Batch_loop_ok aes p idx rnd ok hidx
  have hg := Batch_Query_guards p idx ok hidx
  have h0 : 0 < st.subPIR.length := by rw [hok.len]; exact ok.parts
  have hsub0 : st.subPIR[0]? = some st.subPIR[0] := List.getElem?_eq_getElem h0
  have hok1 : BatchOK { p with subPIR := st.subPIR } :=
    ⟨ok.threads, ok.parts, hok.len, ok.cover, hok.part⟩
  by_cases hroll : p.QueriesMadeInPartition ≥
      (st.subPIR[0].client.MaxQueryNum + 2 ^ 64 - 2) % 2 ^ 64
  · obtain ⟨p', hp', hok', hcfg', _⟩ :=
      Batch_Preprocessing_ok aes rnd.prepKey rnd.prepRng { p with subPIR := st.subPIR }
        (BatchOK_toNew _ hok1)
    refine ⟨st, { pir := p', ret := idx.map (outputEntry st.responses p.config.DBEntrySize), err := none, calls := st.calls },
      hst, hok, ?_, rfl, rfl, rfl, hok', hcfg'⟩
    unfold SimpleBatchPianoPIR.Query
    rw [if_neg hg.1, hg.2]
    simp only [Bool.false_eq_true, if_false]
    rw [hst]
    simp only []
    rw [hsub0]
    simp only []
    rw [if_pos hroll, hp']
  · refine ⟨st, { pir := { p with
          subPIR := st.subPIR
          FinishedBatchNum := p.FinishedBatchNum + idx.length / p.config.BatchSize
          QueriesMadeInPartition := p.QueriesMadeInPartition +
            idx.length / p.config.PartitionNum }, ret := idx.map (outputEntry st.responses p.config.DBEntrySize), err := none, calls := st.calls },
      hst, hok, ?_, rfl, rfl, rfl, ⟨ok.threads, ok.parts, hok.len, ok.cover, hok.part⟩, rfl⟩
    unfold SimpleBatchPianoPIR.Query
    rw [if_neg hg.1, hg.2]
    simp only [Bool.false_eq_true, if_false]
    rw [hst]
    simp only []
    rw [hsub0]
    simp only []
    rw [if_neg hroll]

theorem getD_not_mem_take (l : List Nat) (n i : Nat) (hnd : l.Nodup) (hi : i < l.length)
    (hn : n ≤ i) : l.getD i 0 ∉ l.take n := by
  intro hm
  obtain ⟨j, hj⟩ := List.mem_iff_getElem?.mp hm
  rw [List.getElem?_take] at hj
  split at hj
  · rename_i hjn
    have hjl : j < l.length := by
      by_contra hc
      rw [List.getElem?_eq_none (by omega)] at hj
      exact absurd hj (by simp)
    rw [List.getElem?_eq_getElem hjl] at hj
    have h1 : l[j] = l[i] := by
      have := Option.some.inj hj
      rw [this]; simp [List.getD, List.getElem?_eq_getElem hi]
    have := (List.Nodup.getElem_inj_iff hnd).mp h1
    omega
  · exact absurd hj (by simp)

/-! ## The instance built by `NewSimpleBatchPianoPIR` -/

theorem mapM_some {α β : Type} (f : α → Option β) (l : List α) (l' : List β)
    (h : l.mapM f = some l') :
    l'.length = l.length ∧
      ∀ (i : Nat) (a : α) (b : β), l[i]? = some a → l'[i]? = some b → f a = some b := by
  induction l generalizing l' with
  | nil =>
    have h' : some ([] : List β) = some l' := h
    cases h'
    exact ⟨rfl, fun i a b ha => absurd ha (by simp)⟩
  | cons x xs ih =>
    rw [List.mapM_cons] at h
    cases hx : f x with
    | none => rw [hx] at h; exact absurd h (by simp)
    | some y =>
      cases hxs : xs.mapM f with
      | none => rw [hx, hxs] at h; exact absurd h (by simp)
      | some ys =>
        rw [hx, hxs] at h
        have hl : l' = y :: ys := by simpa using h.symm
        subst hl
        obtain ⟨h1, h2⟩ := ih ys hxs
        refine ⟨by simp [h1], ?_⟩
        intro i a b ha hb
        cases i with
        | zero =>
          simp only [List.getElem?_cons_zero, Option.some.injEq] at ha hb
          rw [← ha, ← hb]; exact hx
        | succ i =>
          simp only [List.getElem?_cons_succ] at ha hb
          exact h2 i a b ha hb

theorem chunkSizeLoop_zero (fuel t : Nat) (ht : 0 < t) : chunkSizeLoop fuel 0 t = none := by
  induction fuel with
  | zero => unfold chunkSizeLoop; rw [if_pos ht]
  | succ fuel ih => unfold chunkSizeLoop; rw [if_pos ht]; exact ih

theorem chunkSizeLoop_pos (fuel : Nat) : ∀ cs t r, 0 < cs → cs < 2 ^ 64 →
    chunkSizeLoop fuel cs t = some r → 0 < r ∧ r < 2 ^ 64 := by
  induction fuel with
  | zero =>
    intro cs t r hcs hlt h
    unfold chunkSizeLoop at h
    split at h
    · exact absurd h (by simp)
    · rw [← Option.some.inj h]; exact ⟨hcs, hlt⟩
  | succ fuel ih =>
    intro cs t r hcs hlt h
    unfold chunkSizeLoop at h
    split at h
    · rename_i hct
      rcases Nat.eq_zero_or_pos (cs * 2 % 2 ^ 64) with h0 | h0
      · rw [h0, chunkSizeLoop_zero fuel t (by omega)] at h
        exact absurd h (by simp)
      · exact ih _ t r h0 (Nat.mod_lt _ (by norm_num)) h
    · rw [← Option.some.inj h]; exact ⟨hcs, hlt⟩

theorem NewPianoPIR_some (fl : FloatValues) (DBSize DBEntryByteNum : Nat) (rawDB : Slice)
    (FailureProbLog2 key key2 : Nat) (q : PianoPIR)
    (h : NewPianoPIR fl DBSize DBEntryByteNum rawDB FailureProbLog2 key key2 = some q) :
    q.config.DBSize = DBSize ∧ q.config.DBEntrySize = DBEntryByteNum / 8 ∧
      q.client.config = q.config ∧ q.server.config = q.config ∧ q.server.rawDB = rawDB ∧
      q.client.localCache = [] ∧ q.client.skipPrep = false ∧
      (0 < q.config.ChunkSize ∧ q.config.ChunkSize < 2 ^ 64) ∧
      q.config.SetSize = (fl.ceilDiv DBSize q.config.ChunkSize + 3) / 4 * 4 := by
  unfold NewPianoPIR at h
  simp only [] at h
  split at h
  · exact absurd h (by simp)
  · split at h
    · exact absurd h (by simp)
    · rename_i cs hcs
      simp only [Option.some.injEq] at h
      rw [← h]
      exact ⟨rfl, rfl, rfl, rfl, rfl, rfl, rfl,
        chunkSizeLoop_pos 64 1 _ cs (by norm_num) (by norm_num) hcs, rfl⟩

/-- The instance returned by `NewSimpleBatchPianoPIR` has the shape that
`SimpleBatchPianoPIR.Preprocessing` relies on.  Hypothesis `hceil` says that the `float64`
ceiling of a quotient is not below the quotient. -/
theorem BatchNew_New (fl : FloatValues) (DBSize DBEntryByteNum BatchSize : Nat) (rawDB : Slice)
    (FailureProbLog2 : Nat) (key key2 : Nat → Nat) (p : SimpleBatchPianoPIR)
    (hN : DBSize + BatchSize / 2 ≤ 2 ^ 64) (hE8 : 0 < DBEntryByteNum / 8)
    (hceil : ∀ n cs, 0 < cs → n ≤ cs * fl.ceilDiv n cs)
    (h : NewSimpleBatchPianoPIR fl DBSize DBEntryByteNum BatchSize rawDB FailureProbLog2 key
      key2 = some p) :
    BatchNew p ∧ p.config.DBSize = DBSize ∧ p.config.DBEntrySize = DBEntryByteNum / 8 ∧
      p.config.PartitionNum = BatchSize / 2 ∧
      p.config.PartitionSize = (DBSize + BatchSize / 2 - 1) / (BatchSize / 2) := by
  unfold NewSimpleBatchPianoPIR at h
  simp only [] at h
  split at h
  · exact absurd h (by simp)
  · split at h
    · exact absurd h (by simp)
    · rename_i hP
      have hP' : 0 < BatchSize / 2 := Nat.pos_of_ne_zero hP
      have hN0 : DBSize < 2 ^ 64 := by omega
      have hwrap : (DBSize + BatchSize / RealQueryPerPartition - 1) % 2 ^ 64 =
          DBSize + BatchSize / RealQueryPerPartition - 1 := by
        apply Nat.mod_eq_of_lt
        show DBSize + BatchSize / 2 - 1 < 2 ^ 64
        omega
      rw [hwrap] at h
      cases hm : (List.range (BatchSize / RealQueryPerPartition)).mapM (fun i =>
          if i * ((DBSize + BatchSize / RealQueryPerPartition - 1) /
                (BatchSize / RealQueryPerPartition)) * (DBEntryByteNum / 8) >
              min ((i + 1) * ((DBSize + BatchSize / RealQueryPerPartition - 1) /
                (BatchSize / RealQueryPerPartition))) DBSize * (DBEntryByteNum / 8) ∨
              rawDB.len < min ((i + 1) * ((DBSize + BatchSize / RealQueryPerPartition - 1) /
                (BatchSize / RealQueryPerPartition))) DBSize * (DBEntryByteNum / 8) then none
          else NewPianoPIR fl
            ((min ((i + 1) * ((DBSize + BatchSize / RealQueryPerPartition - 1) /
                (BatchSize / RealQueryPerPartition))) DBSize + 2 ^ 64 -
              i * ((DBSize + BatchSize / RealQueryPerPartition - 1) /
                (BatchSize / RealQueryPerPartition))) % 2 ^ 64) DBEntryByteNum
            (rawDB.subslice
              (i * ((DBSize + BatchSize / RealQueryPerPartition - 1) /
                (BatchSize / RealQueryPerPartition)) * (DBEntryByteNum / 8))
              (min ((i + 1) * ((DBSize + BatchSize / RealQueryPerPartition - 1) /
                (BatchSize / RealQueryPerPartition))) DBSize * (DBEntryByteNum / 8)))
            FailureProbLog2 (key i) (key2 i)) with
      | none => rw [hm] at h; exact absurd h (by simp)
      | some subs =>
        rw [hm] at h
        simp only [Option.map_some', Option.some.injEq] at h
        obtain ⟨hlen, hget⟩ := mapM_some _ _ _ hm
        rw [← h]
        have hthreads : 0 < ThreadNum := by decide
        refine ⟨⟨hthreads, hP', by rw [hlen, List.length_range],
          ceil_cover DBSize (BatchSize / 2) hP', ?_⟩, rfl, rfl, rfl, rfl⟩
        intro i q hq
        have hq' : subs[i]? = some q := hq
        have hi : i < BatchSize / 2 := by
          have : i < subs.length := by
            by_contra hc
            rw [List.getElem?_eq_none (by omega)] at hq'
            exact absurd hq' (by simp)
          rw [hlen, List.length_range] at this
          exact this
        have hf := hget i i q (List.getElem?_range hi) hq'
        simp only [] at hf
        split at hf
        · exact absurd hf (by simp)
        · rename_i hguard
          obtain ⟨g1, g2, g3, g4, g5, _, _, g8, g9⟩ := NewPianoPIR_some _ _ _ _ _ _ _ q hf
          have hguard' : ¬ (i * ((DBSize + BatchSize / 2 - 1) / (BatchSize / 2)) *
              (DBEntryByteNum / 8) >
            min ((i + 1) * ((DBSize + BatchSize / 2 - 1) / (BatchSize / 2))) DBSize *
              (DBEntryByteNum / 8)) := fun hc => hguard (Or.inl hc)
          have g1' : q.config.DBSize =
              (min ((i + 1) * ((DBSize + BatchSize / 2 - 1) / (BatchSize / 2))) DBSize +
                2 ^ 64 - i * ((DBSize + BatchSize / 2 - 1) / (BatchSize / 2))) % 2 ^ 64 := g1
          have g5' : q.server.rawDB.len =
              min ((i + 1) * ((DBSize + BatchSize / 2 - 1) / (BatchSize / 2))) DBSize *
                (DBEntryByteNum / 8) -
              i * ((DBSize + BatchSize / 2 - 1) / (BatchSize / 2)) * (DBEntryByteNum / 8) := by
            rw [g5]; rfl
          have hle : min ((i + 1) * ((DBSize + BatchSize / 2 - 1) / (BatchSize / 2))) DBSize ≤
              DBSize := Nat.min_le_right _ _
          have hsub : ∀ a b : Nat, a ≤ b → b ≤ DBSize → (b + 2 ^ 64 - a) % 2 ^ 64 = b - a := by
            intro a b hab hb
            have : b + 2 ^ 64 - a = (b - a) + 2 ^ 64 := by omega
            rw [this, Nat.add_mod_right, Nat.mod_eq_of_lt (by omega)]
          refine ⟨hE8, by rw [g3, g2], by rw [g4, g2], ?_, ⟨by rw [g4, g3], by
            rw [g3]; exact ⟨g8.1, Nat.le_of_lt g8.2⟩, ?_, ?_⟩⟩
          · intro x hx hxi
            show x - i * ((DBSize + BatchSize / 2 - 1) / (BatchSize / 2)) < _
            have hx' : x < DBSize := hx
            have hxi' : x / ((DBSize + BatchSize / 2 - 1) / (BatchSize / 2)) = i := hxi
            rw [g3, g1']
            have hPS : 0 < (DBSize + BatchSize / 2 - 1) / (BatchSize / 2) := by
              rcases Nat.eq_zero_or_pos ((DBSize + BatchSize / 2 - 1) / (BatchSize / 2))
                with h0 | h0
              · exfalso
                have hc := ceil_cover DBSize (BatchSize / 2) hP'
                rw [h0] at hc
                omega
              · exact h0
            generalize (DBSize + BatchSize / 2 - 1) / (BatchSize / 2) = PS at hxi' hPS hle ⊢
            have hlo : i * PS ≤ x := by rw [← hxi']; exact Nat.div_mul_le_self x PS
            have hhi : x < (i + 1) * PS := by
              rw [← hxi', Nat.mul_comm]; exact Nat.lt_mul_div_succ x hPS
            have hmin : x < min ((i + 1) * PS) DBSize := lt_min hhi hx'
            rw [hsub _ _ (by omega) hle]
            omega
          · rw [g3, g9, g1]
            generalize (min ((i + 1) * ((DBSize + BatchSize / RealQueryPerPartition - 1) /
                (BatchSize / RealQueryPerPartition))) DBSize + 2 ^ 64 -
              i * ((DBSize + BatchSize / RealQueryPerPartition - 1) /
                (BatchSize / RealQueryPerPartition))) % 2 ^ 64 = n
            have h3 := hceil n q.config.ChunkSize g8.1
            have h4 : fl.ceilDiv n q.config.ChunkSize ≤
                (fl.ceilDiv n q.config.ChunkSize + 3) / 4 * 4 := by omega
            exact le_trans h3 (Nat.mul_le_mul_left _ h4)
          · rw [g3, g2, g5', g1']
            generalize (DBSize + BatchSize / 2 - 1) / (BatchSize / 2) = PS at hguard' hle ⊢
            by_cases hss : i * PS ≤ min ((i + 1) * PS) DBSize
            · rw [hsub _ _ hss hle, Nat.sub_mul]
            · have hE : DBEntryByteNum / 8 = 0 := by
                by_contra hE
                have hpos : 0 < DBEntryByteNum / 8 := Nat.pos_of_ne_zero hE
                apply hguard'
                exact Nat.mul_lt_mul_of_pos_right (by omega) hpos
              rw [hE]; simp

theorem demoBatch_ok : BatchOK demoBatch := by
  have h0 : NewSimpleBatchPianoPIR smallFloat 16 8 4 batchDB 0 (fun i => i) (fun i => i + 7) =
      some (demoBatchNew.getD emptyBatch) := by rfl
  have ok0 := (BatchNew_New smallFloat 16 8 4 batchDB 0 _ _ _ (by norm_num) (by norm_num)
    (fun n cs hcs => ceil_cover n cs hcs) h0).1
  obtain ⟨p', hp', ok', _⟩ := Batch_Preprocessing_ok demoAes (fun i => i + 1)
    (fun i c s => i + c + s) _ ok0
  have h1 : demoBatch = p' := by
    unfold demoBatch
    rw [hp']
    rfl
  rw [h1]; exact ok'

theorem map_getD_lt {α : Type} (l : List Nat) (g : Nat → α) (i : Nat) (d : α)
    (hi : i < l.length) : (l.map g).getD i d = g (l.getD i 0) := by
  simp [List.getD, List.getElem?_map, List.getElem?_eq_getElem hi]

/-! ## The sub-queries issued by a batch, and the rollover of the epoch -/

theorem foldlM_trace {σ α β : Type} (f : σ → α → Option σ) (tr : σ → List β) (g : α → List β)
    (l : List α) (h : ∀ s a s', a ∈ l → f s a = some s' → tr s' = tr s ++ g a) (s0 s' : σ)
    (hs : l.foldlM f s0 = some s') : tr s' = tr s0 ++ l.flatMap g := by
  induction l generalizing s0 with
  | nil =>
    have : s0 = s' := by simpa using hs
    rw [← this]; simp
  | cons a as ih =>
    rw [List.foldlM_cons] at hs
    cases h1 : f s0 a with
    | none => rw [h1] at hs; exact absurd hs (by simp)
    | some s1 =>
      rw [h1] at hs
      have h2 := ih (fun s b s2 hb => h s b s2 (List.mem_cons_of_mem _ hb)) s1 hs
      rw [h2, h s0 a s1 (List.mem_cons_self _ _) h1, List.flatMap_cons, List.append_assoc]

theorem flatMap_singleton_const {β : Type} (b : β) (n : Nat) :
    (List.range n).flatMap (fun _ => [b]) = List.replicate n b := by
  induction n with
  | zero => rfl
  | succ n ih =>
    rw [List.range_succ, List.flatMap_append, ih, List.replicate_succ']
    rfl

/-- A round of the loop over a bucket issues one sub-query, to the partition of the bucket. -/
theorem subQuery_calls (aes : Nat → Nat → Nat) (config : SimpleBatchPianoPIRConfig)
    (rnd : BatchDraws) (bucket : List Nat) (i : Nat) (st st' : BatchLoopState) (j : Nat)
    (h : subQuery aes config rnd bucket i st j = some st') :
    st'.calls.map (fun c => c.partition) = st.calls.map (fun c => c.partition) ++ [i] := by
  unfold subQuery at h
  split at h
  · exact absurd h (by simp)
  · split at h
    · split at h
      · exact absurd h (by simp)
      · simp only [Option.some.injEq] at h
        rw [← h]; simp
    · split at h
      · exact absurd h (by simp)
      · simp only [Option.some.injEq] at h
        rw [← h]; simp

/-- The loop over a bucket issues `queryNumToMake` sub-queries, all to its partition. -/
theorem queryPartition_calls (aes : Nat → Nat → Nat) (config : SimpleBatchPianoPIRConfig)
    (rnd : BatchDraws) (bucket : List Nat) (queryNumToMake i : Nat) (st st' : BatchLoopState)
    (h : queryPartition aes config rnd bucket queryNumToMake i st = some st') :
    st'.calls.map (fun c => c.partition) =
      st.calls.map (fun c => c.partition) ++ List.replicate queryNumToMake i := by
  unfold queryPartition at h
  have := foldlM_trace (subQuery aes config rnd bucket i)
    (fun s => s.calls.map (fun c => c.partition)) (fun _ => [i]) (List.range queryNumToMake)
    (fun s a s' _ hs => subQuery_calls aes config rnd bucket i s s' a hs) st st' h
  beta_reduce at this
  rw [this, flatMap_singleton_const]

/-- The partitions of the sub-queries of a batch, in the order of issue: `queryNumToMake`
times partition 0, then `queryNumToMake` times partition 1, and so on. -/
theorem Batch_loop_calls (aes : Nat → Nat → Nat) (config : SimpleBatchPianoPIRConfig)
    (rnd : BatchDraws) (buckets : Nat → List Nat) (queryNumToMake : Nat)
    (st0 st : BatchLoopState) (h0 : st0.calls = [])
    (h : (List.range config.PartitionNum).foldlM (fun st i =>
        queryPartition aes config rnd (buckets i) queryNumToMake i st) st0 = some st) :
    st.calls.map (fun c => c.partition) =
      (List.range config.PartitionNum).flatMap (fun i => List.replicate queryNumToMake i) := by
  have := foldlM_trace (fun st i => queryPartition aes config rnd (buckets i) queryNumToMake i st)
    (fun s => s.calls.map (fun c => c.partition)) (fun i => List.replicate queryNumToMake i)
    (List.range config.PartitionNum)
    (fun s a s' _ hs => queryPartition_calls aes config rnd (buckets a) queryNumToMake a s s' hs)
    st0 st h
  beta_reduce at this
  rw [this, h0]; rfl

theorem count_flatMap_replicate (n q i : Nat) :
    ((List.range n).flatMap (fun k => List.replicate q k)).count i = if i < n then q else 0 := by
  induction n with
  | zero => simp
  | succ n ih =>
    rw [List.range_succ, List.flatMap_append, List.count_append, ih]
    simp only [List.flatMap_cons, List.flatMap_nil, List.append_nil, List.count_replicate,
      beq_iff_eq]
    by_cases h1 : i < n
    · rw [if_pos h1, if_neg (by omega), if_pos (by omega)]; rfl
    · by_cases h2 : n = i
      · rw [if_neg h1, if_pos h2, if_pos (by omega)]; simp
      · rw [if_neg h1, if_neg h2, if_neg (by omega)]

theorem mem_flatMap_replicate (n q i : Nat)
    (h : i ∈ (List.range n).flatMap (fun k => List.replicate q k)) : i < n := by
  rw [List.mem_flatMap] at h
  obtain ⟨k, hk, hi⟩ := h
  rw [List.mem_replicate] at hi
  rw [hi.2]; exact List.mem_range.mp hk

/-! ### The partitions after `SimpleBatchPianoPIR.Preprocessing` -/

theorem foldlM_range_step {σ : Type} (f : σ → Nat → Option σ) (Inv : Nat → σ → Prop) (n : Nat)
    (h : ∀ s j s', j < n → Inv j s → f s j = some s' → Inv (j + 1) s') (s0 : σ)
    (h0 : Inv 0 s0) (s' : σ) (hs : (List.range n).foldlM f s0 = some s') : Inv n s' := by
  induction n generalizing s' with
  | zero =>
    have : s0 = s' := by simpa using hs
    rw [← this]; exact h0
  | succ n ih =>
    rw [List.range_succ, List.foldlM_append] at hs
    cases h1 : (List.range n).foldlM f s0 with
    | none => rw [h1] at hs; exact absurd hs (by simp)
    | some s1 =>
      rw [h1] at hs
      have hs' : List.foldlM f s1 [n] = some s' := hs
      rw [List.foldlM_cons] at hs'
      cases h2 : f s1 n with
      | none => rw [h2] at hs'; exact absurd hs' (by simp)
      | some s2 =>
        rw [h2] at hs'
        have : s2 = s' := by simpa using hs'
        rw [← this]
        exact h s1 n s2 (by omega) (ih (fun s j s' hj => h s j s' (by omega)) s1 h1) h2

/-- The partitions `[start, stop)` after one goroutine of `Preprocessing`: each of them is the
preprocessed partition of before, the others are untouched. -/
theorem preprocessPartitions_rows (aes : Nat → Nat → Nat) (key : Nat → Nat)
    (rng : Nat → Nat → Nat → Nat) (start stop : Nat) (subs0 subs subs' : List PianoPIR)
    (D : Nat → Prop) (hD : ∀ k, D k → k < start)
    (hlen : subs.length = subs0.length)
    (hdone : ∀ k, D k → ∃ q q', subs0[k]? = some q ∧
      q.Preprocessing aes (key k) (rng k) = some q' ∧ subs[k]? = some q')
    (hrest : ∀ k, ¬ D k → subs[k]? = subs0[k]?)
    (h : preprocessPartitions aes key rng start stop subs = some subs') :
    subs'.length = subs0.length ∧
      (∀ k, (D k ∨ (start ≤ k ∧ k < stop)) → ∃ q q', subs0[k]? = some q ∧
        q.Preprocessing aes (key k) (rng k) = some q' ∧ subs'[k]? = some q') ∧
      ∀ k, ¬ (D k ∨ (start ≤ k ∧ k < stop)) → subs'[k]? = subs0[k]? := by
  unfold preprocessPartitions at h
  have := foldlM_range_step
    (fun subPIR k => preprocessPartition aes key rng subPIR (start + k))
    (fun j s => s.length = subs0.length ∧
      (∀ k, (D k ∨ (start ≤ k ∧ k < start + j)) → ∃ q q', subs0[k]? = some q ∧
        q.Preprocessing aes (key k) (rng k) = some q' ∧ s[k]? = some q') ∧
      ∀ k, ¬ (D k ∨ (start ≤ k ∧ k < start + j)) → s[k]? = subs0[k]?)
    (stop - start)
    (by
      intro s j s' hj ⟨g1, g2, g3⟩ hs
      beta_reduce at hs
      unfold preprocessPartition at hs
      split at hs
      · exact absurd hs (by simp)
      · rename_i sub hsub
        cases hp : sub.Preprocessing aes (key (start + j)) (rng (start + j)) with
        | none => rw [hp] at hs; exact absurd hs (by simp)
        | some sub' =>
          rw [hp] at hs
          simp only [Option.map_some', Option.some.injEq] at hs
          have hlt : start + j < s.length := by
            by_contra hc
            rw [List.getElem?_eq_none (by omega)] at hsub
            exact absurd hsub (by simp)
          have hnot : ¬ (D (start + j) ∨ (start ≤ start + j ∧ start + j < start + j)) := by
            intro hc
            rcases hc with hc | hc
            · have := hD _ hc; omega
            · omega
          rw [← hs]
          refine ⟨by rw [List.length_set]; exact g1, ?_, ?_⟩
          · intro k hk
            by_cases hkj : start + j = k
            · refine ⟨sub, sub', ?_, by rw [← hkj]; exact hp, ?_⟩
              · rw [← hkj, ← g3 _ hnot]; exact hsub
              · rw [List.getElem?_set, if_pos hkj, if_pos hlt]
            · rw [List.getElem?_set, if_neg hkj]
              apply g2 k
              rcases hk with hk | hk
              · exact Or.inl hk
              · exact Or.inr ⟨hk.1, by omega⟩
          · intro k hk
            have hkj : ¬ (start + j = k) := by
              intro hc; apply hk; right; omega
            rw [List.getElem?_set, if_neg hkj]
            apply g3 k
            intro hc
            apply hk
            rcases hc with hc | hc
            · exact Or.inl hc
            · exact Or.inr ⟨hc.1, by omega⟩)
    subs ⟨hlen, by
      intro k hk
      rcases hk with hk | hk
      · exact hdone k hk
      · omega, by
      intro k hk
      exact hrest k (fun hc => hk (Or.inl hc))⟩ subs' h
  obtain ⟨h1, h2, h3⟩ := this
  refine ⟨h1, ?_, ?_⟩
  · intro k hk
    apply h2 k
    rcases hk with hk | hk
    · exact Or.inl hk
    · exact Or.inr ⟨hk.1, by omega⟩
  · intro k hk
    apply h3 k
    intro hc
    apply hk
    rcases hc with hc | hc
    · exact Or.inl hc
    · exact Or.inr ⟨hc.1, by omega⟩

/-- After `SimpleBatchPianoPIR.Preprocessing` every partition is the preprocessed partition of
before, at the start of an epoch, and the counters of the wrapper are 0. -/
theorem Batch_Preprocessing_rows (aes : Nat → Nat → Nat) (key : Nat → Nat)
    (rng : Nat → Nat → Nat → Nat) (p p' : SimpleBatchPianoPIR)
    (h : p.Preprocessing aes key rng = some p') :
    p'.FinishedBatchNum = 0 ∧ p'.QueriesMadeInPartition = 0 ∧ p'.config = p.config ∧
      ∀ k, k < p.config.PartitionNum → ∃ q q', p.subPIR[k]? = some q ∧
        q.Preprocessing aes (key k) (rng k) = some q' ∧ p'.subPIR[k]? = some q' ∧
        q'.client.FinishedQueryNum = 0 ∧ q'.client.MaxQueryNum = q.client.MaxQueryNum := by
  unfold SimpleBatchPianoPIR.Preprocessing at h
  split at h
  · exact absurd h (by simp)
  · rename_i hT
    simp only [] at h
    split at h
    · exact absurd h (by simp)
    · rename_i subs hsubs
      split at h
      · exact absurd h (by simp)
      · simp only [Option.some.injEq] at h
        have hrows := foldlM_range_step
          (fun subPIR tid => preprocessPartitions aes key rng
            (tid * ((p.config.PartitionNum + p.config.ThreadNum - 1) / p.config.ThreadNum))
            (min ((tid + 1) *
              ((p.config.PartitionNum + p.config.ThreadNum - 1) / p.config.ThreadNum))
              p.config.PartitionNum) subPIR)
          (fun t s => s.length = p.subPIR.length ∧
            (∀ k, (k < t * ((p.config.PartitionNum + p.config.ThreadNum - 1) /
                p.config.ThreadNum) ∧ k < p.config.PartitionNum) →
              ∃ q q', p.subPIR[k]? = some q ∧
                q.Preprocessing aes (key k) (rng k) = some q' ∧ s[k]? = some q') ∧
            ∀ k, ¬ (k < t * ((p.config.PartitionNum + p.config.ThreadNum - 1) /
                p.config.ThreadNum) ∧ k < p.config.PartitionNum) → s[k]? = p.subPIR[k]?)
          p.config.ThreadNum
          (by
            intro s tid s' _ ⟨g1, g2, g3⟩ hs
            obtain ⟨e1, e2, e3⟩ := preprocessPartitions_rows aes key rng _ _ p.subPIR s s'
              (fun k => k < tid * ((p.config.PartitionNum + p.config.ThreadNum - 1) /
                p.config.ThreadNum) ∧ k < p.config.PartitionNum)
              (fun k hk => hk.1) g1 g2 g3 hs
            refine ⟨e1, ?_, ?_⟩
            · intro k hk
              apply e2 k
              by_cases hd : k < tid *
                  ((p.config.PartitionNum + p.config.ThreadNum - 1) / p.config.ThreadNum)
              · exact Or.inl ⟨hd, hk.2⟩
              · exact Or.inr ⟨by omega, lt_min hk.1 hk.2⟩
            · intro k hk
              apply e3 k
              intro hc
              apply hk
              rcases hc with hc | hc
              · refine ⟨?_, hc.2⟩
                have := hc.1
                rw [Nat.add_mul]; omega
              · exact ⟨lt_of_lt_of_le hc.2 (Nat.min_le_left _ _),
                  lt_of_lt_of_le hc.2 (Nat.min_le_right _ _)⟩)
          p.subPIR ⟨rfl, by intro k hk; omega, fun k _ => rfl⟩ subs hsubs
        obtain ⟨_, r2, _⟩ := hrows
        rw [← h]
        refine ⟨rfl, rfl, rfl, ?_⟩
        intro k hk
        have hT' : 0 < p.config.ThreadNum := Nat.pos_of_ne_zero hT
        obtain ⟨q, q', h1, h2, h3⟩ := r2 k
          ⟨lt_of_lt_of_le hk (by
            exact ceil_cover p.config.PartitionNum p.config.ThreadNum hT'), hk⟩
        have h2' : q.client.Preprocessing aes (key k) (rng k) q.server.rawDB =
            some q'.client := by
          unfold PianoPIR.Preprocessing at h2
          cases hc : q.client.Preprocessing aes (key k) (rng k) q.server.rawDB with
          | none => rw [hc] at h2; exact absurd h2 (by simp)
          | some c =>
            rw [hc] at h2
            simp only [Option.map_some', Option.some.injEq] at h2
            rw [← h2]
        obtain ⟨h4, h5⟩ := Preprocessing_counters aes _ _ _ _ _ h2'
        exact ⟨q, q', h1, h2, h3, h4, h5⟩

/-! ## The partitions built by `NewSimpleBatchPianoPIR` -/

theorem mapM_exists {α β : Type} (f : α → Option β) (l : List α)
    (h : ∀ a, a ∈ l → ∃ b, f a = some b) : ∃ l', l.mapM f = some l' := by
  induction l with
  | nil => exact ⟨[], rfl⟩
  | cons x xs ih =>
    obtain ⟨y, hy⟩ := h x (List.mem_cons_self _ _)
    obtain ⟨ys, hys⟩ := ih (fun a ha => h a (List.mem_cons_of_mem _ ha))
    refine ⟨y :: ys, ?_⟩
    rw [List.mapM_cons, hy, hys]
    rfl

/-- The range of partition `i` is well formed when the one of the last partition is. -/
theorem partition_range_le (DBSize P PS i : Nat) (hi : i < P) (hwf : (P - 1) * PS ≤ DBSize) :
    i * PS ≤ min ((i + 1) * PS) DBSize := by
  have h1 : i * PS ≤ (P - 1) * PS := Nat.mul_le_mul_right _ (by omega)
  have h2 : i * PS ≤ (i + 1) * PS := Nat.mul_le_mul_right _ (by omega)
  exact le_min h2 (le_trans h1 hwf)

/-- The ranges `[i·PS, min((i+1)·PS, DBSize))`, `i < P`, hold every index below `DBSize` once. -/
theorem partition_cover (DBSize P PS x : Nat) (hx : x < DBSize) (hc : DBSize ≤ P * PS) :
    ∃ i, (i < P ∧ i * PS ≤ x ∧ x < min ((i + 1) * PS) DBSize) ∧
      ∀ j, (j < P ∧ j * PS ≤ x ∧ x < min ((j + 1) * PS) DBSize) → j = i := by
  have hPS : 0 < PS := by
    rcases Nat.eq_zero_or_pos PS with h0 | h0
    · rw [h0] at hc; omega
    · exact h0
  have hlo : x / PS * PS ≤ x := Nat.div_mul_le_self x PS
  have hhi : x < (x / PS + 1) * PS := by
    rw [Nat.mul_comm]; exact Nat.lt_mul_div_succ x hPS
  refine ⟨x / PS, ⟨?_, hlo, lt_min hhi hx⟩, ?_⟩
  · by_contra hcon
    have h1 : P * PS ≤ x / PS * PS := Nat.mul_le_mul_right _ (by omega)
    omega
  · intro j ⟨_, h2, h3⟩
    have h4 : x < (j + 1) * PS := lt_of_lt_of_le h3 (Nat.min_le_left _ _)
    have h5 : j ≤ x / PS := (Nat.le_div_iff_mul_le hPS).mpr h2
    have h6 : x / PS < j + 1 := (Nat.div_lt_iff_lt_mul hPS).mpr h4
    omega

/-- `NewSimpleBatchPianoPIR` returns when the range of the last partition is well formed, and
every sub-PIR is built by `NewPianoPIR` over the range of its partition. -/
theorem NewSimpleBatchPianoPIR_eq (fl : FloatValues) (DBSize DBEntryByteNum BatchSize : Nat)
    (rawDB : Slice) (FailureProbLog2 : Nat) (key key2 : Nat → Nat)
    (hlen : rawDB.len = DBSize * (DBEntryByteNum / 8) % 2 ^ 64)
    (hB : 2 ≤ BatchSize) (hN : DBSize + BatchSize / 2 ≤ 2 ^ 64)
    (hE : DBSize * (DBEntryByteNum / 8) < 2 ^ 64)
    (ht : ∀ n, n ≤ DBSize → fl.twoSqrt n ≤ 2 ^ 63)
    (hwf : (BatchSize / 2 - 1) * ((DBSize + BatchSize / 2 - 1) / (BatchSize / 2)) ≤ DBSize) :
    ∃ p, NewSimpleBatchPianoPIR fl DBSize DBEntryByteNum BatchSize rawDB FailureProbLog2 key
        key2 = some p ∧
      p.config.PartitionNum = BatchSize / 2 ∧
      p.config.PartitionSize = (DBSize + BatchSize / 2 - 1) / (BatchSize / 2) ∧
      p.config.DBSize = DBSize ∧
      p.subPIR.length = BatchSize / 2 ∧
      ∀ i, i < BatchSize / 2 → ∃ q, p.subPIR[i]? = some q ∧
        NewPianoPIR fl
          (min ((i + 1) * ((DBSize + BatchSize / 2 - 1) / (BatchSize / 2))) DBSize -
            i * ((DBSize + BatchSize / 2 - 1) / (BatchSize / 2))) DBEntryByteNum
          (rawDB.subslice
            (i * ((DBSize + BatchSize / 2 - 1) / (BatchSize / 2)) * (DBEntryByteNum / 8))
            (min ((i + 1) * ((DBSize + BatchSize / 2 - 1) / (BatchSize / 2))) DBSize *
              (DBEntryByteNum / 8)))
          FailureProbLog2 (key i) (key2 i) = some q := by
  have hP : ¬ (BatchSize / 2 = 0) := by omega
  have hsub : ∀ a b : Nat, a ≤ b → b ≤ DBSize → (b + 2 ^ 64 - a) % 2 ^ 64 = b - a := by
    intro a b hab hb
    have : b + 2 ^ 64 - a = (b - a) + 2 ^ 64 := by omega
    rw [this, Nat.add_mod_right, Nat.mod_eq_of_lt (by omega)]
  generalize hPS : (DBSize + BatchSize / 2 - 1) / (BatchSize / 2) = PS at hwf ⊢
  have hall : ∀ i, i ∈ List.range (BatchSize / 2) → ∃ q,
      (fun i =>
        if i * PS * (DBEntryByteNum / 8) > min ((i + 1) * PS) DBSize * (DBEntryByteNum / 8) ∨
            rawDB.len < min ((i + 1) * PS) DBSize * (DBEntryByteNum / 8)
        then none
        else NewPianoPIR fl ((min ((i + 1) * PS) DBSize + 2 ^ 64 - i * PS) % 2 ^ 64)
          DBEntryByteNum
          (rawDB.subslice (i * PS * (DBEntryByteNum / 8))
            (min ((i + 1) * PS) DBSize * (DBEntryByteNum / 8)))
          FailureProbLog2 (key i) (key2 i)) i = some q := by
    intro i hi
    have hi' := List.mem_range.mp hi
    have hle := partition_range_le DBSize (BatchSize / 2) PS i hi' hwf
    have hle2 : min ((i + 1) * PS) DBSize ≤ DBSize := Nat.min_le_right _ _
    beta_reduce
    rw [if_neg (by
      have := Nat.mul_le_mul_right (DBEntryByteNum / 8) hle
      have h2 := Nat.mul_le_mul_right (DBEntryByteNum / 8) hle2
      rw [hlen, Nat.mod_eq_of_lt hE]
      omega), hsub _ _ hle hle2]
    have h1 : (min ((i + 1) * PS) DBSize - i * PS) * (DBEntryByteNum / 8) ≤
        DBSize * (DBEntryByteNum / 8) := Nat.mul_le_mul_right _ (by omega)
    obtain ⟨k, _, hloop, _⟩ := chunkSizeLoop_least
      (fl.twoSqrt (min ((i + 1) * PS) DBSize - i * PS)) (ht _ (by omega))
    obtain ⟨q, hq, _⟩ := NewPianoPIR_eq fl (min ((i + 1) * PS) DBSize - i * PS) DBEntryByteNum
      (rawDB.subslice (i * PS * (DBEntryByteNum / 8))
        (min ((i + 1) * PS) DBSize * (DBEntryByteNum / 8)))
      FailureProbLog2 (key i) (key2 i) (by
        rw [Nat.mod_eq_of_lt (by omega), Nat.sub_mul]
        rfl) _ hloop
    exact ⟨q, hq⟩
  obtain ⟨subs, hsubs⟩ := mapM_exists _ _ hall
  obtain ⟨hl, hget⟩ := mapM_some _ _ _ hsubs
  refine ⟨{ config := { DBEntryByteNum := DBEntryByteNum, DBEntrySize := DBEntryByteNum / 8,
                        DBSize := DBSize, BatchSize := BatchSize,
                        PartitionNum := BatchSize / 2, PartitionSize := PS,
                        ThreadNum := ThreadNum, FailureProbLog2 := FailureProbLog2 }
            subPIR := subs, FinishedBatchNum := 0, QueriesMadeInPartition := 0,
            SupportBatchNum := 0 }, ?_, rfl, rfl, rfl, by rw [hl, List.length_range], ?_⟩
  · unfold NewSimpleBatchPianoPIR
    simp only []
    rw [if_neg (by rw [hlen]; simp)]
    have hP2 : ¬ (BatchSize / RealQueryPerPartition = 0) := hP
    rw [if_neg hP2]
    have hwrap : (DBSize + BatchSize / RealQueryPerPartition - 1) % 2 ^ 64 =
        DBSize + BatchSize / RealQueryPerPartition - 1 := by
      apply Nat.mod_eq_of_lt
      show DBSize + BatchSize / 2 - 1 < 2 ^ 64
      omega
    rw [hwrap]
    have hPS2 : (DBSize + BatchSize / RealQueryPerPartition - 1) /
        (BatchSize / RealQueryPerPartition) = PS := hPS
    rw [hPS2]
    have hsubs2 : (List.range (BatchSize / RealQueryPerPartition)).mapM (fun i =>
        if i * PS * (DBEntryByteNum / 8) > min ((i + 1) * PS) DBSize * (DBEntryByteNum / 8) ∨
            rawDB.len < min ((i + 1) * PS) DBSize * (DBEntryByteNum / 8)
        then none
        else NewPianoPIR fl ((min ((i + 1) * PS) DBSize + 2 ^ 64 - i * PS) % 2 ^ 64)
          DBEntryByteNum
          (rawDB.subslice (i * PS * (DBEntryByteNum / 8))
            (min ((i + 1) * PS) DBSize * (DBEntryByteNum / 8)))
          FailureProbLog2 (key i) (key2 i)) = some subs := hsubs
    rw [hsubs2]
    rfl
  · intro i hi
    have hlt : i < subs.length := by rw [hl, List.length_range]; exact hi
    refine ⟨subs[i], List.getElem?_eq_getElem hlt, ?_⟩
    have hf := hget i i subs[i] (List.getElem?_range hi) (List.getElem?_eq_getElem hlt)
    beta_reduce at hf
    have hle := partition_range_le DBSize (BatchSize / 2) PS i hi hwf
    have hle2 : min ((i + 1) * PS) DBSize ≤ DBSize := Nat.min_le_right _ _
    rw [if_neg (by
      have := Nat.mul_le_mul_right (DBEntryByteNum / 8) hle
      have h2 := Nat.mul_le_mul_right (DBEntryByteNum / 8) hle2
      rw [hlen, Nat.mod_eq_of_lt hE]
      omega), hsub _ _ hle hle2] at hf
    exact hf

/-! ## Bytes and words of a packed entry -/

theorem mapM_eq_map {α β : Type} (f : α → Option β) (g : α → β) (l : List α)
    (h : ∀ a, a ∈ l → f a = some (g a)) : l.mapM f = some (l.map g) := by
  induction l with
  | nil => rfl
  | cons x xs ih =>
    rw [List.mapM_cons, h x (List.mem_cons_self _ _),
      ih (fun a ha => h a (List.mem_cons_of_mem _ ha))]
    rfl

theorem map_getD_range {α : Type} (l : List α) (d : α) :
    (List.range l.length).map (fun i => l.getD i d) = l := by
  apply List.ext_getElem?
  intro k
  by_cases hk : k < l.length
  · rw [List.getElem?_map, List.getElem?_range hk]
    simp [List.getD, List.getElem?_eq_getElem hk]
  · rw [List.getElem?_eq_none (by simpa using hk), List.getElem?_eq_none (by omega)]

theorem length_flatMap_const {α β : Type} (f : α → List β) (n : Nat) (l : List α)
    (h : ∀ a, (f a).length = n) : (l.flatMap f).length = l.length * n := by
  induction l with
  | nil => simp
  | cons x xs ih =>
    rw [List.flatMap_cons, List.length_append, ih, h x, List.length_cons, Nat.succ_mul]
    omega

theorem PutUint32_lt (v b : Nat) (h : b ∈ PutUint32 v) : b < 256 := by
  unfold PutUint32 at h
  simp only [List.mem_cons, List.mem_singleton, List.not_mem_nil, or_false] at h
  rcases h with h | h | h | h <;> (rw [h]; exact Nat.mod_lt _ (by norm_num))

/-- Reading back the four bytes of a `uint32`. -/
theorem Uint32_PutUint32 (v : Nat) (hv : v < 2 ^ 32) (rest : List Nat) :
    Uint32 (PutUint32 v ++ rest) = some v := by
  unfold Uint32 PutUint32
  rw [if_neg (by simp)]
  simp only [List.cons_append, List.getD_cons_zero, List.getD_cons_succ]
  congr 1
  omega

/-- Writing back the eight bytes that make a `uint64`. -/
theorem PutUint64_Uint64 (b : List Nat) (hb : ∀ x, x ∈ b → x < 256) (hl : 8 ≤ b.length) :
    ∃ w, Uint64 b = some w ∧ PutUint64 w = b.take 8 := by
  match b, hl with
  | b0 :: b1 :: b2 :: b3 :: b4 :: b5 :: b6 :: b7 :: rest, _ =>
    have h0 := hb b0 (by simp)
    have h1 := hb b1 (by simp)
    have h2 := hb b2 (by simp)
    have h3 := hb b3 (by simp)
    have h4 := hb b4 (by simp)
    have h5 := hb b5 (by simp)
    have h6 := hb b6 (by simp)
    have h7 := hb b7 (by simp)
    refine ⟨_, by unfold Uint64; rw [if_neg (by simp)], ?_⟩
    unfold PutUint64
    simp only [List.getD_cons_zero, List.getD_cons_succ, List.take_succ_cons, List.take_zero]
    have e0 : (b0 + b1 * 2 ^ 8 + b2 * 2 ^ 16 + b3 * 2 ^ 24 + b4 * 2 ^ 32 + b5 * 2 ^ 40 +
        b6 * 2 ^ 48 + b7 * 2 ^ 56) % 256 = b0 := by omega
    have e1 : (b0 + b1 * 2 ^ 8 + b2 * 2 ^ 16 + b3 * 2 ^ 24 + b4 * 2 ^ 32 + b5 * 2 ^ 40 +
        b6 * 2 ^ 48 + b7 * 2 ^ 56) / 2 ^ 8 % 256 = b1 := by omega
    have e2 : (b0 + b1 * 2 ^ 8 + b2 * 2 ^ 16 + b3 * 2 ^ 24 + b4 * 2 ^ 32 + b5 * 2 ^ 40 +
        b6 * 2 ^ 48 + b7 * 2 ^ 56) / 2 ^ 16 % 256 = b2 := by omega
    have e3 : (b0 + b1 * 2 ^ 8 + b2 * 2 ^ 16 + b3 * 2 ^ 24 + b4 * 2 ^ 32 + b5 * 2 ^ 40 +
        b6 * 2 ^ 48 + b7 * 2 ^ 56) / 2 ^ 24 % 256 = b3 := by omega
    have e4 : (b0 + b1 * 2 ^ 8 + b2 * 2 ^ 16 + b3 * 2 ^ 24 + b4 * 2 ^ 32 + b5 * 2 ^ 40 +
        b6 * 2 ^ 48 + b7 * 2 ^ 56) / 2 ^ 32 % 256 = b4 := by omega
    have e5 : (b0 + b1 * 2 ^ 8 + b2 * 2 ^ 16 + b3 * 2 ^ 24 + b4 * 2 ^ 32 + b5 * 2 ^ 40 +
        b6 * 2 ^ 48 + b7 * 2 ^ 56) / 2 ^ 40 % 256 = b5 := by omega
    have e6 : (b0 + b1 * 2 ^ 8 + b2 * 2 ^ 16 + b3 * 2 ^ 24 + b4 * 2 ^ 32 + b5 * 2 ^ 40 +
        b6 * 2 ^ 48 + b7 * 2 ^ 56) / 2 ^ 48 % 256 = b6 := by omega
    have e7 : (b0 + b1 * 2 ^ 8 + b2 * 2 ^ 16 + b3 * 2 ^ 24 + b4 * 2 ^ 32 + b5 * 2 ^ 40 +
        b6 * 2 ^ 48 + b7 * 2 ^ 56) / 2 ^ 56 % 256 = b7 := by omega
    rw [e0, e1, e2, e3, e4, e5, e6, e7]

/-! ## The round trip of a packed entry -/

/-- The words read from a sequence of bytes, written back as bytes, are those bytes. -/
theorem words_bytes (B : List Nat) (hB : ∀ x, x ∈ B → x < 256) (E : Nat)
    (hE : E * 8 ≤ B.length) :
    ∃ ws, (List.range E).mapM (fun j => Uint64 (B.drop (j * 8))) = some ws ∧
      ws.length = E ∧ ws.flatMap PutUint64 = B.take (E * 8) := by
  have hw : ∀ j, j < E → ∃ w, Uint64 (B.drop (j * 8)) = some w ∧
      PutUint64 w = (B.drop (j * 8)).take 8 := by
    intro j hj
    apply PutUint64_Uint64
    · intro x hx; exact hB x (List.mem_of_mem_drop hx)
    · rw [List.length_drop]
      have : (j + 1) * 8 ≤ E * 8 := Nat.mul_le_mul_right 8 hj
      omega
  refine ⟨(List.range E).map (fun j => (Uint64 (B.drop (j * 8))).getD 0), ?_, by simp, ?_⟩
  · apply mapM_eq_map
    intro j hj
    obtain ⟨w, h1, _⟩ := hw j (List.mem_range.mp hj)
    rw [h1]; rfl
  · clear hE
    induction E with
    | zero => simp
    | succ E ih =>
      rw [List.range_succ, List.map_append, List.flatMap_append,
        ih (fun j hj => hw j (by omega))]
      obtain ⟨w, h1, h2⟩ := hw E (by omega)
      simp only [List.map_cons, List.map_nil, List.flatMap_cons, List.flatMap_nil,
        List.append_nil]
      rw [h1]
      show List.take (E * 8) B ++ PutUint64 w = _
      rw [h2, Nat.succ_mul, List.take_add]

/-- Component `i` read back from the bytes of a list of `uint32` values. -/
theorem Uint32_drop_flatMap (xs : List Nat) (hx : ∀ x, x ∈ xs → x < 2 ^ 32) (rest : List Nat) :
    ∀ i, i < xs.length →
      Uint32 ((xs.flatMap PutUint32 ++ rest).drop (i * 4)) = some (xs.getD i 0) := by
  induction xs with
  | nil => intro i hi; simp at hi
  | cons x xs ih =>
    intro i hi
    cases i with
    | zero =>
      rw [List.flatMap_cons, Nat.zero_mul, List.drop_zero, List.append_assoc]
      exact Uint32_PutUint32 x (hx x (List.mem_cons_self _ _)) _
    | succ i =>
      have hd : ((x :: xs).flatMap PutUint32 ++ rest).drop ((i + 1) * 4) =
          (xs.flatMap PutUint32 ++ rest).drop (i * 4) := by
        rw [List.flatMap_cons, List.append_assoc, Nat.succ_mul, Nat.add_comm,
          ← List.drop_drop]
        congr 1
      rw [hd, List.getD_cons_succ]
      exact ih (fun y hy => hx y (List.mem_cons_of_mem _ hy)) i (by simpa using hi)

theorem intToUint32_eq (x : Int) (h0 : 0 ≤ x) (h1 : x < 2 ^ 32) :
    intToUint32 x < 2 ^ 32 ∧ Int.ofNat (intToUint32 x) = x := by
  unfold intToUint32
  rw [Int.emod_eq_of_lt h0 h1]
  constructor
  · omega
  · simp [Int.toNat_of_nonneg h0]

/-- The entry that `packEntry` builds is unpacked by `Entry2VectorAndNeighbors` into the vector
and the neighbor ids it was built from. -/
theorem packEntry_roundtrip (Dim M : Nat) (vector : List Nat) (neighbors : List Int)
    (heven : (Dim + M) % 2 = 0) (hv : vector.length = Dim) (hn : neighbors.length = M)
    (hvb : ∀ x, x ∈ vector → x < 2 ^ 32)
    (hnb : ∀ y, y ∈ neighbors → 0 ≤ y ∧ y < 2 ^ 32) :
    ∃ entry, packEntry Dim M vector neighbors = some entry ∧
      entry.length = (Dim * 4 + M * 4) / 8 ∧
      Entry2VectorAndNeighbors Dim M entry = some (vector, neighbors) := by
  have hlenB : (vector.flatMap PutUint32 ++
      neighbors.flatMap (fun x => PutUint32 (intToUint32 x))).length = Dim * 4 + M * 4 := by
    rw [List.length_append, length_flatMap_const PutUint32 4 _ (fun _ => rfl),
      length_flatMap_const (fun x => PutUint32 (intToUint32 x)) 4 _ (fun _ => rfl), hv, hn]
  have hbytes : ∀ x, x ∈ vector.flatMap PutUint32 ++
      neighbors.flatMap (fun x => PutUint32 (intToUint32 x)) → x < 256 := by
    intro x hx
    rw [List.mem_append, List.mem_flatMap, List.mem_flatMap] at hx
    rcases hx with ⟨v, _, h⟩ | ⟨v, _, h⟩
    · exact PutUint32_lt _ _ h
    · exact PutUint32_lt _ _ h
  have h8 : (Dim * 4 + M * 4) / 8 * 8 = Dim * 4 + M * 4 := by omega
  obtain ⟨ws, hws, hwl, hwb⟩ := words_bytes _ hbytes ((Dim * 4 + M * 4) / 8)
    (by rw [hlenB]; omega)
  rw [h8, ← hlenB, List.take_length] at hwb
  have hpack : packEntry Dim M vector neighbors = some ws := by
    unfold packEntry
    simp only []
    rw [if_neg (by omega), ← hv, List.take_length, ← hn, List.take_length]
    rw [hv, hn]
    exact hws
  refine ⟨ws, hpack, hwl, ?_⟩
  unfold Entry2VectorAndNeighbors
  simp only []
  rw [hwb]
  have h1 : (List.range Dim).mapM (fun i => Uint32 ((vector.flatMap PutUint32 ++
      neighbors.flatMap (fun x => PutUint32 (intToUint32 x))).drop (i * 4))) =
      some vector := by
    rw [mapM_eq_map _ (fun i => vector.getD i 0)]
    · rw [← hv, map_getD_range]
    · intro i hi
      exact Uint32_drop_flatMap vector hvb _ i (by rw [hv]; exact List.mem_range.mp hi)
  have h2 : (List.range M).mapM (fun i => Uint32 ((vector.flatMap PutUint32 ++
      neighbors.flatMap (fun x => PutUint32 (intToUint32 x))).drop ((Dim + i) * 4))) =
      some (neighbors.map intToUint32) := by
    rw [mapM_eq_map _ (fun i => (neighbors.map intToUint32).getD i 0)]
    · have : (neighbors.map intToUint32).length = M := by rw [List.length_map, hn]
      rw [← this, map_getD_range]
    · intro i hi
      have hi' := List.mem_range.mp hi
      have hd : (vector.flatMap PutUint32 ++
          neighbors.flatMap (fun x => PutUint32 (intToUint32 x))).drop ((Dim + i) * 4) =
          ((neighbors.map intToUint32).flatMap PutUint32 ++ []).drop (i * 4) := by
        rw [Nat.add_mul, ← List.drop_drop]
        have hvl : (vector.flatMap PutUint32).length = Dim * 4 := by
          rw [length_flatMap_const PutUint32 4 _ (fun _ => rfl), hv]
        rw [← hvl, List.drop_left, List.append_nil, List.flatMap_map]
      rw [hd]
      apply Uint32_drop_flatMap
      · intro x hx
        obtain ⟨y, hy, hxy⟩ := List.mem_map.mp hx
        rw [← hxy]
        exact (intToUint32_eq y (hnb y hy).1 (hnb y hy).2).1
      · rw [List.length_map, hn]; exact hi'
  rw [h1, h2]
  simp only [Option.some.injEq, Prod.mk.injEq, true_and]
  rw [List.map_map]
  conv_rhs => rw [← List.map_id neighbors]
  apply List.map_congr_left
  intro y hy
  exact (intToUint32_eq y (hnb y hy).1 (hnb y hy).2).2

theorem copySlice_prefix (d s : List Nat) (h : s.length ≤ d.length) :
    copySlice d s = s ++ d.drop s.length := by
  induction d generalizing s with
  | nil =>
    cases s with
    | nil => simp [copySlice]
    | cons y ys => simp at h
  | cons x xs ih =>
    cases s with
    | nil => simp [copySlice]
    | cons y ys =>
      simp only [List.length_cons, Nat.add_le_add_iff_right] at h
      simp [copySlice, ih ys h]

/-- The table after `copy(t[a:], src)` for a source that fits. -/
theorem copyAt_tail (t : List Nat) (a : Nat) (src : List Nat) (h : a + src.length ≤ t.length) :
    copyAt t a t.length src = t.take a ++ src ++ t.drop (a + src.length) := by
  unfold copyAt slice
  have h1 : (t.drop a).take (t.length - a) = t.drop a :=
    List.take_of_length_le (by rw [List.length_drop])
  rw [h1, copySlice_prefix _ _ (by rw [List.length_drop]; omega), List.drop_drop,
    List.drop_of_length_le (Nat.le_refl _), List.append_nil, List.append_assoc]

/-- The database packed by `packDB`: the words of vertex `i` are the entry that `packEntry`
builds for it. -/
theorem packDB_entries (N Dim M : Nat) (vectors : List (List Nat)) (graph : List (List Int))
    (heven : (Dim + M) % 2 = 0) (hv : vectors.length = N) (hg : graph.length = N)
    (hvec : ∀ v, v ∈ vectors → v.length = Dim ∧ ∀ x, x ∈ v → x < 2 ^ 32)
    (hrow : ∀ r, r ∈ graph → r.length = M ∧ ∀ y, y ∈ r → 0 ≤ y ∧ y < 2 ^ 32) :
    ∃ rawDB, packDB N Dim M vectors graph = some rawDB ∧
      rawDB.length = N * ((Dim * 4 + M * 4) / 8) ∧
      ∀ i, i < N → packEntry Dim M (vectors.getD i []) (graph.getD i []) =
        some (slice rawDB (i * ((Dim * 4 + M * 4) / 8)) ((i + 1) * ((Dim * 4 + M * 4) / 8))) := by
  have h8 : (Dim * 4 + M * 4) / 8 * 8 = Dim * 4 + M * 4 := by omega
  have hoff : ∀ i, i * (Dim * 4 + M * 4) / 8 = i * ((Dim * 4 + M * 4) / 8) := by
    intro i
    conv_lhs => rw [← h8, ← Nat.mul_assoc]
    exact Nat.mul_div_cancel _ (by norm_num)
  unfold packDB
  simp only []
  generalize hE : (Dim * 4 + M * 4) / 8 = E at h8 hoff
  have := foldlM_range_inv
    (fun rawDB i =>
      match vectors[i]?, graph[i]? with
      | some vector, some neighbors =>
        match packEntry Dim M vector neighbors with
        | none => none
        | some entry =>
          if i * (Dim * 4 + M * 4) / 8 > rawDB.length then none
          else some (copyAt rawDB (i * (Dim * 4 + M * 4) / 8) rawDB.length entry)
      | _, _ => none)
    (fun j rawDB => rawDB.length = N * E ∧
      ∀ i, i < j → packEntry Dim M (vectors.getD i []) (graph.getD i []) =
        some (slice rawDB (i * E) ((i + 1) * E)))
    N
    (by
      intro rawDB j hj ⟨g1, g2⟩
      have hvj : vectors[j]? = some (vectors.getD j []) := by
        rw [List.getD_eq_getElem?_getD, List.getElem?_eq_getElem (by omega)]; rfl
      have hgj : graph[j]? = some (graph.getD j []) := by
        rw [List.getD_eq_getElem?_getD, List.getElem?_eq_getElem (by omega)]; rfl
      have hvm := hvec _ (List.getElem?_mem hvj)
      have hgm := hrow _ (List.getElem?_mem hgj)
      obtain ⟨entry, he, hel, _⟩ := packEntry_roundtrip Dim M _ _ heven hvm.1 hgm.1 hvm.2 hgm.2
      rw [hE] at hel
      have hseg : (j + 1) * E ≤ N * E := Nat.mul_le_mul_right E hj
      have hjE : j * E + E = (j + 1) * E := by rw [Nat.succ_mul]
      beta_reduce
      rw [hvj, hgj]
      simp only []
      rw [he]
      simp only []
      rw [hoff j, if_neg (by omega), copyAt_tail rawDB (j * E) entry (by omega), hel, hjE]
      refine ⟨_, rfl, ?_, ?_⟩
      · rw [length_splice rawDB entry (j * E) ((j + 1) * E) (by omega) (by omega)
          (by omega)]
        exact g1
      · intro i hi
        by_cases hij : i = j
        · rw [hij, he, slice_splice_same rawDB entry (j * E) ((j + 1) * E) (by omega)
            (by omega) (by omega)]
        · have hlt : i < j := by omega
          have : (i + 1) * E ≤ j * E := Nat.mul_le_mul_right E hlt
          rw [slice_splice_other rawDB entry (j * E) ((j + 1) * E) (i * E) ((i + 1) * E)
            (by omega) (by omega) (by omega) (Or.inl this)]
          exact g2 i hlt)
    (List.replicate (N * (Dim * 4 + M * 4) / 8) 0)
    ⟨by rw [List.length_replicate]; exact hoff N, fun i hi => absurd hi (by omega)⟩
  obtain ⟨rawDB, h1, h2, h3⟩ := this
  exact ⟨rawDB, h1, h2, h3⟩

/-! ## `robustPrune` -/

theorem intIndex_some {α : Type} (l : List α) (i : Int) (h0 : 0 ≤ i) (h1 : i < l.length) :
    ∃ a, intIndex l i = some a ∧ a ∈ l := by
  unfold intIndex
  rw [if_neg (by omega)]
  have hlt : i.toNat < l.length := by omega
  exact ⟨l[i.toNat], List.getElem?_eq_getElem hlt, List.getElem_mem _⟩

theorem intIndex_range {α : Type} (l : List α) (i : Int) (a : α) (h : intIndex l i = some a) :
    0 ≤ i ∧ i < l.length := by
  unfold intIndex at h
  split at h
  · exact absurd h (by simp)
  · have hlt : i.toNat < l.length := by
      by_contra hc
      rw [List.getElem?_eq_none (by omega)] at h
      exact absurd h (by simp)
    omega

theorem vertexDist_some {F : Type} (ops : Float32Ops F) (vectors : List (List F)) (a b : Int)
    (hdist : ∀ x, x ∈ vectors → ∀ y, y ∈ vectors → (L2Dist ops x y).isSome = true)
    (ha : 0 ≤ a ∧ a < vectors.length) (hb : 0 ≤ b ∧ b < vectors.length) :
    ∃ d, vertexDist ops vectors a b = some d := by
  obtain ⟨va, h1, m1⟩ := intIndex_some vectors a ha.1 ha.2
  obtain ⟨vb, h2, m2⟩ := intIndex_some vectors b hb.1 hb.2
  unfold vertexDist
  rw [h1, h2]
  exact Option.isSome_iff_exists.mp (hdist va m1 vb m2)

theorem diversityOk_some {F : Type} (ops : Float32Ops F) (vectors : List (List F)) (alpha : F)
    (v : Int) (dist_uv : F)
    (hdist : ∀ x, x ∈ vectors → ∀ y, y ∈ vectors → (L2Dist ops x y).isSome = true)
    (hv : 0 ≤ v ∧ v < vectors.length) (accept : List (IdWithDist F))
    (ha : ∀ p, p ∈ accept → 0 ≤ p.id ∧ p.id < vectors.length) :
    ∃ ok, diversityOk ops vectors alpha v dist_uv accept = some ok := by
  induction accept with
  | nil => exact ⟨true, rfl⟩
  | cons p accept ih =>
    obtain ⟨d, hd⟩ := vertexDist_some ops vectors p.id v hdist (ha p (List.mem_cons_self _ _)) hv
    unfold diversityOk
    rw [hd]
    simp only []
    split
    · exact ⟨false, rfl⟩
    · exact ih (fun q hq => ha q (List.mem_cons_of_mem _ hq))

/-- The loop over the sorted candidates returns when every id indexes `vectors` and `L2Dist`
returns on the vectors. -/
theorem pruneScan_some {F : Type} (ops : Float32Ops F) (vectors : List (List F)) (alpha : F)
    (m : Nat)
    (hdist : ∀ x, x ∈ vectors → ∀ y, y ∈ vectors → (L2Dist ops x y).isSome = true)
    (dist2u : List (IdWithDist F)) :
    ∀ accept discarded : List (IdWithDist F),
      (∀ p, p ∈ dist2u → 0 ≤ p.id ∧ p.id < vectors.length) →
      (∀ p, p ∈ accept → 0 ≤ p.id ∧ p.id < vectors.length) →
      ∃ r, pruneScan ops vectors alpha m dist2u accept discarded = some r := by
  induction dist2u with
  | nil => intro accept discarded _ _; exact ⟨_, rfl⟩
  | cons x dist2u ih =>
    intro accept discarded hl ha
    obtain ⟨ok, hok⟩ := diversityOk_some ops vectors alpha x.id x.dist hdist
      (hl x (List.mem_cons_self _ _)) accept ha
    unfold pruneScan
    rw [hok]
    cases ok with
    | true =>
      simp only []
      split
      · exact ⟨_, rfl⟩
      · apply ih _ _ (fun p hp => hl p (List.mem_cons_of_mem _ hp))
        intro p hp
        rcases List.mem_append.mp hp with h | h
        · exact ha p h
        · rw [List.mem_singleton.mp h]; exact hl x (List.mem_cons_self _ _)
    | false =>
      simp only []
      exact ih _ _ (fun p hp => hl p (List.mem_cons_of_mem _ hp)) ha

/-- What the loop over the sorted candidates leaves: `accept` and `discarded` have grown by
two subsequences of the candidates that together are the candidates looked at, and either
`accept` holds `m` elements or every candidate has been looked at. -/
theorem pruneScan_spec {F : Type} (ops : Float32Ops F) (vectors : List (List F)) (alpha : F)
    (m : Nat) (dist2u : List (IdWithDist F)) :
    ∀ accept discarded A D : List (IdWithDist F),
      pruneScan ops vectors alpha m dist2u accept discarded = some (A, D) →
      ∃ A2 D2 seen rest, A = accept ++ A2 ∧ D = discarded ++ D2 ∧ dist2u = seen ++ rest ∧
        A2.Sublist seen ∧ D2.Sublist seen ∧ (A2 ++ D2).Perm seen ∧
        (A.length = m ∨ rest = []) ∧ (accept.length < m → A.length ≤ m) := by
  induction dist2u with
  | nil =>
    intro accept discarded A D h
    unfold pruneScan at h
    simp only [Option.some.injEq, Prod.mk.injEq] at h
    refine ⟨[], [], [], [], by simp [h.1], by simp [h.2], rfl, List.Sublist.refl _,
      List.Sublist.refl _, List.Perm.refl _, Or.inr rfl, fun hlt => by rw [← h.1]; omega⟩
  | cons x dist2u ih =>
    intro accept discarded A D h
    unfold pruneScan at h
    split at h
    · exact absurd h (by simp)
    · split at h
      · rename_i hfull
        simp only [Option.some.injEq, Prod.mk.injEq] at h
        refine ⟨[x], [], [x], dist2u, h.1.symm, by simp [h.2], rfl, List.Sublist.refl _,
          by simp, by simp, Or.inl (by rw [← h.1]; exact hfull),
          fun _ => by rw [← h.1, hfull]⟩
      · rename_i hnot
        obtain ⟨A2, D2, seen, rest, e1, e2, e3, e4, e5, e6, e7, e8⟩ :=
          ih (accept ++ [x]) discarded A D h
        refine ⟨x :: A2, D2, x :: seen, rest, by rw [e1]; simp, e2, by rw [e3]; rfl,
          List.Sublist.cons₂ x e4, List.Sublist.cons x e5, List.Perm.cons x e6, e7, ?_⟩
        intro hlt
        apply e8
        simp only [List.length_append, List.length_singleton] at hnot ⊢
        omega
    · obtain ⟨A2, D2, seen, rest, e1, e2, e3, e4, e5, e6, e7, e8⟩ :=
        ih accept (discarded ++ [x]) A D h
      refine ⟨A2, x :: D2, x :: seen, rest, e1, by rw [e2]; simp, by rw [e3]; rfl,
        List.Sublist.cons x e4, List.Sublist.cons₂ x e5, ?_, e7, e8⟩
      exact (List.perm_middle).trans (List.Perm.cons x e6)

/-- The loop that adds discarded candidates appends a prefix of them, and reaches `m`
elements when there are enough. -/
theorem pruneFill_spec {F : Type} (m : Nat) (discarded : List (IdWithDist F)) :
    ∀ accept : List (IdWithDist F),
      ∃ k, pruneFill m discarded accept = accept ++ discarded.take k ∧
        (accept.length < m → m ≤ accept.length + discarded.length →
          (pruneFill m discarded accept).length = m) := by
  induction discarded with
  | nil =>
    intro accept
    exact ⟨0, by simp [pruneFill], fun hlt h => by
      simp only [List.length_nil, Nat.add_zero] at h; omega⟩
  | cons x discarded ih =>
    intro accept
    unfold pruneFill
    split
    · rename_i hfull
      exact ⟨1, by simp, fun _ _ => hfull⟩
    · rename_i hnot
      obtain ⟨k, hk, hlen⟩ := ih (accept ++ [x])
      refine ⟨k + 1, by rw [hk]; simp, ?_⟩
      intro hlt h
      simp only [List.length_append, List.length_singleton, List.length_cons,
        List.length_nil] at h hnot hlen
      exact hlen (by omega) (by omega)

theorem mapM_map_eq {α β : Type} (f : α → Option β) (g : β → α)
    (hg : ∀ a b, f a = some b → g b = a) (l : List α) (l' : List β)
    (h : l.mapM f = some l') : l'.map g = l := by
  obtain ⟨hlen, hget⟩ := mapM_some f l l' h
  apply List.ext_getElem?
  intro k
  rw [List.getElem?_map]
  by_cases hk : k < l.length
  · have hk' : k < l'.length := by omega
    rw [List.getElem?_eq_getElem hk', List.getElem?_eq_getElem hk]
    simp only [Option.map_some', Option.some.injEq]
    exact hg _ _ (hget k l[k] l'[k] (List.getElem?_eq_getElem hk)
      (List.getElem?_eq_getElem hk'))
  · rw [List.getElem?_eq_none (by omega), List.getElem?_eq_none (by omega)]
    rfl

theorem subperm_map {α β : Type} (f : α → β) (l₁ l₂ : List α) (h : l₁.Subperm l₂) :
    (l₁.map f).Subperm (l₂.map f) := by
  obtain ⟨l, hp, hs⟩ := h
  exact ⟨l.map f, hp.map f, hs.map f⟩

theorem subperm_nodup {α : Type} (l₁ l₂ : List α) (h : l₁.Subperm l₂) (hn : l₂.Nodup) :
    l₁.Nodup := by
  obtain ⟨l, hp, hs⟩ := h
  exact hp.nodup_iff.mp (hn.sublist hs)

/-- The distances computed by the first loop of `robustPrune`. -/
theorem dist2u_spec {F : Type} (ops : Float32Ops F) (vectors : List (List F)) (u : Int)
    (candidates : List Int) (dist2u : List (IdWithDist F))
    (h : candidates.mapM (fun c =>
      (vertexDist ops vectors u c).map fun d => (⟨c, d⟩ : IdWithDist F)) = some dist2u) :
    dist2u.map (fun x => x.id) = candidates ∧
      ∀ x, x ∈ dist2u → vertexDist ops vectors u x.id = some x.dist := by
  have hf : ∀ (a : Int) (b : IdWithDist F),
      (fun c => (vertexDist ops vectors u c).map fun d => (⟨c, d⟩ : IdWithDist F)) a = some b →
      b.id = a ∧ vertexDist ops vectors u b.id = some b.dist := by
    intro a b hab
    beta_reduce at hab
    cases hd : vertexDist ops vectors u a with
    | none => rw [hd] at hab; exact absurd hab (by simp)
    | some d =>
      rw [hd] at hab
      simp only [Option.map_some', Option.some.injEq] at hab
      rw [← hab]
      exact ⟨rfl, hd⟩
  refine ⟨mapM_map_eq _ (fun x => x.id) (fun a b hab => (hf a b hab).1) _ _ h, ?_⟩
  intro x hx
  obtain ⟨hlen, hget⟩ := mapM_some _ _ _ h
  obtain ⟨k, hk⟩ := List.mem_iff_getElem?.mp hx
  have hk' : k < candidates.length := by
    by_contra hc
    rw [List.getElem?_eq_none (by omega)] at hk
    exact absurd hk (by simp)
  exact (hf _ _ (hget k candidates[k] x (List.getElem?_eq_getElem hk') hk)).2

/-- The list returned by `robustPrune` for more than `m ≥ 1` candidates: `m` ids, a selection
of the candidates, made of accepted candidates in the order of the sorted list followed by
discarded candidates in the order of the sorted list. -/
theorem robustPrune_spec {F : Type} (ops : Float32Ops F)
    (sortSlice : List (IdWithDist F) → List (IdWithDist F)) (vectors : List (List F))
    (u : Int) (candidates : List Int) (m : Nat) (alpha : F) (l : List Int)
    (hperm : ∀ s, (sortSlice s).Perm s) (hm : 1 ≤ m) (hlt : m < candidates.length)
    (h : robustPrune ops sortSlice vectors u candidates m alpha = some l) :
    l.length = m ∧ l.Subperm candidates ∧
      ∃ dist2u A D, ((sortSlice dist2u).map (fun x => x.id)).Perm candidates ∧
        (∀ x, x ∈ sortSlice dist2u → vertexDist ops vectors u x.id = some x.dist) ∧
        l = (A ++ D).map (fun x => x.id) ∧ A.Sublist (sortSlice dist2u) ∧
        D.Sublist (sortSlice dist2u) ∧ (D ≠ [] → A.length < m) := by
  unfold robustPrune at h
  rw [if_neg (by omega)] at h
  split at h
  · exact absurd h (by simp)
  · rename_i dist2u hmap
    obtain ⟨hids, hdists⟩ := dist2u_spec ops vectors u candidates dist2u hmap
    split at h
    · exact absurd h (by simp)
    · rename_i A D hscan
      simp only [Option.some.injEq] at h
      obtain ⟨A2, D2, seen, rest, e1, e2, e3, e4, e5, e6, e7, e8⟩ :=
        pruneScan_spec ops vectors alpha m (sortSlice dist2u) [] [] A D hscan
      simp only [List.nil_append] at e1 e2
      have hAle : A.length ≤ m := e8 (by simpa using hm)
      have hS : (sortSlice dist2u).length = candidates.length := by
        rw [(hperm dist2u).length_eq, ← hids, List.length_map]
      have hSids : ((sortSlice dist2u).map (fun x => x.id)).Perm candidates := by
        rw [← hids]; exact (hperm dist2u).map _
      have hSd : ∀ x, x ∈ sortSlice dist2u → vertexDist ops vectors u x.id = some x.dist :=
        fun x hx => hdists x ((hperm dist2u).subset hx)
      have hAsub : A.Sublist (sortSlice dist2u) := by
        rw [e1, e3]; exact e4.trans (List.sublist_append_left _ _)
      have hDsub : D.Sublist (sortSlice dist2u) := by
        rw [e2, e3]; exact e5.trans (List.sublist_append_left _ _)
      have hAD : (A ++ D).Subperm (sortSlice dist2u) := by
        rw [e1, e2, e3]
        exact e6.subperm.trans (List.sublist_append_left _ _).subperm
      by_cases hA : A.length < m
      · rw [if_pos hA] at h
        obtain ⟨k, hk, hlen⟩ := pruneFill_spec m D A
        have hrest : rest = [] := by
          rcases e7 with h7 | h7
          · omega
          · exact h7
        have hfull : m ≤ A.length + D.length := by
          have h1 : (A ++ D).length = (sortSlice dist2u).length := by
            rw [e1, e2, e3, hrest, List.append_nil]; exact e6.length_eq
          rw [List.length_append] at h1
          omega
        refine ⟨by rw [← h, List.length_map]; exact hlen hA hfull, ?_, dist2u, A, D.take k,
          hSids, hSd, by rw [← h, hk], hAsub, (List.take_sublist _ _).trans hDsub,
          fun _ => hA⟩
        rw [← h, hk]
        have h2 : (A ++ D.take k).Subperm (sortSlice dist2u) :=
          ((List.take_sublist k D).append_left A).subperm.trans hAD
        exact (subperm_map _ _ _ h2).trans hSids.subperm
      · rw [if_neg hA] at h
        have hAm : A.length = m := by omega
        refine ⟨by rw [← h, List.length_map]; exact hAm, ?_, dist2u, A, [], hSids, hSd,
          by rw [← h]; simp, hAsub, List.nil_sublist _, fun hne => absurd rfl hne⟩
        rw [← h]
        exact (subperm_map _ _ _ hAsub.subperm).trans hSids.subperm

/-- The list returned by `robustPrune` is a selection of the candidates, for every `m`. -/
theorem robustPrune_subperm {F : Type} (ops : Float32Ops F)
    (sortSlice : List (IdWithDist F) → List (IdWithDist F)) (vectors : List (List F))
    (u : Int) (candidates : List Int) (m : Nat) (alpha : F) (l : List Int)
    (hperm : ∀ s, (sortSlice s).Perm s)
    (h : robustPrune ops sortSlice vectors u candidates m alpha = some l) :
    l.Subperm candidates := by
  unfold robustPrune at h
  split at h
  · simp only [Option.some.injEq] at h
    exact h ▸ List.Subperm.refl _
  · split at h
    · exact absurd h (by simp)
    · rename_i dist2u hmap
      obtain ⟨hids, _⟩ := dist2u_spec ops vectors u candidates dist2u hmap
      split at h
      · exact absurd h (by simp)
      · rename_i A D hscan
        simp only [Option.some.injEq] at h
        obtain ⟨A2, D2, seen, rest, e1, e2, e3, _, _, e6, _, _⟩ :=
          pruneScan_spec ops vectors alpha m (sortSlice dist2u) [] [] A D hscan
        simp only [List.nil_append] at e1 e2
        have hSids : ((sortSlice dist2u).map (fun x => x.id)).Perm candidates := by
          rw [← hids]; exact (hperm dist2u).map _
        have hAD : (A ++ D).Subperm (sortSlice dist2u) := by
          rw [e1, e2, e3]
          exact e6.subperm.trans (List.sublist_append_left _ _).subperm
        obtain ⟨k, hk, _⟩ := pruneFill_spec m D A
        have hsel : (if A.length < m then pruneFill m D A else A).Subperm
            (sortSlice dist2u) := by
          split
          · rw [hk]
            exact ((List.take_sublist k D).append_left A).subperm.trans hAD
          · exact (List.sublist_append_left A D).subperm.trans hAD
        rw [← h]
        exact (subperm_map _ _ _ hsel).trans hSids.subperm

/-- The list returned by `robustPrune` has `min(|C|, m)` ids and is a selection of the
candidates. -/
theorem robustPrune_length {F : Type} (ops : Float32Ops F)
    (sortSlice : List (IdWithDist F) → List (IdWithDist F)) (vectors : List (List F))
    (u : Int) (candidates : List Int) (m : Nat) (alpha : F) (l : List Int)
    (hperm : ∀ s, (sortSlice s).Perm s) (hm : 1 ≤ m)
    (h : robustPrune ops sortSlice vectors u candidates m alpha = some l) :
    l.length = min candidates.length m ∧ l.Subperm candidates := by
  refine ⟨?_, robustPrune_subperm ops sortSlice vectors u candidates m alpha l hperm h⟩
  by_cases hle : candidates.length ≤ m
  · unfold robustPrune at h
    rw [if_pos hle] at h
    simp only [Option.some.injEq] at h
    rw [← h]
    omega
  · obtain ⟨h1, _⟩ := robustPrune_spec ops sortSlice vectors u candidates m alpha l hperm hm
      (by omega) h
    omega

/-- `robustPrune` returns when the ids index `vectors` and `L2Dist` returns on the vectors. -/
theorem robustPrune_some {F : Type} (ops : Float32Ops F)
    (sortSlice : List (IdWithDist F) → List (IdWithDist F)) (vectors : List (List F))
    (u : Int) (candidates : List Int) (m : Nat) (alpha : F)
    (hperm : ∀ s, (sortSlice s).Perm s)
    (hdist : ∀ x, x ∈ vectors → ∀ y, y ∈ vectors → (L2Dist ops x y).isSome = true)
    (hu : 0 ≤ u ∧ u < vectors.length)
    (hc : ∀ c, c ∈ candidates → 0 ≤ c ∧ c < vectors.length) :
    ∃ l, robustPrune ops sortSlice vectors u candidates m alpha = some l := by
  unfold robustPrune
  split
  · exact ⟨_, rfl⟩
  · obtain ⟨dist2u, hmap⟩ := mapM_exists (fun c =>
        (vertexDist ops vectors u c).map fun d => (⟨c, d⟩ : IdWithDist F)) candidates (by
      intro c hcm
      obtain ⟨d, hd⟩ := vertexDist_some ops vectors u c hdist hu (hc c hcm)
      exact ⟨⟨c, d⟩, by beta_reduce; rw [hd]; rfl⟩)
    rw [hmap]
    simp only []
    obtain ⟨hids, _⟩ := dist2u_spec ops vectors u candidates dist2u hmap
    obtain ⟨r, hr⟩ := pruneScan_some ops vectors alpha m hdist (sortSlice dist2u) [] [] (by
      intro p hp
      apply hc
      rw [← hids]
      exact List.mem_map_of_mem _ ((hperm dist2u).subset hp)) (by simp)
    rw [hr]
    exact ⟨_, rfl⟩

/-! ## The passes of `CreateGraphBasedOnNGT` -/

/-- The goroutines of a pass handle the vertices `0, 1, …, n-1`, each once and in this order:
a property that the body carries from `u` to `u + 1` holds for `n` at the end. -/
theorem forThreads_inv {σ : Type} (n : Nat) (init : Nat → σ → σ) (body : σ → Nat → Option σ)
    (Inv : Nat → σ → Prop) (hinit : ∀ k start s, Inv k s → Inv k (init start s))
    (hbody : ∀ s u s', u < n → Inv u s → body s u = some s' → Inv (u + 1) s')
    (s0 : σ) (h0 : Inv 0 s0) (s' : σ) (h : forThreads n init body s0 = some s') :
    Inv n s' := by
  unfold forThreads at h
  simp only [] at h
  generalize hper : (n + maxThread - 1) / maxThread = per at h
  have hcov : n ≤ maxThread * per := by
    rw [← hper]; exact ceil_cover n maxThread (by decide)
  have := foldlM_range_step
    (fun s t => (List.range (min ((t + 1) * per) n - t * per)).foldlM
      (fun s k => body s (t * per + k)) (init (t * per) s))
    (fun t s => Inv (min (t * per) n) s) maxThread
    (by
      intro s t s2 _ hs hfold
      beta_reduce at hfold
      by_cases hstart : t * per ≤ n
      · have hmin : min (t * per) n = t * per := Nat.min_eq_left hstart
        rw [hmin] at hs
        have hle : t * per ≤ min ((t + 1) * per) n :=
          le_min (Nat.mul_le_mul_right per (Nat.le_succ t)) hstart
        have h2 := foldlM_range_step (fun s k => body s (t * per + k))
          (fun k s => Inv (t * per + k) s) (min ((t + 1) * per) n - t * per)
          (by
            intro s k s3 hk hs3 hb
            have : t * per + k < n := by
              have := Nat.min_le_right ((t + 1) * per) n
              omega
            exact hbody s (t * per + k) s3 this hs3 hb)
          (init (t * per) s) (hinit _ _ _ hs) s2 hfold
        have he : t * per + (min ((t + 1) * per) n - t * per) = min ((t + 1) * per) n := by
          omega
        beta_reduce at h2
        rw [he] at h2
        exact h2
      · have hz : min ((t + 1) * per) n - t * per = 0 := by
          have := Nat.min_le_right ((t + 1) * per) n
          omega
        rw [hz] at hfold
        have he : init (t * per) s = s2 := by simpa using hfold
        have hmin : min (t * per) n = n := Nat.min_eq_right (by omega)
        have hmin2 : min ((t + 1) * per) n = n :=
          Nat.min_eq_right (le_trans (by omega) (Nat.mul_le_mul_right per (Nat.le_succ t)))
        rw [hmin2, ← he]
        rw [hmin] at hs
        exact hinit _ _ _ hs)
    s0 (by beta_reduce; rw [Nat.zero_mul, Nat.zero_min]; exact h0) s' h
  beta_reduce at this
  rw [Nat.min_eq_right hcov] at this
  exact this

/-- The rows written by the goroutines of a pass: the body writes the row of its vertex, so
at the end every row is one that the body wrote. -/
theorem forThreads_rows {σ : Type} (n : Nat) (init : Nat → σ → σ) (body : σ → Nat → Option σ)
    (rows : σ → List (List Int)) (P : Nat → List Int → Prop)
    (hinit : ∀ start s, rows (init start s) = rows s)
    (hbody : ∀ s u s', u < n → (rows s).length = n → body s u = some s' →
      ∃ row, rows s' = (rows s).set u row ∧ P u row)
    (s0 s' : σ) (hlen : (rows s0).length = n) (h : forThreads n init body s0 = some s') :
    (rows s').length = n ∧ ∀ u, u < n → P u ((rows s').getD u []) := by
  have := forThreads_inv n init body
    (fun k s => (rows s).length = n ∧ ∀ u, u < k → P u ((rows s).getD u []))
    (fun k start s hs => by beta_reduce at hs ⊢; rw [hinit]; exact hs)
    (by
      intro s u s2 hu ⟨g1, g2⟩ hb
      obtain ⟨row, hrow, hP⟩ := hbody s u s2 hu g1 hb
      rw [hrow]
      refine ⟨by rw [List.length_set]; exact g1, ?_⟩
      intro w hw
      by_cases hwu : w = u
      · rw [hwu, List.getD_eq_getElem?_getD, List.getElem?_set_self (by omega)]
        exact hP
      · rw [List.getD_eq_getElem?_getD, List.getElem?_set_ne (fun hc => hwu hc.symm),
          ← List.getD_eq_getElem?_getD]
        exact g2 w (by omega))
    s0 ⟨hlen, fun u hu => absurd hu (by omega)⟩ s' h
  exact ⟨this.1, fun u hu => this.2 u hu⟩

/-- Every row of the graph of pass 1 is the pruned list of the candidates of its vertex. -/
theorem passOne_rows {F : Type} (inp : GraphInputs F) (vectors : List (List F)) (m : Nat)
    (graph : List (List Int)) (h : passOne inp vectors m = some graph) :
    graph.length = vectors.length ∧ ∀ u, u < vectors.length →
      robustPrune inp.ops inp.sortSlice vectors u
        (passOneCandidates vectors.length inp.search u) m inp.alpha =
        some (graph.getD u []) := by
  unfold passOne at h
  exact forThreads_rows vectors.length _ _ (fun g => g)
    (fun u row => robustPrune inp.ops inp.sortSlice vectors u
      (passOneCandidates vectors.length inp.search u) m inp.alpha = some row)
    (fun _ _ => rfl)
    (by
      intro s u s2 _ _ hb
      cases hr : robustPrune inp.ops inp.sortSlice vectors u
          (passOneCandidates vectors.length inp.search u) m inp.alpha with
      | none => rw [hr] at hb; exact absurd hb (by simp)
      | some row =>
        rw [hr] at hb
        simp only [Option.map_some', Option.some.injEq] at hb
        exact ⟨row, hb.symm, hr⟩)
    _ graph (by simp) h

/-- A candidate of pass 1 is a vertex other than `u`, when the index returns ids from 1. -/
theorem passOneCandidates_valid (n : Nat) (search : Nat → List Int) (u : Nat)
    (hids : ∀ id, id ∈ search u → 1 ≤ id) (v : Int) (hv : v ∈ passOneCandidates n search u) :
    0 ≤ v ∧ v < (n : Int) ∧ v ≠ (u : Int) := by
  unfold passOneCandidates at hv
  rw [List.mem_filter, List.mem_map] at hv
  obtain ⟨⟨id, hid, hidv⟩, hdec⟩ := hv
  have h1 := hids id hid
  have h2 := of_decide_eq_true hdec
  exact ⟨by omega, h2.2, h2.1⟩

theorem getD_set_append (g : List (List Int)) (w : Nat) (x : Int) (k : Nat) (y : Int)
    (h : y ∈ (g.set w (g.getD w [] ++ [x])).getD k []) :
    y ∈ g.getD k [] ∨ (k = w ∧ y = x) := by
  by_cases hkw : w = k
  · by_cases hw : w < g.length
    · rw [List.getD_eq_getElem?_getD, ← hkw, List.getElem?_set_self hw] at h
      simp only [Option.getD_some, List.mem_append, List.mem_singleton] at h
      rcases h with h | h
      · left; rw [← hkw]; exact h
      · right; exact ⟨hkw.symm, h⟩
    · rw [List.getD_eq_getElem?_getD, List.getElem?_eq_none (by
        rw [List.length_set]; omega)] at h
      simp at h
  · rw [List.getD_eq_getElem?_getD, List.getElem?_set_ne hkw,
      ← List.getD_eq_getElem?_getD] at h
    left; exact h

/-- The loops that build `biGraph` return on a graph of valid edges, and `biGraph` has only
valid edges. -/
theorem symmetrize_valid (n : Nat) (graph : List (List Int)) (hv : ValidEdges n graph) :
    ∃ biGraph, symmetrize n graph = some biGraph ∧ biGraph.length = n ∧
      ValidEdges n biGraph := by
  unfold symmetrize
  apply foldlM_some_inv _ (fun bg => bg.length = n ∧ ValidEdges n bg)
  · intro bg u hu hbg
    have hu' := List.mem_range.mp hu
    apply foldlM_some_inv _ (fun bg => bg.length = n ∧ ValidEdges n bg) _ _ bg hbg
    intro s v hvm ⟨hl, hs⟩
    obtain ⟨h0, h1, h2⟩ := hv u v hvm
    have hl1 : (s.set u (s.getD u [] ++ [v])).length = n := by rw [List.length_set]; exact hl
    obtain ⟨row, hrow, _⟩ := intIndex_some (s.set u (s.getD u [] ++ [v])) v h0 (by
      rw [hl1]; exact h1)
    have hrow2 : row = (s.set u (s.getD u [] ++ [v])).getD v.toNat [] := by
      unfold intIndex at hrow
      rw [if_neg (by omega)] at hrow
      rw [List.getD_eq_getElem?_getD, hrow]; rfl
    beta_reduce
    simp only []
    rw [hrow]
    refine ⟨_, rfl, by rw [List.length_set]; exact hl1, ?_⟩
    intro k y hy
    rw [hrow2] at hy
    rcases getD_set_append _ _ _ _ _ hy with h | ⟨hk, hyx⟩
    · rcases getD_set_append _ _ _ _ _ h with h | ⟨hk, hyx⟩
      · exact hs k y h
      · rw [hk, hyx]; exact ⟨h0, h1, h2⟩
    · rw [hk, hyx]
      refine ⟨by omega, by omega, ?_⟩
      intro hc
      apply h2
      omega
  · refine ⟨by simp, ?_⟩
    intro u v hv
    rw [List.getD_eq_getElem?_getD] at hv
    by_cases hu : u < n
    · rw [List.getElem?_replicate, if_pos hu] at hv
      simp at hv
    · rw [List.getElem?_eq_none (by simp; omega)] at hv
      simp at hv

/-- The neighbors sampled for a vertex are a subsequence of its row of `biGraph`. -/
theorem sampleConnection_spec (r : RandSource) (m : Nat) (inbounds : List Nat)
    (row : List Int) :
    ∀ (acc : List Int) (draws : Nat) (res : List Int × Nat),
      row.foldlM (fun (st : List Int × Nat) v =>
        match intIndex inbounds v with
        | none => none
        | some inb =>
          if r.float64Lt st.2 m inb then some (st.1 ++ [v], st.2 + 1)
          else some (st.1, st.2 + 1)) (acc, draws) = some res →
      ∃ sub, res.1 = acc ++ sub ∧ sub.Sublist row := by
  induction row with
  | nil =>
    intro acc draws res h
    have : (acc, draws) = res := by simpa using h
    exact ⟨[], by rw [← this]; simp, List.Sublist.refl _⟩
  | cons v row ih =>
    intro acc draws res h
    rw [List.foldlM_cons] at h
    cases hi : intIndex inbounds v with
    | none => simp only [hi] at h; exact absurd h (by simp)
    | some inb =>
      simp only [hi] at h
      by_cases hb : r.float64Lt draws m inb = true
      · rw [if_pos hb] at h
        obtain ⟨sub, h1, h2⟩ := ih _ _ res h
        exact ⟨v :: sub, by rw [h1]; simp, List.Sublist.cons₂ v h2⟩
      · rw [if_neg hb] at h
        obtain ⟨sub, h1, h2⟩ := ih _ _ res h
        exact ⟨sub, h1, List.Sublist.cons v h2⟩

/-- The row after the loop that fills it with random vertices: the vertices added are draws
of `Intn(n)`, different from `u`, from the vertices of the row before and from each other, and
a row that had at most `m` vertices has exactly `m`. -/
theorem fillConnection_spec (r : RandSource) (n m u : Nat) (fuel : Nat) :
    ∀ (draws : Nat) (connection : List Int) (res : List Int × Nat),
      fillConnection r n m u fuel draws connection = some res →
      ∃ extra, res.1 = connection ++ extra ∧ extra.Nodup ∧
        (∀ v, v ∈ extra → v ∉ connection ∧ v ≠ (u : Int) ∧ ∃ t, v = ((r.intn t n : Nat) : Int)) ∧
        (connection.length ≤ m → res.1.length = m) := by
  induction fuel with
  | zero =>
    intro draws connection res h
    unfold fillConnection at h
    split at h
    · exact absurd h (by simp)
    · simp only [Option.some.injEq] at h
      rw [← h]
      exact ⟨[], by simp, List.nodup_nil, fun v hv => absurd hv (by simp), fun hle => by
        simp only []; omega⟩
  | succ fuel ih =>
    intro draws connection res h
    unfold fillConnection at h
    split at h
    · rename_i hlt
      simp only [] at h
      split at h
      · exact ih _ _ res h
      · rename_i hvu
        split at h
        · exact ih _ _ res h
        · rename_i hnc
          obtain ⟨extra, e1, e2, e3, e4⟩ := ih _ _ res h
          have hnot : ((r.intn draws n : Nat) : Int) ∉ connection := by
            intro hc
            apply hnc
            simpa using hc
          refine ⟨((r.intn draws n : Nat) : Int) :: extra, by rw [e1]; simp, ?_, ?_, ?_⟩
          · rw [List.nodup_cons]
            refine ⟨?_, e2⟩
            intro hc
            exact (e3 _ hc).1 (by simp)
          · intro v hv
            rcases List.mem_cons.mp hv with hv | hv
            · rw [hv]; exact ⟨hnot, hvu, draws, rfl⟩
            · obtain ⟨g1, g2, g3⟩ := e3 v hv
              exact ⟨fun hc => g1 (List.mem_append_left _ hc), g2, g3⟩
          · intro _
            apply e4
            simp only [List.length_append, List.length_singleton]
            omega
    · rename_i hge
      simp only [Option.some.injEq] at h
      rw [← h]
      exact ⟨[], by simp, List.nodup_nil, fun v hv => absurd hv (by simp), fun hle => by
        simp only []; omega⟩

/-! ## The rows of the graph returned by `CreateGraphBasedOnNGT` -/

/-- The row that pass 2 writes for vertex `u`: a selection `conn` of `biGraph[u]` followed by
random vertices `extra`, `m` vertices in all. -/
theorem passTwoRow_spec {F : Type} (inp : GraphInputs F) (vectors : List (List F)) (m : Nat)
    (biGraph : List (List Int)) (inbounds : List Nat) (st st' : PassTwoState) (u : Nat)
    (hperm : ∀ s, (inp.sortSlice s).Perm s)
    (h : passTwoRow inp vectors m biGraph inbounds st u = some st') :
    ∃ conn extra, st'.graph = st.graph.set u (conn ++ extra) ∧
      conn.Subperm (biGraph.getD u []) ∧ (1 ≤ m → (conn ++ extra).length = m) ∧
      extra.Nodup ∧
      ∀ v, v ∈ extra → v ∉ conn ∧ v ≠ (u : Int) ∧
        ∃ seed t, v = (((inp.rand seed).intn t vectors.length : Nat) : Int) := by
  unfold passTwoRow at h
  simp only [] at h
  split at h
  · exact absurd h (by simp)
  · rename_i connection draws hsample
    unfold sampleConnection at hsample
    obtain ⟨sub, hsub, hsl⟩ := sampleConnection_spec _ m inbounds _ [] st.draws _ hsample
    simp only [List.nil_append] at hsub
    split at h
    · exact absurd h (by simp)
    · rename_i conn hpruned
      have hconn : conn.Subperm (biGraph.getD u []) ∧ (1 ≤ m → conn.length ≤ m) := by
        by_cases hgt : connection.length > m
        · rw [if_pos hgt] at hpruned
          refine ⟨(robustPrune_subperm inp.ops inp.sortSlice vectors u connection m
            inp.alpha conn hperm hpruned).trans ?_, ?_⟩
          · rw [hsub]; exact hsl.subperm
          · intro hm
            obtain ⟨h1, _⟩ := robustPrune_length inp.ops inp.sortSlice vectors u connection m
              inp.alpha conn hperm hm hpruned
            omega
        · rw [if_neg hgt] at hpruned
          simp only [Option.some.injEq] at hpruned
          rw [← hpruned]
          exact ⟨by rw [hsub]; exact hsl.subperm, fun _ => by omega⟩
      split at h
      · exact absurd h (by simp)
      · rename_i row draws2 hfill
        simp only [Option.some.injEq] at h
        obtain ⟨extra, e1, e2, e3, e4⟩ := fillConnection_spec _ _ m u _ _ _ _ hfill
        simp only [] at e1 e4
        refine ⟨conn, extra, by rw [← h, e1], hconn.1,
          fun hm => by rw [← e1]; exact e4 (hconn.2 hm), e2, ?_⟩
        intro v hv
        obtain ⟨g1, g2, t, g3⟩ := e3 v hv
        exact ⟨g1, g2, st.seed, t, g3⟩

/-- Every row of the graph of pass 2 is a selection of the row of `biGraph` followed by random
vertices, `m` vertices in all. -/
theorem passTwo_rows {F : Type} (inp : GraphInputs F) (vectors : List (List F)) (m : Nat)
    (graph biGraph result : List (List Int)) (hperm : ∀ s, (inp.sortSlice s).Perm s)
    (hlen : graph.length = vectors.length)
    (h : passTwo inp vectors m graph biGraph = some result) :
    result.length = vectors.length ∧ ∀ u, u < vectors.length →
      ∃ conn extra, result.getD u [] = conn ++ extra ∧
        conn.Subperm (biGraph.getD u []) ∧ (1 ≤ m → (conn ++ extra).length = m) ∧
        extra.Nodup ∧
        ∀ v, v ∈ extra → v ∉ conn ∧ v ≠ (u : Int) ∧
          ∃ seed t, v = (((inp.rand seed).intn t vectors.length : Nat) : Int) := by
  unfold passTwo at h
  simp only [] at h
  cases hf : forThreads vectors.length (fun start st => { st with seed := start, draws := 0 })
      (passTwoRow inp vectors m biGraph (biGraph.map fun row => row.length))
      { graph := graph, seed := 0, draws := 0 } with
  | none => rw [hf] at h; exact absurd h (by simp)
  | some st =>
    rw [hf] at h
    simp only [Option.map_some', Option.some.injEq] at h
    rw [← h]
    exact forThreads_rows vectors.length
      (fun start st => { st with seed := start, draws := 0 })
      (passTwoRow inp vectors m biGraph (biGraph.map fun row => row.length))
      (fun s => s.graph)
      (fun u row => ∃ conn extra, row = conn ++ extra ∧
        conn.Subperm (biGraph.getD u []) ∧ (1 ≤ m → (conn ++ extra).length = m) ∧
        extra.Nodup ∧
        ∀ v, v ∈ extra → v ∉ conn ∧ v ≠ (u : Int) ∧
          ∃ seed t, v = (((inp.rand seed).intn t vectors.length : Nat) : Int))
      (fun _ _ => rfl)
      (by
        intro s u s2 _ _ hb
        obtain ⟨conn, extra, g1, g2⟩ := passTwoRow_spec inp vectors m biGraph _ s s2 u hperm hb
        exact ⟨conn ++ extra, g1, conn, extra, rfl, g2⟩)
      { graph := graph, seed := 0, draws := 0 } st hlen hf

/-- The stages of a run of `CreateGraphBasedOnNGT` that returns. -/
theorem CreateGraphBasedOnNGT_stages {F : Type} (inp : GraphInputs F)
    (vectors : List (List F)) (m : Nat) (graph : List (List Int))
    (h : CreateGraphBasedOnNGT inp vectors m = some graph) :
    ∃ g1 biGraph, passOne inp vectors m = some g1 ∧
      symmetrize vectors.length g1 = some biGraph ∧
      passTwo inp vectors m g1 biGraph = some graph ∧
      inboundsInRange vectors.length graph = true := by
  unfold CreateGraphBasedOnNGT at h
  simp only [] at h
  split at h
  · exact absurd h (by simp)
  · split at h
    · exact absurd h (by simp)
    · rename_i g1 h1
      split at h
      · exact absurd h (by simp)
      · rename_i bg h2
        split at h
        · exact absurd h (by simp)
        · rename_i g h3
          split at h
          · rename_i h4
            simp only [Option.some.injEq] at h
            rw [← h]
            exact ⟨g1, bg, h1, h2, h3, h4⟩
          · exact absurd h (by simp)

/-- The graph of pass 1 has only valid edges when the index returns ids from 1. -/
theorem passOne_valid {F : Type} (inp : GraphInputs F) (vectors : List (List F)) (m : Nat)
    (g1 : List (List Int)) (hperm : ∀ s, (inp.sortSlice s).Perm s)
    (hids : ∀ u id, id ∈ inp.search u → 1 ≤ id)
    (h : passOne inp vectors m = some g1) : ValidEdges vectors.length g1 := by
  obtain ⟨hlen, hrows⟩ := passOne_rows inp vectors m g1 h
  intro u v hv
  by_cases hu : u < vectors.length
  · have hsub := robustPrune_subperm inp.ops inp.sortSlice vectors u _ m inp.alpha _
      hperm (hrows u hu)
    exact passOneCandidates_valid vectors.length inp.search u (hids u) v (hsub.subset hv)
  · rw [List.getD_eq_getElem?_getD, List.getElem?_eq_none (by omega)] at hv
    simp at hv

/-- The graph of pass 2 has only valid edges when `biGraph` has and the draws of `Intn(n)`
are below `n`. -/
theorem passTwo_valid {F : Type} (inp : GraphInputs F) (vectors : List (List F)) (m : Nat)
    (g1 biGraph graph : List (List Int)) (hperm : ∀ s, (inp.sortSlice s).Perm s)
    (hintn : ∀ seed t, (inp.rand seed).intn t vectors.length < vectors.length)
    (hlen : g1.length = vectors.length) (hbg : ValidEdges vectors.length biGraph)
    (h : passTwo inp vectors m g1 biGraph = some graph) :
    ValidEdges vectors.length graph ∧ inboundsInRange vectors.length graph = true := by
  obtain ⟨hl, hrows⟩ := passTwo_rows inp vectors m g1 biGraph graph hperm hlen h
  have hvalid : ValidEdges vectors.length graph := by
    intro u v hv
    by_cases hu : u < vectors.length
    · obtain ⟨conn, extra, e1, e2, _, _, e5⟩ := hrows u hu
      rw [e1] at hv
      rcases List.mem_append.mp hv with hv | hv
      · exact hbg u v (e2.subset hv)
      · obtain ⟨_, g2, seed, t, g3⟩ := e5 v hv
        have := hintn seed t
        exact ⟨by omega, by omega, g2⟩
    · rw [List.getD_eq_getElem?_getD, List.getElem?_eq_none (by omega)] at hv
      simp at hv
  refine ⟨hvalid, ?_⟩
  unfold inboundsInRange
  rw [List.all_eq_true]
  intro row hrow
  rw [List.all_eq_true]
  intro v hv
  obtain ⟨k, hk⟩ := List.mem_iff_getElem?.mp hrow
  have hv' : v ∈ graph.getD k [] := by
    rw [List.getD_eq_getElem?_getD, hk]; exact hv
  obtain ⟨g1, g2, _⟩ := hvalid k v hv'
  exact decide_eq_true ⟨g1, g2⟩

/-- Insertion sort by distance is a function that `sort.Slice` can be. -/
theorem sortByDist_ok : SortOK fifths sortByDist := by
  constructor
  · intro l
    exact List.perm_insertionSort _ l
  · intro l
    have hs : (sortByDist l).Pairwise (fun a b => a.dist ≤ b.dist) := by
      haveI : IsTotal (IdWithDist Int) (fun a b => a.dist ≤ b.dist) :=
        ⟨fun a b => le_total a.dist b.dist⟩
      haveI : IsTrans (IdWithDist Int) (fun a b => a.dist ≤ b.dist) :=
        ⟨fun a b c hab hbc => le_trans hab hbc⟩
      exact List.sorted_insertionSort _ l
    refine hs.imp ?_
    intro a b hab
    show decide (b.dist < a.dist) = false
    exact decide_eq_false (by omega)

theorem demoInputs_ids (u : Nat) (id : Int) (h : id ∈ demoInputs.search u) : 1 ≤ id := by
  rcases Nat.lt_or_ge u 5 with hu | hu
  · revert id
    interval_cases u <;> decide
  · have : demoInputs.search u = [] := by
      show List.getD _ u [] = []
      rw [List.getD_eq_getElem?_getD, List.getElem?_eq_none (by simpa using hu)]
      rfl
    rw [this] at h
    simp at h

theorem graphRand_intn (n : Nat) (hn : 0 < n) (seed t : Nat) :
    (graphRand seed).intn t n < n := Nat.mod_lt _ hn

theorem pruneVectors_dist :
    ∀ x, x ∈ pruneVectors → ∀ y, y ∈ pruneVectors → (L2Dist fifths x y).isSome = true := by
  decide

/-! ## The search: maps, the invariant of the loop, the results -/

theorem mapLookup_none {β : Type} (mp : List (Int × β)) (k : Int)
    (h : mapLookup mp k = none) : ∀ e, e ∈ mp → e.1 ≠ k := by
  intro e he hk
  unfold mapLookup at h
  rw [Option.map_eq_none', List.find?_eq_none] at h
  exact h e he (by simp [hk])

theorem mapInsert_absent {β : Type} (mp : List (Int × β)) (k : Int) (v : β)
    (h : mapLookup mp k = none) : mapInsert mp k v = mp ++ [(k, v)] := by
  unfold mapInsert
  congr 1
  rw [List.filter_eq_self]
  intro e he
  simpa using mapLookup_none mp k h e he

theorem mem_mapInsert {β : Type} (mp : List (Int × β)) (k : Int) (v : β) (e : Int × β)
    (h : e ∈ mapInsert mp k v) : e ∈ mp ∨ e = (k, v) := by
  unfold mapInsert at h
  rcases List.mem_append.mp h with h | h
  · exact Or.inl (List.mem_filter.mp h).1
  · exact Or.inr (List.mem_singleton.mp h)

theorem mapM_map_rel {α β γ : Type} (f : α → Option β) (g : β → γ) (h : α → γ)
    (hg : ∀ a b, f a = some b → g b = h a) (l : List α) (l' : List β)
    (hm : l.mapM f = some l') : l'.map g = l.map h := by
  obtain ⟨hlen, hget⟩ := mapM_some f l l' hm
  apply List.ext_getElem?
  intro k
  rw [List.getElem?_map, List.getElem?_map]
  by_cases hk : k < l.length
  · have hk' : k < l'.length := by omega
    rw [List.getElem?_eq_getElem hk', List.getElem?_eq_getElem hk]
    simp only [Option.map_some', Option.some.injEq]
    exact hg _ _ (hget k l[k] l'[k] (List.getElem?_eq_getElem hk)
      (List.getElem?_eq_getElem hk'))
  · rw [List.getElem?_eq_none (by omega), List.getElem?_eq_none (by omega)]
    rfl

/-- A vertex that is made known keeps the invariant of the search. -/
theorem SearchInv_insert {F : Type} (ops : Float32Ops F) (queryVector : List F)
    (st : SearchState F) (v : Vertex F) (step : Int) (q : List (VertexWithDist F))
    (inv : SearchInv ops queryVector st) (hnew : mapLookup st.knownVertices v.Id = none)
    (hid : 0 ≤ v.Id) (hd : (L2Dist ops v.Vector queryVector).isSome = true)
    (hstep : 0 ≤ step) :
    SearchInv ops queryVector
      { st with knownVertices := mapInsert st.knownVertices v.Id v
                reachStep := mapInsert st.reachStep v.Id step
                toBeExploredVertices := q } := by
  constructor
  · show ((mapInsert st.knownVertices v.Id v).map fun e => e.1).Nodup
    rw [mapInsert_absent _ _ _ hnew, List.map_append, List.nodup_append]
    refine ⟨inv.keys, by simp, ?_⟩
    intro k hk1 hk2
    simp only [List.map_cons, List.map_nil, List.mem_singleton] at hk2
    obtain ⟨e, he, hek⟩ := List.mem_map.mp hk1
    exact mapLookup_none _ _ hnew e he (by rw [hek, hk2])
  · intro e he
    rcases mem_mapInsert _ _ _ _ he with h | h
    · exact inv.ids e h
    · rw [h]; exact ⟨rfl, hid, hd⟩
  · intro e he
    rcases mem_mapInsert _ _ _ _ he with h | h
    · exact inv.steps e h
    · rw [h]; exact hstep

theorem foldl_inv {σ α : Type} (f : σ → α → σ) (Inv : σ → Prop) (l : List α)
    (h : ∀ s a, a ∈ l → Inv s → Inv (f s a)) (s0 : σ) (h0 : Inv s0) :
    Inv (l.foldl f s0) := by
  induction l generalizing s0 with
  | nil => exact h0
  | cons a as ih =>
    rw [List.foldl_cons]
    exact ih (fun s b hb => h s b (List.mem_cons_of_mem _ hb)) _
      (h s0 a (List.mem_cons_self _ _) h0)

/-- The start of the search returns and sets up the invariant. -/
theorem fastStart_ok {F : Type} (inp : SearchInputs F) (queryVector : List F) (parallel : Nat)
    (ok : SearchOK inp queryVector) (st : SearchState F)
    (inv : SearchInv inp.ops queryVector st) :
    ∃ st', fastStart inp queryVector parallel st = some st' ∧
      SearchInv inp.ops queryVector st' ∧ st'.calls = st.calls := by
  obtain ⟨fq, hfq⟩ := mapM_exists (fun v =>
      (L2Dist inp.ops v.Vector queryVector).map fun dist =>
        ({ dist := dist, vertex := v } : VertexWithDist F)) inp.StartVertices (by
    intro v hv
    obtain ⟨d, hd⟩ := Option.isSome_iff_exists.mp (ok.start v hv).2
    exact ⟨⟨d, v⟩, by beta_reduce; rw [hd]; rfl⟩)
  have hvs : fq.map (fun x => x.vertex) = inp.StartVertices.map (fun v => v) :=
    mapM_map_rel _ _ _ (by
      intro a b hab
      cases hd : L2Dist inp.ops a.Vector queryVector with
      | none => rw [hd] at hab; exact absurd hab (by simp)
      | some d =>
        rw [hd] at hab
        simp only [Option.map_some', Option.some.injEq] at hab
        rw [← hab]) _ _ hfq
  rw [List.map_id'] at hvs
  unfold fastStart
  rw [hfq]
  refine ⟨_, rfl, ?_⟩
  apply foldl_inv _ (fun s => SearchInv inp.ops queryVector s ∧ s.calls = st.calls) _ _ _
    ⟨inv, rfl⟩
  intro s x hx ⟨hs, hc⟩
  have hx' : x.vertex ∈ inp.StartVertices := by
    rw [← hvs]
    exact List.mem_map_of_mem _ ((ok.sortSort fq).subset hx)
  split
  · split
    · exact ⟨hs, hc⟩
    · rename_i hnone
      exact ⟨SearchInv_insert inp.ops queryVector s x.vertex 0 _ hs hnone
        (ok.start _ hx').1 (ok.start _ hx').2 (le_refl 0), hc⟩
  · exact ⟨hs, hc⟩

/-- A round of the loop over `rept` returns and keeps the invariant. -/
theorem exploreOne_ok {F : Type} (inp : SearchInputs F) (queryVector : List F)
    (benchmarking : Bool) (ok : SearchOK inp queryVector) (acc : SearchState F × List Int)
    (inv : SearchInv inp.ops queryVector acc.1) :
    ∃ acc', exploreOne inp benchmarking acc = some acc' ∧
      SearchInv inp.ops queryVector acc'.1 ∧ acc'.1.calls = acc.1.calls := by
  unfold exploreOne
  simp only []
  split
  · rw [if_neg (by have := ok.metadata; omega)]
    exact ⟨_, rfl, ⟨inv.keys, inv.ids, inv.steps⟩, rfl⟩
  · rename_i hq
    have hne : acc.1.toBeExploredVertices ≠ [] := by
      intro hc
      apply hq
      left
      rw [hc]; rfl
    obtain ⟨item, rest, hpop⟩ := ok.heapPop _ hne
    rw [hpop]
    exact ⟨_, rfl, ⟨inv.keys, inv.ids, inv.steps⟩, rfl⟩

/-- A vertex returned by the provider is taken in, and the invariant is kept. -/
theorem absorb_ok {F : Type} (inp : SearchInputs F) (queryVector : List F) (step : Nat)
    (st : SearchState F) (v : Vertex F) (inv : SearchInv inp.ops queryVector st)
    (hid : 0 ≤ v.Id) (hd : (L2Dist inp.ops v.Vector queryVector).isSome = true) :
    ∃ st', absorb inp queryVector step st v = some st' ∧
      SearchInv inp.ops queryVector st' ∧ st'.calls = st.calls := by
  unfold absorb
  split
  · exact ⟨st, rfl, inv, rfl⟩
  · rename_i hnone
    split
    · obtain ⟨d, hdd⟩ := Option.isSome_iff_exists.mp hd
      rw [hdd]
      exact ⟨_, rfl, SearchInv_insert inp.ops queryVector st v step _ inv hnone hid hd
        (Int.ofNat_nonneg step), rfl⟩
    · exact ⟨st, rfl, inv, rfl⟩

/-- A step of the search returns, keeps the invariant and hands one batch to the
provider. -/
theorem searchStep_ok {F : Type} (inp : SearchInputs F) (queryVector : List F)
    (parallel : Nat) (benchmarking : Bool) (ok : SearchOK inp queryVector)
    (st : SearchState F) (step : Nat) (inv : SearchInv inp.ops queryVector st) :
    ∃ st', searchStep inp queryVector parallel benchmarking st step = some st' ∧
      SearchInv inp.ops queryVector st' ∧ st'.calls.length = st.calls.length + 1 := by
  obtain ⟨acc, hacc, hinv, hcalls⟩ := foldlM_some_inv
    (fun acc (_ : Nat) => exploreOne inp benchmarking acc)
    (fun acc => SearchInv inp.ops queryVector acc.1 ∧ acc.1.calls = st.calls)
    (List.range parallel)
    (by
      intro s _ _ ⟨hs, hc⟩
      obtain ⟨s', h1, h2, h3⟩ := exploreOne_ok inp queryVector benchmarking ok s hs
      exact ⟨s', h1, h2, by rw [h3, hc]⟩)
    (st, []) ⟨inv, rfl⟩
  obtain ⟨vs, hvs, hgood⟩ := ok.info step acc.2
  unfold searchStep
  rw [hacc]
  simp only []
  rw [hvs]
  simp only []
  have hinv2 : SearchInv inp.ops queryVector { acc.1 with calls := acc.1.calls ++ [acc.2] } :=
    ⟨hinv.keys, hinv.ids, hinv.steps⟩
  cases benchmarking with
  | true =>
    exact ⟨_, rfl, hinv2, by simp [hcalls]⟩
  | false =>
    simp only [Bool.false_eq_true, if_false]
    obtain ⟨st', h1, h2, h3⟩ := foldlM_some_inv (absorb inp queryVector step)
      (fun s => SearchInv inp.ops queryVector s ∧
        s.calls.length = st.calls.length + 1) vs
      (by
        intro s v hv ⟨hs, hc⟩
        obtain ⟨s', e1, e2, e3⟩ := absorb_ok inp queryVector step s v hs (hgood v hv).1
          (hgood v hv).2
        exact ⟨s', e1, e2, by rw [e3]; exact hc⟩)
      { acc.1 with calls := acc.1.calls ++ [acc.2] } ⟨hinv2, by simp [hcalls]⟩
    exact ⟨st', h1, h2, h3⟩

/-- The loops of `SearchKNN` return, with the invariant, after one call of the provider for
every step. -/
theorem searchRun_ok {F : Type} (inp : SearchInputs F) (queryVector : List F)
    (maxStep parallel : Nat) (benchmarking : Bool) (ok : SearchOK inp queryVector) :
    ∃ st, searchRun inp queryVector maxStep parallel benchmarking = some st ∧
      SearchInv inp.ops queryVector st ∧ st.calls.length = maxStep := by
  have inv0 : SearchInv inp.ops queryVector
      ({ knownVertices := [], reachStep := [], toBeExploredVertices := [], draws := 0,
         calls := [] } : SearchState F) :=
    ⟨List.nodup_nil, fun e he => absurd he (by simp), fun e he => absurd he (by simp)⟩
  have hloop : ∀ st1 : SearchState F, SearchInv inp.ops queryVector st1 → st1.calls = [] →
      ∃ st, (List.range maxStep).foldlM (searchStep inp queryVector parallel benchmarking)
        st1 = some st ∧ SearchInv inp.ops queryVector st ∧ st.calls.length = maxStep := by
    intro st1 h2 h3
    obtain ⟨st, e1, e2, e3⟩ := foldlM_range_inv
      (searchStep inp queryVector parallel benchmarking)
      (fun j s => SearchInv inp.ops queryVector s ∧ s.calls.length = j) maxStep
      (by
        intro s j _ ⟨hs, hc⟩
        obtain ⟨s', g1, g2, g3⟩ :=
          searchStep_ok inp queryVector parallel benchmarking ok s j hs
        exact ⟨s', g1, g2, by rw [g3, hc]⟩)
      st1 ⟨h2, by rw [h3]; rfl⟩
    exact ⟨st, e1, e2, e3⟩
  unfold searchRun
  simp only []
  cases benchmarking with
  | true => exact hloop _ inv0 rfl
  | false =>
    obtain ⟨st1, h1, h2, h3⟩ := fastStart_ok inp queryVector parallel ok _ inv0
    simp only [Bool.false_eq_true, if_false]
    rw [h1]
    exact hloop st1 h2 h3

theorem mapLookup_mem {β : Type} (mp : List (Int × β)) (k : Int) (v : β)
    (h : mapLookup mp k = some v) : ∃ e, e ∈ mp ∧ e.2 = v := by
  unfold mapLookup at h
  cases hf : mp.find? (fun e => e.1 == k) with
  | none => rw [hf] at h; exact absurd h (by simp)
  | some e =>
    rw [hf] at h
    simp only [Option.map_some', Option.some.injEq] at h
    exact ⟨e, List.mem_of_find?_eq_some hf, h⟩

/-- The results of `SearchKNN` read off the sorted list of the known vertices. -/
theorem searchOutput_ok {F : Type} (inp : SearchInputs F) (queryVector : List F) (k : Nat)
    (st : SearchState F) (hperm : ∀ l, (inp.sortSlice l).Perm l)
    (inv : SearchInv inp.ops queryVector st) :
    ∃ (r : SearchResult) (sorted : List (VertexWithDist F)),
      searchOutput inp queryVector k st = some r ∧
      (sorted.map fun x => x.vertex).Perm (st.knownVertices.map fun e => e.2) ∧
      r.ret.length = k ∧ r.stepRet.length = k ∧ r.calls = st.calls ∧
      (∀ i, i < k → sorted.length ≤ i → r.ret.getD i 0 = -1 ∧ r.stepRet.getD i 0 = -1) ∧
      ∀ i, i < k → ∀ x, sorted[i]? = some x →
        r.ret.getD i 0 = x.vertex.Id ∧
        r.stepRet.getD i 0 = (mapLookup st.reachStep x.vertex.Id).getD 0 := by
  obtain ⟨all, hall⟩ := mapM_exists (fun (e : Int × Vertex F) =>
      (L2Dist inp.ops e.2.Vector queryVector).map fun dist =>
        ({ dist := dist, vertex := e.2 } : VertexWithDist F)) st.knownVertices (by
    intro e he
    obtain ⟨d, hd⟩ := Option.isSome_iff_exists.mp (inv.ids e he).2.2
    exact ⟨⟨d, e.2⟩, by beta_reduce; rw [hd]; rfl⟩)
  have hvs : all.map (fun x => x.vertex) = st.knownVertices.map (fun e => e.2) :=
    mapM_map_rel _ _ _ (by
      intro a b hab
      cases hd : L2Dist inp.ops a.2.Vector queryVector with
      | none => rw [hd] at hab; exact absurd hab (by simp)
      | some d =>
        rw [hd] at hab
        simp only [Option.map_some', Option.some.injEq] at hab
        rw [← hab]) _ _ hall
  unfold searchOutput
  rw [hall]
  refine ⟨_, inp.sortSlice all, rfl, by rw [← hvs]; exact (hperm all).map _, by simp, by simp,
    rfl, ?_, ?_⟩
  · intro i hi hlen
    simp only []
    rw [getD_map_range k i _ _ hi, getD_map_range k i _ _ hi,
      List.getElem?_eq_none hlen]
    exact ⟨rfl, rfl⟩
  · intro i hi x hx
    simp only []
    rw [getD_map_range k i _ _ hi, getD_map_range k i _ _ hi, hx]
    exact ⟨rfl, rfl⟩

/-- The ids of the sorted known vertices are the ids under which they are known: different
from each other and not negative. -/
theorem sorted_ids {F : Type} (ops : Float32Ops F) (queryVector : List F)
    (st : SearchState F) (sorted : List (VertexWithDist F))
    (inv : SearchInv ops queryVector st)
    (hp : (sorted.map fun x => x.vertex).Perm (st.knownVertices.map fun e => e.2)) :
    sorted.length = st.knownVertices.length ∧ (sorted.map fun x => x.vertex.Id).Nodup ∧
      ∀ x, x ∈ sorted → 0 ≤ x.vertex.Id ∧
        ∃ v, mapLookup st.knownVertices x.vertex.Id = some v := by
  have hkeys : st.knownVertices.map (fun e => e.2.Id) = st.knownVertices.map (fun e => e.1) :=
    List.map_congr_left (fun e he => (inv.ids e he).1)
  have hp2 : (sorted.map fun x => x.vertex.Id).Perm (st.knownVertices.map fun e => e.1) := by
    have := hp.map (fun v => v.Id)
    rw [List.map_map, List.map_map] at this
    rw [← hkeys]
    exact this
  refine ⟨by simpa using hp.length_eq, hp2.nodup_iff.mpr inv.keys, ?_⟩
  intro x hx
  have hm : x.vertex ∈ st.knownVertices.map (fun e => e.2) :=
    hp.subset (List.mem_map_of_mem _ hx)
  obtain ⟨e, he, hev⟩ := List.mem_map.mp hm
  obtain ⟨h1, h2, _⟩ := inv.ids e he
  rw [← hev]
  refine ⟨by rw [h1]; exact h2, ?_⟩
  cases hl : mapLookup st.knownVertices e.2.Id with
  | some v => exact ⟨v, rfl⟩
  | none => exact absurd h1 (mapLookup_none _ _ hl e he).symm

theorem popLeast_some (q : List (VertexWithDist Int)) (h : q ≠ []) :
    ∃ item rest, popLeast q = some (item, rest) := by
  cases q with
  | nil => exact absurd rfl h
  | cons x q =>
    unfold popLeast
    split
    · exact ⟨_, _, rfl⟩
    · split
      · exact ⟨_, _, rfl⟩
      · exact ⟨_, _, rfl⟩

theorem searchVertex_ok (i : Nat) (hi : i < 5) :
    0 ≤ (searchVertex i).Id ∧
      (L2Dist fifths (searchVertex i).Vector searchQuery).isSome = true := by
  interval_cases i <;> decide

/-- The inputs `demoSearch` meet what is assumed of the libraries and of the provider. -/
theorem demoSearch_ok : SearchOK demoSearch searchQuery := by
  constructor
  · intro l; exact List.perm_insertionSort _ l
  · intro l; exact List.perm_insertionSort _ l
  · exact popLeast_some
  · decide
  · decide
  · intro t batch
    refine ⟨_, rfl, ?_⟩
    intro v hv
    obtain ⟨id, _, hid⟩ := List.mem_map.mp hv
    rw [← hid]
    exact searchVertex_ok _ (Nat.mod_lt _ (by norm_num))

/-! ## Batches: the range of the indices, short batches -/

theorem quadBatch_ok : BatchOK quadBatch := by
  have h0 : NewSimpleBatchPianoPIR smallFloat 16 8 8 batchDB 0 (fun i => i) (fun i => i + 7) =
      some (quadBatchNew.getD emptyBatch) := by rfl
  have ok0 := (BatchNew_New smallFloat 16 8 8 batchDB 0 _ _ _ (by norm_num) (by norm_num)
    (fun n cs hcs => ceil_cover n cs hcs) h0).1
  obtain ⟨p', hp', ok', _⟩ := Batch_Preprocessing_ok demoAes (fun i => i + 1)
    (fun i c s => i + c + s) _ ok0
  have h1 : quadBatch = p' := by
    unfold quadBatch
    rw [hp']
    rfl
  rw [h1]; exact ok'

theorem quadBatch_config : quadBatch.config.PartitionNum = 4 ∧
    quadBatch.config.PartitionSize = 4 ∧ quadBatch.config.DBSize = 16 ∧
    quadBatch.config.DBEntrySize = 1 := by
  decide

/-! ## The counters of the client -/

theorem sum_set_succ (l : List Nat) (i : Nat) (hi : i < l.length) :
    (l.set i (l.getD i 0 + 1)).sum = l.sum + 1 := by
  induction l generalizing i with
  | nil => simp at hi
  | cons x xs ih =>
    cases i with
    | zero => simp [List.getD]; omega
    | succ i =>
      have hi' : i < xs.length := by simpa using hi
      have := ih i hi'
      simp only [List.set_cons_succ, List.sum_cons, List.getD_cons_succ]
      omega

theorem length_cacheInsert_new (m : List (Nat × List Nat)) (k : Nat) (v : List Nat)
    (h : cacheLookup m k = none) : (cacheInsert m k v).length = m.length + 1 := by
  unfold cacheInsert
  rw [List.length_cons]
  congr 1
  congr 1
  apply List.filter_eq_self.mpr
  intro p hp
  unfold cacheLookup at h
  rw [List.lookup_eq_none_iff] at h
  have := h p hp
  simp only [bne_iff_ne, ne_eq] at this ⊢
  intro hk
  exact this hk.symm

/-- What a call of `Query` that returns does to the client: nothing, or the refresh that ends
a real query for an index of the database that was not cached, made while the budget of the
epoch is not used up. -/
theorem Query_refresh_cases (aes : Nat → Nat → Nat) (c : PianoPIRClient) (idx : Nat)
    (server : PianoPIRServer) (realQuery : Bool) (rand : Nat → Nat) (r : QueryResult)
    (h : c.Query aes idx server realQuery rand = some r) :
    r.client = c ∨
      (idx < c.config.DBSize ∧ cacheLookup c.localCache idx = none ∧
        c.FinishedQueryNum < c.MaxQueryNum ∧
        ∃ hitId response, r.client = c.refresh hitId (idx / c.config.ChunkSize) idx response) := by
  cases realQuery with
  | false => exact Or.inl (dummy_Query_client aes c idx server rand r h)
  | true =>
    unfold PianoPIRClient.Query at h
    simp only [Bool.not_true, Bool.false_eq_true, if_false] at h
    split at h
    · exact absurd h (by simp)
    · rename_i hidx
      split at h
      · simp only [Option.some.injEq] at h
        left; rw [← h]
      · rename_i hmiss
        split at h
        · simp only [Option.some.injEq] at h
          left; rw [← h]
        · rename_i hF
          split at h
          · simp only [Option.some.injEq] at h
            left; rw [← h]
          · split at h
            · simp only [Option.some.injEq] at h
              left; rw [← h]
            · simp only [Option.some.injEq] at h
              right
              exact ⟨by omega, hmiss, by omega, _, _, by rw [← h]⟩

/-- The counters after a call of `Query`, on a configuration whose chunks cover the
database. -/
theorem counters_Query (aes : Nat → Nat → Nat) (c : PianoPIRClient) (idx : Nat)
    (server : PianoPIRServer) (realQuery : Bool) (rand : Nat → Nat) (r : QueryResult)
    (h : c.Query aes idx server realQuery rand = some r)
    (hcover : c.config.DBSize ≤ c.config.ChunkSize * c.config.SetSize)
    (hlen : c.QueryHistogram.length = c.config.SetSize)
    (hsum : c.FinishedQueryNum = c.QueryHistogram.sum)
    (hcache : c.FinishedQueryNum = c.localCache.length)
    (hmax : c.FinishedQueryNum ≤ c.MaxQueryNum) :
    r.client.config = c.config ∧ r.client.MaxQueryNum = c.MaxQueryNum ∧
      r.client.QueryHistogram.length = r.client.config.SetSize ∧
      r.client.FinishedQueryNum = r.client.QueryHistogram.sum ∧
      r.client.FinishedQueryNum = r.client.localCache.length ∧
      r.client.FinishedQueryNum ≤ r.client.MaxQueryNum := by
  rcases Query_refresh_cases aes c idx server realQuery rand r h with
    hc | ⟨hidx, hmiss, hF, hitId, response, hc⟩
  · rw [hc]; exact ⟨rfl, rfl, hlen, hsum, hcache, hmax⟩
  · rw [hc]
    have hch : idx / c.config.ChunkSize < c.QueryHistogram.length := by
      rw [hlen]
      apply Nat.div_lt_of_lt_mul
      exact lt_of_lt_of_le hidx hcover
    refine ⟨rfl, rfl, ?_, ?_, ?_, ?_⟩
    · show (c.QueryHistogram.set _ _).length = c.config.SetSize
      rw [List.length_set]; exact hlen
    · show c.FinishedQueryNum + 1 = (c.QueryHistogram.set _ _).sum
      rw [sum_set_succ _ _ hch, hsum]
    · show c.FinishedQueryNum + 1 = (cacheInsert c.localCache idx response).length
      rw [length_cacheInsert_new _ _ _ hmiss, hcache]
    · show c.FinishedQueryNum + 1 ≤ c.MaxQueryNum
      omega

theorem counters_QueryReach (aes : Nat → Nat → Nat) (server : PianoPIRServer)
    (c1 c : PianoPIRClient) (hr : QueryReach aes server c1 c)
    (hcover : c1.config.DBSize ≤ c1.config.ChunkSize * c1.config.SetSize)
    (hlen : c1.QueryHistogram.length = c1.config.SetSize)
    (hsum : c1.FinishedQueryNum = c1.QueryHistogram.sum)
    (hcache : c1.FinishedQueryNum = c1.localCache.length)
    (hmax : c1.FinishedQueryNum ≤ c1.MaxQueryNum) :
    c.config = c1.config ∧ c.MaxQueryNum = c1.MaxQueryNum ∧
      c.QueryHistogram.length = c.config.SetSize ∧
      c.FinishedQueryNum = c.QueryHistogram.sum ∧
      c.FinishedQueryNum = c.localCache.length ∧
      c.FinishedQueryNum ≤ c.MaxQueryNum := by
  induction hr with
  | refl => exact ⟨rfl, rfl, hlen, hsum, hcache, hmax⟩
  | step c' c'' _ hs ih =>
    obtain ⟨i1, i2, i3, i4, i5, i6⟩ := ih
    cases hs with
    | call idx realQuery rand r hq =>
      obtain ⟨j1, j2, j3, j4, j5, j6⟩ := counters_Query aes c' idx server realQuery rand r hq
        (by rw [i1]; exact hcover) i3 i4 i5 i6
      exact ⟨j1.trans i1, j2.trans i2, j3, j4, j5, j6⟩

/-! ## `L2Dist` -/

/-- The loop of `L2Dist` over the components from `p` on: it adds the squares of the
differences, in order. -/
theorem L2Dist_tail {F : Type} (ops : Float32Ops F) (v1 v2 : List F) (p : Nat) :
    ∀ r d, p + r ≤ v1.length → p + r ≤ v2.length →
      (List.range r).foldlM (fun d k =>
        match v1[p + k]?, v2[p + k]? with
        | some a, some b => some (ops.add d (ops.mul (ops.sub a b) (ops.sub a b)))
        | _, _ => none) d =
      some ((((v1.drop p).take r).zip ((v2.drop p).take r)).foldl
        (fun d ab => ops.add d (ops.mul (ops.sub ab.1 ab.2) (ops.sub ab.1 ab.2))) d) := by
  intro r
  induction r with
  | zero => intro d _ _; simp
  | succ r ih =>
    intro d h1 h2
    have hl1 : p + r < v1.length := by omega
    have hl2 : p + r < v2.length := by omega
    rw [List.range_succ, List.foldlM_append, ih d (by omega) (by omega)]
    have e1 : (v1.drop p).take (r + 1) = (v1.drop p).take r ++ [v1[p + r]] := by
      rw [List.take_succ, List.getElem?_drop, List.getElem?_eq_getElem hl1]
      rfl
    have e2 : (v2.drop p).take (r + 1) = (v2.drop p).take r ++ [v2[p + r]] := by
      rw [List.take_succ, List.getElem?_drop, List.getElem?_eq_getElem hl2]
      rfl
    have hlen : ((v1.drop p).take r).length = ((v2.drop p).take r).length := by
      simp only [List.length_take, List.length_drop]
      omega
    rw [e1, e2, List.zip_append hlen, List.foldl_append]
    simp [List.getElem?_eq_getElem hl1, List.getElem?_eq_getElem hl2]

/-- Below dimension 8 the slices handed to `L2DistSIMD` are empty, and `&v1[0]` panics. -/
theorem L2Dist_short {F : Type} (ops : Float32Ops F) (v1 v2 : List F) (h : v1.length < 8) :
    L2Dist ops v1 v2 = none := by
  unfold L2Dist L2DistSIMD
  have h8 : v1.length % 8 = v1.length := Nat.mod_eq_of_lt h
  simp [h8]

/-! ## `robustPrune` and the pruning rule of the specification -/

theorem diversityOk_eq {F : Type} (ops : Float32Ops F) (vectors : List (List F)) (alpha : F)
    (l2 : Int → Int → F) (v : Int) (dist_uv : F)
    (hcomm : ∀ a b, ops.mul a b = ops.mul b a) (accept : List (IdWithDist F))
    (hd : ∀ p, p ∈ accept → vertexDist ops vectors p.id v = some (l2 p.id v)) :
    diversityOk ops vectors alpha v dist_uv accept =
      some (accept.all fun p => !ops.lt (ops.mul alpha (l2 p.id v)) dist_uv) := by
  induction accept with
  | nil => rfl
  | cons p accept ih =>
    unfold diversityOk
    rw [hd p (List.mem_cons_self _ _)]
    simp only [List.all_cons]
    rw [hcomm (l2 p.id v) alpha]
    cases hlt : ops.lt (ops.mul alpha (l2 p.id v)) dist_uv with
    | true => simp
    | false =>
      simp only [Bool.false_eq_true, if_false, Bool.not_false, Bool.true_and]
      exact ih (fun q hq => hd q (List.mem_cons_of_mem _ hq))

theorem specScan_full {F : Type} (ops : Float32Ops F) (l2 : Int → Int → F) (alpha : F)
    (u : Int) (m : Nat) (rest A D : List Int) (h : A.length = m) :
    specScan ops l2 alpha u m rest A D = (A, D) := by
  cases rest with
  | nil => rfl
  | cons c rest =>
    unfold specScan
    rw [if_pos h]

theorem specScan_accept {F : Type} (ops : Float32Ops F) (l2 : Int → Int → F) (alpha : F)
    (u : Int) (m : Nat) (c : Int) (rest A D : List Int) (h : A.length ≠ m)
    (hok : specDiverse ops l2 alpha u A c = true) :
    specScan ops l2 alpha u m (c :: rest) A D = specScan ops l2 alpha u m rest (A ++ [c]) D := by
  rw [specScan, if_neg h, if_pos hok]

theorem specScan_discard {F : Type} (ops : Float32Ops F) (l2 : Int → Int → F) (alpha : F)
    (u : Int) (m : Nat) (c : Int) (rest A D : List Int) (h : A.length ≠ m)
    (hok : specDiverse ops l2 alpha u A c = false) :
    specScan ops l2 alpha u m (c :: rest) A D = specScan ops l2 alpha u m rest A (D ++ [c]) := by
  rw [specScan, if_neg h, if_neg (by rw [hok]; simp)]

theorem specDiverse_map {F : Type} (ops : Float32Ops F) (l2 : Int → Int → F) (alpha : F)
    (u : Int) (accept : List (IdWithDist F)) (c : Int) :
    specDiverse ops l2 alpha u (accept.map fun x => x.id) c =
      accept.all fun p => !ops.lt (ops.mul alpha (l2 p.id c)) (l2 u c) := by
  unfold specDiverse
  induction accept with
  | nil => rfl
  | cons p accept ih => simp only [List.map_cons, List.all_cons, ih]

/-- The loop of `robustPrune` over the sorted candidates computes the scan of the
specification. -/
theorem pruneScan_refines {F : Type} (ops : Float32Ops F) (vectors : List (List F)) (alpha : F)
    (l2 : Int → Int → F) (u : Int) (m : Nat) (hcomm : ∀ a b, ops.mul a b = ops.mul b a)
    (sorted : List (IdWithDist F)) :
    ∀ accept discarded : List (IdWithDist F), accept.length < m →
      (∀ x, x ∈ sorted → x.dist = l2 u x.id) →
      (∀ p, p ∈ accept ++ sorted → ∀ x, x ∈ sorted →
        vertexDist ops vectors p.id x.id = some (l2 p.id x.id)) →
      ∃ A D, pruneScan ops vectors alpha m sorted accept discarded = some (A, D) ∧
        specScan ops l2 alpha u m (sorted.map fun x => x.id) (accept.map fun x => x.id)
          (discarded.map fun x => x.id) = (A.map (fun x => x.id), D.map fun x => x.id) ∧
        A.length ≤ m ∧
        (A.length < m →
          A.length + D.length = accept.length + discarded.length + sorted.length) := by
  induction sorted with
  | nil =>
    intro accept discarded hlt _ _
    exact ⟨accept, discarded, rfl, rfl, by omega, fun _ => by simp⟩
  | cons x sorted ih =>
    intro accept discarded hlt hdist hd
    have hdiv := diversityOk_eq ops vectors alpha l2 x.id x.dist hcomm accept
      (fun p hp => hd p (List.mem_append_left _ hp) x (List.mem_cons_self _ _))
    have hspec : specDiverse ops l2 alpha u (accept.map fun x => x.id) x.id =
        accept.all fun p => !ops.lt (ops.mul alpha (l2 p.id x.id)) x.dist := by
      rw [specDiverse_map, hdist x (List.mem_cons_self _ _)]
    have hne : (accept.map fun x => x.id).length ≠ m := by rw [List.length_map]; omega
    rw [List.map_cons]
    cases hall : accept.all fun p => !ops.lt (ops.mul alpha (l2 p.id x.id)) x.dist with
    | true =>
      rw [specScan_accept ops l2 alpha u m _ _ _ _ hne (hspec.trans hall)]
      by_cases hfull : (accept ++ [x]).length = m
      · have hcode : pruneScan ops vectors alpha m (x :: sorted) accept discarded =
            some (accept ++ [x], discarded) := by
          unfold pruneScan
          rw [hdiv, hall]
          simp only []
          rw [if_pos hfull]
        refine ⟨accept ++ [x], discarded, hcode, ?_, by omega, fun h => by omega⟩
        rw [specScan_full _ _ _ _ _ _ _ _ (by
          rw [List.length_append, List.length_map]
          simpa using hfull)]
        simp
      · have hcode : pruneScan ops vectors alpha m (x :: sorted) accept discarded =
            pruneScan ops vectors alpha m sorted (accept ++ [x]) discarded := by
          conv => lhs; unfold pruneScan
          rw [hdiv, hall]
          simp only []
          rw [if_neg hfull]
        have hlt2 : (accept ++ [x]).length < m := by
          simp only [List.length_append, List.length_cons, List.length_nil] at hfull ⊢
          omega
        obtain ⟨A, D, h1, h2, h3, h4⟩ := ih (accept ++ [x]) discarded hlt2
          (fun y hy => hdist y (List.mem_cons_of_mem _ hy))
          (fun p hp y hy => hd p (by
            simp only [List.mem_append, List.mem_cons, List.mem_singleton,
              List.not_mem_nil, or_false] at hp ⊢
            tauto) y (List.mem_cons_of_mem _ hy))
        refine ⟨A, D, hcode.trans h1, ?_, h3, ?_⟩
        · rw [← h2]; simp
        · intro hA
          rw [h4 hA]
          simp only [List.length_append, List.length_cons, List.length_nil]
          omega
    | false =>
      rw [specScan_discard ops l2 alpha u m _ _ _ _ hne (hspec.trans hall)]
      have hcode : pruneScan ops vectors alpha m (x :: sorted) accept discarded =
          pruneScan ops vectors alpha m sorted accept (discarded ++ [x]) := by
        conv => lhs; unfold pruneScan
        rw [hdiv, hall]
      obtain ⟨A, D, h1, h2, h3, h4⟩ := ih accept (discarded ++ [x]) hlt
        (fun y hy => hdist y (List.mem_cons_of_mem _ hy))
        (fun p hp y hy => hd p (by
          simp only [List.mem_append, List.mem_cons] at hp ⊢
          tauto) y (List.mem_cons_of_mem _ hy))
      refine ⟨A, D, hcode.trans h1, ?_, h3, ?_⟩
      · rw [← h2]; simp
      · intro hA
        rw [h4 hA]
        simp only [List.length_append, List.length_cons, List.length_nil]
        omega

theorem pruneFill_take {F : Type} (m : Nat) (discarded accept : List (IdWithDist F))
    (hlt : accept.length < m) (hle : m ≤ accept.length + discarded.length) :
    pruneFill m discarded accept = (accept ++ discarded).take m := by
  obtain ⟨k, hk, hlen⟩ := pruneFill_spec m discarded accept
  have hl := hlen hlt hle
  rw [hk, List.length_append, List.length_take] at hl
  have hkm : min k discarded.length = m - accept.length := by omega
  rw [hk, List.take_append_eq_append_take, List.take_of_length_le (Nat.le_of_lt hlt)]
  congr 1
  apply List.take_eq_take.mpr
  have : m - accept.length ≤ discarded.length := by omega
  rw [hkm, Nat.min_eq_left this]

/-! ## The search: the order of the results, the size of the batches -/

/-- The distances computed at the end of `SearchKNN`: one element for every known vertex,
with the value of `L2Dist` for its vector. -/
theorem knownDists_spec {F : Type} (ops : Float32Ops F) (queryVector : List F)
    (known : List (Int × Vertex F)) (all : List (VertexWithDist F))
    (h : known.mapM (fun e =>
      (L2Dist ops e.2.Vector queryVector).map fun dist =>
        ({ dist := dist, vertex := e.2 } : VertexWithDist F)) = some all) :
    all.map (fun x => x.vertex) = known.map (fun e => e.2) ∧
      ∀ x, x ∈ all → L2Dist ops x.vertex.Vector queryVector = some x.dist := by
  have hf : ∀ (a : Int × Vertex F) (b : VertexWithDist F),
      (fun (e : Int × Vertex F) => (L2Dist ops e.2.Vector queryVector).map fun dist =>
        ({ dist := dist, vertex := e.2 } : VertexWithDist F)) a = some b →
      b.vertex = a.2 ∧ L2Dist ops b.vertex.Vector queryVector = some b.dist := by
    intro a b hab
    beta_reduce at hab
    cases hd : L2Dist ops a.2.Vector queryVector with
    | none => rw [hd] at hab; exact absurd hab (by simp)
    | some d =>
      rw [hd] at hab
      simp only [Option.map_some', Option.some.injEq] at hab
      rw [← hab]
      exact ⟨rfl, hd⟩
  refine ⟨mapM_map_rel _ _ _ (fun a b hab => (hf a b hab).1) _ _ h, ?_⟩
  intro x hx
  obtain ⟨hlen, hget⟩ := mapM_some _ known all h
  obtain ⟨i, hi, hxi⟩ := List.getElem_of_mem hx
  have hi' : i < known.length := by omega
  exact (hf known[i] x (hget i known[i] x (List.getElem?_eq_getElem hi')
    (by rw [List.getElem?_eq_getElem hi, hxi]))).2

/-- The results of `SearchKNN` read off the sorted list of the known vertices, each with its
distance to the query. -/
theorem searchOutput_sorted {F : Type} (inp : SearchInputs F) (queryVector : List F) (k : Nat)
    (st : SearchState F) (hperm : ∀ l, (inp.sortSlice l).Perm l)
    (hsorted : ∀ l, (inp.sortSlice l).Pairwise fun a b => inp.ops.lt b.dist a.dist = false)
    (inv : SearchInv inp.ops queryVector st) :
    ∃ (r : SearchResult) (sorted : List (VertexWithDist F)),
      searchOutput inp queryVector k st = some r ∧
      (sorted.map fun x => x.vertex).Perm (st.knownVertices.map fun e => e.2) ∧
      (∀ x, x ∈ sorted → L2Dist inp.ops x.vertex.Vector queryVector = some x.dist) ∧
      (sorted.Pairwise fun a b => inp.ops.lt b.dist a.dist = false) ∧
      r.calls = st.calls ∧
      (∀ i, i < k → sorted.length ≤ i → r.ret.getD i 0 = -1) ∧
      ∀ i, i < k → ∀ x, sorted[i]? = some x → r.ret.getD i 0 = x.vertex.Id := by
  obtain ⟨all, hall⟩ := mapM_exists (fun (e : Int × Vertex F) =>
      (L2Dist inp.ops e.2.Vector queryVector).map fun dist =>
        ({ dist := dist, vertex := e.2 } : VertexWithDist F)) st.knownVertices (by
    intro e he
    obtain ⟨d, hd⟩ := Option.isSome_iff_exists.mp (inv.ids e he).2.2
    exact ⟨⟨d, e.2⟩, by beta_reduce; rw [hd]; rfl⟩)
  obtain ⟨hvs, hds⟩ := knownDists_spec inp.ops queryVector st.knownVertices all hall
  unfold searchOutput
  rw [hall]
  refine ⟨_, inp.sortSlice all, rfl, by rw [← hvs]; exact (hperm all).map _,
    fun x hx => hds x ((hperm all).subset hx), hsorted all, rfl, ?_, ?_⟩
  · intro i hi hlen
    simp only []
    rw [getD_map_range k i _ _ hi, List.getElem?_eq_none hlen]
  · intro i hi x hx
    simp only []
    rw [getD_map_range k i _ _ hi, hx]

theorem sortQueue_sorted (l : List (VertexWithDist Int)) :
    (sortQueue l).Pairwise fun a b => fifths.lt b.dist a.dist = false := by
  have hs : (sortQueue l).Pairwise (fun a b => a.dist ≤ b.dist) := by
    haveI : IsTotal (VertexWithDist Int) (fun a b => a.dist ≤ b.dist) :=
      ⟨fun a b => le_total a.dist b.dist⟩
    haveI : IsTrans (VertexWithDist Int) (fun a b => a.dist ≤ b.dist) :=
      ⟨fun a b c hab hbc => le_trans hab hbc⟩
    exact List.sorted_insertionSort _ l
  refine hs.imp ?_
  intro a b hab
  show decide (b.dist < a.dist) = false
  exact decide_eq_false (by omega)

theorem mem_mapInsert_of_mem {β : Type} (mp : List (Int × β)) (k : Int) (v : β) (e : Int × β)
    (he : e ∈ mp) (hne : e.1 ≠ k) : e ∈ mapInsert mp k v := by
  unfold mapInsert
  apply List.mem_append_left
  exact List.mem_filter.mpr ⟨he, by simpa using hne⟩

theorem mem_mapInsert_self {β : Type} (mp : List (Int × β)) (k : Int) (v : β) :
    (k, v) ∈ mapInsert mp k v := by
  unfold mapInsert
  exact List.mem_append_right _ (List.mem_singleton_self _)

/-- Making a vertex of `m` neighbors known and pushing it keeps the degree invariant. -/
theorem DegreeInv_insert {F : Type} (m : Nat) (st : SearchState F) (x : VertexWithDist F)
    (step : Int) (inv : DegreeInv m st) (hx : x.vertex.Neighbors.length = m) :
    DegreeInv m
      { st with knownVertices := mapInsert st.knownVertices x.vertex.Id x.vertex
                toBeExploredVertices := st.toBeExploredVertices ++ [x]
                reachStep := mapInsert st.reachStep x.vertex.Id step } := by
  constructor
  · intro e he
    rcases mem_mapInsert _ _ _ _ he with h | h
    · exact inv.known e h
    · rw [h]; exact hx
  · intro y hy
    simp only [List.mem_append, List.mem_singleton] at hy
    rcases hy with hy | hy
    · obtain ⟨e, he, hid⟩ := inv.queue y hy
      by_cases hk : e.1 = x.vertex.Id
      · exact ⟨(x.vertex.Id, x.vertex), mem_mapInsert_self _ _ _, by rw [← hid, hk]⟩
      · exact ⟨e, mem_mapInsert_of_mem _ _ _ _ he hk, hid⟩
    · rw [hy]
      exact ⟨(x.vertex.Id, x.vertex), mem_mapInsert_self _ _ _, rfl⟩

theorem fastStart_deg {F : Type} (inp : SearchInputs F) (queryVector : List F) (parallel : Nat)
    (st st' : SearchState F) (hperm : ∀ l, (inp.sortSort l).Perm l)
    (hstart : ∀ v, v ∈ inp.StartVertices → v.Neighbors.length = inp.m)
    (inv : DegreeInv inp.m st) (h : fastStart inp queryVector parallel st = some st') :
    DegreeInv inp.m st' ∧ st'.calls = st.calls := by
  unfold fastStart at h
  split at h
  · exact absurd h (by simp)
  · rename_i fq hfq
    have hvs : fq.map (fun x => x.vertex) = inp.StartVertices.map (fun v => v) :=
      mapM_map_rel _ _ _ (by
        intro a b hab
        cases hd : L2Dist inp.ops a.Vector queryVector with
        | none => rw [hd] at hab; exact absurd hab (by simp)
        | some d =>
          rw [hd] at hab
          simp only [Option.map_some', Option.some.injEq] at hab
          rw [← hab]) _ _ hfq
    rw [List.map_id'] at hvs
    simp only [Option.some.injEq] at h
    rw [← h]
    apply foldl_inv _ (fun s => DegreeInv inp.m s ∧ s.calls = st.calls) _ _ _ ⟨inv, rfl⟩
    intro s x hx ⟨hs, hc⟩
    have hx' : x.vertex ∈ inp.StartVertices := by
      rw [← hvs]
      exact List.mem_map_of_mem _ ((hperm fq).subset hx)
    split
    · split
      · exact ⟨hs, hc⟩
      · exact ⟨DegreeInv_insert inp.m s x 0 hs (hstart _ hx'), hc⟩
    · exact ⟨hs, hc⟩

/-- A round of the loop over `rept` adds `m` ids to the batch. -/
theorem exploreOne_deg {F : Type} (inp : SearchInputs F) (benchmarking : Bool)
    (acc acc' : SearchState F × List Int)
    (hpop : ∀ q item rest, inp.heapPop q = some (item, rest) → (item :: rest).Perm q)
    (inv : DegreeInv inp.m acc.1) (h : exploreOne inp benchmarking acc = some acc') :
    DegreeInv inp.m acc'.1 ∧ acc'.2.length = acc.2.length + inp.m ∧
      acc'.1.calls = acc.1.calls := by
  unfold exploreOne at h
  simp only [] at h
  split at h
  · split at h
    · exact absurd h (by simp)
    · simp only [Option.some.injEq] at h
      rw [← h]
      exact ⟨⟨inv.known, inv.queue⟩, by simp, rfl⟩
  · split at h
    · exact absurd h (by simp)
    · rename_i item rest hp
      simp only [Option.some.injEq] at h
      rw [← h]
      have hperm := hpop _ _ _ hp
      have hitem : item ∈ acc.1.toBeExploredVertices := hperm.subset (List.mem_cons_self _ _)
      obtain ⟨e, he, hid⟩ := inv.queue item hitem
      refine ⟨⟨inv.known, fun x hx => inv.queue x (hperm.subset (List.mem_cons_of_mem _ hx))⟩,
        ?_, rfl⟩
      simp only [List.length_append]
      congr 1
      cases hl : mapLookup acc.1.knownVertices item.vertex.Id with
      | none => exact absurd hid (mapLookup_none _ _ hl e he)
      | some v =>
        obtain ⟨e', he', hv⟩ := mapLookup_mem _ _ _ hl
        rw [← hv]
        exact inv.known e' he'

theorem absorb_deg {F : Type} (inp : SearchInputs F) (queryVector : List F) (step : Nat)
    (st st' : SearchState F) (v : Vertex F) (inv : DegreeInv inp.m st)
    (hv : v.Neighbors.length = inp.m) (h : absorb inp queryVector step st v = some st') :
    DegreeInv inp.m st' ∧ st'.calls = st.calls := by
  unfold absorb at h
  split at h
  · simp only [Option.some.injEq] at h
    rw [← h]; exact ⟨inv, rfl⟩
  · split at h
    · split at h
      · exact absurd h (by simp)
      · rename_i dist hd
        simp only [Option.some.injEq] at h
        rw [← h]
        exact ⟨DegreeInv_insert inp.m st ⟨dist, v⟩ step inv hv, rfl⟩
    · simp only [Option.some.injEq] at h
      rw [← h]; exact ⟨inv, rfl⟩

/-- A step of the search hands the provider one batch of `parallel * m` ids. -/
theorem searchStep_deg {F : Type} (inp : SearchInputs F) (queryVector : List F)
    (parallel : Nat) (benchmarking : Bool) (st st' : SearchState F) (step : Nat)
    (hpop : ∀ q item rest, inp.heapPop q = some (item, rest) → (item :: rest).Perm q)
    (hinfo : ∀ t batch vs, inp.GetVertexInfo t batch = some vs →
      ∀ v, v ∈ vs → v.Neighbors.length = inp.m)
    (inv : DegreeInv inp.m st)
    (h : searchStep inp queryVector parallel benchmarking st step = some st') :
    DegreeInv inp.m st' ∧
      ∃ b, st'.calls = st.calls ++ [b] ∧ b.length = parallel * inp.m := by
  unfold searchStep at h
  split at h
  · exact absurd h (by simp)
  · rename_i st1 batchQ hfold
    have hacc := foldlM_range_step (fun acc (_ : Nat) => exploreOne inp benchmarking acc)
      (fun j acc => DegreeInv inp.m acc.1 ∧ acc.2.length = j * inp.m ∧
        acc.1.calls = st.calls) parallel
      (by
        intro s j s' _ ⟨h1, h2, h3⟩ hs
        obtain ⟨g1, g2, g3⟩ := exploreOne_deg inp benchmarking s s' hpop h1 hs
        exact ⟨g1, by rw [g2, h2, Nat.succ_mul], by rw [g3, h3]⟩)
      (st, []) ⟨inv, by simp, rfl⟩ (st1, batchQ) hfold
    obtain ⟨d1, d2, d3⟩ := hacc
    simp only [] at d1 d2 d3
    split at h
    · exact absurd h (by simp)
    · rename_i vs hvs
      simp only [] at h
      cases benchmarking with
      | true =>
        simp only [if_true, Option.some.injEq] at h
        rw [← h]
        exact ⟨⟨d1.known, d1.queue⟩, batchQ, by simp [d3], d2⟩
      | false =>
        simp only [Bool.false_eq_true, if_false] at h
        have := foldlM_inv (absorb inp queryVector step)
          (fun s => DegreeInv inp.m s ∧ s.calls = st.calls ++ [batchQ]) vs
          (by
            intro s v s' hv ⟨h1, h2⟩ hs
            obtain ⟨g1, g2⟩ := absorb_deg inp queryVector step s s' v h1
              (hinfo step batchQ vs hvs v hv) hs
            exact ⟨g1, by rw [g2, h2]⟩)
          { st1 with calls := st1.calls ++ [batchQ] }
          ⟨⟨d1.known, d1.queue⟩, by simp [d3]⟩ st' h
        exact ⟨this.1, batchQ, this.2, d2⟩

/-- Every batch handed to the provider during the loops of `SearchKNN` holds `parallel * m`
ids. -/
theorem searchRun_deg {F : Type} (inp : SearchInputs F) (queryVector : List F)
    (maxStep parallel : Nat) (benchmarking : Bool) (st : SearchState F)
    (hperm : ∀ l, (inp.sortSort l).Perm l)
    (hpop : ∀ q item rest, inp.heapPop q = some (item, rest) → (item :: rest).Perm q)
    (hstart : ∀ v, v ∈ inp.StartVertices → v.Neighbors.length = inp.m)
    (hinfo : ∀ t batch vs, inp.GetVertexInfo t batch = some vs →
      ∀ v, v ∈ vs → v.Neighbors.length = inp.m)
    (h : searchRun inp queryVector maxStep parallel benchmarking = some st) :
    ∀ b, b ∈ st.calls → b.length = parallel * inp.m := by
  have inv0 : DegreeInv inp.m
      ({ knownVertices := [], reachStep := [], toBeExploredVertices := [], draws := 0,
         calls := [] } : SearchState F) :=
    ⟨fun e he => absurd he (by simp), fun x hx => absurd hx (by simp)⟩
  have hloop : ∀ st1 : SearchState F, DegreeInv inp.m st1 → st1.calls = [] →
      (List.range maxStep).foldlM (searchStep inp queryVector parallel benchmarking)
        st1 = some st → ∀ b, b ∈ st.calls → b.length = parallel * inp.m := by
    intro st1 h1 h2 hf
    have := foldlM_inv (searchStep inp queryVector parallel benchmarking)
      (fun s => DegreeInv inp.m s ∧ ∀ b, b ∈ s.calls → b.length = parallel * inp.m)
      (List.range maxStep)
      (by
        intro s j s' _ ⟨g1, g2⟩ hs
        obtain ⟨e1, b, e2, e3⟩ := searchStep_deg inp queryVector parallel benchmarking s s' j
          hpop hinfo g1 hs
        refine ⟨e1, ?_⟩
        intro b' hb'
        rw [e2] at hb'
        rcases List.mem_append.mp hb' with hb' | hb'
        · exact g2 b' hb'
        · rw [List.mem_singleton.mp hb']; exact e3)
      st1 ⟨h1, by rw [h2]; intro b hb; exact absurd hb (by simp)⟩ st hf
    exact this.2
  unfold searchRun at h
  simp only [] at h
  cases benchmarking with
  | true =>
    simp only [if_true] at h
    exact hloop _ inv0 rfl h
  | false =>
    simp only [Bool.false_eq_true, if_false] at h
    split at h
    · exact absurd h (by simp)
    · rename_i st1 hst1
      obtain ⟨g1, g2⟩ := fastStart_deg inp queryVector parallel _ st1 hperm hstart inv0 hst1
      exact hloop st1 g1 g2 h

theorem popLeast_perm (q : List (VertexWithDist Int)) :
    ∀ item rest, popLeast q = some (item, rest) → (item :: rest).Perm q := by
  induction q with
  | nil => intro item rest h; exact absurd h (by simp [popLeast])
  | cons x q ih =>
    intro item rest h
    unfold popLeast at h
    split at h
    · simp only [Option.some.injEq, Prod.mk.injEq] at h
      rename_i hq
      have hnil : q = [] := by
        cases q with
        | nil => rfl
        | cons y q =>
          obtain ⟨i, r, hir⟩ := popLeast_some (y :: q) (by simp)
          rw [hir] at hq
          exact absurd hq (by simp)
      rw [← h.1, ← h.2, hnil]
    · rename_i y rest' hq
      have hp := ih y rest' hq
      split at h
      · simp only [Option.some.injEq, Prod.mk.injEq] at h
        rw [← h.1, ← h.2]
        exact (List.Perm.swap x y rest').trans (hp.cons x)
      · simp only [Option.some.injEq, Prod.mk.injEq] at h
        rw [← h.1, ← h.2]

theorem demoSearch_degree : (∀ v, v ∈ demoSearch.StartVertices →
      v.Neighbors.length = demoSearch.m) ∧
    ∀ t batch vs, demoSearch.GetVertexInfo t batch = some vs →
      ∀ v, v ∈ vs → v.Neighbors.length = demoSearch.m := by
  refine ⟨by decide, ?_⟩
  intro t batch vs h v hv
  have hvs : vs = batch.map fun id => searchVertex (id.toNat % 5) := by
    have : some (batch.map fun id => searchVertex (id.toNat % 5)) = some vs := h
    exact (Option.some.inj this).symm
  rw [hvs] at hv
  obtain ⟨id, _, hid⟩ := List.mem_map.mp hv
  rw [← hid]
  have h5 : id.toNat % 5 < 5 := Nat.mod_lt _ (by norm_num)
  generalize id.toNat % 5 = i at h5
  interval_cases i <;> decide

/-! ## `ComputeRecall` -/

theorem any_range_getElem (row : List Int) (j : Nat) (x : Int) :
    (List.range j).any (fun l => row[l]? == some x) = (row.take j).contains x := by
  rw [Bool.eq_iff_iff]
  simp only [List.any_eq_true, List.mem_range, beq_iff_eq, List.contains_eq_any_beq]
  constructor
  · rintro ⟨l, hl, hx⟩
    refine ⟨x, ?_, rfl⟩
    rw [List.mem_iff_getElem?]
    exact ⟨l, by rw [List.getElem?_take, if_pos hl]; exact hx⟩
  · rintro ⟨y, h, hxy⟩
    rw [← hxy] at h
    obtain ⟨l, hl⟩ := List.mem_iff_getElem?.mp h
    rw [List.getElem?_take] at hl
    split at hl
    · rename_i hlt
      exact ⟨l, hlt, hl⟩
    · exact absurd hl (by simp)

theorem scanGnd_eq (x : Int) (g : List Int) :
    ∀ ls : List Nat, (∀ l, l ∈ ls → l < g.length) →
      scanGnd x g ls = some (ls.any fun l => g[l]? == some x) := by
  intro ls
  induction ls with
  | nil => intro _; rfl
  | cons l ls ih =>
    intro h
    have hl : l < g.length := h l (List.mem_cons_self _ _)
    unfold scanGnd
    simp only [List.any_cons]
    rw [List.getElem?_eq_getElem hl]
    by_cases hx : x = g[l]
    · simp [hx]
    · have hne : (some g[l] == some x) = false := by
        simp only [beq_eq_false_iff_ne, ne_eq, Option.some.injEq]
        exact fun h => hx h.symm
      rw [hne, Bool.false_or]
      have hne2 : (x == g[l]) = false := by simpa using hx
      simp only [hne2, Bool.false_eq_true, if_false]
      exact ih (fun l' hl' => h l' (List.mem_cons_of_mem _ hl'))

/-- The test of the specification at position `j` of the answers of a query. -/
theorem hitAt_eq (g row : List Int) (k j : Nat) (hj : j < k) (hrow : k ≤ row.length)
    (hg : k ≤ g.length) :
    ∃ x, row[j]? = some x ∧
      hitAt (some g) row k j = some (!(row.take j).contains x && (g.take k).contains x) := by
  have hjl : j < row.length := by omega
  refine ⟨row[j], List.getElem?_eq_getElem hjl, ?_⟩
  unfold hitAt
  rw [List.getElem?_eq_getElem hjl]
  simp only []
  rw [any_range_getElem]
  cases hc : (row.take j).contains row[j] with
  | true => simp
  | false =>
    simp only [Bool.false_eq_true, if_false, Bool.not_false, Bool.true_and]
    rw [scanGnd_eq _ _ _ (fun l hl => by have := List.mem_range.mp hl; omega),
      any_range_getElem]

theorem rowHits_loop (g row : List Int) (k : Nat) (hrow : k ≤ row.length) (hg : k ≤ g.length) :
    ∀ n, n ≤ k → (List.range n).foldlM (fun hit j =>
        (hitAt (some g) row k j).map fun b => if b then hit + 1 else hit) 0 =
      some ((List.range n).filter fun j =>
        match row[j]? with
        | none => false
        | some x => !(row.take j).contains x && (g.take k).contains x).length := by
  intro n
  induction n with
  | zero => intro _; rfl
  | succ n ih =>
    intro hn
    obtain ⟨x, hx, hhit⟩ := hitAt_eq g row k n (by omega) hrow hg
    rw [List.range_succ, List.foldlM_append, ih (by omega), List.filter_append,
      List.length_append]
    simp only [Option.bind_eq_bind, Option.some_bind, List.foldlM_cons, List.foldlM_nil,
      Option.pure_def, Option.bind_some]
    rw [hhit]
    simp only [Option.map_some', List.filter_cons, List.filter_nil, hx]
    cases (!(row.take n).contains x && (g.take k).contains x) with
    | true => simp
    | false => simp

/-- The loop of `ComputeRecall` over the answers of a query counts the number `hit_i` of the
specification. -/
theorem rowHits_eq (g row : List Int) (k : Nat) (hrow : k ≤ row.length) (hg : k ≤ g.length) :
    rowHits (some g) row k = some (specHit g row k) :=
  rowHits_loop g row k hrow hg k (Nat.le_refl k)

theorem specHit_le (g row : List Int) (k : Nat) : specHit g row k ≤ k := by
  unfold specHit
  calc _ ≤ (List.range k).length := List.length_filter_le _ _
    _ = k := List.length_range k

theorem ComputeRecall_loop {F : Type} (ops : RecallOps F) (gnd response : List (List Int))
    (k : Nat) (hr : ∀ row, row ∈ response → k ≤ row.length)
    (hgr : ∀ row, row ∈ gnd → k ≤ row.length) :
    ∀ n, n ≤ response.length → n ≤ gnd.length →
      (List.range n).foldlM (fun total i =>
        match response[i]? with
        | none => none
        | some row =>
          (rowHits gnd[i]? row k).map fun (hit : Nat) =>
            ops.add total (ops.div (ops.ofInt (hit : Int)) (ops.ofInt (k : Int))))
        (ops.ofInt 0) =
      some (((specHits gnd response k).take n).foldl (fun total (hit : Nat) =>
        ops.add total (ops.div (ops.ofInt (hit : Int)) (ops.ofInt (k : Int)))) (ops.ofInt 0)) := by
  intro n
  induction n with
  | zero => intro _ _; rfl
  | succ n ih =>
    intro h1 h2
    have hn1 : n < response.length := by omega
    have hn2 : n < gnd.length := by omega
    have hlen : n < (specHits gnd response k).length := by
      unfold specHits
      rw [List.length_zipWith]
      omega
    have hget : (specHits gnd response k)[n] = specHit gnd[n] response[n] k := by
      unfold specHits
      rw [List.getElem_zipWith]
    rw [List.range_succ, List.foldlM_append, ih (by omega) (by omega)]
    simp only [Option.bind_eq_bind, Option.some_bind, List.foldlM_cons, List.foldlM_nil,
      Option.pure_def, Option.bind_some]
    rw [List.getElem?_eq_getElem hn1, List.getElem?_eq_getElem hn2]
    simp only []
    rw [rowHits_eq _ _ _ (hr _ (List.getElem_mem _)) (hgr _ (List.getElem_mem _))]
    simp only [Option.map_some']
    rw [List.take_succ, List.getElem?_eq_getElem hlen, hget, List.foldl_append]
    rfl

/-- The result of `ComputeRecall` in terms of the numbers `hit_i`, for every behaviour of the
`float32` operations. -/
theorem ComputeRecall_eq {F : Type} (ops : RecallOps F) (gnd response : List (List Int))
    (k : Nat) (hg : response.length ≤ gnd.length)
    (hr : ∀ row, row ∈ response → k ≤ row.length)
    (hgr : ∀ row, row ∈ gnd → k ≤ row.length) :
    ComputeRecall ops gnd response k =
      some (ops.div
        (((specHits gnd response k).take response.length).foldl (fun total (hit : Nat) =>
          ops.add total (ops.div (ops.ofInt (hit : Int)) (ops.ofInt (k : Int)))) (ops.ofInt 0))
        (ops.ofInt (response.length : Int))) := by
  unfold ComputeRecall
  simp only []
  have := ComputeRecall_loop ops gnd response k hr hgr response.length (Nat.le_refl _) hg
  exact this ▸ rfl

theorem exactRecall_sum (k : Nat) (hk : 1 ≤ k) (hits : List Nat) :
    ∀ q : ℚ, hits.foldl (fun total (hit : Nat) =>
        exactRecall.add total (exactRecall.div (exactRecall.ofInt (hit : Int))
          (exactRecall.ofInt (k : Int)))) (some q) =
      some (q + (hits.map fun (h : Nat) => (h : ℚ) / (k : ℚ)).sum) := by
  have hk0 : ((k : Int) : ℚ) ≠ 0 := by
    have : (0 : ℚ) < ((k : Int) : ℚ) := by exact_mod_cast hk
    exact ne_of_gt this
  induction hits with
  | nil => intro q; simp
  | cons h hits ih =>
    intro q
    rw [List.foldl_cons]
    have : exactRecall.add (some q) (exactRecall.div (exactRecall.ofInt (h : Int))
        (exactRecall.ofInt (k : Int))) = some (q + (h : ℚ) / (k : ℚ)) := by
      show (match some q, (if ((k : Int) : ℚ) = 0 then none
          else some (((h : Int) : ℚ) / ((k : Int) : ℚ))) with
        | some x, some y => some (x + y)
        | _, _ => none) = _
      rw [if_neg hk0]
      simp
    rw [this, ih]
    simp only [List.map_cons, List.sum_cons]
    congr 1
    ring

theorem sum_ratio_bounds (k : Nat) (hk : 1 ≤ k) (hits : List Nat) (h : ∀ x, x ∈ hits → x ≤ k) :
    0 ≤ (hits.map fun (h : Nat) => (h : ℚ) / (k : ℚ)).sum ∧
      (hits.map fun (h : Nat) => (h : ℚ) / (k : ℚ)).sum ≤ (hits.length : ℚ) := by
  have hkq : (0 : ℚ) < (k : ℚ) := by exact_mod_cast hk
  induction hits with
  | nil => simp
  | cons x hits ih =>
    obtain ⟨i1, i2⟩ := ih (fun y hy => h y (List.mem_cons_of_mem _ hy))
    have hx : x ≤ k := h x (List.mem_cons_self _ _)
    have h0 : (0 : ℚ) ≤ (x : ℚ) / (k : ℚ) := div_nonneg (by exact_mod_cast Nat.zero_le x) hkq.le
    have h1 : (x : ℚ) / (k : ℚ) ≤ 1 := by
      rw [div_le_one hkq]
      exact_mod_cast hx
    simp only [List.map_cons, List.sum_cons, List.length_cons, Nat.cast_add, Nat.cast_one]
    constructor
    · linarith
    · linarith

/-! ## The hit hint of a query -/

/-- With a chunk size that is a power of two, the test of the scan is the condition of the
specification. -/
theorem isHit_iff_hitCondition (aes : Nat → Nat → Nat) (c : PianoPIRClient) (k : Nat)
    (hpow : c.config.ChunkSize = 2 ^ k) (hk : k ≤ 64) (idx h : Nat) :
    c.isHit aes (idx / c.config.ChunkSize) (idx % c.config.ChunkSize) h = true ↔
      c.hitCondition aes idx h := by
  unfold PianoPIRClient.isHit PianoPIRClient.hitCondition PianoPIRClient.hintOffset
  rw [and_chunkMask_eq_mod c.config k hpow hk]
  simp only [Bool.and_eq_true, Bool.or_eq_true, decide_eq_true_eq]

/-- The scan returns the first hint that passes the test. -/
theorem findHit_first (aes : Nat → Nat → Nat) (c : PianoPIRClient) (chunkId offset h : Nat)
    (hh : h < c.primaryHintNum) (hit : c.isHit aes chunkId offset h = true)
    (hfirst : ∀ i, i < h → c.isHit aes chunkId offset i = false) :
    c.findHit aes chunkId offset = h := by
  unfold PianoPIRClient.findHit
  have : (List.range c.primaryHintNum).find? (c.isHit aes chunkId offset) = some h := by
    rw [List.find?_range_eq_some]
    refine ⟨hit, List.mem_range.mpr hh, ?_⟩
    intro j hj
    rw [hfirst j hj]
    simp
  rw [this]
  rfl

/-- A real query for an index that is not cached, within the budgets, whose scan ends on a
hint other than `DefaultProgramPoint`: it is answered and the hint is refreshed. -/
theorem Query_hit (aes : Nat → Nat → Nat) (c : PianoPIRClient) (idx : Nat)
    (server : PianoPIRServer) (rand : Nat → Nat)
    (hidx : idx < c.config.DBSize) (hmiss : cacheLookup c.localCache idx = none)
    (hF : c.FinishedQueryNum < c.MaxQueryNum)
    (hQ : c.QueryHistogram.getD (idx / c.config.ChunkSize) 0 < c.maxQueryPerChunk)
    (hhit : c.findHit aes (idx / c.config.ChunkSize) (idx % c.config.ChunkSize) ≠
      DefaultProgramPoint) :
    ∃ r, c.Query aes idx server true rand = some r ∧ r.err = none ∧
      r.client = c.refresh
        (c.findHit aes (idx / c.config.ChunkSize) (idx % c.config.ChunkSize))
        (idx / c.config.ChunkSize) idx r.ret := by
  unfold PianoPIRClient.Query
  simp only [Bool.not_true, Bool.false_eq_true, if_false]
  rw [if_neg (by omega), hmiss]
  simp only []
  rw [if_neg (by omega), if_neg (by omega), if_neg hhit]
  exact ⟨_, rfl, PrivateQuery_eq _ _ ▸ rfl, rfl⟩

/-- A real query for an index that is not cached, within the budgets, whose scan ends on
`DefaultProgramPoint`: the error `no hit hint`, and the client as it was. -/
theorem Query_no_hit (aes : Nat → Nat → Nat) (c : PianoPIRClient) (idx : Nat)
    (server : PianoPIRServer) (rand : Nat → Nat)
    (hidx : idx < c.config.DBSize) (hmiss : cacheLookup c.localCache idx = none)
    (hF : c.FinishedQueryNum < c.MaxQueryNum)
    (hQ : c.QueryHistogram.getD (idx / c.config.ChunkSize) 0 < c.maxQueryPerChunk)
    (hhit : c.findHit aes (idx / c.config.ChunkSize) (idx % c.config.ChunkSize) =
      DefaultProgramPoint) :
    c.Query aes idx server true rand =
      some { client := c, ret := List.replicate c.config.DBEntrySize 0,
             err := some QueryError.noHitHint, sent := [] } := by
  unfold PianoPIRClient.Query
  simp only [Bool.not_true, Bool.false_eq_true, if_false]
  rw [if_neg (by omega), hmiss]
  simp only []
  rw [if_neg (by omega), if_neg (by omega), if_pos hhit]

/-! ## The configurations of the sub-PIRs do not change -/

theorem UpdatePreprocessing_config (aes : Nat → Nat → Nat) (rng : Nat → Nat)
    (c : PianoPIRClient) (chunkId : Nat) (chunk : Slice) (c' : PianoPIRClient)
    (h : c.UpdatePreprocessing aes rng chunkId chunk = some c') : c'.config = c.config := by
  unfold PianoPIRClient.UpdatePreprocessing at h
  split at h
  · exact absurd h (by simp)
  · simp only [Option.some.injEq] at h
    rw [← h]

/-- A run of `Preprocessing` that returns keeps the configuration. -/
theorem Preprocessing_config (aes : Nat → Nat → Nat) (key : Nat) (rng : Nat → Nat → Nat)
    (c0 : PianoPIRClient) (rawDB : Slice) (c : PianoPIRClient)
    (h : c0.Preprocessing aes key rng rawDB = some c) : c.config = c0.config := by
  have h2 := (Preprocessing_some aes key rng c0 c rawDB h).2
  split at h2
  · simp only [Option.some.injEq] at h2
    rw [← h2]; rfl
  · refine foldlM_inv _ (fun s => s.config = c0.config) _ ?_ _ rfl c h2
    intro s a s' _ hs hf
    exact (UpdatePreprocessing_config aes _ s a _ s' hf).trans hs

theorem PianoPIR_Preprocessing_config (aes : Nat → Nat → Nat) (key : Nat)
    (rng : Nat → Nat → Nat) (q q' : PianoPIR) (h : q.Preprocessing aes key rng = some q') :
    q'.client.config = q.client.config := by
  unfold PianoPIR.Preprocessing at h
  cases hc : q.client.Preprocessing aes key rng q.server.rawDB with
  | none => rw [hc] at h; exact absurd h (by simp)
  | some c =>
    rw [hc] at h
    simp only [Option.map_some', Option.some.injEq] at h
    rw [← h]
    exact Preprocessing_config aes key rng q.client q.server.rawDB c hc

theorem PianoPIR_DummyPreprocessing_config (q q' : PianoPIR) (key : Nat)
    (h : q.DummyPreprocessing key = some q') : q'.client.config = q.client.config := by
  obtain ⟨_, hq⟩ := DummyPreprocessing_some q q' key h
  rw [hq]; rfl

theorem PianoPIR_Query_config (aes : Nat → Nat → Nat) (q : PianoPIR) (idx : Nat)
    (realQuery : Bool) (key : Nat) (rng : Nat → Nat → Nat) (rand : Nat → Nat)
    (r : PIRQueryResult) (h : q.Query aes idx realQuery key rng rand = some r) :
    r.pir.client.config = q.client.config := by
  obtain ⟨c, r', hc, hq', hpir, _⟩ := PianoPIR_Query_cases aes q idx realQuery key rng rand r h
  rw [hpir]
  show r'.client.config = q.client.config
  rw [Query_config aes c idx q.server realQuery rand r' hq']
  rcases hc with ⟨_, hc⟩ | ⟨_, hc⟩
  · rw [hc]
  · exact Preprocessing_config aes key rng q.client q.server.rawDB c hc

theorem subConfigs_set (subs : List PianoPIR) (i : Nat) (q q' : PianoPIR)
    (hq : subs[i]? = some q) (hc : q'.client.config = q.client.config) :
    subConfigs (subs.set i q') = subConfigs subs := by
  unfold subConfigs
  apply List.ext_getElem?
  intro k
  rw [List.getElem?_map, List.getElem?_map, List.getElem?_set]
  by_cases hik : i = k
  · subst hik
    have hlt : i < subs.length := by
      by_contra hcon
      rw [List.getElem?_eq_none (by omega)] at hq
      exact absurd hq (by simp)
    rw [if_pos rfl, if_pos hlt, hq]
    simp [hc]
  · rw [if_neg hik]

theorem subConfigs_getElem (subs subs0 : List PianoPIR) (h : subConfigs subs = subConfigs subs0)
    (i : Nat) (q0 : PianoPIR) (hq0 : subs0[i]? = some q0) :
    ∃ q, subs[i]? = some q ∧ q.client.config = q0.client.config := by
  have h1 : (subConfigs subs)[i]? = (subConfigs subs0)[i]? := by rw [h]
  unfold subConfigs at h1
  rw [List.getElem?_map, List.getElem?_map, hq0] at h1
  cases hs : subs[i]? with
  | none => rw [hs] at h1; exact absurd h1 (by simp)
  | some q =>
    rw [hs] at h1
    simp only [Option.map_some', Option.some.injEq] at h1
    exact ⟨q, rfl, h1⟩

theorem preprocessPartition_configs (aes : Nat → Nat → Nat) (key : Nat → Nat)
    (rng : Nat → Nat → Nat → Nat) (subs : List PianoPIR) (i : Nat) (subs' : List PianoPIR)
    (h : preprocessPartition aes key rng subs i = some subs') :
    subConfigs subs' = subConfigs subs := by
  unfold preprocessPartition at h
  cases hs : subs[i]? with
  | none => rw [hs] at h; exact absurd h (by simp)
  | some sub =>
    rw [hs] at h
    simp only [] at h
    cases hp : sub.Preprocessing aes (key i) (rng i) with
    | none => rw [hp] at h; exact absurd h (by simp)
    | some sub' =>
      rw [hp] at h
      simp only [Option.map_some', Option.some.injEq] at h
      rw [← h]
      exact subConfigs_set subs i sub sub' hs
        (PianoPIR_Preprocessing_config aes _ _ sub sub' hp)

theorem preprocessPartitions_configs (aes : Nat → Nat → Nat) (key : Nat → Nat)
    (rng : Nat → Nat → Nat → Nat) (start stop : Nat) (subs subs' : List PianoPIR)
    (h : preprocessPartitions aes key rng start stop subs = some subs') :
    subConfigs subs' = subConfigs subs := by
  unfold preprocessPartitions at h
  refine foldlM_inv _ (fun s => subConfigs s = subConfigs subs) _ ?_ subs rfl subs' h
  intro s k s' _ hs hf
  exact (preprocessPartition_configs aes key rng s (start + k) s' hf).trans hs

/-- A run of `SimpleBatchPianoPIR.Preprocessing` that returns keeps the configuration of the
batch and of every sub-PIR. -/
theorem Batch_Preprocessing_configs (aes : Nat → Nat → Nat) (key : Nat → Nat)
    (rng : Nat → Nat → Nat → Nat) (p p' : SimpleBatchPianoPIR)
    (h : p.Preprocessing aes key rng = some p') :
    p'.config = p.config ∧ subConfigs p'.subPIR = subConfigs p.subPIR := by
  unfold SimpleBatchPianoPIR.Preprocessing at h
  split at h
  · exact absurd h (by simp)
  · simp only [] at h
    split at h
    · exact absurd h (by simp)
    · rename_i subs hsubs
      split at h
      · exact absurd h (by simp)
      · simp only [Option.some.injEq] at h
        rw [← h]
        refine ⟨rfl, ?_⟩
        refine foldlM_inv _ (fun s => subConfigs s = subConfigs p.subPIR) _ ?_ p.subPIR rfl
          subs hsubs
        intro s tid s' _ hs hf
        exact (preprocessPartitions_configs aes key rng _ _ s s' hf).trans hs

theorem Batch_DummyPreprocessing_configs (key : Nat → Nat) (p p' : SimpleBatchPianoPIR)
    (h : p.DummyPreprocessing key = some p') :
    p'.config = p.config ∧ subConfigs p'.subPIR = subConfigs p.subPIR := by
  unfold SimpleBatchPianoPIR.DummyPreprocessing at h
  split at h
  · exact absurd h (by simp)
  · rename_i subs hsubs
    split at h
    · exact absurd h (by simp)
    · simp only [Option.some.injEq] at h
      rw [← h]
      refine ⟨rfl, ?_⟩
      refine foldlM_inv _ (fun s => subConfigs s = subConfigs p.subPIR) _ ?_ p.subPIR rfl
        subs hsubs
      intro s i s' _ hs hf
      simp only [] at hf
      cases hq : s[i]? with
      | none => rw [hq] at hf; exact absurd hf (by simp)
      | some sub =>
        rw [hq] at hf
        simp only [] at hf
        cases hd : sub.DummyPreprocessing (key i) with
        | none => rw [hd] at hf; exact absurd hf (by simp)
        | some sub' =>
          rw [hd] at hf
          simp only [Option.map_some', Option.some.injEq] at hf
          rw [← hf]
          exact (subConfigs_set s i sub sub' hq
            (PianoPIR_DummyPreprocessing_config sub sub' _ hd)).trans hs

theorem subQuery_configs (aes : Nat → Nat → Nat) (config : SimpleBatchPianoPIRConfig)
    (rnd : BatchDraws) (bucket : List Nat) (i : Nat) (st : BatchLoopState) (j : Nat)
    (st' : BatchLoopState) (h : subQuery aes config rnd bucket i st j = some st') :
    subConfigs st'.subPIR = subConfigs st.subPIR := by
  unfold subQuery at h
  cases hs : st.subPIR[i]? with
  | none => rw [hs] at h; exact absurd h (by simp)
  | some sub =>
    rw [hs] at h
    simp only [] at h
    split at h
    · split at h
      · exact absurd h (by simp)
      · rename_i r hr
        simp only [Option.some.injEq] at h
        rw [← h]
        exact subConfigs_set _ i sub r.pir hs (PianoPIR_Query_config aes sub _ _ _ _ _ r hr)
    · split at h
      · exact absurd h (by simp)
      · rename_i r hr
        simp only [Option.some.injEq] at h
        rw [← h]
        exact subConfigs_set _ i sub r.pir hs (PianoPIR_Query_config aes sub _ _ _ _ _ r hr)

theorem queryPartition_configs (aes : Nat → Nat → Nat) (config : SimpleBatchPianoPIRConfig)
    (rnd : BatchDraws) (bucket : List Nat) (queryNumToMake i : Nat)
    (st st' : BatchLoopState)
    (h : queryPartition aes config rnd bucket queryNumToMake i st = some st') :
    subConfigs st'.subPIR = subConfigs st.subPIR := by
  unfold queryPartition at h
  refine foldlM_inv _ (fun s => subConfigs s.subPIR = subConfigs st.subPIR) _ ?_ st rfl st' h
  intro s j s' _ hs hf
  exact (subQuery_configs aes config rnd bucket i s j s' hf).trans hs

/-- A call of `SimpleBatchPianoPIR.Query` that returns keeps the configuration of the batch
and of every sub-PIR. -/
theorem Batch_Query_configs (aes : Nat → Nat → Nat) (p : SimpleBatchPianoPIR)
    (idx : List Nat) (rnd : BatchDraws) (r : BatchQueryResult)
    (h : p.Query aes idx rnd = some r) :
    r.pir.config = p.config ∧ subConfigs r.pir.subPIR = subConfigs p.subPIR := by
  unfold SimpleBatchPianoPIR.Query at h
  split at h
  · exact absurd h (by simp)
  split at h
  · exact absurd h (by simp)
  simp only [] at h
  split at h
  · exact absurd h (by simp)
  · rename_i st hst
    have hcfg : subConfigs st.subPIR = subConfigs p.subPIR := by
      refine foldlM_inv _ (fun s => subConfigs s.subPIR = subConfigs p.subPIR) _ ?_ _ rfl st hst
      intro s i s' _ hs hf
      exact (queryPartition_configs aes p.config rnd _ _ i s s' hf).trans hs
    split at h
    · exact absurd h (by simp)
    · split at h
      · split at h
        · exact absurd h (by simp)
        · rename_i p' hp'
          simp only [Option.some.injEq] at h
          rw [← h]
          obtain ⟨g1, g2⟩ := Batch_Preprocessing_configs aes _ _ _ p' hp'
          exact ⟨g1, g2.trans hcfg⟩
      · simp only [Option.some.injEq] at h
        rw [← h]
        exact ⟨rfl, hcfg⟩

/-- Along every run of `Preprocessing`, `DummyPreprocessing` and `Query` the configuration of
the batch and the configurations of the sub-PIRs stay as they were built. -/
theorem BatchReach_configs (aes : Nat → Nat → Nat) (p0 p : SimpleBatchPianoPIR)
    (hr : BatchReach aes p0 p) :
    p.config = p0.config ∧ subConfigs p.subPIR = subConfigs p0.subPIR := by
  induction hr with
  | refl => exact ⟨rfl, rfl⟩
  | prep p' p'' key rng _ hp ih =>
    obtain ⟨g1, g2⟩ := Batch_Preprocessing_configs aes key rng p' p'' hp
    exact ⟨g1.trans ih.1, g2.trans ih.2⟩
  | dummy p' p'' key _ hp ih =>
    obtain ⟨g1, g2⟩ := Batch_DummyPreprocessing_configs key p' p'' hp
    exact ⟨g1.trans ih.1, g2.trans ih.2⟩
  | query p' idx rnd r _ hq ih =>
    obtain ⟨g1, g2⟩ := Batch_Query_configs aes p' idx rnd r hq
    exact ⟨g1.trans ih.1, g2.trans ih.2⟩

/-- The parts of the instance that `NewSimpleBatchPianoPIR` returns, when the sum
`DBSize + PartitionNum - 1` does not wrap around: the sub-PIR of partition `i` is built for
`min((i+1)·PartitionSize, DBSize) - i·PartitionSize` entries, a `uint64` difference. -/
theorem NewSimpleBatch_subPIR_sizes (fl : FloatValues) (DBSize DBEntryByteNum BatchSize : Nat)
    (rawDB : Slice) (FailureProbLog2 : Nat) (key key2 : Nat → Nat) (p : SimpleBatchPianoPIR)
    (hN : DBSize + BatchSize / 2 ≤ 2 ^ 64)
    (h : NewSimpleBatchPianoPIR fl DBSize DBEntryByteNum BatchSize rawDB FailureProbLog2 key
      key2 = some p) :
    0 < BatchSize / 2 ∧ p.config.DBSize = DBSize ∧ p.config.PartitionNum = BatchSize / 2 ∧
      p.config.PartitionSize = (DBSize + BatchSize / 2 - 1) / (BatchSize / 2) ∧
      p.subPIR.length = BatchSize / 2 ∧
      ∀ i q, p.subPIR[i]? = some q →
        q.client.config.DBSize =
          (min ((i + 1) * ((DBSize + BatchSize / 2 - 1) / (BatchSize / 2))) DBSize + 2 ^ 64 -
            i * ((DBSize + BatchSize / 2 - 1) / (BatchSize / 2))) % 2 ^ 64 := by
  unfold NewSimpleBatchPianoPIR at h
  simp only [] at h
  split at h
  · exact absurd h (by simp)
  · split at h
    · exact absurd h (by simp)
    · rename_i hP
      have hP' : 0 < BatchSize / 2 := Nat.pos_of_ne_zero hP
      have hwrap : (DBSize + BatchSize / RealQueryPerPartition - 1) % 2 ^ 64 =
          DBSize + BatchSize / RealQueryPerPartition - 1 := by
        apply Nat.mod_eq_of_lt
        show DBSize + BatchSize / 2 - 1 < 2 ^ 64
        omega
      rw [hwrap] at h
      cases hm : (List.range (BatchSize / RealQueryPerPartition)).mapM (fun i =>
          if i * ((DBSize + BatchSize / RealQueryPerPartition - 1) /
                (BatchSize / RealQueryPerPartition)) * (DBEntryByteNum / 8) >
              min ((i + 1) * ((DBSize + BatchSize / RealQueryPerPartition - 1) /
                (BatchSize / RealQueryPerPartition))) DBSize * (DBEntryByteNum / 8) ∨
              rawDB.len < min ((i + 1) * ((DBSize + BatchSize / RealQueryPerPartition - 1) /
                (BatchSize / RealQueryPerPartition))) DBSize * (DBEntryByteNum / 8) then none
          else NewPianoPIR fl
            ((min ((i + 1) * ((DBSize + BatchSize / RealQueryPerPartition - 1) /
                (BatchSize / RealQueryPerPartition))) DBSize + 2 ^ 64 -
              i * ((DBSize + BatchSize / RealQueryPerPartition - 1) /
                (BatchSize / RealQueryPerPartition))) % 2 ^ 64) DBEntryByteNum
            (rawDB.subslice
              (i * ((DBSize + BatchSize / RealQueryPerPartition - 1) /
                (BatchSize / RealQueryPerPartition)) * (DBEntryByteNum / 8))
              (min ((i + 1) * ((DBSize + BatchSize / RealQueryPerPartition - 1) /
                (BatchSize / RealQueryPerPartition))) DBSize * (DBEntryByteNum / 8)))
            FailureProbLog2 (key i) (key2 i)) with
      | none => rw [hm] at h; exact absurd h (by simp)
      | some subs =>
        rw [hm] at h
        simp only [Option.map_some', Option.some.injEq] at h
        obtain ⟨hlen, hget⟩ := mapM_some _ _ _ hm
        rw [← h]
        refine ⟨hP', rfl, rfl, rfl, by rw [hlen, List.length_range]; rfl, ?_⟩
        intro i q hq
        have hq' : subs[i]? = some q := hq
        have hi : i < BatchSize / 2 := by
          have : i < subs.length := by
            by_contra hc
            rw [List.getElem?_eq_none (by omega)] at hq'
            exact absurd hq' (by simp)
          rw [hlen, List.length_range] at this
          exact this
        have hf := hget i i q (List.getElem?_range hi) hq'
        simp only [] at hf
        split at hf
        · exact absurd hf (by simp)
        · obtain ⟨g1, _, g3, _⟩ := NewPianoPIR_some _ _ _ _ _ _ _ q hf
          rw [g3, g1]
          rfl

/-! ## The claims -/

/-- Claim C6: for every offsets vector of length `SetSize`, `PrivateQuery` returns, with a nil
error, the word-wise XOR over the chunks `i` of the entry of `rawDB` at absolute index
`i*ChunkSize + offsets[i]`, a term whose index is `DBSize` or more counting as the zero entry;
every index of the loop is in range (`offsets[i]` exists, and a selected entry lies inside
`rawDB` when `rawDB` holds `DBSize` entries). -/
theorem PrivateQuery_xor_of_entries (s : PianoPIRServer) (offsets : List Nat)
    (hlen : offsets.length = s.config.SetSize)
    (hdb : s.rawDB.len = s.config.DBSize * s.config.DBEntrySize) :
    s.PrivateQuery offsets =
        (xorOver s.config.DBEntrySize (List.range s.config.SetSize) (fun i =>
          paddedEntry s.rawDB s.config.DBEntrySize s.config.DBSize
            (i * s.config.ChunkSize + offsets.getD i 0)), none) ∧
      ∀ i, i < s.config.SetSize → i < offsets.length ∧
        (i * s.config.ChunkSize + offsets.getD i 0 < s.config.DBSize →
          (i * s.config.ChunkSize + offsets.getD i 0 + 1) * s.config.DBEntrySize ≤ s.rawDB.len) := by
  refine ⟨PrivateQuery_eq s offsets, ?_⟩
  intro i hi
  refine ⟨by omega, ?_⟩
  intro hlt
  rw [hdb]
  exact Nat.mul_le_mul_right _ hlt

/-- Witness of `PrivateQuery_xor_of_entries` on the seven-entry database. -/
theorem PrivateQuery_xor_of_entries_witness :
    ([1, 0, 1, 1] : List Nat).length = demoServer.config.SetSize ∧
      demoServer.rawDB.len = demoServer.config.DBSize * demoServer.config.DBEntrySize ∧
      demoServer.PrivateQuery [1, 0, 1, 1] =
        (xorOver 1 (List.range 4) (fun i =>
          paddedEntry demoDB 1 7 (i * 2 + ([1, 0, 1, 1] : List Nat).getD i 0)), none) :=
  ⟨by decide, by decide, (PrivateQuery_xor_of_entries demoServer [1, 0, 1, 1] rfl rfl).1⟩

/-- Claim C4: after `Preprocessing(rawDB)`, the parity of every primary hint `i` is the
word-wise XOR over all chunks `ch` in `[0, SetSize)` of the entry of the zero-padded database
at index `ch*ChunkSize + (PRF(longKey, shortTag_i, ch) mod ChunkSize)`.  With entries of at
least one word (`hE`; with `DBEntrySize = 0` the run of `Initialization` panics) the call
returns. -/
theorem Preprocessing_primaryParity (aes : Nat → Nat → Nat) (key : Nat) (rng : Nat → Nat → Nat)
    (c0 : PianoPIRClient) (rawDB : Slice) (k : Nat)
    (hpow : c0.config.ChunkSize = 2 ^ k) (hk : k < 64) (hskip : c0.skipPrep = false)
    (hE : 0 < c0.config.DBEntrySize)
    (hdb : rawDB.len = c0.config.DBSize * c0.config.DBEntrySize) :
    ∃ c, c0.Preprocessing aes key rng rawDB = some c ∧
      ∀ i, i < c0.primaryHintNum →
        slice c.primaryParity (i * c0.config.DBEntrySize) ((i + 1) * c0.config.DBEntrySize) =
          xorOver c0.config.DBEntrySize (List.range c0.config.SetSize) (fun ch =>
            paddedEntry rawDB c0.config.DBEntrySize c0.config.DBSize
              (ch * c0.config.ChunkSize +
                PRFEvalWithLongKeyAndTag aes c.longKey (c.primaryShortTag.getD i 0) ch %
                  c0.config.ChunkSize)) := by
  have h0 : 0 < c0.config.ChunkSize := by rw [hpow]; exact Nat.pow_pos (by decide)
  have h1 : c0.config.ChunkSize ≤ 2 ^ 64 := by
    rw [hpow]; exact Nat.pow_le_pow_right (by decide) (by omega)
  obtain ⟨c, hc, inv⟩ := Preprocessing_inv aes key rng c0 rawDB hskip
    (Initialization_of_pos c0 key hE) hdb h0 h1
  have hcfg : c.config = c0.config := congrArg (·.config) inv.frame
  have hH : c.primaryHintNum = c0.primaryHintNum := congrArg (·.primaryHintNum) inv.frame
  refine ⟨c, hc, ?_⟩
  intro i hi
  have := inv.par i (by rw [hH]; exact hi)
  simp only [setEntry_eq_mod aes c rawDB k (by rw [hcfg]; exact hpow) hk] at this
  rw [hcfg] at this
  exact this

/-- Witness of `Preprocessing_primaryParity` on the seven-entry database. -/
theorem Preprocessing_primaryParity_witness :
    demoClient.config.ChunkSize = 2 ^ 1 ∧ demoClient.skipPrep = false ∧
      0 < demoClient.config.DBEntrySize ∧
      demoDB.len = demoClient.config.DBSize * demoClient.config.DBEntrySize ∧
      ∃ c, demoClient.Preprocessing demoAes 1 demoRng demoDB = some c ∧
        ∀ i, i < demoClient.primaryHintNum →
          slice c.primaryParity (i * demoClient.config.DBEntrySize)
              ((i + 1) * demoClient.config.DBEntrySize) =
            xorOver demoClient.config.DBEntrySize (List.range demoClient.config.SetSize) (fun ch =>
              paddedEntry demoDB demoClient.config.DBEntrySize demoClient.config.DBSize
                (ch * demoClient.config.ChunkSize +
                  PRFEvalWithLongKeyAndTag demoAes c.longKey (c.primaryShortTag.getD i 0) ch %
                    demoClient.config.ChunkSize)) :=
  ⟨rfl, rfl, by decide, rfl,
    Preprocessing_primaryParity demoAes 1 demoRng demoClient demoDB 1 rfl (by decide) rfl
      (by decide) rfl⟩

/-- Claim C5: after `Preprocessing(rawDB)`, for every chunk `ch` and slot `j` the backup
parity of `(ch, j)` is the XOR over all chunks `ch'` other than `ch` of the entry of the
zero-padded database at `ch'*ChunkSize + (PRF(longKey, backupShortTag_{ch,j}, ch') mod
ChunkSize)`: chunk `ch` itself contributes nothing.  With entries of at least one word (`hE`;
with `DBEntrySize = 0` the run of `Initialization` panics) the call returns. -/
theorem Preprocessing_backupParity (aes : Nat → Nat → Nat) (key : Nat) (rng : Nat → Nat → Nat)
    (c0 : PianoPIRClient) (rawDB : Slice) (k : Nat)
    (hpow : c0.config.ChunkSize = 2 ^ k) (hk : k < 64) (hskip : c0.skipPrep = false)
    (hE : 0 < c0.config.DBEntrySize)
    (hdb : rawDB.len = c0.config.DBSize * c0.config.DBEntrySize) :
    ∃ c, c0.Preprocessing aes key rng rawDB = some c ∧
      ∀ ch, ch < c0.config.SetSize → ∀ j, j < c0.maxQueryPerChunk →
        slice (c.backupParity.getD ch []) (j * c0.config.DBEntrySize)
            ((j + 1) * c0.config.DBEntrySize) =
          xorOver c0.config.DBEntrySize ((List.range c0.config.SetSize).filter fun ch' => ch' ≠ ch)
            (fun ch' =>
              paddedEntry rawDB c0.config.DBEntrySize c0.config.DBSize
                (ch' * c0.config.ChunkSize +
                  PRFEvalWithLongKeyAndTag aes c.longKey ((c.backupShortTag.getD ch []).getD j 0)
                    ch' % c0.config.ChunkSize)) := by
  have h0 : 0 < c0.config.ChunkSize := by rw [hpow]; exact Nat.pow_pos (by decide)
  have h1 : c0.config.ChunkSize ≤ 2 ^ 64 := by
    rw [hpow]; exact Nat.pow_le_pow_right (by decide) (by omega)
  obtain ⟨c, hc, inv⟩ := Preprocessing_inv aes key rng c0 rawDB hskip
    (Initialization_of_pos c0 key hE) hdb h0 h1
  have hcfg : c.config = c0.config := congrArg (·.config) inv.frame
  have hQ : c.maxQueryPerChunk = c0.maxQueryPerChunk := congrArg (·.maxQueryPerChunk) inv.frame
  refine ⟨c, hc, ?_⟩
  intro ch hch j hj
  have := inv.bpar ch (by rw [hcfg]; exact hch) j (by rw [hQ]; exact hj)
  simp only [setEntry_eq_mod aes c rawDB k (by rw [hcfg]; exact hpow) hk] at this
  rw [hcfg] at this
  exact this

/-- Witness of `Preprocessing_backupParity` on the seven-entry database. -/
theorem Preprocessing_backupParity_witness :
    demoClient.config.ChunkSize = 2 ^ 1 ∧ demoClient.skipPrep = false ∧
      0 < demoClient.config.DBEntrySize ∧
      demoDB.len = demoClient.config.DBSize * demoClient.config.DBEntrySize ∧
      ∃ c, demoClient.Preprocessing demoAes 1 demoRng demoDB = some c ∧
        ∀ ch, ch < demoClient.config.SetSize → ∀ j, j < demoClient.maxQueryPerChunk →
          slice (c.backupParity.getD ch []) (j * demoClient.config.DBEntrySize)
              ((j + 1) * demoClient.config.DBEntrySize) =
            xorOver demoClient.config.DBEntrySize
              ((List.range demoClient.config.SetSize).filter fun ch' => ch' ≠ ch)
              (fun ch' =>
                paddedEntry demoDB demoClient.config.DBEntrySize demoClient.config.DBSize
                  (ch' * demoClient.config.ChunkSize +
                    PRFEvalWithLongKeyAndTag demoAes c.longKey
                      ((c.backupShortTag.getD ch []).getD j 0) ch' %
                      demoClient.config.ChunkSize)) :=
  ⟨rfl, rfl, by decide, rfl,
    Preprocessing_backupParity demoAes 1 demoRng demoClient demoDB 1 rfl (by decide) rfl
      (by decide) rfl⟩

/-- Claim C10: for every `idx`, also one that is `DBSize` or more, a dummy query (`realQuery`
false) hands the server exactly one vector of exactly `SetSize` offsets, each below `ChunkSize`,
returns the all-zero entry of `DBEntrySize` words with a nil error, and leaves the client as it
was. -/
theorem Query_dummy (aes : Nat → Nat → Nat) (c : PianoPIRClient) (idx : Nat)
    (server : PianoPIRServer) (rand : Nat → Nat)
    (h0 : 0 < c.config.ChunkSize) (h1 : c.config.ChunkSize < 2 ^ 64) :
    ∃ offsets, c.Query aes idx server false rand =
        some { client := c, ret := zeroEntry c.config.DBEntrySize, err := none,
               sent := [offsets] } ∧
      offsets.length = c.config.SetSize ∧ ∀ o, o ∈ offsets → o < c.config.ChunkSize := by
  refine ⟨(List.range c.config.SetSize).map fun i => toUint32 (rand i &&& chunkMask c.config),
    ?_, by simp, ?_⟩
  · simp [PianoPIRClient.Query, PrivateQuery_eq, zeroEntry]
  · intro o ho
    obtain ⟨i, _, rfl⟩ := List.mem_map.mp ho
    exact Nat.lt_of_le_of_lt (toUint32_le _) (and_chunkMask_lt c.config h0 (by omega) _)

/-- Claim C8: a real query for an index in range that is not cached and meets one of the three
failures (`FinishedQueryNum ≥ MaxQueryNum`, `QueryHistogram[chunk] ≥ maxQueryPerChunk`, no
primary hint passes the hit test) returns the all-zero entry of `DBEntrySize` words with a
non-nil error, hands nothing to the server and leaves the client as it was. -/
theorem Query_failure (aes : Nat → Nat → Nat) (c : PianoPIRClient) (idx : Nat)
    (server : PianoPIRServer) (rand : Nat → Nat)
    (hidx : idx < c.config.DBSize) (hmiss : cacheLookup c.localCache idx = none)
    (hfail : c.FinishedQueryNum ≥ c.MaxQueryNum ∨
      c.QueryHistogram.getD (idx / c.config.ChunkSize) 0 ≥ c.maxQueryPerChunk ∨
      ∀ i, i < c.primaryHintNum →
        c.isHit aes (idx / c.config.ChunkSize) (idx % c.config.ChunkSize) i = false) :
    ∃ e, c.Query aes idx server true rand =
      some { client := c, ret := zeroEntry c.config.DBEntrySize, err := some e, sent := [] } := by
  have hidx' : ¬ (idx ≥ c.config.DBSize) := by omega
  unfold PianoPIRClient.Query
  simp only [Bool.not_true, Bool.false_eq_true, if_false, hidx', hmiss, zeroEntry]
  by_cases hF : c.FinishedQueryNum ≥ c.MaxQueryNum
  · exact ⟨_, by rw [if_pos hF]⟩
  · rw [if_neg hF]
    by_cases hQ : c.QueryHistogram.getD (idx / c.config.ChunkSize) 0 ≥ c.maxQueryPerChunk
    · exact ⟨_, by rw [if_pos hQ]⟩
    · rw [if_neg hQ]
      have hno : ∀ i, i < c.primaryHintNum →
          c.isHit aes (idx / c.config.ChunkSize) (idx % c.config.ChunkSize) i = false := by
        rcases hfail with h | h | h
        · exact absurd h hF
        · exact absurd h hQ
        · exact h
      exact ⟨_, by rw [if_pos (findHit_eq_default_of_forall aes c _ _ hno)]⟩

/-- Claim C3: once a real `Query(idx)` has returned without error, or has handed a request to
the server, then in every state that later calls of `Query` of the same epoch lead to, a real
`Query(idx)` returns the same entry with a nil error, hands nothing to the server and leaves the
client as it was; so the server receives at most one request for each index in an epoch. -/
theorem Query_cached_idempotent (aes : Nat → Nat → Nat) (server : PianoPIRServer)
    (c : PianoPIRClient) (idx : Nat) (rand : Nat → Nat) (r : QueryResult)
    (hq : c.Query aes idx server true rand = some r) (hok : r.err = none ∨ r.sent ≠ [])
    (c' : PianoPIRClient) (hr : QueryReach aes server r.client c') (rand' : Nat → Nat) :
    c'.Query aes idx server true rand' =
      some { client := c', ret := r.ret, err := none, sent := [] } := by
  have hidx : ¬ (idx ≥ c.config.DBSize) := by
    intro hge
    simp [PianoPIRClient.Query, hge] at hq
  have hbad : ∀ (e : QueryError) (v : List Nat),
      r = { client := c, ret := v, err := some e, sent := [] } → False := by
    intro e v hr'
    rw [hr'] at hok
    rcases hok with h | h
    · exact absurd h (by simp)
    · exact h rfl
  have hcached : cacheLookup r.client.localCache idx = some r.ret := by
    unfold PianoPIRClient.Query at hq
    simp only [Bool.not_true, Bool.false_eq_true, if_false, hidx] at hq
    split at hq
    · rename_i v hv
      simp only [Option.some.injEq] at hq
      rw [← hq]; exact hv
    · split at hq
      · simp only [Option.some.injEq] at hq
        exact absurd (hbad _ _ hq.symm) id
      · split at hq
        · simp only [Option.some.injEq] at hq
          exact absurd (hbad _ _ hq.symm) id
        · split at hq
          · simp only [Option.some.injEq] at hq
            exact absurd (hbad _ _ hq.symm) id
          · simp only [Option.some.injEq] at hq
            rw [← hq]
            exact cacheLookup_cacheInsert_self _ _ _
  obtain ⟨h1, h2⟩ := QueryReach_cache aes server r.client c' hr idx r.ret hcached
  have hcfg : c'.config = c.config := by
    rw [h2, Query_config aes c idx server true rand r hq]
  have hidx' : ¬ (idx ≥ c'.config.DBSize) := by rw [hcfg]; exact hidx
  unfold PianoPIRClient.Query
  simp only [Bool.not_true, Bool.false_eq_true, if_false, hidx', h1]

/-- Claim C7: a real query for an uncached index `idx` of chunk `ch` that passes the two budget
checks and finds the hit hint `h`, with `j = QueryHistogram[ch]`, returns without error and
changes the client exactly so: `shortTag_h` becomes `backupShortTag_{ch,j}`, `parity_h` becomes
`backupParity_{ch,j}` XOR the response, `programPoint_h` becomes `idx`, `FinishedQueryNum` and
`QueryHistogram[ch]` grow by one, `cache[idx]` is the response; the other primary hints, the
other counters and cache entries, the backup tags and parities, the replacement indices and
values and all remaining fields are unchanged. -/
theorem Query_success_effect (aes : Nat → Nat → Nat) (c : PianoPIRClient) (idx : Nat)
    (server : PianoPIRServer) (rand : Nat → Nat)
    (hT : c.primaryShortTag.length = c.primaryHintNum)
    (hP : c.primaryParity.length = c.primaryHintNum * c.config.DBEntrySize)
    (hPP : c.primaryProgramPoint.length = c.primaryHintNum)
    (hHist : idx / c.config.ChunkSize < c.QueryHistogram.length)
    (hB : (c.backupParity.getD (idx / c.config.ChunkSize) []).length =
      c.maxQueryPerChunk * c.config.DBEntrySize)
    (hidx : idx < c.config.DBSize) (hmiss : cacheLookup c.localCache idx = none)
    (hF : c.FinishedQueryNum < c.MaxQueryNum)
    (hQ : c.QueryHistogram.getD (idx / c.config.ChunkSize) 0 < c.maxQueryPerChunk)
    (hhit : c.findHit aes (idx / c.config.ChunkSize) (idx % c.config.ChunkSize) ≠
      DefaultProgramPoint) :
    ∃ r, c.Query aes idx server true rand = some r ∧ r.err = none ∧
      (∀ i, r.client.primaryShortTag.getD i 0 =
        if i = c.findHit aes (idx / c.config.ChunkSize) (idx % c.config.ChunkSize) then
          (c.backupShortTag.getD (idx / c.config.ChunkSize) []).getD
            (c.QueryHistogram.getD (idx / c.config.ChunkSize) 0) 0
        else c.primaryShortTag.getD i 0) ∧
      (∀ i, i < c.primaryHintNum →
        slice r.client.primaryParity (i * c.config.DBEntrySize) ((i + 1) * c.config.DBEntrySize) =
        if i = c.findHit aes (idx / c.config.ChunkSize) (idx % c.config.ChunkSize) then
          EntryXor
            (slice (c.backupParity.getD (idx / c.config.ChunkSize) [])
              (c.QueryHistogram.getD (idx / c.config.ChunkSize) 0 * c.config.DBEntrySize)
              ((c.QueryHistogram.getD (idx / c.config.ChunkSize) 0 + 1) * c.config.DBEntrySize))
            r.ret c.config.DBEntrySize
        else slice c.primaryParity (i * c.config.DBEntrySize) ((i + 1) * c.config.DBEntrySize)) ∧
      r.client.primaryParity.length = c.primaryParity.length ∧
      (∀ i, r.client.primaryProgramPoint.getD i 0 =
        if i = c.findHit aes (idx / c.config.ChunkSize) (idx % c.config.ChunkSize) then idx
        else c.primaryProgramPoint.getD i 0) ∧
      r.client.FinishedQueryNum = c.FinishedQueryNum + 1 ∧
      (∀ ch, r.client.QueryHistogram.getD ch 0 =
        if ch = idx / c.config.ChunkSize then c.QueryHistogram.getD ch 0 + 1
        else c.QueryHistogram.getD ch 0) ∧
      cacheLookup r.client.localCache idx = some r.ret ∧
      (∀ k, k ≠ idx → cacheLookup r.client.localCache k = cacheLookup c.localCache k) ∧
      r.client.backupShortTag = c.backupShortTag ∧
      r.client.backupParity = c.backupParity ∧
      r.client.replacementIdx = c.replacementIdx ∧
      r.client.replacementVal = c.replacementVal ∧
      { r.client with primaryShortTag := [], primaryParity := [], primaryProgramPoint := [],
                      FinishedQueryNum := 0, QueryHistogram := [], localCache := [] } =
        { c with primaryShortTag := [], primaryParity := [], primaryProgramPoint := [],
                 FinishedQueryNum := 0, QueryHistogram := [], localCache := [] } := by
  have hidx' : ¬ (idx ≥ c.config.DBSize) := by omega
  have hF' : ¬ (c.FinishedQueryNum ≥ c.MaxQueryNum) := by omega
  have hQ' : ¬ (c.QueryHistogram.getD (idx / c.config.ChunkSize) 0 ≥ c.maxQueryPerChunk) := by
    omega
  obtain ⟨hlt, -, -⟩ := findHit_spec aes c _ _ hhit
  generalize hh : c.findHit aes (idx / c.config.ChunkSize) (idx % c.config.ChunkSize) = h
    at hhit hlt ⊢
  have hab := seg_mono c.config.DBEntrySize h
  have hb : (h + 1) * c.config.DBEntrySize ≤ c.primaryParity.length := by
    rw [hP]; exact seg_le _ _ _ hlt
  have hbseg : (slice (c.backupParity.getD (idx / c.config.ChunkSize) [])
      (c.QueryHistogram.getD (idx / c.config.ChunkSize) 0 * c.config.DBEntrySize)
      ((c.QueryHistogram.getD (idx / c.config.ChunkSize) 0 + 1) * c.config.DBEntrySize)).length =
      c.config.DBEntrySize := by
    rw [length_slice _ _ _ (by rw [hB]; exact seg_le _ _ _ hQ), seg_width]
  have hcl := length_copyAt c.primaryParity _ _
    (slice (c.backupParity.getD (idx / c.config.ChunkSize) [])
      (c.QueryHistogram.getD (idx / c.config.ChunkSize) 0 * c.config.DBEntrySize)
      ((c.QueryHistogram.getD (idx / c.config.ChunkSize) 0 + 1) * c.config.DBEntrySize)) hab hb
  refine ⟨_, by
    unfold PianoPIRClient.Query
    simp only [Bool.not_true, Bool.false_eq_true, if_false, hidx', hmiss, hF', hQ', hh, hhit]
    rfl, ?_⟩
  refine ⟨by simp [PrivateQuery_eq], ?_, ?_, ?_, ?_, rfl, ?_,
    cacheLookup_cacheInsert_self _ _ _, ?_, rfl, rfl, rfl, rfl, rfl⟩
  · intro i
    show (c.primaryShortTag.set h _).getD i 0 = _
    by_cases hi : i = h
    · subst hi
      rw [if_pos rfl, getD_set_self' _ _ _ _ (by rw [hT]; exact hlt)]
    · rw [if_neg hi, getD_set_ne' _ _ _ _ _ (Ne.symm hi)]
  · intro i hi
    show slice (EntryXorAt (copyAt c.primaryParity _ _ _) _ _ _ _) _ _ = _
    by_cases hih : i = h
    · subst hih
      rw [if_pos rfl, slice_EntryXorAt_same _ _ _ _ _ hab (by rw [hcl]; exact hb),
        slice_copyAt_same _ _ _ _ hab hb, copySlice_eq _ _ (by
          rw [hbseg, length_slice _ _ _ hb, seg_width])]
    · rw [if_neg hih, slice_EntryXorAt_other _ _ _ _ _ hab (by rw [hcl]; exact hb) _ _
        (seg_disjoint _ _ _ (Ne.symm hih)),
        slice_copyAt_other _ _ _ _ hab hb _ _ (seg_disjoint _ _ _ (Ne.symm hih))]
  · show (EntryXorAt (copyAt c.primaryParity _ _ _) _ _ _ _).length = _
    rw [length_EntryXorAt _ _ _ _ _ hab (by rw [hcl]; exact hb), hcl]
  · intro i
    show (c.primaryProgramPoint.set h idx).getD i 0 = _
    by_cases hi : i = h
    · subst hi
      rw [if_pos rfl, getD_set_self' _ _ _ _ (by rw [hPP]; exact hlt)]
    · rw [if_neg hi, getD_set_ne' _ _ _ _ _ (Ne.symm hi)]
  · intro ch
    show (c.QueryHistogram.set (idx / c.config.ChunkSize) _).getD ch 0 = _
    by_cases hc : ch = idx / c.config.ChunkSize
    · subst hc
      rw [if_pos rfl, getD_set_self' _ _ _ _ hHist]
    · rw [if_neg hc, getD_set_ne' _ _ _ _ _ (Ne.symm hc)]
  · intro k hk
    exact cacheLookup_cacheInsert_ne _ _ _ _ hk

/-- Claim C9, amended: when the budget `MaxQueryNum` is at least 1, no call of
`PianoPIR.Query` made after `Preprocessing`, in any sequence of such calls, returns the error
of the exhausted epoch. -/
theorem PianoPIR_Query_not_exhausted (aes : Nat → Nat → Nat) (p0 p1 : PianoPIR) (key0 : Nat)
    (rng0 : Nat → Nat → Nat) (hprep : p0.Preprocessing aes key0 rng0 = some p1)
    (hM : 0 < p0.client.MaxQueryNum) (p : PianoPIR) (hr : PIRReach aes p1 p)
    (idx : Nat) (realQuery : Bool) (key : Nat) (rng : Nat → Nat → Nat) (rand : Nat → Nat)
    (r : PIRQueryResult) (hq : p.Query aes idx realQuery key rng rand = some r) :
    r.err ≠ some QueryError.exceedMaxQueries := by
  have h1 : p1.client.FinishedQueryNum = 0 ∧ p1.client.MaxQueryNum = p0.client.MaxQueryNum := by
    unfold PianoPIR.Preprocessing at hprep
    cases hc : p0.client.Preprocessing aes key0 rng0 p0.server.rawDB with
    | none => rw [hc] at hprep; exact absurd hprep (by simp)
    | some c =>
      rw [hc] at hprep
      simp only [Option.map_some', Option.some.injEq] at hprep
      rw [← hprep]
      exact Preprocessing_counters aes key0 rng0 p0.client p0.server.rawDB c hc
  obtain ⟨i1, i2⟩ := PIRReach_counters aes p1 p hr (by rw [h1.2]; exact hM) (by rw [h1.1]; omega)
  exact (PianoPIR_Query_counters aes p idx realQuery key rng rand r hq
    (by rw [i1, h1.2]; exact hM) (by rw [i1]; exact i2)).2.2

/-- Witness of `Query_dummy`: a dummy query for the index 100 on the seven-entry database. -/
theorem Query_dummy_witness :
    0 < demoReady.config.ChunkSize ∧ demoReady.config.ChunkSize < 2 ^ 64 ∧
      ∃ offsets, demoReady.Query demoAes 100 demoServer false demoRand =
          some { client := demoReady, ret := zeroEntry demoReady.config.DBEntrySize, err := none,
                 sent := [offsets] } ∧
        offsets.length = demoReady.config.SetSize ∧
        ∀ o, o ∈ offsets → o < demoReady.config.ChunkSize :=
  ⟨by decide, by decide,
    Query_dummy demoAes demoReady 100 demoServer demoRand (by decide) (by decide)⟩

/-- Witness of `Query_failure`: the budget of the epoch is used up. -/
theorem Query_failure_witness :
    3 < demoSpent.config.DBSize ∧ cacheLookup demoSpent.localCache 3 = none ∧
      demoSpent.FinishedQueryNum ≥ demoSpent.MaxQueryNum ∧
      ∃ e, demoSpent.Query demoAes 3 demoServer true demoRand =
        some { client := demoSpent, ret := zeroEntry demoSpent.config.DBEntrySize, err := some e,
               sent := [] } :=
  ⟨by decide, by decide, by decide,
    Query_failure demoAes demoSpent 3 demoServer demoRand (by decide) (by decide)
      (Or.inl (by decide))⟩

/-- Witness of `Query_cached_idempotent`: the query for index 3 repeated. -/
theorem Query_cached_idempotent_witness :
    demoReady.Query demoAes 3 demoServer true demoRand = some demoFirst ∧
      demoFirst.err = none ∧
      demoFirst.client.Query demoAes 3 demoServer true demoRand =
        some { client := demoFirst.client, ret := demoFirst.ret, err := none, sent := [] } :=
  ⟨rfl, rfl,
    Query_cached_idempotent demoAes demoServer demoReady 3 demoRand demoFirst rfl (Or.inl rfl)
      demoFirst.client (QueryReach.refl _) demoRand⟩

/-- Witness of `Query_success_effect`: the query for index 3 after preprocessing. -/
theorem Query_success_effect_witness :
    demoReady.primaryShortTag.length = demoReady.primaryHintNum ∧
      demoReady.primaryParity.length = demoReady.primaryHintNum * demoReady.config.DBEntrySize ∧
      demoReady.primaryProgramPoint.length = demoReady.primaryHintNum ∧
      3 / demoReady.config.ChunkSize < demoReady.QueryHistogram.length ∧
      3 < demoReady.config.DBSize ∧ cacheLookup demoReady.localCache 3 = none ∧
      demoReady.FinishedQueryNum < demoReady.MaxQueryNum ∧
      ∃ r, demoReady.Query demoAes 3 demoServer true demoRand = some r ∧ r.err = none ∧
        r.client.FinishedQueryNum = demoReady.FinishedQueryNum + 1 ∧
        cacheLookup r.client.localCache 3 = some r.ret ∧
        r.client.backupParity = demoReady.backupParity :=
  ⟨by decide, by decide, by decide, by decide, by decide, by decide, by decide,
    match Query_success_effect demoAes demoReady 3 demoServer demoRand (by decide) (by decide)
        (by decide) (by decide) (by decide) (by decide) (by decide) (by decide) (by decide)
        (by decide) with
    | ⟨r, h1, h2, _, _, _, _, h3, _, h4, _, _, h5, _, _, _⟩ => ⟨r, h1, h2, h3, h4, h5⟩⟩

/-- Witness of `PianoPIR_Query_not_exhausted`: the first query after preprocessing. -/
theorem PianoPIR_Query_not_exhausted_witness :
    demoPIR.Preprocessing demoAes 1 demoRng = some demoPIRReady ∧
      0 < demoPIR.client.MaxQueryNum ∧
      demoPIRReady.Query demoAes 3 true 2 demoRng demoRand = some demoPIRFirst ∧
      demoPIRFirst.err ≠ some QueryError.exceedMaxQueries :=
  ⟨rfl, by decide, rfl,
    PianoPIR_Query_not_exhausted demoAes demoPIR demoPIRReady 1 demoRng rfl (by decide)
      demoPIRReady (PIRReach.refl _) 3 true 2 demoRng demoRand demoPIRFirst rfl⟩

/-- Claim C9 as stated fails for `DBSize = 1`: the budget that `NewPianoPIRClient` computes is 0,
`PianoPIR.Query` re-preprocesses, and the client's `Query` still finds
`FinishedQueryNum ≥ MaxQueryNum` and returns the error of the exhausted epoch. -/
theorem PianoPIR_Query_exhausted_on_one_entry :
    1 ≤ tinyPIR.config.DBSize ∧
      ∃ p r, tinyPIR.Preprocessing demoAes 0 demoRng = some p ∧
        p.Query demoAes 0 true 1 demoRng demoRand = some r ∧
        r.err = some QueryError.exceedMaxQueries :=
  ⟨by decide, _, _, rfl, rfl, rfl⟩

/-- Claim C1 fails on the code when the index `0x7fffffff = DefaultProgramPoint` is in range:
after `Preprocessing`, the real query for `0x7fffffff` returns the right entry and programs its
hint with that index, which the code reads as "not programmed"; the next real query, for index
`2^31 + 5`, hits that hint, returns without error, and returns `[1]` where the database holds
`[0]`. -/
theorem Query_wrong_entry_after_index_DefaultProgramPoint :
    sentinelDB.len = sentinelConfig.DBSize * sentinelConfig.DBEntrySize ∧
      sentinelClient.Preprocessing sentinelAes 0 (fun _ _ => 0) sentinelDB = some sentinelReady ∧
      sentinelReady.Query sentinelAes 0x7fffffff sentinelServer true (fun _ => 0) =
        some sentinelFirst ∧
      sentinelFirst.err = none ∧ sentinelFirst.ret = dbEntry sentinelDB 1 0x7fffffff ∧
      sentinelFirst.client.Query sentinelAes (2 ^ 31 + 5) sentinelServer true (fun _ => 0) =
        some sentinelSecond ∧
      2 ^ 31 + 5 < sentinelConfig.DBSize ∧
      sentinelSecond.err = none ∧ sentinelSecond.ret = [1] ∧
      dbEntry sentinelDB 1 (2 ^ 31 + 5) = [0] :=
  ⟨by decide, rfl, rfl, by decide, by decide, rfl, by decide, by decide, by decide, by decide⟩

/-- Claim C2 fails on the code when the index `0x7fffffff = DefaultProgramPoint` is in range:
the parities are consistent after `Preprocessing`, and after the real query for `0x7fffffff`
the parity of the refreshed hint 0 is not the XOR of the entries of its set as the claim defines
it (its program point equals the "unset" value, so chunk 0 counts with its PRF element). -/
theorem parity_inconsistent_after_index_DefaultProgramPoint :
    sentinelClient.Preprocessing sentinelAes 0 (fun _ _ => 0) sentinelDB = some sentinelReady ∧
      sentinelReady.parityConsistent sentinelAes sentinelDB 0 ∧
      sentinelReady.Query sentinelAes 0x7fffffff sentinelServer true (fun _ => 0) =
        some sentinelFirst ∧
      sentinelFirst.err = none ∧
      ¬ sentinelFirst.client.parityConsistent sentinelAes sentinelDB 0 := by
  refine ⟨rfl, ?_, rfl, by decide, ?_⟩
  · unfold PianoPIRClient.parityConsistent
    decide
  · unfold PianoPIRClient.parityConsistent
    decide

/-- Claim C11, as the code has it: on an instance as `NewPianoPIR` builds it, after
`PianoPIR.DummyPreprocessing` (`hd`: the call has returned), every call of `PianoPIR.Query`
for an index below `DBSize` returns, and the entry it returns is all-zero when the query is a
dummy query, when it fails, and, for every query, when the database is all-zero. -/
theorem PianoPIR_Query_after_DummyPreprocessing (aes : Nat → Nat → Nat) (p0 pd : PianoPIR)
    (key0 : Nat) (p : PianoPIR) (hok : InstanceOK p0)
    (hd : p0.DummyPreprocessing key0 = some pd)
    (hr : PIRReach aes pd p) (idx : Nat) (realQuery : Bool)
    (key : Nat) (rng : Nat → Nat → Nat) (rand : Nat → Nat)
    (hidx : idx < p0.client.config.DBSize) :
    ∃ r, p.Query aes idx realQuery key rng rand = some r ∧
      (realQuery = false → r.ret = zeroEntry p0.client.config.DBEntrySize) ∧
      (r.err ≠ none → r.ret = zeroEntry p0.client.config.DBEntrySize) ∧
      ((∀ i, p0.server.rawDB.get i = 0) → r.ret = zeroEntry p0.client.config.DBEntrySize) := by
  have hE : p0.server.config.DBEntrySize = p0.client.config.DBEntrySize := by rw [hok.server]
  obtain ⟨hskip, hcfg, hsrv, hz, hinit⟩ := PIRReach_dummy aes p0 pd key0 p hE hd hr
  obtain ⟨r, hq⟩ := PianoPIR_Query_returns_skip aes p idx realQuery key rng rand hskip
    (hinit key) (Or.inr (by rw [hcfg]; exact hidx))
  obtain ⟨c, r', hc, hq', _, hret, herr, _⟩ :=
    PianoPIR_Query_cases aes p idx realQuery key rng rand r hq
  have hcz : c.config = p0.client.config ∧ ((∀ i, p0.server.rawDB.get i = 0) → ZeroInv c) := by
    rcases hc with ⟨_, hc⟩ | ⟨_, hc⟩
    · rw [hc]; exact ⟨hcfg, hz⟩
    · obtain ⟨c', hc', _, h2, h3⟩ :=
        Preprocessing_skip aes key rng p.client p.server.rawDB hskip (hinit key)
      rw [hc'] at hc
      have hcc : c' = c := Option.some.inj hc
      rw [← hcc]
      exact ⟨h2.trans hcfg, fun _ => h3⟩
  obtain ⟨hcf, hzz⟩ := hcz
  refine ⟨r, hq, ?_, ?_, ?_⟩
  · intro hd
    rw [hret, ← hcf]
    exact Query_ret_zero aes c idx p.server realQuery rand r' hq' (Or.inl hd)
  · intro he
    rw [hret, ← hcf]
    exact Query_ret_zero aes c idx p.server realQuery rand r' hq' (Or.inr (by rw [← herr]; exact he))
  · intro hdb
    rw [hret, ← hcf]
    exact (ZeroInv_Query aes c idx p.server realQuery rand r' hq' (hzz hdb)
      (by rw [hsrv]; exact hdb) (by rw [hsrv, hE, hcf])).2

/-- Witness of `PianoPIR_Query_after_DummyPreprocessing`: the real query for index 3 on the
eight-entry database after `DummyPreprocessing`. -/
theorem PianoPIR_Query_after_DummyPreprocessing_witness :
    (eightPIR.getD demoPIR).DummyPreprocessing 1 = some eightDummy ∧
    ∃ r, eightDummy.Query demoAes 3 true 0 demoRng demoRand = some r ∧
      (true = false → r.ret = zeroEntry (eightPIR.getD demoPIR).client.config.DBEntrySize) ∧
      (r.err ≠ none → r.ret = zeroEntry (eightPIR.getD demoPIR).client.config.DBEntrySize) ∧
      ((∀ i, (eightPIR.getD demoPIR).server.rawDB.get i = 0) →
        r.ret = zeroEntry (eightPIR.getD demoPIR).client.config.DBEntrySize) :=
  ⟨rfl, PianoPIR_Query_after_DummyPreprocessing demoAes (eightPIR.getD demoPIR) eightDummy 1
    eightDummy eightPIR_ok rfl (PIRReach.refl _) 3 true 0 demoRng demoRand (by decide)⟩

/-- Claim C11, counterexample: on the instance that `NewPianoPIR` builds for the eight-entry
database `[11, .., 88]`, after `DummyPreprocessing`, the real query for index 3 returns without
error the entry `[88]`, which is not all-zero: it is the server's reply, the entry at index 7
picked by the replacement `DefaultProgramPoint mod ChunkSize`. -/
theorem PianoPIR_Query_nonzero_after_DummyPreprocessing :
    ∃ p pd r, eightPIR = some p ∧ p.DummyPreprocessing 1 = some pd ∧
      pd.Query demoAes 3 true 0 demoRng demoRand = some r ∧
      r.err = none ∧ r.ret = [88] ∧ r.ret ≠ zeroEntry p.config.DBEntrySize :=
  ⟨_, _, _, rfl, rfl, rfl, rfl, rfl, by decide⟩

/-- Claim C12: in every client state reached from `Initialization` (`hinit`: the call has
returned and left `c1`) by calls of `Query`, `QueryHistogram[ch] ≤ maxQueryPerChunk` for every
chunk `ch` (and `maxQueryPerChunk` is the one of the start); a real query that gets as far as
sending its request uses the slot `QueryHistogram[idx / ChunkSize]`, which is below
`maxQueryPerChunk`. -/
theorem QueryHistogram_le_maxQueryPerChunk (aes : Nat → Nat → Nat) (server : PianoPIRServer)
    (c0 c1 : PianoPIRClient) (key : Nat) (c : PianoPIRClient)
    (hinit : c0.Initialization key = some c1) (hr : QueryReach aes server c1 c) :
    c.maxQueryPerChunk = c0.maxQueryPerChunk ∧
      (∀ ch, c.QueryHistogram.getD ch 0 ≤ c.maxQueryPerChunk) ∧
      ∀ idx rand r, c.Query aes idx server true rand = some r → r.sent ≠ [] →
        c.QueryHistogram.getD (idx / c.config.ChunkSize) 0 < c.maxQueryPerChunk := by
  have hc1 := Initialization_some c0 c1 key hinit
  subst hc1
  obtain ⟨h1, h2⟩ := hist_QueryReach aes server _ c hr (hist_Initialization c0 key)
  refine ⟨h1, h2, ?_⟩
  intro idx rand r hq hsent
  obtain ⟨_, hc⟩ := Query_real_cases aes c idx server rand r hq
  rcases hc with ⟨v, _, hr'⟩ | ⟨e, hr'⟩ | ⟨_, hQ, _⟩
  · rw [hr'] at hsent; exact absurd rfl hsent
  · rw [hr'] at hsent; exact absurd rfl hsent
  · exact hQ

/-- Witness of `QueryHistogram_le_maxQueryPerChunk`: the client of the seven-entry database
after `Initialization` and the real query for index 3 (chunk 1), which is answered and takes
the counter of chunk 1 to 1. -/
theorem QueryHistogram_le_maxQueryPerChunk_witness :
    (demoClient.Initialization 1 = some demoInit ∧
      QueryReach demoAes demoServer demoInit coldFirst.client ∧
      coldFirst.err = none ∧ coldFirst.client.QueryHistogram = [0, 1, 0, 0]) ∧
    (coldFirst.client.maxQueryPerChunk = demoClient.maxQueryPerChunk ∧
      (∀ ch, coldFirst.client.QueryHistogram.getD ch 0 ≤ coldFirst.client.maxQueryPerChunk) ∧
      ∀ idx rand r, coldFirst.client.Query demoAes idx demoServer true rand = some r →
        r.sent ≠ [] →
        coldFirst.client.QueryHistogram.getD (idx / coldFirst.client.config.ChunkSize) 0 <
          coldFirst.client.maxQueryPerChunk) :=
  ⟨⟨rfl,
      QueryReach.step _ _ _ (QueryReach.refl _) (QueryStep.call _ 3 true demoRand coldFirst rfl),
      by decide, by decide⟩,
    QueryHistogram_le_maxQueryPerChunk demoAes demoServer demoClient demoInit 1
      coldFirst.client rfl
      (QueryReach.step _ _ _ (QueryReach.refl _)
        (QueryStep.call _ 3 true demoRand coldFirst rfl))⟩

/-- Claim C13, as the code has it: `NewPianoPIR` returns an instance whose `ChunkSize` is the
smallest power of two that is at least `targetChunkSize`, the integer part of `2·√DBSize`
(hypotheses `hlo`, `hhi` say that the truncated `float64` value is that integer part).  So
`(ChunkSize + 1)² > 4·DBSize` and, when `ChunkSize > 1`, `(ChunkSize/2)² < 4·DBSize`. -/
theorem NewPianoPIR_ChunkSize (fl : FloatValues) (DBSize DBEntryByteNum : Nat) (rawDB : Slice)
    (FailureProbLog2 key key2 : Nat)
    (hlen : rawDB.len = DBSize * (DBEntryByteNum / 8) % 2 ^ 64)
    (hN : DBSize < 2 ^ 64)
    (hlo : fl.twoSqrt DBSize ^ 2 ≤ 4 * DBSize)
    (hhi : 4 * DBSize < (fl.twoSqrt DBSize + 1) ^ 2) :
    ∃ p k, NewPianoPIR fl DBSize DBEntryByteNum rawDB FailureProbLog2 key key2 = some p ∧
      p.config.ChunkSize = 2 ^ k ∧
      fl.twoSqrt DBSize ≤ p.config.ChunkSize ∧
      (∀ j, fl.twoSqrt DBSize ≤ 2 ^ j → p.config.ChunkSize ≤ 2 ^ j) ∧
      4 * DBSize < (p.config.ChunkSize + 1) ^ 2 ∧
      (1 < p.config.ChunkSize → (p.config.ChunkSize / 2) ^ 2 < 4 * DBSize) := by
  have ht : fl.twoSqrt DBSize ≤ 2 ^ 63 := by
    by_contra hcon
    have h1 : 2 ^ 63 ≤ fl.twoSqrt DBSize := by omega
    have h2 : (2 ^ 63) ^ 2 ≤ fl.twoSqrt DBSize ^ 2 := Nat.pow_le_pow_left h1 2
    have h3 : (2 : Nat) ^ 66 ≤ (2 ^ 63) ^ 2 := by norm_num
    omega
  obtain ⟨k, _, hloop, hge, hmin⟩ := chunkSizeLoop_least (fl.twoSqrt DBSize) ht
  obtain ⟨p, hp, hcs, _⟩ :=
    NewPianoPIR_eq fl DBSize DBEntryByteNum rawDB FailureProbLog2 key key2 hlen _ hloop
  refine ⟨p, k, hp, hcs, by rw [hcs]; exact hge, ?_, ?_, ?_⟩
  · intro j hj
    rw [hcs]
    rcases hmin with h0 | hlt
    · subst h0; exact Nat.one_le_two_pow
    · have : k - 1 < j :=
        (Nat.pow_lt_pow_iff_right (by norm_num : 1 < 2)).mp (lt_of_lt_of_le hlt hj)
      exact Nat.pow_le_pow_right (by norm_num) (by omega)
  · rw [hcs]
    exact lt_of_lt_of_le hhi (Nat.pow_le_pow_left (by omega) 2)
  · rw [hcs]
    intro h1
    rcases hmin with h0 | hlt
    · subst h0; simp at h1
    · have hk : k = (k - 1) + 1 := by
        rcases Nat.eq_zero_or_pos k with h0 | hpos
        · subst h0; simp at h1
        · omega
      have hhalf : 2 ^ k / 2 = 2 ^ (k - 1) := by
        conv_lhs => rw [hk, Nat.pow_succ]
        simp
      rw [hhalf]
      exact lt_of_lt_of_le (Nat.pow_lt_pow_left hlt (by norm_num)) hlo

/-- Witness of `NewPianoPIR_ChunkSize`: five entries give the chunk size 4. -/
theorem NewPianoPIR_ChunkSize_witness :
    ∃ p k, NewPianoPIR smallFloat 5 8 (Slice.ofList [1, 2, 3, 4, 5]) 0 0 0 = some p ∧
      p.config.ChunkSize = 2 ^ k ∧
      smallFloat.twoSqrt 5 ≤ p.config.ChunkSize ∧
      (∀ j, smallFloat.twoSqrt 5 ≤ 2 ^ j → p.config.ChunkSize ≤ 2 ^ j) ∧
      4 * 5 < (p.config.ChunkSize + 1) ^ 2 ∧
      (1 < p.config.ChunkSize → (p.config.ChunkSize / 2) ^ 2 < 4 * 5) :=
  NewPianoPIR_ChunkSize smallFloat 5 8 (Slice.ofList [1, 2, 3, 4, 5]) 0 0 0 (by decide)
    (by norm_num) (by decide) (by decide)

/-- Claim C13, counterexample: for `DBSize = 2` the target `uint64(2·√2)` is 2, `NewPianoPIR`
sets `ChunkSize = 2`, and `ChunkSize² = 4 < 8 = 4·DBSize`: the chunk size is below `2·√DBSize`. -/
theorem ChunkSize_below_two_sqrt_DBSize :
    ∃ p, NewPianoPIR smallFloat 2 8 (Slice.ofList [5, 6]) 0 0 0 = some p ∧
      p.config.DBSize = 2 ∧ p.config.ChunkSize = 2 ∧
      ¬ (p.config.ChunkSize ^ 2 ≥ 4 * p.config.DBSize) :=
  ⟨_, rfl, rfl, rfl, by decide⟩

/-- Claim C14, amended: for `DBSize ≤ 2^53`, `NewPianoPIR` returns an instance whose `SetSize`
is the least multiple of 4 that is at least `⌈DBSize/ChunkSize⌉`; so `SetSize mod 4 = 0`,
`SetSize·ChunkSize ≥ DBSize`, and every index below `DBSize` lies in a chunk numbered below
`SetSize`.  Hypothesis `hceil` reads `math.Ceil(float64(DBSize) / float64(ChunkSize))`: `r` is
the value of `float64(DBSize)`, which is `DBSize` itself up to `2^53`, and the quotient of `r`
by a power of two and the ceiling of the quotient are exact; `ht` bounds the target of the
chunk-size loop, which is at most `2^33`. -/
theorem NewPianoPIR_SetSize (fl : FloatValues) (DBSize DBEntryByteNum : Nat) (rawDB : Slice)
    (FailureProbLog2 key key2 : Nat)
    (hlen : rawDB.len = DBSize * (DBEntryByteNum / 8) % 2 ^ 64)
    (hN : DBSize ≤ 2 ^ 53)
    (ht : fl.twoSqrt DBSize ≤ 2 ^ 63)
    (hceil : ∀ k, k ≤ 63 → ∃ r, (DBSize ≤ 2 ^ 53 → r = DBSize) ∧
      fl.ceilDiv DBSize (2 ^ k) = (r + 2 ^ k - 1) / 2 ^ k) :
    ∃ p, NewPianoPIR fl DBSize DBEntryByteNum rawDB FailureProbLog2 key key2 = some p ∧
      p.config.SetSize % 4 = 0 ∧
      (DBSize + p.config.ChunkSize - 1) / p.config.ChunkSize ≤ p.config.SetSize ∧
      (∀ m, m % 4 = 0 → (DBSize + p.config.ChunkSize - 1) / p.config.ChunkSize ≤ m →
        p.config.SetSize ≤ m) ∧
      DBSize ≤ p.config.SetSize * p.config.ChunkSize ∧
      ∀ idx, idx < DBSize → idx / p.config.ChunkSize < p.config.SetSize := by
  obtain ⟨k, hk, hloop, _, _⟩ := chunkSizeLoop_least (fl.twoSqrt DBSize) ht
  obtain ⟨p, hp, hcs, hss, _⟩ :=
    NewPianoPIR_eq fl DBSize DBEntryByteNum rawDB FailureProbLog2 key key2 hlen _ hloop
  have hpos : 0 < 2 ^ k := Nat.pow_pos (by norm_num)
  obtain ⟨r, hr, hq⟩ := hceil k hk
  rw [hq, hr hN] at hss
  have hcover : DBSize ≤ (DBSize + 2 ^ k - 1) / 2 ^ k * 2 ^ k := by
    have h1 := Nat.div_add_mod (DBSize + 2 ^ k - 1) (2 ^ k)
    have h2 := Nat.mod_lt (DBSize + 2 ^ k - 1) hpos
    have h3 : 2 ^ k * ((DBSize + 2 ^ k - 1) / 2 ^ k) = (DBSize + 2 ^ k - 1) / 2 ^ k * 2 ^ k :=
      Nat.mul_comm _ _
    omega
  have hle : (DBSize + 2 ^ k - 1) / 2 ^ k ≤ p.config.SetSize := by rw [hss]; omega
  have hcov : DBSize ≤ p.config.SetSize * 2 ^ k :=
    le_trans hcover (Nat.mul_le_mul_right _ hle)
  refine ⟨p, hp, by rw [hss]; omega, by rw [hcs]; exact hle, ?_, by rw [hcs]; exact hcov, ?_⟩
  · intro m hm hge
    rw [hcs] at hge
    rw [hss]; omega
  · intro idx hidx
    rw [hcs]
    exact (Nat.div_lt_iff_lt_mul hpos).mpr (lt_of_lt_of_le hidx hcov)

/-- Witness of `NewPianoPIR_SetSize`: seven entries, chunks of 8, `SetSize = 4`. -/
theorem NewPianoPIR_SetSize_witness :
    ∃ p, NewPianoPIR smallFloat 7 8 demoDB 0 0 0 = some p ∧
      p.config.SetSize % 4 = 0 ∧
      (7 + p.config.ChunkSize - 1) / p.config.ChunkSize ≤ p.config.SetSize ∧
      (∀ m, m % 4 = 0 → (7 + p.config.ChunkSize - 1) / p.config.ChunkSize ≤ m →
        p.config.SetSize ≤ m) ∧
      7 ≤ p.config.SetSize * p.config.ChunkSize ∧
      ∀ idx, idx < 7 → idx / p.config.ChunkSize < p.config.SetSize :=
  NewPianoPIR_SetSize smallFloat 7 8 demoDB 0 0 0 (by decide) (by norm_num) (by decide)
    (fun _ _ => ⟨7, fun _ => rfl, rfl⟩)

/-- Claim C14, counterexample: for `DBSize = 2^53 + 1` (entries of fewer than 8 bytes, so that
`rawDB` is empty) the conversion `float64(DBSize)` gives `2^53`; `NewPianoPIR` sets
`ChunkSize = 2^28` and `SetSize = ⌈2^53 / 2^28⌉ = 2^25`, which is a multiple of 4 but below
`⌈DBSize/ChunkSize⌉ = 2^25 + 1`: `SetSize·ChunkSize = 2^53 < DBSize`, and the index `2^53`, which
is below `DBSize`, lies in chunk `2^25 = SetSize`. -/
theorem SetSize_chunks_short_of_DBSize :
    ∃ p, NewPianoPIR wideFloat (2 ^ 53 + 1) 4 ⟨0, fun _ => 0⟩ 0 0 0 = some p ∧
      p.config.DBSize = 2 ^ 53 + 1 ∧ p.config.ChunkSize = 2 ^ 28 ∧
      p.config.SetSize = 2 ^ 25 ∧
      ¬ ((p.config.DBSize + p.config.ChunkSize - 1) / p.config.ChunkSize ≤ p.config.SetSize) ∧
      p.config.SetSize * p.config.ChunkSize < p.config.DBSize ∧
      2 ^ 53 < p.config.DBSize ∧ ¬ (2 ^ 53 / p.config.ChunkSize < p.config.SetSize) :=
  ⟨_, rfl, rfl, rfl, rfl, by decide, by decide, by decide, by decide⟩

/-- Claim C15, as the code has it: `NewPianoPIRClient` sets `maxQueryPerChunk` to
`3·⌊MaxQueryNum/SetSize⌋` rounded up to the next multiple of `ThreadNum`: the least multiple of
`ThreadNum` that is at least `3·⌊MaxQueryNum/SetSize⌋`.  Hypothesis `hexact` is the range in
which the `float64` quotient, truncated, is the integer quotient, and `hT` the range in which
the rounding does not wrap. -/
theorem NewPianoPIRClient_maxQueryPerChunk (config : PianoPIRConfig)
    (maxQueryNum k key key2 : Nat) (hS : 1 ≤ config.SetSize)
    (hexact : maxQueryNum + config.SetSize < 2 ^ 53)
    (hT : 0 < config.ThreadNum ∧ config.ThreadNum < 2 ^ 63) :
    (NewPianoPIRClient config maxQueryNum k key key2).maxQueryPerChunk % config.ThreadNum = 0 ∧
      3 * (maxQueryNum / config.SetSize) ≤
        (NewPianoPIRClient config maxQueryNum k key key2).maxQueryPerChunk ∧
      (NewPianoPIRClient config maxQueryNum k key key2).maxQueryPerChunk <
        3 * (maxQueryNum / config.SetSize) + config.ThreadNum ∧
      (NewPianoPIRClient config maxQueryNum k key key2).maxQueryPerChunk < 2 ^ 64 := by
  have hq : maxQueryNum / config.SetSize ≤ maxQueryNum := Nat.div_le_self _ _
  have hx : 3 * (maxQueryNum / config.SetSize) < 2 ^ 55 := by omega
  show ((3 * (maxQueryNum / config.SetSize) + config.ThreadNum - 1) / config.ThreadNum *
      config.ThreadNum) % config.ThreadNum = 0 ∧
    3 * (maxQueryNum / config.SetSize) ≤
      (3 * (maxQueryNum / config.SetSize) + config.ThreadNum - 1) / config.ThreadNum *
        config.ThreadNum ∧
    (3 * (maxQueryNum / config.SetSize) + config.ThreadNum - 1) / config.ThreadNum *
        config.ThreadNum < 3 * (maxQueryNum / config.SetSize) + config.ThreadNum ∧
    (3 * (maxQueryNum / config.SetSize) + config.ThreadNum - 1) / config.ThreadNum *
        config.ThreadNum < 2 ^ 64
  generalize 3 * (maxQueryNum / config.SetSize) = x at *
  generalize config.ThreadNum = T at *
  have h1 := Nat.div_add_mod (x + T - 1) T
  have h2 := Nat.mod_lt (x + T - 1) hT.1
  have h3 : T * ((x + T - 1) / T) = (x + T - 1) / T * T := Nat.mul_comm _ _
  refine ⟨Nat.mul_mod_left _ _, by omega, by omega, by omega⟩

/-- Witness of `NewPianoPIRClient_maxQueryPerChunk`: budget 11, 4 chunks, 8 threads. -/
theorem NewPianoPIRClient_maxQueryPerChunk_witness :
    (NewPianoPIRClient roundingConfig 11 1 0 0).maxQueryPerChunk % roundingConfig.ThreadNum = 0 ∧
      3 * (11 / roundingConfig.SetSize) ≤
        (NewPianoPIRClient roundingConfig 11 1 0 0).maxQueryPerChunk ∧
      (NewPianoPIRClient roundingConfig 11 1 0 0).maxQueryPerChunk <
        3 * (11 / roundingConfig.SetSize) + roundingConfig.ThreadNum ∧
      (NewPianoPIRClient roundingConfig 11 1 0 0).maxQueryPerChunk < 2 ^ 64 :=
  NewPianoPIRClient_maxQueryPerChunk roundingConfig 11 1 0 0 (by decide) (by decide)
    (by decide)

/-- Claim C15, counterexample: with `MaxQueryNum = 11`, `SetSize = 4` and `ThreadNum = 8` the
code computes `3·⌊11/4⌋ = 6`, rounded up to 8; the ceiling of `3·11/4` is 9, which rounds up
to 16. -/
theorem maxQueryPerChunk_below_ceiling :
    (NewPianoPIRClient roundingConfig 11 1 0 0).maxQueryPerChunk = 8 ∧
      specMaxQueryPerChunk 11 roundingConfig.SetSize roundingConfig.ThreadNum = 16 :=
  ⟨rfl, rfl⟩

/-- Claim C16: `Initialization` (`hinit`: the call has returned and left `c1`) gives tag `i`
to primary hint `i` and tag `primaryHintNum + ch*maxQueryPerChunk + j` to backup slot
`(ch, j)`; in every state reached from it by calls of `Query` (on a configuration whose chunks
cover the database) the tags of the primary hints are pairwise distinct, and distinct from the
tag of every backup slot `(ch, j)` with `j ≥ QueryHistogram[ch]`. -/
theorem shortTags_distinct (aes : Nat → Nat → Nat) (server : PianoPIRServer)
    (c0 c1 : PianoPIRClient) (key : Nat) (c : PianoPIRClient)
    (hcover : c0.config.DBSize ≤ c0.config.ChunkSize * c0.config.SetSize)
    (hinit : c0.Initialization key = some c1) (hr : QueryReach aes server c1 c) :
    (∀ i, i < c0.primaryHintNum → c1.primaryShortTag.getD i 0 = i) ∧
      (∀ ch, ch < c0.config.SetSize → ∀ j, j < c0.maxQueryPerChunk →
        (c1.backupShortTag.getD ch []).getD j 0 =
          c0.primaryHintNum + ch * c0.maxQueryPerChunk + j) ∧
      (∀ i i', i < c.primaryHintNum → i' < c.primaryHintNum → i ≠ i' →
        c.primaryShortTag.getD i 0 ≠ c.primaryShortTag.getD i' 0) ∧
      (∀ i ch j, i < c.primaryHintNum → ch < c.config.SetSize →
        c.QueryHistogram.getD ch 0 ≤ j → j < c.maxQueryPerChunk →
        c.primaryShortTag.getD i 0 ≠ (c.backupShortTag.getD ch []).getD j 0) := by
  have hc1 := Initialization_some c0 c1 key hinit
  subst hc1
  have inv0 := TagInv_init c0 key
  obtain ⟨inv, _⟩ := TagInv_QueryReach aes server _ c hr hcover inv0
  refine ⟨?_, inv0.btag, inv.distinct, ?_⟩
  · intro i hi
    show (List.range c0.primaryHintNum).getD i 0 = i
    simp [List.getD, List.getElem?_range hi]
  · intro i ch j hi hch hge hj
    rw [inv.btag ch hch j hj]
    exact TagInv_fresh c inv i ch j hi hge hj

/-- Witness of `shortTags_distinct`: the client of the seven-entry database after
`Initialization` and the real query for index 3, which is answered from primary hint 1 and
gives it the tag 5 of the backup slot `(1, 0)`. -/
theorem shortTags_distinct_witness :
    (demoClient.config.DBSize ≤ demoClient.config.ChunkSize * demoClient.config.SetSize ∧
      demoClient.Initialization 1 = some demoInit ∧
      QueryReach demoAes demoServer demoInit coldFirst.client ∧
      coldFirst.err = none ∧ demoInit.primaryShortTag = [0, 1] ∧
      coldFirst.client.primaryShortTag = [0, 5] ∧
      coldFirst.client.QueryHistogram = [0, 1, 0, 0]) ∧
    ((∀ i, i < demoClient.primaryHintNum → demoInit.primaryShortTag.getD i 0 = i) ∧
      (∀ ch, ch < demoClient.config.SetSize → ∀ j, j < demoClient.maxQueryPerChunk →
        (demoInit.backupShortTag.getD ch []).getD j 0 =
          demoClient.primaryHintNum + ch * demoClient.maxQueryPerChunk + j) ∧
      (∀ i i', i < coldFirst.client.primaryHintNum →
        i' < coldFirst.client.primaryHintNum → i ≠ i' →
        coldFirst.client.primaryShortTag.getD i 0 ≠
          coldFirst.client.primaryShortTag.getD i' 0) ∧
      (∀ i ch j, i < coldFirst.client.primaryHintNum →
        ch < coldFirst.client.config.SetSize →
        coldFirst.client.QueryHistogram.getD ch 0 ≤ j →
        j < coldFirst.client.maxQueryPerChunk →
        coldFirst.client.primaryShortTag.getD i 0 ≠
          (coldFirst.client.backupShortTag.getD ch []).getD j 0)) :=
  ⟨⟨by decide, rfl,
      QueryReach.step _ _ _ (QueryReach.refl _) (QueryStep.call _ 3 true demoRand coldFirst rfl),
      by decide, by decide, by decide, by decide⟩,
    shortTags_distinct demoAes demoServer demoClient demoInit 1 coldFirst.client (by decide) rfl
      (QueryReach.step _ _ _ (QueryReach.refl _)
        (QueryStep.call _ 3 true demoRand coldFirst rfl))⟩

/-- Claim C17: on a client whose tables have the lengths given by `Initialization`, a real
query for an uncached index `idx` of chunk `ch` that passes the two budget checks and finds the
hit hint `h` returns without error after sending one request of exactly
`SetSize` offsets, each below `ChunkSize`; the offset at position `ch` is
`replacementIdx[ch][j] mod ChunkSize` with `j`, a slot of the table, the value of
`QueryHistogram[ch]` before the call,
and the offset at every other position `i` is the program point of `h` modulo `ChunkSize` when
`h` is programmed in chunk `i`, and `PRF(longKey, shortTag_h, i) mod ChunkSize` otherwise. -/
theorem Query_request (aes : Nat → Nat → Nat) (c : PianoPIRClient) (idx : Nat)
    (server : PianoPIRServer) (rand : Nat → Nat) (htable : TableOK c)
    (hpow : ∃ k, k ≤ 32 ∧ c.config.ChunkSize = 2 ^ k)
    (hcover : c.config.DBSize ≤ c.config.ChunkSize * c.config.SetSize)
    (hidx : idx < c.config.DBSize) (hmiss : cacheLookup c.localCache idx = none)
    (hF : c.FinishedQueryNum < c.MaxQueryNum)
    (hQ : c.QueryHistogram.getD (idx / c.config.ChunkSize) 0 < c.maxQueryPerChunk)
    (hhit : c.findHit aes (idx / c.config.ChunkSize) (idx % c.config.ChunkSize) ≠
      DefaultProgramPoint) :
    ∃ r offsets, c.Query aes idx server true rand = some r ∧ r.err = none ∧
      r.sent = [offsets] ∧ offsets.length = c.config.SetSize ∧
      (∀ o, o ∈ offsets → o < c.config.ChunkSize) ∧
      c.QueryHistogram.getD (idx / c.config.ChunkSize) 0 <
        (c.replacementIdx.getD (idx / c.config.ChunkSize) []).length ∧
      offsets.getD (idx / c.config.ChunkSize) 0 =
        (c.replacementIdx.getD (idx / c.config.ChunkSize) []).getD
          (c.QueryHistogram.getD (idx / c.config.ChunkSize) 0) 0 % c.config.ChunkSize ∧
      ∀ i, i < c.config.SetSize → i ≠ idx / c.config.ChunkSize →
        offsets.getD i 0 =
          if c.primaryProgramPoint.getD
                (c.findHit aes (idx / c.config.ChunkSize) (idx % c.config.ChunkSize)) 0 ≠
                DefaultProgramPoint ∧
              c.primaryProgramPoint.getD
                (c.findHit aes (idx / c.config.ChunkSize) (idx % c.config.ChunkSize)) 0 /
                c.config.ChunkSize = i then
            c.primaryProgramPoint.getD
              (c.findHit aes (idx / c.config.ChunkSize) (idx % c.config.ChunkSize)) 0 %
              c.config.ChunkSize
          else
            PRFEvalWithLongKeyAndTag aes c.longKey
              (c.primaryShortTag.getD
                (c.findHit aes (idx / c.config.ChunkSize) (idx % c.config.ChunkSize)) 0) i %
              c.config.ChunkSize := by
  obtain ⟨k, hk, hk2⟩ := hpow
  have h0 : 0 < c.config.ChunkSize := by rw [hk2]; exact Nat.pow_pos (by decide)
  have h64 : c.config.ChunkSize ≤ 2 ^ 64 := by
    rw [hk2]; exact Nat.pow_le_pow_right (by decide) (by omega)
  have hidx' : ¬ (idx ≥ c.config.DBSize) := by omega
  have hF' : ¬ (c.FinishedQueryNum ≥ c.MaxQueryNum) := by omega
  have hQ' : ¬ (c.QueryHistogram.getD (idx / c.config.ChunkSize) 0 ≥ c.maxQueryPerChunk) := by
    omega
  have hch := chunk_lt_SetSize c.config idx hcover hidx
  generalize hh : c.findHit aes (idx / c.config.ChunkSize) (idx % c.config.ChunkSize) = h
    at hhit ⊢
  refine ⟨_, c.querySetOffset aes h (idx / c.config.ChunkSize), by
    unfold PianoPIRClient.Query
    simp only [Bool.not_true, Bool.false_eq_true, if_false, hidx', hmiss, hF', hQ', hh, hhit]
    rfl, by simp [PrivateQuery_eq], rfl, length_querySetOffset aes c _ _,
    querySetOffset_lt aes c _ _ h0 h64, by rw [htable.riRow _ hch]; exact hQ, ?_, ?_⟩
  · rw [querySetOffset_getD aes c _ _ _ hch, toUint32_and_chunkMask c.config k hk hk2,
      querySet_getD aes c _ _ _ hch, if_pos rfl]
  · intro i hi hne
    rw [querySetOffset_getD aes c _ _ _ hi, toUint32_and_chunkMask c.config k hk hk2,
      querySet_getD aes c _ _ _ hi, if_neg (Ne.symm hne)]
    split
    · rfl
    · rw [hintOffset_eq_mod aes c k hk2 (by omega), Nat.add_comm, Nat.add_mul_mod_self_right,
        Nat.mod_mod]

/-- Witness of `Query_request`: the real query for index 3 on the seven-entry database. -/
theorem Query_request_witness :
    ∃ r offsets, demoReady.Query demoAes 3 demoServer true demoRand = some r ∧ r.err = none ∧
      r.sent = [offsets] ∧ offsets.length = demoReady.config.SetSize ∧
      (∀ o, o ∈ offsets → o < demoReady.config.ChunkSize) ∧
      demoReady.QueryHistogram.getD (3 / demoReady.config.ChunkSize) 0 <
        (demoReady.replacementIdx.getD (3 / demoReady.config.ChunkSize) []).length ∧
      offsets.getD (3 / demoReady.config.ChunkSize) 0 =
        (demoReady.replacementIdx.getD (3 / demoReady.config.ChunkSize) []).getD
          (demoReady.QueryHistogram.getD (3 / demoReady.config.ChunkSize) 0) 0 %
          demoReady.config.ChunkSize ∧
      ∀ i, i < demoReady.config.SetSize → i ≠ 3 / demoReady.config.ChunkSize →
        offsets.getD i 0 =
          if demoReady.primaryProgramPoint.getD
                (demoReady.findHit demoAes (3 / demoReady.config.ChunkSize)
                  (3 % demoReady.config.ChunkSize)) 0 ≠ DefaultProgramPoint ∧
              demoReady.primaryProgramPoint.getD
                (demoReady.findHit demoAes (3 / demoReady.config.ChunkSize)
                  (3 % demoReady.config.ChunkSize)) 0 / demoReady.config.ChunkSize = i then
            demoReady.primaryProgramPoint.getD
              (demoReady.findHit demoAes (3 / demoReady.config.ChunkSize)
                (3 % demoReady.config.ChunkSize)) 0 % demoReady.config.ChunkSize
          else
            PRFEvalWithLongKeyAndTag demoAes demoReady.longKey
              (demoReady.primaryShortTag.getD
                (demoReady.findHit demoAes (3 / demoReady.config.ChunkSize)
                  (3 % demoReady.config.ChunkSize)) 0) i % demoReady.config.ChunkSize :=
  Query_request demoAes demoReady 3 demoServer demoRand demoReady_table
    ⟨1, by decide, by decide⟩ (by decide)
    (by decide) (by decide) (by decide) (by decide) (by decide)

/-- Claim C18: on a batch instance of the right shape (as `NewSimpleBatchPianoPIR` builds it and
`Preprocessing` and `Query` keep it), for every batch `idx` of indices below `DBSize`,
`SimpleBatchPianoPIR.Query` returns, with a nil error and a list of exactly `len(idx)` entries,
each of exactly `DBEntrySize` words; the entry at a position is all-zero unless a real
sub-query for the index of that position succeeded, in which case it is the entry returned by
that sub-query.  The instance afterwards has the right shape again. -/
theorem Batch_Query_shape (aes : Nat → Nat → Nat) (p : SimpleBatchPianoPIR) (idx : List Nat)
    (rnd : BatchDraws) (ok : BatchOK p) (hidx : ∀ x, x ∈ idx → x < p.config.DBSize) :
    ∃ r, p.Query aes idx rnd = some r ∧ r.err = none ∧ r.ret.length = idx.length ∧
      (∀ e, e ∈ r.ret → e.length = p.config.DBEntrySize) ∧
      (∀ i, i < idx.length →
        r.ret.getD i [] = zeroEntry p.config.DBEntrySize ∨
          ∃ c, c ∈ r.calls ∧ c.realQuery = true ∧
            c.partition = idx.getD i 0 / p.config.PartitionSize ∧
            c.idx = idx.getD i 0 - c.partition * p.config.PartitionSize ∧
            c.err = none ∧ c.ret = r.ret.getD i []) ∧
      BatchOK r.pir := by
  obtain ⟨st, r, _, hok, hq, herr, hcalls, hret, hok', _⟩ :=
    Batch_Query_eq aes p idx rnd ok hidx
  refine ⟨r, hq, herr, by rw [hret, List.length_map], ?_, ?_, hok'⟩
  · intro e he
    rw [hret] at he
    obtain ⟨x, _, hx⟩ := List.mem_map.mp he
    rw [← hx]
    unfold outputEntry
    cases hl : cacheLookup st.responses x with
    | none => simp
    | some v => exact hok.resp x v hl
  · intro i hi
    rw [hret, map_getD_lt idx _ i [] hi, hcalls]
    unfold outputEntry
    cases hl : cacheLookup st.responses (idx.getD i 0) with
    | none => left; rfl
    | some v => exact hok.src _ v hl

/-- Witness of `Batch_Query_shape`: the batch `[3, 12, 5, 1]` on the two partitions of the
16-entry database. -/
theorem Batch_Query_shape_witness :
    ∃ r, demoBatch.Query demoAes [3, 12, 5, 1] demoDraws = some r ∧ r.err = none ∧
      r.ret.length = [3, 12, 5, 1].length ∧
      (∀ e, e ∈ r.ret → e.length = demoBatch.config.DBEntrySize) ∧
      (∀ i, i < [3, 12, 5, 1].length →
        r.ret.getD i [] = zeroEntry demoBatch.config.DBEntrySize ∨
          ∃ c, c ∈ r.calls ∧ c.realQuery = true ∧
            c.partition = [3, 12, 5, 1].getD i 0 / demoBatch.config.PartitionSize ∧
            c.idx = [3, 12, 5, 1].getD i 0 - c.partition * demoBatch.config.PartitionSize ∧
            c.err = none ∧ c.ret = r.ret.getD i []) ∧
      BatchOK r.pir :=
  Batch_Query_shape demoAes demoBatch [3, 12, 5, 1] demoDraws demoBatch_ok (by decide)

/-- Claim C19, counterexample: a database of `2^33` one-word entries in one partition, word
`0x7fffffff` being 1 and the others 0.  After `Preprocessing`, the batch
`[0x7fffffff, 2^31 + 5]` returns at position 1 the entry `[1]`: it is not all-zero and it is not
the entry `[0]` of index `2^31 + 5`, it is the entry of index `0x7fffffff`. -/
theorem Batch_wrong_entry_after_sentinel_index :
    (sentinelBatch.Query sentinelAes [0x7fffffff, 2 ^ 31 + 5] demoDraws).map
        (fun r => (r.ret, r.err)) = some ([[1], [1]], none) ∧
      dbEntry sentinelDB 1 (2 ^ 31 + 5) = [0] ∧ zeroEntry 1 = [0] ∧
      dbEntry sentinelDB 1 0x7fffffff = [1] := by
  decide

/-- Claim C20: on a batch instance of the right shape, for every batch of indices below
`DBSize`, with `queryNumToMake = len(idx) / PartitionNum`, `SimpleBatchPianoPIR.Query` returns
and every position whose index does not occur among the first `queryNumToMake` indices
bucketed, in input order, into its partition holds the all-zero entry.  In particular, for 32
distinct indices all inside partition 0 with `PartitionNum = 16`, the outputs at positions
2..31 are all-zero. -/
theorem Batch_Query_oversubscribed (aes : Nat → Nat → Nat) (p : SimpleBatchPianoPIR)
    (idx : List Nat) (rnd : BatchDraws) (ok : BatchOK p)
    (hidx : ∀ x, x ∈ idx → x < p.config.DBSize) :
    ∃ r, p.Query aes idx rnd = some r ∧
      (∀ i, i < idx.length →
        idx.getD i 0 ∉ (bucketOf p.config idx (idx.getD i 0 / p.config.PartitionSize)).take
          (idx.length / p.config.PartitionNum) →
        r.ret.getD i [] = zeroEntry p.config.DBEntrySize) ∧
      (p.config.PartitionNum = 16 → idx.length = 32 → idx.Nodup →
        (∀ x, x ∈ idx → x / p.config.PartitionSize = 0) →
        ∀ i, 2 ≤ i → i < 32 → r.ret.getD i [] = zeroEntry p.config.DBEntrySize) := by
  obtain ⟨st, r, hst, _, hq, _, _, hret, _, _⟩ := Batch_Query_eq aes p idx rnd ok hidx
  have hkeys := Batch_loop_keys aes p.config idx rnd (idx.length / p.config.PartitionNum)
    { subPIR := p.subPIR, responses := [], calls := [] } st rfl hst
  have hmain : ∀ i, i < idx.length →
      idx.getD i 0 ∉ (bucketOf p.config idx (idx.getD i 0 / p.config.PartitionSize)).take
        (idx.length / p.config.PartitionNum) →
      r.ret.getD i [] = zeroEntry p.config.DBEntrySize := by
    intro i hi hnot
    rw [hret, map_getD_lt idx _ i [] hi]
    unfold outputEntry
    cases hl : cacheLookup st.responses (idx.getD i 0) with
    | none => rfl
    | some v => exact absurd (hkeys (idx.getD i 0) (by rw [hl]; simp)) hnot
  refine ⟨r, hq, hmain, ?_⟩
  intro hP hlen hnd hpart i h2 h32
  apply hmain i (by omega)
  have hb : bucketOf p.config idx (idx.getD i 0 / p.config.PartitionSize) = idx := by
    unfold bucketOf
    rw [List.filter_eq_self]
    intro x hx
    have h1 := hpart x hx
    have h3 := hpart (idx.getD i 0) (by
      have hi : i < idx.length := by omega
      simp [List.getD, List.getElem?_eq_getElem hi])
    rw [h1, h3]
    simp
  rw [hb, hP, hlen]
  exact getD_not_mem_take idx (32 / 16) i hnd (by omega) (by omega)

/-- Witness of `Batch_Query_oversubscribed`: in the batch `[3, 12, 5, 1]` the budget is 2 per
partition and the bucket of partition 0 is `[3, 5, 1]`. -/
theorem Batch_Query_oversubscribed_witness :
    ∃ r, demoBatch.Query demoAes [3, 12, 5, 1] demoDraws = some r ∧
      (∀ i, i < [3, 12, 5, 1].length →
        [3, 12, 5, 1].getD i 0 ∉
          (bucketOf demoBatch.config [3, 12, 5, 1]
            ([3, 12, 5, 1].getD i 0 / demoBatch.config.PartitionSize)).take
          ([3, 12, 5, 1].length / demoBatch.config.PartitionNum) →
        r.ret.getD i [] = zeroEntry demoBatch.config.DBEntrySize) ∧
      (demoBatch.config.PartitionNum = 16 → [3, 12, 5, 1].length = 32 → [3, 12, 5, 1].Nodup →
        (∀ x, x ∈ [3, 12, 5, 1] → x / demoBatch.config.PartitionSize = 0) →
        ∀ i, 2 ≤ i → i < 32 → r.ret.getD i [] = zeroEntry demoBatch.config.DBEntrySize) :=
  Batch_Query_oversubscribed demoAes demoBatch [3, 12, 5, 1] demoDraws demoBatch_ok (by decide)

/-- Claim C21: on a batch instance of the right shape, for every batch `idx` of indices below
`DBSize`, `SimpleBatchPianoPIR.Query` returns after issuing, partition after partition, exactly
`len(idx) / PartitionNum` sub-queries (real or dummy) to each of the `PartitionNum` sub-PIRs and
none to any other; so two batches of the same length cause the same sequence of partitions of
sub-queries, whatever their indices and the random draws are. -/
theorem Batch_Query_subqueries (aes : Nat → Nat → Nat) (p : SimpleBatchPianoPIR)
    (idx : List Nat) (rnd : BatchDraws) (ok : BatchOK p)
    (hidx : ∀ x, x ∈ idx → x < p.config.DBSize) :
    ∃ r, p.Query aes idx rnd = some r ∧
      r.calls.map (fun c => c.partition) =
        (List.range p.config.PartitionNum).flatMap
          (fun i => List.replicate (idx.length / p.config.PartitionNum) i) ∧
      (∀ i, i < p.config.PartitionNum →
        (r.calls.map (fun c => c.partition)).count i = idx.length / p.config.PartitionNum) ∧
      (∀ c, c ∈ r.calls → c.partition < p.config.PartitionNum) ∧
      ∀ idx2 rnd2, idx2.length = idx.length → (∀ x, x ∈ idx2 → x < p.config.DBSize) →
        ∃ r2, p.Query aes idx2 rnd2 = some r2 ∧
          r2.calls.map (fun c => c.partition) = r.calls.map (fun c => c.partition) := by
  obtain ⟨st, r, hst, _, hq, _, hcalls, _⟩ := Batch_Query_eq aes p idx rnd ok hidx
  have hmap := Batch_loop_calls aes p.config rnd
    (fun i => padQueries ((bucketQueries p.config idx).getD i [])
      (idx.length / p.config.PartitionNum)) _ _ st rfl hst
  refine ⟨r, hq, by rw [hcalls]; exact hmap, ?_, ?_, ?_⟩
  · intro i hi
    rw [hcalls, hmap, count_flatMap_replicate, if_pos hi]
  · intro c hc
    apply mem_flatMap_replicate p.config.PartitionNum (idx.length / p.config.PartitionNum)
    rw [← hmap, ← hcalls]
    exact List.mem_map_of_mem _ hc
  · intro idx2 rnd2 hlen hidx2
    obtain ⟨st2, r2, hst2, _, hq2, _, hcalls2, _⟩ := Batch_Query_eq aes p idx2 rnd2 ok hidx2
    have hmap2 := Batch_loop_calls aes p.config rnd2
      (fun i => padQueries ((bucketQueries p.config idx2).getD i [])
        (idx2.length / p.config.PartitionNum)) _ _ st2 rfl hst2
    refine ⟨r2, hq2, ?_⟩
    rw [hcalls2, hmap2, hcalls, hmap, hlen]

/-- Witness of `Batch_Query_subqueries`: the batch `[3, 12, 5, 1]` on the two partitions of
the 16-entry database. -/
theorem Batch_Query_subqueries_witness :
    ∃ r, demoBatch.Query demoAes [3, 12, 5, 1] demoDraws = some r ∧
      r.calls.map (fun c => c.partition) =
        (List.range demoBatch.config.PartitionNum).flatMap
          (fun i => List.replicate ([3, 12, 5, 1].length / demoBatch.config.PartitionNum) i) ∧
      (∀ i, i < demoBatch.config.PartitionNum →
        (r.calls.map (fun c => c.partition)).count i =
          [3, 12, 5, 1].length / demoBatch.config.PartitionNum) ∧
      (∀ c, c ∈ r.calls → c.partition < demoBatch.config.PartitionNum) ∧
      ∀ idx2 rnd2, idx2.length = [3, 12, 5, 1].length →
        (∀ x, x ∈ idx2 → x < demoBatch.config.DBSize) →
        ∃ r2, demoBatch.Query demoAes idx2 rnd2 = some r2 ∧
          r2.calls.map (fun c => c.partition) = r.calls.map (fun c => c.partition) :=
  Batch_Query_subqueries demoAes demoBatch [3, 12, 5, 1] demoDraws demoBatch_ok (by decide)

/-- Claim C22, as the code has it: on a batch instance of the right shape, for every batch of
indices below `DBSize`, `SimpleBatchPianoPIR.Query` returns, and what it does after the
sub-queries is decided by the counter `QueriesMadeInPartition` of the wrapper as it was
before the call, compared in `uint64` arithmetic with `subPIR[0].client.MaxQueryNum - 2`.  If
the counter has reached that bound, every partition is preprocessed (it is the preprocessed
partition that the sub-queries left, with `FinishedQueryNum = 0`) and both counters of the
wrapper are 0; otherwise the partitions are as the sub-queries left them, `FinishedBatchNum`
has grown by `len(idx) / BatchSize` and `QueriesMadeInPartition` by `len(idx) / PartitionNum`. -/
theorem Batch_Query_rollover (aes : Nat → Nat → Nat) (p : SimpleBatchPianoPIR)
    (idx : List Nat) (rnd : BatchDraws) (ok : BatchOK p)
    (hidx : ∀ x, x ∈ idx → x < p.config.DBSize) :
    ∃ st sub0 r, (List.range p.config.PartitionNum).foldlM (fun st i =>
        queryPartition aes p.config rnd
          (padQueries ((bucketQueries p.config idx).getD i [])
            (idx.length / p.config.PartitionNum))
          (idx.length / p.config.PartitionNum) i st)
        { subPIR := p.subPIR, responses := [], calls := [] } = some st ∧
      st.subPIR[0]? = some sub0 ∧ p.Query aes idx rnd = some r ∧
      (p.QueriesMadeInPartition ≥ (sub0.client.MaxQueryNum + 2 ^ 64 - 2) % 2 ^ 64 →
        r.pir.FinishedBatchNum = 0 ∧ r.pir.QueriesMadeInPartition = 0 ∧
        ∀ k, k < p.config.PartitionNum → ∃ q q2, st.subPIR[k]? = some q ∧
          q.Preprocessing aes (rnd.prepKey k) (rnd.prepRng k) = some q2 ∧
          r.pir.subPIR[k]? = some q2 ∧ q2.client.FinishedQueryNum = 0) ∧
      (p.QueriesMadeInPartition < (sub0.client.MaxQueryNum + 2 ^ 64 - 2) % 2 ^ 64 →
        r.pir.subPIR = st.subPIR ∧
        r.pir.FinishedBatchNum = p.FinishedBatchNum + idx.length / p.config.BatchSize ∧
        r.pir.QueriesMadeInPartition =
          p.QueriesMadeInPartition + idx.length / p.config.PartitionNum) := by
  obtain ⟨st, r, hst, hok, hq, _⟩ := Batch_Query_eq aes p idx rnd ok hidx
  have hg := Batch_Query_guards p idx ok hidx
  have h0 : 0 < st.subPIR.length := by rw [hok.len]; exact ok.parts
  have hsub0 : st.subPIR[0]? = some st.subPIR[0] := List.getElem?_eq_getElem h0
  refine ⟨st, st.subPIR[0], r, hst, hsub0, hq, ?_, ?_⟩
  · intro hroll
    unfold SimpleBatchPianoPIR.Query at hq
    rw [if_neg hg.1, hg.2] at hq
    simp only [Bool.false_eq_true, if_false] at hq
    rw [hst] at hq
    simp only [] at hq
    rw [hsub0] at hq
    simp only [] at hq
    rw [if_pos hroll] at hq
    split at hq
    · exact absurd hq (by simp)
    · rename_i p2 hp2
      simp only [Option.some.injEq] at hq
      obtain ⟨e1, e2, _, e4⟩ := Batch_Preprocessing_rows aes rnd.prepKey rnd.prepRng _ p2 hp2
      rw [← hq]
      refine ⟨e1, e2, ?_⟩
      intro k hk
      obtain ⟨q, q2, g1, g2, g3, g4, _⟩ := e4 k hk
      exact ⟨q, q2, g1, g2, g3, g4⟩
  · intro hroll
    unfold SimpleBatchPianoPIR.Query at hq
    rw [if_neg hg.1, hg.2] at hq
    simp only [Bool.false_eq_true, if_false] at hq
    rw [hst] at hq
    simp only [] at hq
    rw [hsub0] at hq
    simp only [] at hq
    rw [if_neg (by omega)] at hq
    simp only [Option.some.injEq] at hq
    rw [← hq]
    exact ⟨rfl, rfl, rfl⟩

/-- Witness of `Batch_Query_rollover`: the batch `[3, 12, 5, 1]` on the two partitions of the
16-entry database. -/
theorem Batch_Query_rollover_witness :
    ∃ st sub0 r, (List.range demoBatch.config.PartitionNum).foldlM (fun st i =>
        queryPartition demoAes demoBatch.config demoDraws
          (padQueries ((bucketQueries demoBatch.config [3, 12, 5, 1]).getD i [])
            ([3, 12, 5, 1].length / demoBatch.config.PartitionNum))
          ([3, 12, 5, 1].length / demoBatch.config.PartitionNum) i st)
        { subPIR := demoBatch.subPIR, responses := [], calls := [] } = some st ∧
      st.subPIR[0]? = some sub0 ∧ demoBatch.Query demoAes [3, 12, 5, 1] demoDraws = some r ∧
      (demoBatch.QueriesMadeInPartition ≥ (sub0.client.MaxQueryNum + 2 ^ 64 - 2) % 2 ^ 64 →
        r.pir.FinishedBatchNum = 0 ∧ r.pir.QueriesMadeInPartition = 0 ∧
        ∀ k, k < demoBatch.config.PartitionNum → ∃ q q2, st.subPIR[k]? = some q ∧
          q.Preprocessing demoAes (demoDraws.prepKey k) (demoDraws.prepRng k) = some q2 ∧
          r.pir.subPIR[k]? = some q2 ∧ q2.client.FinishedQueryNum = 0) ∧
      (demoBatch.QueriesMadeInPartition < (sub0.client.MaxQueryNum + 2 ^ 64 - 2) % 2 ^ 64 →
        r.pir.subPIR = st.subPIR ∧
        r.pir.FinishedBatchNum =
          demoBatch.FinishedBatchNum + [3, 12, 5, 1].length / demoBatch.config.BatchSize ∧
        r.pir.QueriesMadeInPartition =
          demoBatch.QueriesMadeInPartition +
            [3, 12, 5, 1].length / demoBatch.config.PartitionNum) :=
  Batch_Query_rollover demoAes demoBatch [3, 12, 5, 1] demoDraws demoBatch_ok (by decide)

/-- Claim C22, counterexample.  On the two partitions of 8 entries of the 16-entry database,
`MaxQueryNum = 5` in both sub-PIRs.  After the batches `[0, 1, 8, 9]` and `[2, 3, 10, 11]` both
sub-PIRs have `FinishedQueryNum = 4 ≥ MaxQueryNum - 2`, and no partition has been
preprocessed again: the wrapper has counted `QueriesMadeInPartition = 0 + 2 + 2` and two
batches.  In the other direction, the third of three batches `[0, 1, 2, 3]` preprocesses every
partition again and resets the counters, although no sub-PIR has finished more than 2
queries. -/
theorem Batch_rollover_follows_wrapper_counter :
    (((demoBatch.Query demoAes [0, 1, 8, 9] demoDraws).bind fun r =>
        r.pir.Query demoAes [2, 3, 10, 11] demoDraws).map fun r =>
          (r.pir.subPIR.map (fun q => (q.client.FinishedQueryNum, q.client.MaxQueryNum)),
            r.pir.FinishedBatchNum, r.pir.QueriesMadeInPartition)) =
      some ([(4, 5), (4, 5)], 2, 4) ∧
    (((demoBatch.Query demoAes [0, 1, 2, 3] demoDraws).bind fun r =>
        r.pir.Query demoAes [0, 1, 2, 3] demoDraws).map fun r =>
          (r.pir.subPIR.map (fun q => (q.client.FinishedQueryNum, q.client.MaxQueryNum)),
            r.pir.FinishedBatchNum, r.pir.QueriesMadeInPartition)) =
      some ([(2, 5), (0, 5)], 2, 4) ∧
    ((((demoBatch.Query demoAes [0, 1, 2, 3] demoDraws).bind fun r =>
        r.pir.Query demoAes [0, 1, 2, 3] demoDraws).bind fun r =>
        r.pir.Query demoAes [0, 1, 2, 3] demoDraws).map fun r =>
          (r.pir.subPIR.map (fun q => (q.client.FinishedQueryNum, q.client.MaxQueryNum)),
            r.pir.FinishedBatchNum, r.pir.QueriesMadeInPartition)) =
      some ([(0, 5), (0, 5)], 0, 0) := by
  decide

/-- Claim C23, as the code has it: for `BatchSize ≥ 2`, when the range of the last partition is
well formed, `(PartitionNum - 1)·PartitionSize ≤ DBSize`, `NewSimpleBatchPianoPIR` returns an
instance with `PartitionNum = BatchSize / 2` sub-PIRs and `PartitionSize = ⌈DBSize /
PartitionNum⌉`; sub-PIR `i` is built over the entries `[i·PartitionSize,
min((i+1)·PartitionSize, DBSize))` of `rawDB`, every such range is well formed, and every index
below `DBSize` lies in exactly one of them.  Hypotheses `hN` and `hE` keep the sizes within
`uint64`, `ht` bounds the target of the chunk-size loop of `NewPianoPIR`. -/
theorem NewSimpleBatchPianoPIR_partitions (fl : FloatValues)
    (DBSize DBEntryByteNum BatchSize : Nat) (rawDB : Slice) (FailureProbLog2 : Nat)
    (key key2 : Nat → Nat)
    (hlen : rawDB.len = DBSize * (DBEntryByteNum / 8) % 2 ^ 64)
    (hB : 2 ≤ BatchSize) (hN : DBSize + BatchSize / 2 ≤ 2 ^ 64)
    (hE : DBSize * (DBEntryByteNum / 8) < 2 ^ 64)
    (ht : ∀ n, n ≤ DBSize → fl.twoSqrt n ≤ 2 ^ 63)
    (hwf : (BatchSize / 2 - 1) * ((DBSize + BatchSize / 2 - 1) / (BatchSize / 2)) ≤ DBSize) :
    ∃ p, NewSimpleBatchPianoPIR fl DBSize DBEntryByteNum BatchSize rawDB FailureProbLog2 key
        key2 = some p ∧
      p.config.PartitionNum = BatchSize / 2 ∧
      p.config.PartitionSize = (DBSize + p.config.PartitionNum - 1) / p.config.PartitionNum ∧
      DBSize ≤ p.config.PartitionNum * p.config.PartitionSize ∧
      p.config.PartitionNum * p.config.PartitionSize < DBSize + p.config.PartitionNum ∧
      p.subPIR.length = p.config.PartitionNum ∧
      (∀ i, i < p.config.PartitionNum →
        i * p.config.PartitionSize ≤ min ((i + 1) * p.config.PartitionSize) DBSize ∧
        ∃ q, p.subPIR[i]? = some q ∧
          q.config.DBSize =
            min ((i + 1) * p.config.PartitionSize) DBSize - i * p.config.PartitionSize ∧
          q.server.rawDB = rawDB.subslice
            (i * p.config.PartitionSize * (DBEntryByteNum / 8))
            (min ((i + 1) * p.config.PartitionSize) DBSize * (DBEntryByteNum / 8))) ∧
      ∀ x, x < DBSize →
        ∃ i, (i < p.config.PartitionNum ∧ i * p.config.PartitionSize ≤ x ∧
            x < min ((i + 1) * p.config.PartitionSize) DBSize) ∧
          ∀ j, (j < p.config.PartitionNum ∧ j * p.config.PartitionSize ≤ x ∧
            x < min ((j + 1) * p.config.PartitionSize) DBSize) → j = i := by
  have hP : 0 < BatchSize / 2 := by omega
  obtain ⟨p, hp, h1, h2, _, h4, h5⟩ := NewSimpleBatchPianoPIR_eq fl DBSize DBEntryByteNum
    BatchSize rawDB FailureProbLog2 key key2 hlen hB hN hE ht hwf
  have hcov := ceil_cover DBSize (BatchSize / 2) hP
  have hup : BatchSize / 2 * ((DBSize + BatchSize / 2 - 1) / (BatchSize / 2)) <
      DBSize + BatchSize / 2 := by
    have := Nat.mul_div_le (DBSize + BatchSize / 2 - 1) (BatchSize / 2)
    omega
  refine ⟨p, hp, h1, by rw [h2, h1], by rw [h1, h2]; exact hcov, by rw [h1, h2]; exact hup,
    by rw [h4, h1], ?_, ?_⟩
  · intro i hi
    rw [h1] at hi
    rw [h2]
    refine ⟨partition_range_le DBSize (BatchSize / 2) _ i hi hwf, ?_⟩
    obtain ⟨q, hq, hnew⟩ := h5 i hi
    obtain ⟨g1, _, _, _, g5, _⟩ := NewPianoPIR_some _ _ _ _ _ _ _ q hnew
    exact ⟨q, hq, g1, g5⟩
  · intro x hx
    rw [h1, h2]
    exact partition_cover DBSize (BatchSize / 2) _ x hx hcov

/-- Witness of `NewSimpleBatchPianoPIR_partitions`: the 16-entry database and batches of 4
give two partitions of 8 entries. -/
theorem NewSimpleBatchPianoPIR_partitions_witness :
    ∃ p, NewSimpleBatchPianoPIR smallFloat 16 8 4 batchDB 0 (fun i => i) (fun i => i + 7) =
        some p ∧
      p.config.PartitionNum = 4 / 2 ∧
      p.config.PartitionSize = (16 + p.config.PartitionNum - 1) / p.config.PartitionNum ∧
      16 ≤ p.config.PartitionNum * p.config.PartitionSize ∧
      p.config.PartitionNum * p.config.PartitionSize < 16 + p.config.PartitionNum ∧
      p.subPIR.length = p.config.PartitionNum ∧
      (∀ i, i < p.config.PartitionNum →
        i * p.config.PartitionSize ≤ min ((i + 1) * p.config.PartitionSize) 16 ∧
        ∃ q, p.subPIR[i]? = some q ∧
          q.config.DBSize =
            min ((i + 1) * p.config.PartitionSize) 16 - i * p.config.PartitionSize ∧
          q.server.rawDB = batchDB.subslice
            (i * p.config.PartitionSize * (8 / 8))
            (min ((i + 1) * p.config.PartitionSize) 16 * (8 / 8))) ∧
      ∀ x, x < 16 →
        ∃ i, (i < p.config.PartitionNum ∧ i * p.config.PartitionSize ≤ x ∧
            x < min ((i + 1) * p.config.PartitionSize) 16) ∧
          ∀ j, (j < p.config.PartitionNum ∧ j * p.config.PartitionSize ≤ x ∧
            x < min ((j + 1) * p.config.PartitionSize) 16) → j = i :=
  NewSimpleBatchPianoPIR_partitions smallFloat 16 8 4 batchDB 0 (fun i => i) (fun i => i + 7)
    (by decide) (by decide) (by norm_num) (by norm_num)
    (by intro n hn; interval_cases n <;> decide) (by decide)

/-- Claim C23, counterexample: `DBSize = 5` and `BatchSize = 8` give `PartitionNum = 4` and
`PartitionSize = ⌈5/4⌉ = 2`, so partition 3 gets the range `[6, min(8, 5)) = [6, 5)`, whose
start is above its end: the slice expression `rawDB[6:5]` aborts the construction.  The
ranges of the partitions 0, 1, 2 are `[0, 2)`, `[2, 4)`, `[4, 5)`. -/
theorem short_database_partition_out_of_order :
    (NewSimpleBatchPianoPIR smallFloat 5 8 8 (Slice.ofList [1, 2, 3, 4, 5]) 0 (fun i => i)
        (fun i => i)).isNone = true ∧
      8 / RealQueryPerPartition = 4 ∧ (5 + 4 - 1) / 4 = 2 ∧
      (List.range 4).map (fun i => (i * 2, min ((i + 1) * 2) 5)) =
        [(0, 2), (2, 4), (4, 5), (6, 5)] ∧
      ((List.range 3).map fun i =>
        (NewPianoPIR smallFloat (min ((i + 1) * 2) 5 - i * 2) 8
          ((Slice.ofList [1, 2, 3, 4, 5]).subslice (i * 2) (min ((i + 1) * 2) 5)) 0 i
          i).isSome) = [true, true, true] := by
  decide

/-- Claim C24: for `Dim + M` even, vectors of `Dim` components given by their `float32` bit
patterns and rows of `M` neighbor ids in `[0, 2^32)`, the packing of
`PIRGraphInfo.Preprocess` returns a database of `N` entries of `DBEntrySize = (4·Dim + 4·M)/8`
words, and `Entry2VectorAndNeighbors(Dim, M, ·)` applied to the words of vertex `i` returns
exactly the vector and the neighbor ids of vertex `i`. -/
theorem Entry2VectorAndNeighbors_packDB (N Dim M : Nat) (vectors : List (List Nat))
    (graph : List (List Int)) (heven : (Dim + M) % 2 = 0)
    (hv : vectors.length = N) (hg : graph.length = N)
    (hvec : ∀ v, v ∈ vectors → v.length = Dim ∧ ∀ x, x ∈ v → x < 2 ^ 32)
    (hrow : ∀ r, r ∈ graph → r.length = M ∧ ∀ y, y ∈ r → 0 ≤ y ∧ y < 2 ^ 32) :
    ∃ rawDB, packDB N Dim M vectors graph = some rawDB ∧
      rawDB.length = N * ((4 * Dim + 4 * M) / 8) ∧
      ∀ i, i < N →
        (slice rawDB (i * ((4 * Dim + 4 * M) / 8)) ((i + 1) * ((4 * Dim + 4 * M) / 8))).length =
          (4 * Dim + 4 * M) / 8 ∧
        Entry2VectorAndNeighbors Dim M
            (slice rawDB (i * ((4 * Dim + 4 * M) / 8)) ((i + 1) * ((4 * Dim + 4 * M) / 8))) =
          some (vectors.getD i [], graph.getD i []) := by
  have hB : 4 * Dim + 4 * M = Dim * 4 + M * 4 := by omega
  rw [hB]
  obtain ⟨rawDB, h1, h2, h3⟩ := packDB_entries N Dim M vectors graph heven hv hg hvec hrow
  refine ⟨rawDB, h1, h2, ?_⟩
  intro i hi
  have hvj : vectors[i]? = some (vectors.getD i []) := by
    rw [List.getD_eq_getElem?_getD, List.getElem?_eq_getElem (by omega)]; rfl
  have hgj : graph[i]? = some (graph.getD i []) := by
    rw [List.getD_eq_getElem?_getD, List.getElem?_eq_getElem (by omega)]; rfl
  have hvm := hvec _ (List.getElem?_mem hvj)
  have hgm := hrow _ (List.getElem?_mem hgj)
  obtain ⟨entry, he, hel, hrt⟩ :=
    packEntry_roundtrip Dim M _ _ heven hvm.1 hgm.1 hvm.2 hgm.2
  have := h3 i hi
  rw [he] at this
  rw [← Option.some.inj this]
  exact ⟨hel, hrt⟩

/-- Witness of `Entry2VectorAndNeighbors_packDB`: two vertices with vectors of two components
(among them a negative number and a NaN) and two neighbors each. -/
theorem Entry2VectorAndNeighbors_packDB_witness :
    ∃ rawDB, packDB 2 2 2 packVectors packGraph = some rawDB ∧
      rawDB.length = 2 * ((4 * 2 + 4 * 2) / 8) ∧
      ∀ i, i < 2 →
        (slice rawDB (i * ((4 * 2 + 4 * 2) / 8)) ((i + 1) * ((4 * 2 + 4 * 2) / 8))).length =
          (4 * 2 + 4 * 2) / 8 ∧
        Entry2VectorAndNeighbors 2 2
            (slice rawDB (i * ((4 * 2 + 4 * 2) / 8)) ((i + 1) * ((4 * 2 + 4 * 2) / 8))) =
          some (packVectors.getD i [], packGraph.getD i []) :=
  Entry2VectorAndNeighbors_packDB 2 2 2 packVectors packGraph (by decide) (by decide)
    (by decide) (by decide) (by decide)

/-- Claim C25: for a vertex `u` and candidates that index `vectors` (on which `L2Dist`
returns), every target degree `m ≥ 1` and every behaviour of `sort.Slice` that rearranges its
input, `robustPrune` returns a list of exactly `min(|C|, m)` ids. -/
theorem robustPrune_returns_min {F : Type} (ops : Float32Ops F)
    (sortSlice : List (IdWithDist F) → List (IdWithDist F)) (vectors : List (List F))
    (u : Int) (candidates : List Int) (m : Nat) (alpha : F)
    (hsort : SortOK ops sortSlice) (hm : 1 ≤ m)
    (hdist : ∀ x, x ∈ vectors → ∀ y, y ∈ vectors → (L2Dist ops x y).isSome = true)
    (hu : 0 ≤ u ∧ u < vectors.length)
    (hc : ∀ c, c ∈ candidates → 0 ≤ c ∧ c < vectors.length) :
    ∃ l, robustPrune ops sortSlice vectors u candidates m alpha = some l ∧
      l.length = min candidates.length m := by
  obtain ⟨l, hl⟩ := robustPrune_some ops sortSlice vectors u candidates m alpha hsort.perm
    hdist hu hc
  exact ⟨l, hl, (robustPrune_length ops sortSlice vectors u candidates m alpha l hsort.perm hm
    hl).1⟩

/-- Witness of `robustPrune_returns_min`: four candidates of the origin, degree 3. -/
theorem robustPrune_returns_min_witness :
    ∃ l, robustPrune fifths sortByDist pruneVectors 0 [4, 3, 2, 1] 3 6 = some l ∧
      l.length = min [4, 3, 2, 1].length 3 :=
  robustPrune_returns_min fifths sortByDist pruneVectors 0 [4, 3, 2, 1] 3 6 sortByDist_ok
    (by decide) pruneVectors_dist (by decide) (by decide)

/-- Claim C26, as the code has it: for a vertex and candidates that index `vectors`, `m ≥ 1`
and a `sort.Slice` that sorts, `robustPrune` returns the candidates unchanged when there are at
most `m` of them, and otherwise a list `A ++ D` of ids in which `A`, the accepted candidates,
is in non-decreasing order of distance to `u`, and `D`, the discarded candidates added when
fewer than `m` were accepted, is in non-decreasing order of distance to `u`; `dist` is the
distance `L2Dist(vectors[u], vectors[id])` of the id. -/
theorem robustPrune_order {F : Type} (ops : Float32Ops F)
    (sortSlice : List (IdWithDist F) → List (IdWithDist F)) (vectors : List (List F))
    (u : Int) (candidates : List Int) (m : Nat) (alpha : F)
    (hsort : SortOK ops sortSlice) (hm : 1 ≤ m)
    (hdist : ∀ x, x ∈ vectors → ∀ y, y ∈ vectors → (L2Dist ops x y).isSome = true)
    (hu : 0 ≤ u ∧ u < vectors.length)
    (hc : ∀ c, c ∈ candidates → 0 ≤ c ∧ c < vectors.length) :
    (candidates.length ≤ m →
      robustPrune ops sortSlice vectors u candidates m alpha = some candidates) ∧
    (m < candidates.length →
      ∃ A D : List (IdWithDist F),
        robustPrune ops sortSlice vectors u candidates m alpha =
          some ((A ++ D).map fun x => x.id) ∧
        (∀ x, x ∈ A ++ D → vertexDist ops vectors u x.id = some x.dist) ∧
        A.Pairwise (fun a b => ops.lt b.dist a.dist = false) ∧
        D.Pairwise (fun a b => ops.lt b.dist a.dist = false) ∧
        (D ≠ [] → A.length < m)) := by
  constructor
  · intro hle
    unfold robustPrune
    rw [if_pos hle]
  · intro hlt
    obtain ⟨l, hl⟩ := robustPrune_some ops sortSlice vectors u candidates m alpha hsort.perm
      hdist hu hc
    obtain ⟨_, _, dist2u, A, D, _, e2, e3, e4, e5, e6⟩ :=
      robustPrune_spec ops sortSlice vectors u candidates m alpha l hsort.perm hm hlt hl
    refine ⟨A, D, by rw [hl, e3], ?_, (hsort.sorted dist2u).sublist e4,
      (hsort.sorted dist2u).sublist e5, e6⟩
    intro x hx
    rcases List.mem_append.mp hx with h | h
    · exact e2 x (e4.subset h)
    · exact e2 x (e5.subset h)

/-- Witness of `robustPrune_order`: four candidates of the origin, degree 3. -/
theorem robustPrune_order_witness :
    ([4, 3, 2, 1].length ≤ 3 →
      robustPrune fifths sortByDist pruneVectors 0 [4, 3, 2, 1] 3 6 = some [4, 3, 2, 1]) ∧
    (3 < [4, 3, 2, 1].length →
      ∃ A D : List (IdWithDist Int),
        robustPrune fifths sortByDist pruneVectors 0 [4, 3, 2, 1] 3 6 =
          some ((A ++ D).map fun x => x.id) ∧
        (∀ x, x ∈ A ++ D → vertexDist fifths pruneVectors 0 x.id = some x.dist) ∧
        A.Pairwise (fun a b => fifths.lt b.dist a.dist = false) ∧
        D.Pairwise (fun a b => fifths.lt b.dist a.dist = false) ∧
        (D ≠ [] → A.length < 3)) :=
  robustPrune_order fifths sortByDist pruneVectors 0 [4, 3, 2, 1] 3 6 sortByDist_ok
    (by decide) pruneVectors_dist (by decide) (by decide)

/-- Claim C26, counterexample.  The vertex `u = 0` is the origin and the candidates 1, 2, 3, 4
are `(1, 0, …)`, `(2, 0, …)`, `(-2, -1, 0, …)`, `(3, 0, …)`, at the distances 1, 4, 5, 9 (in fifths:
5, 20, 25, 45); `m = 3` and `alpha = 1.2`.  Candidate 1 is accepted, 2 is discarded
(`1·1.2 < 4`), 3 is accepted (`10·1.2 ≥ 5`), 4 is discarded (`4·1.2 < 9`); `accept` holds 2
ids, so the discarded id 2 is added and the result is `[1, 3, 2]`: id 3 at distance 5 comes
before id 2 at distance 4.  With at most `m` candidates the input order is kept: `[4, 1]` is
returned for `m = 2`, distance 9 before distance 1. -/
theorem robustPrune_discarded_out_of_order :
    robustPrune fifths sortByDist pruneVectors 0 [1, 2, 3, 4] 3 6 = some [1, 3, 2] ∧
      vertexDist fifths pruneVectors 0 3 = some 25 ∧
      vertexDist fifths pruneVectors 0 2 = some 20 ∧
      fifths.lt 20 25 = true ∧
      robustPrune fifths sortByDist pruneVectors 0 [4, 1] 2 6 = some [4, 1] ∧
      vertexDist fifths pruneVectors 0 4 = some 45 ∧
      vertexDist fifths pruneVectors 0 1 = some 5 ∧
      fifths.lt 5 45 = true := by
  decide

/-- Claim C27: for `m ≥ 1` and every behaviour of `sort.Slice` that rearranges its input, the
graph that `CreateGraphBasedOnNGT` returns has a row for every vertex and every row has
exactly `m` neighbors. -/
theorem CreateGraphBasedOnNGT_degree {F : Type} (inp : GraphInputs F)
    (vectors : List (List F)) (m : Nat) (graph : List (List Int))
    (hsort : SortOK inp.ops inp.sortSlice) (hm : 1 ≤ m)
    (h : CreateGraphBasedOnNGT inp vectors m = some graph) :
    graph.length = vectors.length ∧
      ∀ u, u < vectors.length → (graph.getD u []).length = m := by
  obtain ⟨g1, bg, h1, _, h3, _⟩ := CreateGraphBasedOnNGT_stages inp vectors m graph h
  obtain ⟨hl1, _⟩ := passOne_rows inp vectors m g1 h1
  obtain ⟨hl, hrows⟩ := passTwo_rows inp vectors m g1 bg graph hsort.perm hl1 h3
  refine ⟨hl, ?_⟩
  intro u hu
  obtain ⟨conn, extra, e1, _, e3, _⟩ := hrows u hu
  rw [e1]; exact e3 hm

/-- Witness of `CreateGraphBasedOnNGT_degree`: five vectors, degree 2. -/
theorem CreateGraphBasedOnNGT_degree_witness :
    CreateGraphBasedOnNGT demoInputs pruneVectors 2 =
        some [[3, 3], [3, 4], [4, 4], [1, 2], [2, 3]] ∧
      [[3, 3], [3, 4], [4, 4], [1, 2], [2, 3]].length = pruneVectors.length ∧
      ∀ u, u < pruneVectors.length →
        (([[3, 3], [3, 4], [4, 4], [1, 2], [2, 3]] : List (List Int)).getD u []).length = 2 :=
  ⟨by decide, CreateGraphBasedOnNGT_degree demoInputs pruneVectors 2
    [[3, 3], [3, 4], [4, 4], [1, 2], [2, 3]] sortByDist_ok (by decide) (by decide)⟩

/-- Claim C28: when the index returns ids from 1, `sort.Slice` rearranges its input and the
draws of `Intn(n)` are below `n`, every edge `u → v` of the graph of pass 1, of `biGraph` and of
the graph of pass 2 is valid, `0 ≤ v < n` and `v ≠ u`; the loops that build `biGraph` and that
count the inbound edges do not leave their slices; and the graph that `CreateGraphBasedOnNGT`
returns has only valid edges. -/
theorem CreateGraphBasedOnNGT_valid {F : Type} (inp : GraphInputs F)
    (vectors : List (List F)) (m : Nat) (hsort : SortOK inp.ops inp.sortSlice)
    (hids : ∀ u id, id ∈ inp.search u → 1 ≤ id)
    (hintn : ∀ seed t, (inp.rand seed).intn t vectors.length < vectors.length) :
    (∀ g1, passOne inp vectors m = some g1 →
      ValidEdges vectors.length g1 ∧
      ∃ biGraph, symmetrize vectors.length g1 = some biGraph ∧
        ValidEdges vectors.length biGraph ∧
        ∀ graph, passTwo inp vectors m g1 biGraph = some graph →
          ValidEdges vectors.length graph ∧
          inboundsInRange vectors.length graph = true) ∧
    ∀ graph, CreateGraphBasedOnNGT inp vectors m = some graph →
      ValidEdges vectors.length graph := by
  have hstage : ∀ g1, passOne inp vectors m = some g1 →
      ValidEdges vectors.length g1 ∧
      ∃ biGraph, symmetrize vectors.length g1 = some biGraph ∧
        ValidEdges vectors.length biGraph ∧
        ∀ graph, passTwo inp vectors m g1 biGraph = some graph →
          ValidEdges vectors.length graph ∧
          inboundsInRange vectors.length graph = true := by
    intro g1 h1
    have hv1 := passOne_valid inp vectors m g1 hsort.perm hids h1
    obtain ⟨hl1, _⟩ := passOne_rows inp vectors m g1 h1
    obtain ⟨bg, h2, _, hv2⟩ := symmetrize_valid vectors.length g1 hv1
    exact ⟨hv1, bg, h2, hv2, fun graph h3 =>
      passTwo_valid inp vectors m g1 bg graph hsort.perm hintn hl1 hv2 h3⟩
  refine ⟨hstage, ?_⟩
  intro graph h
  obtain ⟨g1, bg, h1, h2, h3, _⟩ := CreateGraphBasedOnNGT_stages inp vectors m graph h
  obtain ⟨_, bg2, h2b, _, h4⟩ := hstage g1 h1
  rw [h2] at h2b
  rw [← Option.some.inj h2b] at h4
  exact (h4 graph h3).1

/-- Witness of `CreateGraphBasedOnNGT_valid`: five vectors, degree 2. -/
theorem CreateGraphBasedOnNGT_valid_witness :
    (∀ g1, passOne demoInputs pruneVectors 2 = some g1 →
      ValidEdges pruneVectors.length g1 ∧
      ∃ biGraph, symmetrize pruneVectors.length g1 = some biGraph ∧
        ValidEdges pruneVectors.length biGraph ∧
        ∀ graph, passTwo demoInputs pruneVectors 2 g1 biGraph = some graph →
          ValidEdges pruneVectors.length graph ∧
          inboundsInRange pruneVectors.length graph = true) ∧
    ∀ graph, CreateGraphBasedOnNGT demoInputs pruneVectors 2 = some graph →
      ValidEdges pruneVectors.length graph :=
  CreateGraphBasedOnNGT_valid demoInputs pruneVectors 2 sortByDist_ok demoInputs_ids
    (graphRand_intn pruneVectors.length (by decide))

/-- Claim C29, counterexample: three vertices, `m = 2`; the index answers for vertex 0 with
the ids of the vertices 0 and 1, for vertex 1 with those of 1 and 0, for vertex 2 with its own.
Pass 1 gives the rows `[1]`, `[0]`, `[]`, so `biGraph[0] = [1, 1]` (the edge `0 → 1` and the
reversed edge `1 → 0`) and `biGraph[1] = [0, 0]`.  The inbound count of both is 2, so
`prob = min(1.5·2/2, 1) = 1` and both copies are sampled; the rows hold 2 = `m` ids, so they are
neither pruned nor filled.  The graph returned has the rows `[1, 1]` and `[0, 0]`. -/
theorem CreateGraphBasedOnNGT_duplicate_neighbor :
    passOne mutualInputs (pruneVectors.take 3) 2 = some [[1], [0], []] ∧
      symmetrize 3 [[1], [0], []] = some [[1, 1], [0, 0], []] ∧
      CreateGraphBasedOnNGT mutualInputs (pruneVectors.take 3) 2 =
        some [[1, 1], [0, 0], [0, 1]] ∧
      ¬ ([1, 1] : List Int).Nodup := by
  decide

/-- The part of claim C29 that the code keeps: for `sort.Slice` rearranging its input, row `u`
of the graph that `CreateGraphBasedOnNGT` returns is a selection `conn` of `biGraph[u]`
followed by random vertices `extra` that are different from each other, from the vertices of
`conn` and from `u`; so a row repeats an id only where `biGraph[u]` does. -/
theorem CreateGraphBasedOnNGT_fill_distinct {F : Type} (inp : GraphInputs F)
    (vectors : List (List F)) (m : Nat) (graph : List (List Int))
    (hsort : SortOK inp.ops inp.sortSlice)
    (h : CreateGraphBasedOnNGT inp vectors m = some graph) :
    ∃ g1 biGraph, passOne inp vectors m = some g1 ∧
      symmetrize vectors.length g1 = some biGraph ∧
      ∀ u, u < vectors.length →
        (∃ conn extra, graph.getD u [] = conn ++ extra ∧
          conn.Subperm (biGraph.getD u []) ∧ extra.Nodup ∧
          ∀ v, v ∈ extra → v ∉ conn ∧ v ≠ (u : Int)) ∧
        ((biGraph.getD u []).Nodup → (graph.getD u []).Nodup) := by
  obtain ⟨g1, bg, h1, h2, h3, _⟩ := CreateGraphBasedOnNGT_stages inp vectors m graph h
  obtain ⟨hl1, _⟩ := passOne_rows inp vectors m g1 h1
  obtain ⟨_, hrows⟩ := passTwo_rows inp vectors m g1 bg graph hsort.perm hl1 h3
  refine ⟨g1, bg, h1, h2, ?_⟩
  intro u hu
  obtain ⟨conn, extra, e1, e2, _, e4, e5⟩ := hrows u hu
  refine ⟨⟨conn, extra, e1, e2, e4, fun v hv => ⟨(e5 v hv).1, (e5 v hv).2.1⟩⟩, ?_⟩
  intro hnd
  rw [e1, List.nodup_append]
  refine ⟨subperm_nodup _ _ e2 hnd, e4, ?_⟩
  intro v hv1 hv2
  exact (e5 v hv2).1 hv1

/-- Witness of `CreateGraphBasedOnNGT_fill_distinct`: five vectors, degree 2. -/
theorem CreateGraphBasedOnNGT_fill_distinct_witness :
    ∃ g1 biGraph, passOne demoInputs pruneVectors 2 = some g1 ∧
      symmetrize pruneVectors.length g1 = some biGraph ∧
      ∀ u, u < pruneVectors.length →
        (∃ conn extra,
          ([[3, 3], [3, 4], [4, 4], [1, 2], [2, 3]] : List (List Int)).getD u [] =
            conn ++ extra ∧
          conn.Subperm (biGraph.getD u []) ∧ extra.Nodup ∧
          ∀ v, v ∈ extra → v ∉ conn ∧ v ≠ (u : Int)) ∧
        ((biGraph.getD u []).Nodup →
          (([[3, 3], [3, 4], [4, 4], [1, 2], [2, 3]] : List (List Int)).getD u []).Nodup) :=
  CreateGraphBasedOnNGT_fill_distinct demoInputs pruneVectors 2
    [[3, 3], [3, 4], [4, 4], [1, 2], [2, 3]] sortByDist_ok (by decide)

/-- Claim C30: for every `k`, when the libraries and the provider behave (the sorts rearrange,
`heap.Pop` and the provider return, `L2Dist` returns on the vectors met, and vertex ids are
not negative), `SearchKNN` returns two lists of exactly `k` elements.  With `j` the number
of vertices known at the end, the positions from `j` on hold `-1` in both lists; the
positions below `min(j, k)` hold ids of known vertices, different from each other, each with a
reach step that is not negative; and a reach step is `-1` exactly where the id is `-1`. -/
theorem SearchKNN_results {F : Type} (inp : SearchInputs F) (queryVector : List F)
    (k maxStep parallel : Nat) (benchmarking : Bool) (ok : SearchOK inp queryVector) :
    ∃ st r, searchRun inp queryVector maxStep parallel benchmarking = some st ∧
      SearchKNN inp queryVector k maxStep parallel benchmarking = some r ∧
      r.ret.length = k ∧ r.stepRet.length = k ∧
      (∀ i, i < k → st.knownVertices.length ≤ i →
        r.ret.getD i 0 = -1 ∧ r.stepRet.getD i 0 = -1) ∧
      (∀ i, i < k → i < st.knownVertices.length →
        (∃ v, mapLookup st.knownVertices (r.ret.getD i 0) = some v) ∧
        0 ≤ r.ret.getD i 0 ∧ 0 ≤ r.stepRet.getD i 0 ∧
        ∀ i2, i2 < k → i2 < st.knownVertices.length →
          r.ret.getD i 0 = r.ret.getD i2 0 → i = i2) ∧
      ∀ i, i < k → (r.stepRet.getD i 0 = -1 ↔ r.ret.getD i 0 = -1) := by
  obtain ⟨st, hrun, inv, _⟩ := searchRun_ok inp queryVector maxStep parallel benchmarking ok
  obtain ⟨r, sorted, hout, hp, h1, h2, _, hpad, hpos⟩ :=
    searchOutput_ok inp queryVector k st ok.sortSlice inv
  obtain ⟨hlen, hnd, hids⟩ := sorted_ids inp.ops queryVector st sorted inv hp
  have hstep : ∀ x : Int, 0 ≤ (mapLookup st.reachStep x).getD 0 := by
    intro x
    cases hl : mapLookup st.reachStep x with
    | none => exact le_refl 0
    | some s =>
      obtain ⟨e, he, hes⟩ := mapLookup_mem _ _ _ hl
      show 0 ≤ s
      rw [← hes]; exact inv.steps e he
  have hfilled : ∀ i, i < k → i < st.knownVertices.length →
      ∃ x, sorted[i]? = some x ∧ x ∈ sorted ∧ r.ret.getD i 0 = x.vertex.Id ∧
        0 ≤ r.stepRet.getD i 0 := by
    intro i hi hj
    have hlt : i < sorted.length := by omega
    have hx : sorted[i]? = some sorted[i] := List.getElem?_eq_getElem hlt
    obtain ⟨e1, e2⟩ := hpos i hi _ hx
    exact ⟨sorted[i], hx, List.getElem_mem _, e1, by rw [e2]; exact hstep _⟩
  refine ⟨st, r, hrun, ?_, h1, h2, ?_, ?_, ?_⟩
  · unfold SearchKNN
    rw [hrun]
    exact hout
  · intro i hi hj
    exact hpad i hi (by omega)
  · intro i hi hj
    obtain ⟨x, hx, hxm, e1, e2⟩ := hfilled i hi hj
    obtain ⟨g1, g2⟩ := hids x hxm
    refine ⟨by rw [e1]; exact g2, by rw [e1]; exact g1, e2, ?_⟩
    intro i2 hi2 hj2 heq
    obtain ⟨y, hy, _, f1, _⟩ := hfilled i2 hi2 hj2
    rw [e1, f1] at heq
    have hlt : i < (sorted.map fun x => x.vertex.Id).length := by
      rw [List.length_map]; omega
    have hlt2 : i2 < (sorted.map fun x => x.vertex.Id).length := by
      rw [List.length_map]; omega
    have hxi : (sorted.map fun x => x.vertex.Id)[i] = x.vertex.Id := by
      have := List.getElem?_eq_getElem hlt
      rw [List.getElem?_map, hx] at this
      exact (Option.some.inj this).symm
    have hyi : (sorted.map fun x => x.vertex.Id)[i2] = y.vertex.Id := by
      have := List.getElem?_eq_getElem hlt2
      rw [List.getElem?_map, hy] at this
      exact (Option.some.inj this).symm
    exact (hnd.getElem_inj_iff).mp (by rw [hxi, hyi, heq])
  · intro i hi
    by_cases hj : i < st.knownVertices.length
    · obtain ⟨x, _, hxm, e1, e2⟩ := hfilled i hi hj
      have g1 := (hids x hxm).1
      rw [e1]
      constructor
      · intro h; omega
      · intro h; omega
    · obtain ⟨e1, e2⟩ := hpad i hi (by omega)
      rw [e1, e2]

/-- Witness of `SearchKNN_results`: a search for 7 neighbors on a graph of 5 vertices. -/
theorem SearchKNN_results_witness :
    ∃ st r, searchRun demoSearch searchQuery 3 2 false = some st ∧
      SearchKNN demoSearch searchQuery 7 3 2 false = some r ∧
      r.ret.length = 7 ∧ r.stepRet.length = 7 ∧
      (∀ i, i < 7 → st.knownVertices.length ≤ i →
        r.ret.getD i 0 = -1 ∧ r.stepRet.getD i 0 = -1) ∧
      (∀ i, i < 7 → i < st.knownVertices.length →
        (∃ v, mapLookup st.knownVertices (r.ret.getD i 0) = some v) ∧
        0 ≤ r.ret.getD i 0 ∧ 0 ≤ r.stepRet.getD i 0 ∧
        ∀ i2, i2 < 7 → i2 < st.knownVertices.length →
          r.ret.getD i 0 = r.ret.getD i2 0 → i = i2) ∧
      ∀ i, i < 7 → (r.stepRet.getD i 0 = -1 ↔ r.ret.getD i 0 = -1) :=
  SearchKNN_results demoSearch searchQuery 7 3 2 false demoSearch_ok

/-- Claim C31: when the libraries and the provider behave and the final `sort.Slice` sorts
(no element is strictly below one placed before it), `SearchKNN` returns, and there is a list
`sorted` of all the known vertices, each with its distance `L2Dist` to the query, in
non-decreasing order of distance, such that position `i < k` of the result holds the id of
`sorted[i]`, and `-1` when there is no such vertex.  So the prefix that is not padding holds
the first `min(k, |known|)` vertices of `sorted`: it is in non-decreasing order of distance,
and a known vertex that is left out (it comes later in `sorted`) is not strictly nearer to
the query than a returned one. -/
theorem SearchKNN_nearest {F : Type} (inp : SearchInputs F) (queryVector : List F)
    (k maxStep parallel : Nat) (benchmarking : Bool) (ok : SearchOK inp queryVector)
    (hsorted : ∀ l, (inp.sortSlice l).Pairwise fun a b => inp.ops.lt b.dist a.dist = false) :
    ∃ (st : SearchState F) (r : SearchResult) (sorted : List (VertexWithDist F)),
      searchRun inp queryVector maxStep parallel benchmarking = some st ∧
      SearchKNN inp queryVector k maxStep parallel benchmarking = some r ∧
      (sorted.map fun x => x.vertex).Perm (st.knownVertices.map fun e => e.2) ∧
      (∀ x, x ∈ sorted → L2Dist inp.ops x.vertex.Vector queryVector = some x.dist) ∧
      (∀ i, i < k → sorted.length ≤ i → r.ret.getD i 0 = -1) ∧
      (∀ i, i < k → ∀ x, sorted[i]? = some x → r.ret.getD i 0 = x.vertex.Id) ∧
      ∀ (i j : Nat) (x y : VertexWithDist F), i < j → sorted[i]? = some x → sorted[j]? = some y →
        inp.ops.lt y.dist x.dist = false := by
  obtain ⟨st, hrun, inv, _⟩ := searchRun_ok inp queryVector maxStep parallel benchmarking ok
  obtain ⟨r, sorted, hout, hp, hd, hs, _, hpad, hpos⟩ :=
    searchOutput_sorted inp queryVector k st ok.sortSlice hsorted inv
  refine ⟨st, r, sorted, hrun, ?_, hp, hd, hpad, hpos, ?_⟩
  · unfold SearchKNN
    rw [hrun]
    exact hout
  · intro i j x y hij hx hy
    obtain ⟨hi, hxi⟩ := List.getElem?_eq_some_iff.mp hx
    obtain ⟨hj, hyj⟩ := List.getElem?_eq_some_iff.mp hy
    have := List.pairwise_iff_getElem.mp hs i j hi hj hij
    rw [hxi, hyj] at this
    exact this

/-- Witness of `SearchKNN_nearest`: a search for 3 neighbors on a graph of 5 vertices, which
returns the vertices 4, 2 and 1, at the distances 0, 1 and 4 of the query. -/
theorem SearchKNN_nearest_witness :
    ((SearchKNN demoSearch searchQuery 3 3 2 false).map (fun r => r.ret) = some [4, 2, 1] ∧
      [4, 2, 1].map (fun i => L2Dist fifths (searchVertex i).Vector searchQuery) =
        [some 0, some 5, some 20]) ∧
    ∃ (st : SearchState Int) (r : SearchResult) (sorted : List (VertexWithDist Int)),
      searchRun demoSearch searchQuery 3 2 false = some st ∧
      SearchKNN demoSearch searchQuery 3 3 2 false = some r ∧
      (sorted.map fun x => x.vertex).Perm (st.knownVertices.map fun e => e.2) ∧
      (∀ x, x ∈ sorted → L2Dist demoSearch.ops x.vertex.Vector searchQuery = some x.dist) ∧
      (∀ i, i < 3 → sorted.length ≤ i → r.ret.getD i 0 = -1) ∧
      (∀ i, i < 3 → ∀ x, sorted[i]? = some x → r.ret.getD i 0 = x.vertex.Id) ∧
      ∀ (i j : Nat) (x y : VertexWithDist Int), i < j → sorted[i]? = some x →
        sorted[j]? = some y → demoSearch.ops.lt y.dist x.dist = false :=
  ⟨by decide,
    SearchKNN_nearest demoSearch searchQuery 3 3 2 false demoSearch_ok sortQueue_sorted⟩

/-- Claim C32: when the libraries and the provider behave, `heap.Pop` takes an element out of
the queue, and every vertex that the provider serves, as a start vertex or in an answer, has
exactly `m` neighbors (`m` the value of `GetMetadata`), `SearchKNN` returns after exactly
`maxStep` calls of `GetVertexInfo`, each with a batch of exactly `parallel * m` ids: for every
query vector, every content of the graph, whether the queue runs empty or not, and whether
`benchmarking` is set or not. -/
theorem SearchKNN_batches {F : Type} (inp : SearchInputs F) (queryVector : List F)
    (k maxStep parallel : Nat) (benchmarking : Bool) (ok : SearchOK inp queryVector)
    (hpop : ∀ q item rest, inp.heapPop q = some (item, rest) → (item :: rest).Perm q)
    (hstart : ∀ v, v ∈ inp.StartVertices → v.Neighbors.length = inp.m)
    (hinfo : ∀ t batch vs, inp.GetVertexInfo t batch = some vs →
      ∀ v, v ∈ vs → v.Neighbors.length = inp.m) :
    ∃ r, SearchKNN inp queryVector k maxStep parallel benchmarking = some r ∧
      r.calls.length = maxStep ∧
      (∀ b, b ∈ r.calls → b.length = parallel * inp.m) ∧
      r.calls.map (fun b => b.length) = List.replicate maxStep (parallel * inp.m) := by
  obtain ⟨st, hrun, inv, hlen⟩ := searchRun_ok inp queryVector maxStep parallel benchmarking ok
  obtain ⟨r, _, hout, _, _, _, hcalls, _⟩ :=
    searchOutput_ok inp queryVector k st ok.sortSlice inv
  have hb := searchRun_deg inp queryVector maxStep parallel benchmarking st ok.sortSort hpop
    hstart hinfo hrun
  refine ⟨r, ?_, by rw [hcalls]; exact hlen, by rw [hcalls]; exact hb, ?_⟩
  · unfold SearchKNN
    rw [hrun]
    exact hout
  · rw [hcalls]
    apply List.eq_replicate_iff.mpr
    refine ⟨by rw [List.length_map]; exact hlen, ?_⟩
    intro n hn
    obtain ⟨b, hbm, hbn⟩ := List.mem_map.mp hn
    rw [← hbn]
    exact hb b hbm

/-- Witness of `SearchKNN_batches`: a search of 3 steps with 2 vertices explored in parallel
on a graph of 5 vertices with 2 neighbors each. -/
theorem SearchKNN_batches_witness :
    (SearchKNN demoSearch searchQuery 7 3 2 false).map (fun r => r.calls) =
      some [[0, 2, 1, 3], [1, 4, 0, 1], [2, 1, 0, 1]] ∧
    ∃ r, SearchKNN demoSearch searchQuery 7 3 2 false = some r ∧
      r.calls.length = 3 ∧
      (∀ b, b ∈ r.calls → b.length = 2 * demoSearch.m) ∧
      r.calls.map (fun b => b.length) = List.replicate 3 (2 * demoSearch.m) :=
  ⟨by decide,
    SearchKNN_batches demoSearch searchQuery 7 3 2 false demoSearch_ok
      (fun q item rest h => popLeast_perm q item rest h) demoSearch_degree.1
      demoSearch_degree.2⟩

/-- Claim C33 where the dimension is at least 8: for every pair of vectors of the same dimension
`dim ≥ 8`, `L2Dist` returns, and its value is the result of `L2DistanceSIMD` on the first
`dim - dim % 8` components of the two vectors, to which the squares
`(v1[i] - v2[i]) * (v1[i] - v2[i])` of the other components are added one after the other. -/
theorem L2Dist_value {F : Type} (ops : Float32Ops F) (v1 v2 : List F)
    (hlen : v1.length = v2.length) (hdim : 8 ≤ v1.length) :
    L2Dist ops v1 v2 =
      some (((v1.drop (v1.length - v1.length % 8)).zip
          (v2.drop (v1.length - v1.length % 8))).foldl
        (fun d ab => ops.add d (ops.mul (ops.sub ab.1 ab.2) (ops.sub ab.1 ab.2)))
        (ops.L2DistanceSIMD (v1.take (v1.length - v1.length % 8))
          (v2.take (v1.length - v1.length % 8)))) := by
  have hr : v1.length % 8 < 8 := Nat.mod_lt _ (by decide)
  have hle : v1.length % 8 ≤ v1.length := Nat.mod_le _ _
  unfold L2Dist L2DistSIMD
  simp only []
  rw [if_neg (by omega)]
  rw [if_neg (by simp only [List.length_take]; omega)]
  simp only []
  refine (L2Dist_tail ops v1 v2 (v1.length - v1.length % 8) (v1.length % 8) _ (by omega)
    (by omega)).trans ?_
  have e1 : (v1.drop (v1.length - v1.length % 8)).take (v1.length % 8) =
      v1.drop (v1.length - v1.length % 8) := by
    apply List.take_of_length_le
    rw [List.length_drop]; omega
  have e2 : (v2.drop (v1.length - v1.length % 8)).take (v1.length % 8) =
      v2.drop (v1.length - v1.length % 8) := by
    apply List.take_of_length_le
    rw [List.length_drop]; omega
  rw [e1, e2]

/-- Witness of `L2Dist_value`: two vectors of dimension 9, at distance
`(2 - 0)² + (1 - 3)² = 8`, the last component outside the SIMD prefix. -/
theorem L2Dist_value_witness :
    L2Dist fifths [10, 0, 0, 0, 0, 0, 0, 0, 5] [0, 0, 0, 0, 0, 0, 0, 0, 15] =
      some (((([10, 0, 0, 0, 0, 0, 0, 0, 5] : List Int).drop
            (([10, 0, 0, 0, 0, 0, 0, 0, 5] : List Int).length -
              ([10, 0, 0, 0, 0, 0, 0, 0, 5] : List Int).length % 8)).zip
          (([0, 0, 0, 0, 0, 0, 0, 0, 15] : List Int).drop
            (([10, 0, 0, 0, 0, 0, 0, 0, 5] : List Int).length -
              ([10, 0, 0, 0, 0, 0, 0, 0, 5] : List Int).length % 8))).foldl
        (fun d ab => fifths.add d (fifths.mul (fifths.sub ab.1 ab.2) (fifths.sub ab.1 ab.2)))
        (fifths.L2DistanceSIMD
          (([10, 0, 0, 0, 0, 0, 0, 0, 5] : List Int).take
            (([10, 0, 0, 0, 0, 0, 0, 0, 5] : List Int).length -
              ([10, 0, 0, 0, 0, 0, 0, 0, 5] : List Int).length % 8))
          (([0, 0, 0, 0, 0, 0, 0, 0, 15] : List Int).take
            (([10, 0, 0, 0, 0, 0, 0, 0, 5] : List Int).length -
              ([10, 0, 0, 0, 0, 0, 0, 0, 5] : List Int).length % 8)))) :=
  L2Dist_value fifths [10, 0, 0, 0, 0, 0, 0, 0, 5] [0, 0, 0, 0, 0, 0, 0, 0, 15] (by decide)
    (by decide)

/-- Claim C33 fails on the code for dimensions below 8: for two vectors of dimension 3 (and of
dimension 1, and 7) the prefix handed to `L2DistSIMD` is the empty slice `v1[:0]`, the
expression `&v1[0]` panics and `L2Dist` does not return, although the scalar loop that follows
would compute the whole sum; the value of the claim is `(1 - 0)² = 1` (5 fifths). -/
theorem L2Dist_below_dimension_8_panics :
    L2Dist fifths [5, 0, 0] [0, 0, 0] = none ∧
    L2Dist fifths [5] [0] = none ∧
    L2Dist fifths [5, 0, 0, 0, 0, 0, 0] [0, 0, 0, 0, 0, 0, 0] = none ∧
    ((([5, 0, 0] : List Int).drop 0).zip (([0, 0, 0] : List Int).drop 0)).foldl
        (fun d ab => fifths.add d (fifths.mul (fifths.sub ab.1 ab.2) (fifths.sub ab.1 ab.2)))
        (fifths.L2DistanceSIMD [] []) = 5 := by
  decide

/-- Claim C34, as the code has it: for `k ≥ 1`, at least one query, a row of `gnd` for every
row of `response`, and rows of at least `k` entries, `ComputeRecall` returns, for every
behaviour of the `float32` operations, the sum over the queries of `float32(hit_i) /
float32(k)`, added up in order of the queries from `float32(0)`, divided by
`float32(numQueries)`; `hit_i` counts the positions `j < k` whose answer `response[i][j]` does
not occur at an earlier position of `response[i]` and occurs in `gnd[i][0..k)`, so
`hit_i ≤ k`.  Carried out on rational numbers, without rounding, the value is the mean of the
`hit_i / k`, between 0 and 1. -/
theorem ComputeRecall_mean {F : Type} (ops : RecallOps F) (gnd response : List (List Int))
    (k : Nat) (hk : 1 ≤ k) (hq : 1 ≤ response.length) (hg : response.length ≤ gnd.length)
    (hr : ∀ row, row ∈ response → k ≤ row.length)
    (hgr : ∀ row, row ∈ gnd → k ≤ row.length) :
    ComputeRecall ops gnd response k =
        some (ops.div
          ((specHits gnd response k).foldl (fun total (hit : Nat) =>
            ops.add total (ops.div (ops.ofInt (hit : Int)) (ops.ofInt (k : Int))))
            (ops.ofInt 0))
          (ops.ofInt (response.length : Int))) ∧
      (specHits gnd response k).length = response.length ∧
      (∀ i, i < response.length →
        (specHits gnd response k).getD i 0 = specHit (gnd.getD i []) (response.getD i []) k ∧
        (specHits gnd response k).getD i 0 ≤ k) ∧
      ∃ q : ℚ, ComputeRecall exactRecall gnd response k = some (some q) ∧
        q = ((specHits gnd response k).map fun (h : Nat) => (h : ℚ) / (k : ℚ)).sum /
          (response.length : ℚ) ∧
        0 ≤ q ∧ q ≤ 1 := by
  have hlen : (specHits gnd response k).length = response.length := by
    unfold specHits
    rw [List.length_zipWith]
    omega
  have htake : (specHits gnd response k).take response.length = specHits gnd response k :=
    List.take_of_length_le (by omega)
  have hle : ∀ x, x ∈ specHits gnd response k → x ≤ k := by
    intro x hx
    unfold specHits at hx
    obtain ⟨i, hi, hxi⟩ := List.getElem_of_mem hx
    rw [List.getElem_zipWith] at hxi
    rw [← hxi]
    exact specHit_le _ _ _
  have hgen := fun (G : Type) (o : RecallOps G) => ComputeRecall_eq o gnd response k hg hr hgr
  simp only [htake] at hgen
  refine ⟨hgen F ops, hlen, ?_, ?_⟩
  · intro i hi
    have hi1 : i < (specHits gnd response k).length := by omega
    have hi2 : i < gnd.length := by omega
    have e0 : (specHits gnd response k).getD i 0 = (specHits gnd response k)[i] := by
      rw [List.getD_eq_getElem?_getD, List.getElem?_eq_getElem hi1]; rfl
    have e1 : gnd.getD i [] = gnd[i] := by
      rw [List.getD_eq_getElem?_getD, List.getElem?_eq_getElem hi2]; rfl
    have e2 : response.getD i [] = response[i] := by
      rw [List.getD_eq_getElem?_getD, List.getElem?_eq_getElem hi]; rfl
    rw [e0, e1, e2]
    refine ⟨?_, hle _ (List.getElem_mem _)⟩
    unfold specHits
    rw [List.getElem_zipWith]
  · have hn0 : ((response.length : Int) : ℚ) ≠ 0 := by
      have : (0 : ℚ) < ((response.length : Int) : ℚ) := by exact_mod_cast hq
      exact ne_of_gt this
    have hnq : (0 : ℚ) < (response.length : ℚ) := by exact_mod_cast hq
    obtain ⟨b0, b1⟩ := sum_ratio_bounds k hk (specHits gnd response k) hle
    rw [hlen] at b1
    refine ⟨((specHits gnd response k).map fun (h : Nat) => (h : ℚ) / (k : ℚ)).sum /
      (response.length : ℚ), ?_, rfl, div_nonneg b0 hnq.le, (div_le_one hnq).mpr b1⟩
    rw [hgen (Option ℚ) exactRecall]
    have h0 : exactRecall.ofInt 0 = some (0 : ℚ) := by
      show some (((0 : Int) : ℚ)) = some 0
      simp
    rw [h0, exactRecall_sum k hk]
    show some (if ((response.length : Int) : ℚ) = 0 then none else some _) = _
    rw [if_neg hn0]
    simp

/-- Witness of `ComputeRecall_mean`: two queries with `k = 2`, the first with a repeated
answer (one hit), the second with two hits. -/
theorem ComputeRecall_mean_witness :
    specHits [[1, 5], [3, 2]] [[1, 1], [2, 3]] 2 = [1, 2] ∧
    (ComputeRecall exactRecall [[1, 5], [3, 2]] [[1, 1], [2, 3]] 2 =
        some (exactRecall.div
          ((specHits [[1, 5], [3, 2]] [[1, 1], [2, 3]] 2).foldl (fun total (hit : Nat) =>
            exactRecall.add total
              (exactRecall.div (exactRecall.ofInt (hit : Int)) (exactRecall.ofInt ((2 : Nat) : Int))))
            (exactRecall.ofInt 0))
          (exactRecall.ofInt (([[1, 1], [2, 3]] : List (List Int)).length : Int))) ∧
      (specHits [[1, 5], [3, 2]] [[1, 1], [2, 3]] 2).length =
        ([[1, 1], [2, 3]] : List (List Int)).length ∧
      (∀ i, i < ([[1, 1], [2, 3]] : List (List Int)).length →
        (specHits [[1, 5], [3, 2]] [[1, 1], [2, 3]] 2).getD i 0 =
          specHit (([[1, 5], [3, 2]] : List (List Int)).getD i [])
            (([[1, 1], [2, 3]] : List (List Int)).getD i []) 2 ∧
        (specHits [[1, 5], [3, 2]] [[1, 1], [2, 3]] 2).getD i 0 ≤ 2) ∧
      ∃ q : ℚ, ComputeRecall exactRecall [[1, 5], [3, 2]] [[1, 1], [2, 3]] 2 = some (some q) ∧
        q = ((specHits [[1, 5], [3, 2]] [[1, 1], [2, 3]] 2).map
            fun (h : Nat) => (h : ℚ) / ((2 : Nat) : ℚ)).sum /
          ((([[1, 1], [2, 3]] : List (List Int)).length : Nat) : ℚ) ∧
        0 ≤ q ∧ q ≤ 1) :=
  ⟨by decide,
    ComputeRecall_mean exactRecall [[1, 5], [3, 2]] [[1, 1], [2, 3]] 2 (by decide) (by decide)
      (by decide) (by decide) (by decide)⟩

/-- Claim C34, counterexample.  With no row in `gnd` and the one query `[1]` in `response`
(every row has `k = 1` entries), the expression `gnd[0][0]` panics and `ComputeRecall` does
not return.  With no query at all, `recall = 0` is divided by `float32(0)`: the result of
`0 / 0` is not a number, and not a value in `[0, 1]`. -/
theorem ComputeRecall_without_ground_truth_or_queries :
    ComputeRecall exactRecall [] [[1]] 1 = none ∧
    (∀ row, row ∈ ([] : List (List Int)) → 1 ≤ row.length) ∧
    (∀ row, row ∈ ([[1]] : List (List Int)) → 1 ≤ row.length) ∧
    ComputeRecall exactRecall [] [] 1 = some none := by
  decide

/-- Claim C35: on a client whose chunk size is a power of two, a real query for an index
`idx` of the database that is not cached and passes the two budget checks returns; it reports
the error `no hit hint` exactly when no primary hint satisfies the condition of the
specification, and otherwise it is answered from the smallest hint that satisfies it, which
it refreshes.  Hypothesis `hsent` says that this smallest hint is not the one numbered
`0x7fffffff`, the value by which the scan marks `no hint found`: the client has at most
`0x7fffffff` hints, or a hint with a smaller number satisfies the condition, or hint
`0x7fffffff` does not. -/
theorem Query_hit_is_first (aes : Nat → Nat → Nat) (c : PianoPIRClient) (idx : Nat)
    (server : PianoPIRServer) (rand : Nat → Nat) (k : Nat)
    (hpow : c.config.ChunkSize = 2 ^ k) (hk : k ≤ 64)
    (hsent : c.primaryHintNum ≤ DefaultProgramPoint ∨
      (∃ i, i < DefaultProgramPoint ∧ c.hitCondition aes idx i) ∨
      ¬ c.hitCondition aes idx DefaultProgramPoint)
    (hidx : idx < c.config.DBSize) (hmiss : cacheLookup c.localCache idx = none)
    (hF : c.FinishedQueryNum < c.MaxQueryNum)
    (hQ : c.QueryHistogram.getD (idx / c.config.ChunkSize) 0 < c.maxQueryPerChunk) :
    ∃ r, c.Query aes idx server true rand = some r ∧
      (r.err = some QueryError.noHitHint ↔
        ¬ ∃ h, h < c.primaryHintNum ∧ c.hitCondition aes idx h) ∧
      ∀ h, h < c.primaryHintNum → c.hitCondition aes idx h →
        (∀ i, i < h → ¬ c.hitCondition aes idx i) →
        r.err = none ∧ r.client = c.refresh h (idx / c.config.ChunkSize) idx r.ret := by
  cases hf : (List.range c.primaryHintNum).find?
      (c.isHit aes (idx / c.config.ChunkSize) (idx % c.config.ChunkSize)) with
  | none =>
    have hnone : ∀ h, h < c.primaryHintNum → ¬ c.hitCondition aes idx h := by
      intro h hh hc
      have := (List.find?_eq_none.mp hf) h (List.mem_range.mpr hh)
      exact this ((isHit_iff_hitCondition aes c k hpow hk idx h).mpr hc)
    have hd : c.findHit aes (idx / c.config.ChunkSize) (idx % c.config.ChunkSize) =
        DefaultProgramPoint := by
      unfold PianoPIRClient.findHit
      rw [hf]
      rfl
    refine ⟨_, Query_no_hit aes c idx server rand hidx hmiss hF hQ hd, ?_, ?_⟩
    · constructor
      · intro _ ⟨h, hh, hc⟩
        exact hnone h hh hc
      · intro _
        rfl
    · intro h hh hc _
      exact absurd hc (hnone h hh)
  | some h0 =>
    rw [List.find?_range_eq_some] at hf
    obtain ⟨hit0, hmem, hall⟩ := hf
    have hh0 : h0 < c.primaryHintNum := List.mem_range.mp hmem
    have hc0 : c.hitCondition aes idx h0 :=
      (isHit_iff_hitCondition aes c k hpow hk idx h0).mp hit0
    have hfirst : ∀ i, i < h0 → ¬ c.hitCondition aes idx i := by
      intro i hi hc
      have := hall i hi
      rw [(isHit_iff_hitCondition aes c k hpow hk idx i).mpr hc] at this
      exact absurd this (by simp)
    have hfind : c.findHit aes (idx / c.config.ChunkSize) (idx % c.config.ChunkSize) = h0 := by
      apply findHit_first _ _ _ _ _ hh0 hit0
      intro i hi
      cases hb : c.isHit aes (idx / c.config.ChunkSize) (idx % c.config.ChunkSize) i with
      | false => rfl
      | true => exact absurd ((isHit_iff_hitCondition aes c k hpow hk idx i).mp hb) (hfirst i hi)
    have hne : h0 ≠ DefaultProgramPoint := by
      intro he
      rcases hsent with hnum | ⟨i, hi, hci⟩ | hno
      · omega
      · exact hfirst i (by rw [he]; exact hi) hci
      · exact hno (he ▸ hc0)
    obtain ⟨r, hr, herr, hcl⟩ := Query_hit aes c idx server rand hidx hmiss hF hQ
      (by rw [hfind]; exact hne)
    rw [hfind] at hcl
    refine ⟨r, hr, ?_, ?_⟩
    · constructor
      · intro he
        rw [herr] at he
        exact absurd he (by simp)
      · intro hno
        exact absurd ⟨h0, hh0, hc0⟩ hno
    · intro h hh hc hmin
      have : h = h0 := by
        rcases Nat.lt_trichotomy h h0 with hlt | heq | hgt
        · exact absurd hc (hfirst h hlt)
        · exact heq
        · exact absurd hc0 (hmin h0 hgt)
      rw [this]
      exact ⟨herr, hcl⟩

/-- Witness of `Query_hit_is_first`: the query for index 3 on the seven-entry database after
preprocessing. -/
theorem Query_hit_is_first_witness :
    ∃ r, demoReady.Query demoAes 3 demoServer true demoRand = some r ∧
      (r.err = some QueryError.noHitHint ↔
        ¬ ∃ h, h < demoReady.primaryHintNum ∧ demoReady.hitCondition demoAes 3 h) ∧
      ∀ h, h < demoReady.primaryHintNum → demoReady.hitCondition demoAes 3 h →
        (∀ i, i < h → ¬ demoReady.hitCondition demoAes 3 i) →
        r.err = none ∧
          r.client = demoReady.refresh h (3 / demoReady.config.ChunkSize) 3 r.ret :=
  Query_hit_is_first demoAes demoReady 3 demoServer demoRand 1 (by decide) (by decide)
    (Or.inl (by decide)) (by decide) (by decide) (by decide) (by decide)

/-- Claim C36: after `Preprocessing(rawDB)` (which returns on a client that does not skip it
and has entries of at least one word, `hE`; with `DBEntrySize = 0` the run of `Initialization`
panics), for every chunk `ch` below `SetSize` and slot `j` below `maxQueryPerChunk` the
replacement index of `(ch, j)` lies in chunk `ch`, that is in
`[ch * ChunkSize, (ch + 1) * ChunkSize)`, and the replacement value of `(ch, j)` is the entry
of the database at that index, the all-zero entry when the index is `DBSize` or more: the
entry of the zero-padded database, which is what the server adds for that index. -/
theorem Preprocessing_replacement (aes : Nat → Nat → Nat) (key : Nat) (rng : Nat → Nat → Nat)
    (c0 : PianoPIRClient) (rawDB : Slice) (hskip : c0.skipPrep = false)
    (hE : 0 < c0.config.DBEntrySize)
    (hdb : rawDB.len = c0.config.DBSize * c0.config.DBEntrySize)
    (h0 : 0 < c0.config.ChunkSize) (h1 : c0.config.ChunkSize ≤ 2 ^ 64) :
    ∃ c, c0.Preprocessing aes key rng rawDB = some c ∧
      ∀ ch, ch < c0.config.SetSize → ∀ j, j < c0.maxQueryPerChunk →
        ch * c0.config.ChunkSize ≤ (c.replacementIdx.getD ch []).getD j 0 ∧
        (c.replacementIdx.getD ch []).getD j 0 < (ch + 1) * c0.config.ChunkSize ∧
        slice (c.replacementVal.getD ch []) (j * c0.config.DBEntrySize)
            ((j + 1) * c0.config.DBEntrySize) =
          (if (c.replacementIdx.getD ch []).getD j 0 < c0.config.DBSize then
            dbEntry rawDB c0.config.DBEntrySize ((c.replacementIdx.getD ch []).getD j 0)
          else zeroEntry c0.config.DBEntrySize) := by
  obtain ⟨c, hc, inv⟩ := Preprocessing_inv aes key rng c0 rawDB hskip
    (Initialization_of_pos c0 key hE) hdb h0 h1
  have hcfg : c.config = c0.config := congrArg (·.config) inv.frame
  have hQ : c.maxQueryPerChunk = c0.maxQueryPerChunk := congrArg (·.maxQueryPerChunk) inv.frame
  refine ⟨c, hc, ?_⟩
  intro ch hch j hj
  have hri := inv.ri ch (by rw [hcfg]; exact hch) j (by rw [hQ]; exact hj)
  have hrv := inv.rv ch (by rw [hcfg]; exact hch) j (by rw [hQ]; exact hj)
  rw [if_pos hch] at hri hrv
  rw [hcfg] at hri hrv
  have hlt := and_chunkMask_lt c0.config h0 h1 (rng ch j)
  have hsucc : (ch + 1) * c0.config.ChunkSize = ch * c0.config.ChunkSize + c0.config.ChunkSize :=
    Nat.succ_mul _ _
  refine ⟨by rw [hri]; omega, by rw [hri, hsucc]; omega, ?_⟩
  rw [hrv, hri, Nat.add_comm (ch * c0.config.ChunkSize)]
  rfl

/-- Witness of `Preprocessing_replacement` on the seven-entry database. -/
theorem Preprocessing_replacement_witness :
    0 < demoClient.config.DBEntrySize ∧
    ∃ c, demoClient.Preprocessing demoAes 1 demoRng demoDB = some c ∧
      ∀ ch, ch < demoClient.config.SetSize → ∀ j, j < demoClient.maxQueryPerChunk →
        ch * demoClient.config.ChunkSize ≤ (c.replacementIdx.getD ch []).getD j 0 ∧
        (c.replacementIdx.getD ch []).getD j 0 < (ch + 1) * demoClient.config.ChunkSize ∧
        slice (c.replacementVal.getD ch []) (j * demoClient.config.DBEntrySize)
            ((j + 1) * demoClient.config.DBEntrySize) =
          (if (c.replacementIdx.getD ch []).getD j 0 < demoClient.config.DBSize then
            dbEntry demoDB demoClient.config.DBEntrySize
              ((c.replacementIdx.getD ch []).getD j 0)
          else zeroEntry demoClient.config.DBEntrySize) :=
  ⟨by decide, Preprocessing_replacement demoAes 1 demoRng demoClient demoDB rfl (by decide) rfl
    (by decide) (by decide)⟩

/-- Claim C38: in every state of the client reached from `Initialization` (`hinit`: the call
has returned and left `c1`) by calls of `Query` (with any arguments, on a configuration whose
chunks cover the database),
`FinishedQueryNum` is the sum of `QueryHistogram` over the chunks and the number of entries of
the local cache, and it is not above `MaxQueryNum`. -/
theorem counters_agree (aes : Nat → Nat → Nat) (server : PianoPIRServer)
    (c0 c1 : PianoPIRClient) (key : Nat) (c : PianoPIRClient)
    (hcover : c0.config.DBSize ≤ c0.config.ChunkSize * c0.config.SetSize)
    (hinit : c0.Initialization key = some c1) (hr : QueryReach aes server c1 c) :
    c.FinishedQueryNum = c.QueryHistogram.sum ∧
      c.FinishedQueryNum = c.localCache.length ∧
      c.FinishedQueryNum ≤ c.MaxQueryNum := by
  have hc1 := Initialization_some c0 c1 key hinit
  subst hc1
  obtain ⟨_, _, _, h4, h5, h6⟩ := counters_QueryReach aes server _ c hr hcover
    (by show (List.replicate c0.config.SetSize 0).length = c0.config.SetSize; simp)
    (by show 0 = (List.replicate c0.config.SetSize 0).sum; simp)
    rfl (Nat.zero_le _)
  exact ⟨h4, h5, h6⟩

/-- Witness of `counters_agree`: the client of the seven-entry database after
`Initialization` and the query for index 3, which is answered: one finished query, one
cached entry. -/
theorem counters_agree_witness :
    (demoClient.config.DBSize ≤ demoClient.config.ChunkSize * demoClient.config.SetSize ∧
      demoClient.Initialization 1 = some demoInit ∧
      QueryReach demoAes demoServer demoInit coldFirst.client ∧
      coldFirst.client.FinishedQueryNum = 1) ∧
    (coldFirst.client.FinishedQueryNum = coldFirst.client.QueryHistogram.sum ∧
      coldFirst.client.FinishedQueryNum = coldFirst.client.localCache.length ∧
      coldFirst.client.FinishedQueryNum ≤ coldFirst.client.MaxQueryNum) :=
  ⟨⟨by decide, rfl,
      QueryReach.step _ _ _ (QueryReach.refl _) (QueryStep.call _ 3 true demoRand coldFirst rfl),
      by decide⟩,
    counters_agree demoAes demoServer demoClient demoInit 1 coldFirst.client (by decide) rfl
      (QueryReach.step _ _ _ (QueryReach.refl _)
        (QueryStep.call _ 3 true demoRand coldFirst rfl))⟩

/-- Claim C37: for more than `m ≥ 1` candidates whose distances to `u` are pairwise distinct
(one of any two is below the other), `robustPrune` returns, and what it returns is the
result of the rule of the specification applied to the candidates in ascending distance to
`u`: the first `m` elements of `A ++ D`, where the scan puts the nearest candidate into `A`
and a later candidate `c` into `A` when `α · l2(p, c) ≥ l2(u, c)` for every `p` already in `A`
and into `D` otherwise, and stops once `A` holds `m` candidates.  The result has `m` elements
and each of them is a candidate.  Here `l2` gives the value of `L2Dist` on the vectors
involved, `sort.Slice` sorts, and the product of two `float32` values does not depend on
their order. -/
theorem robustPrune_refines_specPrune {F : Type} (ops : Float32Ops F)
    (sortSlice : List (IdWithDist F) → List (IdWithDist F)) (vectors : List (List F))
    (u : Int) (candidates : List Int) (m : Nat) (alpha : F) (l2 : Int → Int → F)
    (hsort : SortOK ops sortSlice) (hcomm : ∀ a b, ops.mul a b = ops.mul b a)
    (hm : 1 ≤ m) (hlt : m < candidates.length)
    (hd : ∀ a, a ∈ u :: candidates → ∀ b, b ∈ candidates →
      vertexDist ops vectors a b = some (l2 a b))
    (hdistinct : candidates.Pairwise fun a b =>
      ops.lt (l2 u a) (l2 u b) = true ∨ ops.lt (l2 u b) (l2 u a) = true) :
    ∃ sorted, sorted.Perm candidates ∧
      (sorted.Pairwise fun a b => ops.lt (l2 u a) (l2 u b) = true) ∧
      robustPrune ops sortSlice vectors u candidates m alpha =
        some (specPrune ops l2 alpha u m sorted) ∧
      (specPrune ops l2 alpha u m sorted).length = m ∧
      ∀ id, id ∈ specPrune ops l2 alpha u m sorted → id ∈ candidates := by
  have hmap : candidates.mapM (fun c =>
      (vertexDist ops vectors u c).map fun d => (⟨c, d⟩ : IdWithDist F)) =
      some (candidates.map fun c => (⟨c, l2 u c⟩ : IdWithDist F)) := by
    apply mapM_eq_map
    intro c hc
    rw [hd u (List.mem_cons_self _ _) c hc]
    rfl
  have hperm := hsort.perm (candidates.map fun c => (⟨c, l2 u c⟩ : IdWithDist F))
  have hmem : ∀ x, x ∈ sortSlice (candidates.map fun c => (⟨c, l2 u c⟩ : IdWithDist F)) →
      x.id ∈ candidates ∧ x.dist = l2 u x.id := by
    intro x hx
    obtain ⟨c, hc, hcx⟩ := List.mem_map.mp (hperm.subset hx)
    rw [← hcx]
    exact ⟨hc, rfl⟩
  have hids : ((sortSlice (candidates.map fun c => (⟨c, l2 u c⟩ : IdWithDist F))).map
      fun x => x.id).Perm candidates := by
    have := hperm.map (fun x : IdWithDist F => x.id)
    rw [List.map_map] at this
    have hid : (candidates.map ((fun x : IdWithDist F => x.id) ∘
        fun c => (⟨c, l2 u c⟩ : IdWithDist F))) = candidates := by
      simp [Function.comp_def]
    rw [hid] at this
    exact this
  have hasc : ((sortSlice (candidates.map fun c => (⟨c, l2 u c⟩ : IdWithDist F))).map
      fun x => x.id).Pairwise fun a b => ops.lt (l2 u a) (l2 u b) = true := by
    have h1 : ((sortSlice (candidates.map fun c => (⟨c, l2 u c⟩ : IdWithDist F))).map
        fun x => x.id).Pairwise fun a b =>
          ops.lt (l2 u a) (l2 u b) = true ∨ ops.lt (l2 u b) (l2 u a) = true :=
      (hids.pairwise_iff (fun h => h.symm)).mpr hdistinct
    rw [List.pairwise_map] at h1 ⊢
    have h2 := hsort.sorted (candidates.map fun c => (⟨c, l2 u c⟩ : IdWithDist F))
    refine (h1.and h2).imp_of_mem ?_
    intro a b ha hb ⟨hor, hnot⟩
    rw [(hmem a ha).2, (hmem b hb).2] at hnot
    rcases hor with h | h
    · exact h
    · rw [h] at hnot
      exact absurd hnot (by simp)
  obtain ⟨A, D, hscan, hspec, hAle, hcount⟩ := pruneScan_refines ops vectors alpha l2 u m hcomm
    (sortSlice (candidates.map fun c => (⟨c, l2 u c⟩ : IdWithDist F))) [] []
    (by simpa using hm) (fun x hx => (hmem x hx).2)
    (fun p hp x hx => by
      rw [List.nil_append] at hp
      exact hd p.id (List.mem_cons_of_mem _ (hmem p hp).1) x.id (hmem x hx).1)
  have hlenS : (sortSlice (candidates.map fun c => (⟨c, l2 u c⟩ : IdWithDist F))).length =
      candidates.length := by
    rw [hperm.length_eq, List.length_map]
  have hsp : specPrune ops l2 alpha u m
      ((sortSlice (candidates.map fun c => (⟨c, l2 u c⟩ : IdWithDist F))).map fun x => x.id) =
      ((A ++ D).take m).map fun x => x.id := by
    unfold specPrune
    have := hspec
    simp only [List.map_nil] at this
    rw [this, List.map_take, List.map_append]
  have hrun : robustPrune ops sortSlice vectors u candidates m alpha =
      some (((A ++ D).take m).map fun x => x.id) := by
    unfold robustPrune
    rw [if_neg (by omega), hmap]
    simp only []
    rw [hscan]
    simp only []
    by_cases hA : A.length < m
    · rw [if_pos hA, pruneFill_take m D A hA (by
        have := hcount hA
        simp only [List.length_nil] at this
        omega)]
    · rw [if_neg hA]
      have hAm : A.length = m := by omega
      rw [List.take_append_of_le_length (by omega), List.take_of_length_le (by omega)]
  refine ⟨_, hids, hasc, by rw [hsp]; exact hrun, ?_, ?_⟩
  · rw [hsp, List.length_map, List.length_take, List.length_append]
    by_cases hA : A.length < m
    · have := hcount hA
      simp only [List.length_nil] at this
      omega
    · omega
  · intro id hid
    rw [hsp] at hid
    have hsub := robustPrune_subperm ops sortSlice vectors u candidates m alpha _ hsort.perm hrun
    exact hsub.subset hid

/-- Witness of `robustPrune_refines_specPrune`: the origin `u = 0` and the candidates 1 to 4 at
`(1, 0, …)`, `(2, 0, …)`, `(-2, -1, 0, …)`, `(3, 0, …)`, at the distances 1, 4, 5 and 9, with
`m = 3` and `α = 1.2`: the scan gives `A = [1, 3]` and `D = [2, 4]`, the result is
`[1, 3, 2]`. -/
theorem robustPrune_refines_specPrune_witness :
    (robustPrune fifths sortByDist pruneVectors 0 [1, 2, 3, 4] 3 6 = some [1, 3, 2] ∧
      specScan fifths pruneDist 6 0 3 [1, 2, 3, 4] [] [] = ([1, 3], [2, 4]) ∧
      specPrune fifths pruneDist 6 0 3 [1, 2, 3, 4] = [1, 3, 2]) ∧
    ∃ sorted, sorted.Perm [1, 2, 3, 4] ∧
      (sorted.Pairwise fun a b => fifths.lt (pruneDist 0 a) (pruneDist 0 b) = true) ∧
      robustPrune fifths sortByDist pruneVectors 0 [1, 2, 3, 4] 3 6 =
        some (specPrune fifths pruneDist 6 0 3 sorted) ∧
      (specPrune fifths pruneDist 6 0 3 sorted).length = 3 ∧
      ∀ id, id ∈ specPrune fifths pruneDist 6 0 3 sorted → id ∈ ([1, 2, 3, 4] : List Int) :=
  ⟨by decide,
    robustPrune_refines_specPrune fifths sortByDist pruneVectors 0 [1, 2, 3, 4] 3 6 pruneDist
      sortByDist_ok (fun a b => by show a * b / 5 = b * a / 5; rw [Int.mul_comm])
      (by decide) (by decide) (by decide) (by decide)⟩

/-- Claim C39, amended: on an instance that `NewSimpleBatchPianoPIR` has returned for sizes
with `DBSize + PartitionNum ≤ 2^64` (`hN`: the sum `DBSize + PartitionNum - 1` does not wrap
around in `uint64`), and in every state reached from it by calls of `Preprocessing`,
`DummyPreprocessing` and `Query`, for every index `idx` below `DBSize`: `PartitionSize` is not
0, the partition number `idx / PartitionSize` is below `PartitionNum`, which is the number of
buckets and of sub-PIRs, and the local index `idx - p * PartitionSize` handed to sub-PIR `p`
is below the `DBSize` of that sub-PIR, so that the test `idx >= DBSize` of its fatal branch is
false.  For a batch of such indices no division of `Query` is by zero and no bucket number is
out of range. -/
theorem Batch_index_in_partition (fl : FloatValues) (DBSize DBEntryByteNum BatchSize : Nat)
    (rawDB : Slice) (FailureProbLog2 : Nat) (key key2 : Nat → Nat) (aes : Nat → Nat → Nat)
    (p0 p : SimpleBatchPianoPIR) (hN : DBSize + BatchSize / 2 ≤ 2 ^ 64)
    (h : NewSimpleBatchPianoPIR fl DBSize DBEntryByteNum BatchSize rawDB FailureProbLog2 key
      key2 = some p0)
    (hr : BatchReach aes p0 p) :
    p.config.DBSize = DBSize ∧ p.config.PartitionNum = BatchSize / 2 ∧
    (∀ idx, idx < p.config.DBSize →
      0 < p.config.PartitionSize ∧
      idx / p.config.PartitionSize < p.config.PartitionNum ∧
      idx / p.config.PartitionSize < (bucketQueries p.config []).length ∧
      ∃ q, p.subPIR[idx / p.config.PartitionSize]? = some q ∧
        idx - idx / p.config.PartitionSize * p.config.PartitionSize <
          q.client.config.DBSize) ∧
    ∀ idx : List Nat, (∀ x, x ∈ idx → x < p.config.DBSize) →
      p.config.PartitionNum ≠ 0 ∧
      idx.any (fun x => decide (p.config.PartitionSize = 0 ∨
        p.config.PartitionNum ≤ x / p.config.PartitionSize)) = false := by
  obtain ⟨hP, g1, g2, g3, g4, g5⟩ := NewSimpleBatch_subPIR_sizes fl DBSize DBEntryByteNum
    BatchSize rawDB FailureProbLog2 key key2 p0 hN h
  obtain ⟨hcfg, hsubs⟩ := BatchReach_configs aes p0 p hr
  have hcover := ceil_cover DBSize (BatchSize / 2) hP
  have e1 : p.config.DBSize = DBSize := by rw [hcfg]; exact g1
  have e2 : p.config.PartitionNum = BatchSize / 2 := by rw [hcfg]; exact g2
  have e3 : p.config.PartitionSize = (DBSize + BatchSize / 2 - 1) / (BatchSize / 2) := by
    rw [hcfg]; exact g3
  have hlen : p.subPIR.length = BatchSize / 2 := by
    have := congrArg List.length hsubs
    unfold subConfigs at this
    rw [List.length_map, List.length_map] at this
    rw [this]; exact g4
  have hmain : ∀ x, x < DBSize →
      0 < p.config.PartitionSize ∧ x / p.config.PartitionSize < p.config.PartitionNum := by
    intro x hx
    rw [e2, e3]
    generalize (DBSize + BatchSize / 2 - 1) / (BatchSize / 2) = PS at hcover ⊢
    have hPS : 0 < PS := by
      rcases Nat.eq_zero_or_pos PS with h0 | h0
      · rw [h0] at hcover; omega
      · exact h0
    exact ⟨hPS, (Nat.div_lt_iff_lt_mul hPS).mpr (lt_of_lt_of_le hx hcover)⟩
  refine ⟨e1, e2, ?_, ?_⟩
  · intro idx hidx
    rw [e1] at hidx
    obtain ⟨hPS, hdiv⟩ := hmain idx hidx
    have hlt0 : idx / p.config.PartitionSize < p0.subPIR.length := by
      rw [g4, ← e2]; exact hdiv
    obtain ⟨q, hq, hqc⟩ := subConfigs_getElem p.subPIR p0.subPIR hsubs
      (idx / p.config.PartitionSize) _ (List.getElem?_eq_getElem hlt0)
    refine ⟨hPS, hdiv, ?_, q, hq, ?_⟩
    · show (List.replicate p.config.PartitionNum ([] : List Nat)).length > _
      rw [List.length_replicate]
      exact hdiv
    · rw [hqc, g5 _ _ (List.getElem?_eq_getElem hlt0)]
      rw [e3] at hPS ⊢
      generalize (DBSize + BatchSize / 2 - 1) / (BatchSize / 2) = PS at hPS ⊢
      have hlo : idx / PS * PS ≤ idx := Nat.div_mul_le_self idx PS
      have hhi : idx < (idx / PS + 1) * PS := by
        rw [Nat.mul_comm]; exact Nat.lt_mul_div_succ idx hPS
      have hmin : idx < min ((idx / PS + 1) * PS) DBSize := lt_min hhi hidx
      have hle : min ((idx / PS + 1) * PS) DBSize ≤ DBSize := Nat.min_le_right _ _
      have hsub : (min ((idx / PS + 1) * PS) DBSize + 2 ^ 64 - idx / PS * PS) % 2 ^ 64 =
          min ((idx / PS + 1) * PS) DBSize - idx / PS * PS := by
        have : min ((idx / PS + 1) * PS) DBSize + 2 ^ 64 - idx / PS * PS =
            (min ((idx / PS + 1) * PS) DBSize - idx / PS * PS) + 2 ^ 64 := by omega
        rw [this, Nat.add_mod_right, Nat.mod_eq_of_lt (by omega)]
      rw [hsub]
      omega
  · intro idx hidx
    refine ⟨by rw [e2]; omega, ?_⟩
    rw [List.any_eq_false]
    intro x hx
    obtain ⟨hPS, hdiv⟩ := hmain x (by rw [← e1]; exact hidx x hx)
    simp only [decide_eq_true_eq]
    omega

/-- Witness of `Batch_index_in_partition`: the two partitions of the 16-entry database, after
`Preprocessing` and the batch `[3, 12]`, which is answered with the entries 44 and 143. -/
theorem Batch_index_in_partition_witness :
    (16 + 4 / 2 ≤ 2 ^ 64 ∧
      demoBatchNew = some (demoBatchNew.getD emptyBatch) ∧
      BatchReach demoAes (demoBatchNew.getD emptyBatch) demoBatchFirst.pir ∧
      demoBatchFirst.ret = [[44], [143]]) ∧
    (demoBatchFirst.pir.config.DBSize = 16 ∧ demoBatchFirst.pir.config.PartitionNum = 4 / 2 ∧
    (∀ idx, idx < demoBatchFirst.pir.config.DBSize →
      0 < demoBatchFirst.pir.config.PartitionSize ∧
      idx / demoBatchFirst.pir.config.PartitionSize < demoBatchFirst.pir.config.PartitionNum ∧
      idx / demoBatchFirst.pir.config.PartitionSize <
        (bucketQueries demoBatchFirst.pir.config []).length ∧
      ∃ q, demoBatchFirst.pir.subPIR[idx / demoBatchFirst.pir.config.PartitionSize]? =
          some q ∧
        idx - idx / demoBatchFirst.pir.config.PartitionSize *
            demoBatchFirst.pir.config.PartitionSize <
          q.client.config.DBSize) ∧
    ∀ idx : List Nat, (∀ x, x ∈ idx → x < demoBatchFirst.pir.config.DBSize) →
      demoBatchFirst.pir.config.PartitionNum ≠ 0 ∧
      idx.any (fun x => decide (demoBatchFirst.pir.config.PartitionSize = 0 ∨
        demoBatchFirst.pir.config.PartitionNum ≤
          x / demoBatchFirst.pir.config.PartitionSize)) = false) :=
  ⟨⟨by norm_num, rfl,
      BatchReach.query _ _ [3, 12] demoDraws _
        (BatchReach.prep _ _ demoBatch (fun i => i + 1) (fun i c s => i + c + s)
          (BatchReach.refl _) rfl) rfl,
      by decide⟩,
    Batch_index_in_partition smallFloat 16 8 4 batchDB 0 (fun i => i) (fun i => i + 7) demoAes
      (demoBatchNew.getD emptyBatch) demoBatchFirst.pir (by norm_num) rfl
      (BatchReach.query _ _ [3, 12] demoDraws _
        (BatchReach.prep _ _ demoBatch (fun i => i + 1) (fun i c s => i + c + s)
          (BatchReach.refl _) rfl) rfl)⟩

/-- Claim C39, counterexample: `DBSize = 2^64 - 1` and batches of 4, with entries of 4 bytes,
so that `rawDB` is empty.  `PartitionNum` is 2 and the sum `DBSize + PartitionNum - 1 = 2^64`
wraps around to 0, so `PartitionSize = 0`; both sub-PIRs are built over the range `[0, 0)` and
have `DBSize = 0`.  The construction returns.  For the index 5, which is below `DBSize`, the
quotient `idx / PartitionSize` of the bucketing loop is a division by zero: the call of
`Query` for the batch `[5]` aborts; and the index is not below the `DBSize` of a sub-PIR. -/
theorem PartitionSize_wraps_to_zero :
    ∃ p, wrapBatchNew = some p ∧ p.config.DBSize = 2 ^ 64 - 1 ∧ 5 < p.config.DBSize ∧
      p.config.PartitionNum = 2 ∧ p.config.PartitionSize = 0 ∧
      (p.subPIR.map fun q => q.client.config.DBSize) = [0, 0] ∧
      p.Query demoAes [5] demoDraws = none :=
  ⟨_, rfl, rfl, by decide, rfl, rfl, rfl, rfl⟩

/-- Claim C40: on a batch instance of the right shape, for every batch of fewer than
`PartitionNum` indices (below `DBSize`), the number `len(idx) / PartitionNum` of sub-queries
per partition is 0, and `SimpleBatchPianoPIR.Query` returns, with a nil error, without
issuing a sub-query, the all-zero entry of `DBEntrySize` words at every position, however the
indices are spread over the partitions. -/
theorem Batch_Query_below_PartitionNum (aes : Nat → Nat → Nat) (p : SimpleBatchPianoPIR)
    (idx : List Nat) (rnd : BatchDraws) (ok : BatchOK p)
    (hidx : ∀ x, x ∈ idx → x < p.config.DBSize)
    (hshort : idx.length < p.config.PartitionNum) :
    idx.length / p.config.PartitionNum = 0 ∧
    ∃ r, p.Query aes idx rnd = some r ∧ r.err = none ∧ r.calls = [] ∧
      r.ret.length = idx.length ∧
      ∀ i, i < idx.length → r.ret.getD i [] = zeroEntry p.config.DBEntrySize := by
  have hq0 : idx.length / p.config.PartitionNum = 0 := Nat.div_eq_of_lt hshort
  obtain ⟨st, r, hst, _, hq, herr, hcalls, hret, _⟩ := Batch_Query_eq aes p idx rnd ok hidx
  have hmap := Batch_loop_calls aes p.config rnd
    (fun i => padQueries ((bucketQueries p.config idx).getD i [])
      (idx.length / p.config.PartitionNum)) _ _ st rfl hst
  have hkeys := Batch_loop_keys aes p.config idx rnd (idx.length / p.config.PartitionNum)
    _ st rfl hst
  refine ⟨hq0, r, hq, herr, ?_, by rw [hret, List.length_map], ?_⟩
  · rw [hcalls]
    rw [hq0] at hmap
    have hnil : (List.range p.config.PartitionNum).flatMap
        (fun i => List.replicate 0 i) = [] := by
      simp
    rw [hnil] at hmap
    exact List.map_eq_nil_iff.mp hmap
  · intro i hi
    rw [hret, map_getD_lt idx _ i [] hi]
    unfold outputEntry
    cases hl : cacheLookup st.responses (idx.getD i 0) with
    | none => rfl
    | some v =>
      have := hkeys (idx.getD i 0) (by rw [hl]; simp)
      rw [hq0] at this
      simp at this

/-- Witness of `Batch_Query_below_PartitionNum`: the batch `[1, 6, 13]` on the four partitions
of the 16-entry database, its three indices in the partitions 0, 1 and 3. -/
theorem Batch_Query_below_PartitionNum_witness :
    ([1, 6, 13].map fun x => x / quadBatch.config.PartitionSize) = [0, 1, 3] ∧
    [1, 6, 13].length / quadBatch.config.PartitionNum = 0 ∧
    ∃ r, quadBatch.Query demoAes [1, 6, 13] demoDraws = some r ∧ r.err = none ∧
      r.calls = [] ∧ r.ret.length = [1, 6, 13].length ∧
      ∀ i, i < [1, 6, 13].length →
        r.ret.getD i [] = zeroEntry quadBatch.config.DBEntrySize :=
  ⟨by decide, Batch_Query_below_PartitionNum demoAes quadBatch [1, 6, 13] demoDraws
    quadBatch_ok (by decide) (by decide)⟩

/-! ## Exactness when no index equals `DefaultProgramPoint` -/

/-- Exactness of the PIR below the sentinel: when `DBSize ≤ DefaultProgramPoint` (so that no index
of the database is the value kept for "not programmed"), the chunk size is a power of two of at
most `2^32` and the chunks cover the database, then after `PianoPIR.Preprocessing`, in every
sequence of calls of `PianoPIR.Query` (re-preprocessing included), every real query that returns
without error returns the entry `rawDB[idx*DBEntrySize .. (idx+1)*DBEntrySize]`, for every PRF
and all replacement draws. -/
theorem PianoPIR_Query_exact_below_DefaultProgramPoint (aes : Nat → Nat → Nat)
    (p0 p1 : PianoPIR) (key0 : Nat) (rng0 : Nat → Nat → Nat)
    (hcfg : p0.server.config = p0.client.config)
    (ok : ConfigOK p0.client.config p0.server.rawDB) (hskip : p0.client.skipPrep = false)
    (hprep : p0.Preprocessing aes key0 rng0 = some p1) (p : PianoPIR)
    (hr : PIRReach aes p1 p) (idx : Nat) (key : Nat) (rng : Nat → Nat → Nat)
    (rand : Nat → Nat) (r : PIRQueryResult)
    (hq : p.Query aes idx true key rng rand = some r) (herr : r.err = none) :
    r.ret = dbEntry p0.server.rawDB p0.client.config.DBEntrySize idx := by
  unfold PianoPIR.Preprocessing at hprep
  cases hc : p0.client.Preprocessing aes key0 rng0 p0.server.rawDB with
  | none => rw [hc] at hprep; exact absurd hprep (by simp)
  | some c1 =>
    rw [hc] at hprep
    simp only [Option.map_some', Option.some.injEq] at hprep
    obtain ⟨rd1, hcfg1, hskip1⟩ :=
      Ready_of_Preprocessing aes key0 rng0 p0.client p0.server.rawDB ok hskip c1 hc
    have hp1c : p1.client = c1 := by rw [← hprep]
    have hp1s : p1.server = p0.server := by rw [← hprep]
    obtain ⟨i1, i2, i3, i4⟩ := Ready_PIRReach aes p1 p hr
      (by rw [hp1c, hp1s, hcfg1]; exact hcfg) (by rw [hp1c, hp1s, hcfg1]; exact ok)
      (by rw [hp1c]; exact hskip1) (by rw [hp1c, hp1s]; exact rd1)
    rw [hp1s] at i1 i4
    rw [hp1c, hcfg1] at i2
    unfold PianoPIR.Query at hq
    simp only [] at hq
    split at hq
    · exact absurd hq (by simp)
    · rename_i c hcq
      split at hq
      · exact absurd hq (by simp)
      · rename_i q hq'
        simp only [Option.some.injEq] at hq
        rw [← hq] at herr ⊢
        have hc' : Ready aes p0.server.rawDB c ∧ c.config = p0.client.config := by
          by_cases hF : p.client.FinishedQueryNum = p.client.MaxQueryNum
          · rw [if_pos hF, i4] at hcq
            obtain ⟨a, b, _⟩ := Ready_of_Preprocessing aes key rng p.client p0.server.rawDB
              (by rw [i2]; exact ok) i3 c hcq
            exact ⟨a, by rw [b, i2]⟩
          · rw [if_neg hF] at hcq
            simp only [Option.some.injEq] at hcq
            rw [← hcq]
            exact ⟨i1, i2⟩
        obtain ⟨_, _, _, hret⟩ := Ready_Query aes c p0.server.rawDB p.server
          (by rw [i4, hc'.2]; exact hcfg) (by rw [i4]) (by rw [hc'.2]; exact ok) hc'.1
          idx true rand q hq'
        rw [← hc'.2]
        exact hret rfl herr

/-- Parity invariant below the sentinel: under the same conditions, in every client state that
calls of `Query` lead to from the result of `Preprocessing(rawDB)`, the parity of every primary
hint is the XOR over all chunks of the entries of the zero-padded database at the elements of
its set (the program point in its chunk, the PRF element in the others). -/
theorem parityConsistent_below_DefaultProgramPoint (aes : Nat → Nat → Nat) (key : Nat)
    (rng : Nat → Nat → Nat) (c0 c1 c : PianoPIRClient) (rawDB : Slice)
    (ok : ConfigOK c0.config rawDB) (hskip : c0.skipPrep = false)
    (hprep : c0.Preprocessing aes key rng rawDB = some c1)
    (hr : QueryReach aes (NewPianoPIRServer c0.config rawDB) c1 c) (h : Nat)
    (hh : h < c0.primaryHintNum) : c.parityConsistent aes rawDB h := by
  obtain ⟨rd1, hcfg1, -⟩ := Ready_of_Preprocessing aes key rng c0 rawDB ok hskip c1 hprep
  obtain ⟨rd, -⟩ := Ready_QueryReach aes rawDB (NewPianoPIRServer c0.config rawDB) rfl c1 c hr
    (by rw [hcfg1]; rfl) (by rw [hcfg1]; exact ok) rd1
  have hH : c.primaryHintNum = c0.primaryHintNum := by
    have h1 : c1.primaryHintNum = c0.primaryHintNum := by
      obtain ⟨k, hk, hpow⟩ := ok.pow
      obtain ⟨c', hc', inv⟩ := Preprocessing_inv aes key rng c0 rawDB hskip
        (Preprocessing_some aes key rng c0 c1 rawDB hprep).1 ok.len
        (by rw [hpow]; exact Nat.pow_pos (by decide))
        (by rw [hpow]; exact Nat.pow_le_pow_right (by decide) (by omega))
      rw [hprep] at hc'
      rw [Option.some.inj hc']
      exact congrArg (·.primaryHintNum) inv.frame
    have h2 : c.primaryHintNum = c1.primaryHintNum := by
      clear rd rd1 hprep
      induction hr with
      | refl => rfl
      | step c' c'' _ hs ih =>
        rw [← ih]
        cases hs with
        | call idx realQuery rand r hq =>
          cases realQuery with
          | false => rw [dummy_Query_client aes c' idx _ rand r hq]
          | true =>
            obtain ⟨_, hcase⟩ := Query_real_cases aes c' idx _ rand r hq
            rcases hcase with ⟨v, _, hr'⟩ | ⟨e, hr'⟩ | ⟨_, _, _, hcl, _⟩
            · rw [hr']
            · rw [hr']
            · rw [hcl]; rfl
    rw [h2, h1]
  exact rd.par h (by rw [hH]; exact hh)

/-- The seven-entry database meets the conditions of exactness. -/
theorem demoConfig_ok : ConfigOK demoConfig demoDB where
  pow := ⟨1, by decide, rfl⟩
  cover := by decide
  len := rfl
  small := by decide

/-- Witness of `PianoPIR_Query_exact_below_DefaultProgramPoint`: the query for index 3. -/
theorem PianoPIR_Query_exact_below_DefaultProgramPoint_witness :
    demoPIR.Preprocessing demoAes 1 demoRng = some demoPIRReady ∧
      demoPIRReady.Query demoAes 3 true 2 demoRng demoRand = some demoPIRFirst ∧
      demoPIRFirst.err = none ∧
      demoPIRFirst.ret = dbEntry demoPIR.server.rawDB demoPIR.client.config.DBEntrySize 3 :=
  ⟨rfl, rfl, rfl,
    PianoPIR_Query_exact_below_DefaultProgramPoint demoAes demoPIR demoPIRReady 1 demoRng rfl
      demoConfig_ok rfl rfl demoPIRReady (PIRReach.refl _) 3 2 demoRng demoRand demoPIRFirst
      rfl rfl⟩

/-- Witness of `parityConsistent_below_DefaultProgramPoint`: hint 1 after the query for 3. -/
theorem parityConsistent_below_DefaultProgramPoint_witness :
    demoClient.Preprocessing demoAes 1 demoRng demoDB = some demoReady ∧
      demoReady.Query demoAes 3 demoServer true demoRand = some demoFirst ∧
      demoFirst.client.parityConsistent demoAes demoDB 1 :=
  ⟨rfl, rfl,
    parityConsistent_below_DefaultProgramPoint demoAes 1 demoRng demoClient demoReady
      demoFirst.client demoDB demoConfig_ok rfl rfl
      (QueryReach.step _ _ _ (QueryReach.refl _)
        (QueryStep.call demoReady 3 true demoRand demoFirst rfl)) 1 (by decide)⟩

end pianopir
